import Mathlib

/-!
# DBSCAN with k-d tree and convex-hull pruning: a verification development

A shallow embedding of the C sources `geo.c`, `array.c`, `kdtree.c`, `hashset.c`,
`id_gen.c` and `dbscan.c`.

Conventions of the embedding.

* A `double` is read as an exact rational number (`ℚ`), and the arithmetic on doubles
  as exact arithmetic: the model is the program where no operation rounds. Infinities
  and NaN are outside the model (the one `INFINITY` the code uses, the initial `min_y`
  of `rerange`, is modelled by `none`). Rounding is modelled apart, by `fl`, the
  rounding of one exact result to a double, and by `point_dist_fl`, which is
  `point_dist` in double arithmetic; they are used where the rounding decides, on the
  chain with `eps` equal to the spacing.
* A C pointer to a point (`point_p`, and the `cpointset_p` that is cast to it) is a
  handle of some type `α`; dereferencing it is a function `pt : α → point_t`.
* `malloc` never fails, so the error paths taken on a `NULL` allocation are absent.
* `array_p` is a list, appended to at its end.
* What the C library or the allocator decides is a parameter: `qsort` (bundled with its
  contract in `Libc`), the stream of `random()` values, and the hash values of keys.
* A loop that need not terminate returns an `Option`; `none` means that the C loop
  never exits.
-/

namespace DBSCAN

/-! ## The C library -/

/-- A comparator is consistent on a list when, on its elements, swapping the arguments
flips the sign and "not greater" is transitive: what the C standard asks of the
comparison function handed to `qsort`. -/
def Consistent {α : Type} (cmp : α → α → Int) (l : List α) : Prop :=
  (∀ a ∈ l, ∀ b ∈ l, (cmp a b < 0 ↔ 0 < cmp b a)) ∧
  (∀ a ∈ l, ∀ b ∈ l, ∀ c ∈ l, cmp a b ≤ 0 → cmp b c ≤ 0 → cmp a c ≤ 0)

/-- The part of libc the program relies on: `qsort`, with its contract. The result is
a rearrangement of the input; it is ordered when the comparator is consistent; and the
routine sees the elements only through the comparator. The order of elements that
compare equal is left to the implementation. -/
structure Libc where
  qsort : {α : Type} → (α → α → Int) → List α → List α
  qsort_perm : ∀ {α : Type} (cmp : α → α → Int) (l : List α), (qsort cmp l).Perm l
  qsort_sorted : ∀ {α : Type} (cmp : α → α → Int) (l : List α), Consistent cmp l →
    (qsort cmp l).Pairwise (fun a b => cmp a b ≤ 0)
  qsort_natural : ∀ {α β : Type} (f : α → β) (c : α → α → Int) (d : β → β → Int)
    (l : List α), (∀ a ∈ l, ∀ b ∈ l, d (f a) (f b) = c a b) →
    qsort d (l.map f) = (qsort c l).map f

/-- The inner loop of an insertion sort on an array: the new item `a` moves down past
every item that compares greater than it. The sorted part is held last item first. -/
def insert_back {α : Type} (cmp : α → α → Int) (a : α) : List α → List α
  | [] => [a]
  | b :: l => if cmp b a > 0 then b :: insert_back cmp a l else a :: b :: l

/-- The insertion sort on an array, one possible `qsort` (the one of BSD libc on short
arrays). -/
def insertion_sort {α : Type} (cmp : α → α → Int) (l : List α) : List α :=
  (l.foldl (fun acc a => insert_back cmp a acc) []).reverse

/-! ## array.c -/

/-- `array_append`: store the item at index `size`. -/
def array_append {α : Type} (array : List α) (item : α) : List α := array ++ [item]

/-- `array_pop`: returns `-1` on an empty array, else drops the last item. -/
def array_pop {α : Type} (array : List α) : Int × List α :=
  if array.length = 0 then (-1, array) else (0, array.dropLast)

/-- `array_at`: `none` stands for the return value `-1`, which leaves `*item` as it
was. The index is kept as an integer: `array_size(stack) - 2`, computed in `size_t` and
narrowed to `unsigned int`, is beyond every size when the subtraction wraps, so a
negative index is refused. -/
def array_at {α : Type} (array : List α) (index : Int) : Option α :=
  if 0 ≤ index ∧ index < array.length then array.get? index.toNat else none

/-- `array_size`. -/
def array_size {α : Type} (array : List α) : Nat := array.length

/-! ## geo.c: points and the convex hull -/

/-- `point_t`: the coordinates `x` and `y`, also read as `dim[0]` and `dim[1]`. -/
structure point_t where
  x : ℚ
  y : ℚ
deriving DecidableEq

/-- `point->dim[xd]`. -/
def point_t.dim (p : point_t) (xd : Nat) : ℚ := if xd = 0 then p.x else p.y

/-- `point_dist`: the squared Euclidean distance, in exact arithmetic. It is the value
of `pow(a->x - b->x, 2) + pow(a->y - b->y, 2)` where none of the five operations rounds;
`point_dist_fl` is the value in double arithmetic. -/
def point_dist (a b : point_t) : ℚ := (a.x - b.x) ^ 2 + (a.y - b.y) ^ 2

/-- `line_t`: two point handles. -/
structure line_t (α : Type) where
  head : α
  tail : α
deriving DecidableEq

/-- `line_length`. -/
def line_length {α : Type} (pt : α → point_t) (line : line_t α) : ℚ :=
  point_dist (pt line.head) (pt line.tail)

/-- `cross`: the cross product of the vectors `(p0, p1)` and `(p0, p2)`. -/
def cross (p0 p1 p2 : point_t) : ℚ :=
  (p1.x - p0.x) * (p2.y - p0.y) - (p1.y - p0.y) * (p2.x - p0.x)

/-- `clock_direct`: `(m > 0) - (m < 0)` for `m = cross(l1.head, l1.tail, l2.tail)`. -/
def clock_direct {α : Type} (pt : α → point_t) (l1 l2 : line_t α) : Int :=
  let m := cross (pt l1.head) (pt l1.tail) (pt l2.tail)
  (if m > 0 then 1 else 0) - (if m < 0 then 1 else 0)

/-- `cmp_line`. -/
def cmp_line {α : Type} (pt : α → point_t) (line1 line2 : line_t α) : Int :=
  -clock_direct pt line1 line2

/-- `is_left_turn`. -/
def is_left_turn (p0 p1 p2 : point_t) : Bool := decide (cross p0 p1 p2 > 0)

/-- The first loop of `rerange`: one step of the search for the point of least `y`,
then least `x`. `min_y = none` is the initial `INFINITY`; `min_index` is only read once
`min_y` has been set. -/
def min_step {α : Type} (pt : α → point_t) (points : List α)
    (st : Option ℚ × Nat) (i : Nat) : Option ℚ × Nat :=
  match points.get? i with
  | none => st
  | some pi =>
    match st.1 with
    | none => (some (pt pi).y, i)
    | some min_y =>
      if (pt pi).y < min_y then (some (pt pi).y, i)
      else if (pt pi).y = min_y then
        match points.get? st.2 with
        | some pm => if (pt pi).x < (pt pm).x then (st.1, i) else st
        | none => st
      else st

/-- The index `min_index` that the first loop of `rerange` ends with. -/
def min_index {α : Type} (pt : α → point_t) (points : List α) : Nat :=
  ((List.range points.length).foldl (min_step pt points) (none, 0)).2

/-- The third loop of `rerange`: one step of the sweep over the sorted lines, which
keeps of the lines of one direction the longest. -/
def rerange_step {α : Type} (pt : α → point_t) (rlines : List (line_t α))
    (line : line_t α) : List (line_t α) :=
  match array_at rlines ((array_size rlines : Int) - 1) with
  | none => rlines
  | some last =>
    if clock_direct pt line last ≠ 0 then array_append rlines line
    else if line_length pt last < line_length pt line then
      array_append (array_pop rlines).2 line
    else rlines

/-- `rerange`, for `size ≥ 2` (its caller passes `size > 3`): the anchor, then the tails
of the lines from the anchor, sorted by direction, one per direction. -/
def rerange {α : Type} (libc : Libc) (pt : α → point_t) (points : List α) : List α :=
  let mi := min_index pt points
  match points.get? mi with
  | none => []
  | some head =>
    let lines := ((points.take mi) ++ (points.drop (mi + 1))).map
      (fun p => ({ head := head, tail := p } : line_t α))
    match libc.qsort (cmp_line pt) lines with
    | [] => [head]
    | l0 :: rest => head :: ((rest.foldl (rerange_step pt) [l0]).map (fun l => l.tail))

/-- The inner `while` of the scan in `convex_hulls`, on the state `(stack, top2, top1)`.
Once the stack is empty the state no longer changes, so the C loop spins forever: the
fuel `stack.length + 1` runs out exactly then, and the result is `none`. -/
def scan_while {α : Type} (pt : α → point_t) (pi : α) :
    Nat → List α → α → α → Option (List α × α × α)
  | 0, _, _, _ => none
  | fuel + 1, stack, top2, top1 =>
    if is_left_turn (pt top2) (pt top1) (pt pi) then some (stack, top2, top1)
    else
      let stack1 := (array_pop stack).2
      let top2a := (array_at stack1 ((array_size stack1 : Int) - 2)).getD top2
      let top1a := (array_at stack1 ((array_size stack1 : Int) - 1)).getD top1
      scan_while pt pi fuel stack1 top2a top1a

/-- One pass of the `for` loop of the scan: read the top two, pop while the candidate
does not make a left turn, push the candidate. -/
def scan_step {α : Type} (pt : α → point_t) (stack : List α) (pi : α) :
    Option (List α) :=
  match array_at stack ((array_size stack : Int) - 2),
        array_at stack ((array_size stack : Int) - 1) with
  | some top2, some top1 =>
    (scan_while pt pi (stack.length + 1) stack top2 top1).map
      (fun r => array_append r.1 pi)
  | _, _ => none

/-- The `for` loop of the scan, over `points[3..n-1]`. -/
def scan_loop {α : Type} (pt : α → point_t) : List α → List α → Option (List α)
  | stack, [] => some stack
  | stack, pi :: rest => (scan_step pt stack pi).bind (fun s => scan_loop pt s rest)

/-- `convex_hulls` (Graham scan). `none`: the call does not return. -/
def convex_hulls {α : Type} (libc : Libc) (pt : α → point_t) (points : List α) :
    Option (List α) :=
  if points.length ≤ 3 then some points
  else
    match rerange libc pt points with
    | p0 :: p1 :: p2 :: rest => scan_loop pt [p0, p1, p2] rest
    | short => some short

/-! ## geo.c: intervals and rectangles -/

/-- `interval_t`. -/
structure interval_t where
  lower : ℚ
  upper : ℚ
deriving DecidableEq

/-- `interval_contains`. -/
def interval_contains (itv : interval_t) (p : ℚ) : Bool :=
  decide (p ≥ itv.lower) && decide (p ≤ itv.upper)

/-- `interval_enlarge_to`. -/
def interval_enlarge_to (itv : interval_t) (p : ℚ) : interval_t :=
  if itv.lower > p then { itv with lower := p }
  else if itv.upper < p then { itv with upper := p }
  else itv

/-- `rect_t`: one interval per axis, also read as `dim[0]` and `dim[1]`. -/
structure rect_t where
  x_itv : interval_t
  y_itv : interval_t
deriving DecidableEq

/-- `rect->dim[xd]`. -/
def rect_t.dim (r : rect_t) (xd : Nat) : interval_t := if xd = 0 then r.x_itv else r.y_itv

/-- The assignment `rect->dim[xd] = itv`. -/
def rect_t.set_dim (r : rect_t) (xd : Nat) (itv : interval_t) : rect_t :=
  if xd = 0 then { r with x_itv := itv } else { r with y_itv := itv }

/-- The initializer `rect_t r = {}`: every field zero. -/
def rect_zero : rect_t := { x_itv := ⟨0, 0⟩, y_itv := ⟨0, 0⟩ }

/-- `rect_init_point`. -/
def rect_init_point (point : point_t) : rect_t :=
  { x_itv := ⟨point.x, point.x⟩, y_itv := ⟨point.y, point.y⟩ }

/-- `rect_contains`. -/
def rect_contains (rect : rect_t) (point : point_t) : Bool :=
  interval_contains rect.x_itv point.x && interval_contains rect.y_itv point.y

/-- `rect_enlarge_to`. -/
def rect_enlarge_to (rect : rect_t) (point : point_t) : rect_t :=
  { x_itv := interval_enlarge_to rect.x_itv point.x,
    y_itv := interval_enlarge_to rect.y_itv point.y }

/-- The `ADDSUM` block of `rect_min_dist_to`: what one axis adds to the sum. -/
def addsum (itv : interval_t) (p : ℚ) : ℚ :=
  if !interval_contains itv p then
    if p < itv.lower then (p - itv.lower) ^ 2 else (itv.upper - p) ^ 2
  else 0

/-- `rect_min_dist_to`. -/
def rect_min_dist_to (rect : rect_t) (point : point_t) : ℚ :=
  0 + addsum rect.x_itv point.x + addsum rect.y_itv point.y

/-- `rect_set_upper`: the return value, and the rectangle `*to` after the call. -/
def rect_set_upper (from_ to_ : rect_t) (point : point_t) (xd : Nat) : Int × rect_t :=
  let p := point.dim xd
  if (from_.dim xd).upper < p then (-1, to_)
  else
    let to1 := from_
    if (to1.dim xd).lower < p then (0, to1.set_dim xd { to1.dim xd with lower := p })
    else (0, to1)

/-- `rect_set_lower`: the return value, and the rectangle `*to` after the call. -/
def rect_set_lower (from_ to_ : rect_t) (point : point_t) (xd : Nat) : Int × rect_t :=
  let p := point.dim xd
  if (from_.dim xd).lower > p then (-1, to_)
  else
    let to1 := from_
    if (to1.dim xd).upper > p then (0, to1.set_dim xd { to1.dim xd with upper := p })
    else (0, to1)

/-! ## hashset.c -/

/-- `slotlist_t`: the items of one bucket, and the links `pre` and `next` of the chain
of non-empty buckets. A pointer to a bucket is its index; `none` is `NULL`. -/
structure slotlist_t (κ : Type) where
  list : List κ
  pre : Option Nat
  next : Option Nat

/-- `hashset_t`. `hash` is `HASH(set, item, bytes)` as a function of the item: the
hash function given to `hashset_create`, or `default_hash` of the item's bytes. Items
are compared by `memcmp` on those bytes, here equality of items. -/
structure hashset_t (κ : Type) where
  slotlists : Nat → slotlist_t κ
  slotlists_n : Nat
  size : Nat
  non_null : Option Nat
  hash : κ → Nat

/-- `DEFAULT_CAPACITY`. -/
def DEFAULT_CAPACITY : Nat := 1024

/-- `hashset_create`. -/
def hashset_create {κ : Type} (init_size : Nat) (hash : κ → Nat) : hashset_t κ :=
  { slotlists := fun _ => { list := [], pre := none, next := none },
    slotlists_n := if init_size ≤ DEFAULT_CAPACITY then DEFAULT_CAPACITY else init_size,
    size := 0,
    non_null := none,
    hash := hash }

/-- `hashset_size`. -/
def hashset_size {κ : Type} (set : hashset_t κ) : Nat := set.size

/-- The assignment `set->slotlists[b] = s`. -/
def hashset_t.set_slot {κ : Type} (set : hashset_t κ) (b : Nat) (s : slotlist_t κ) :
    hashset_t κ :=
  { set with slotlists := fun i => if i = b then s else set.slotlists i }

/-- `hashset_add`: `-1` when the item is in the set already, else `0` and the item is
appended to its bucket, which is linked in front of the chain when it was empty. -/
def hashset_add {κ : Type} [DecidableEq κ] (set : hashset_t κ) (item : κ) :
    Int × hashset_t κ :=
  let b := set.hash item % set.slotlists_n
  let slotlist := set.slotlists b
  let is_new := slotlist.list.isEmpty
  if item ∈ slotlist.list then (-1, set)
  else
    let set1 := set.set_slot b { slotlist with list := slotlist.list ++ [item] }
    let set2 :=
      match set1.non_null with
      | none => { set1 with non_null := some b }
      | some h =>
        if is_new then
          let set1a := set1.set_slot h { set1.slotlists h with pre := some b }
          let set1b := set1a.set_slot b { set1a.slotlists b with next := set1a.non_null }
          { set1b with non_null := some b }
        else set1
    (0, { set2 with size := set2.size + 1 })

/-- `hashset_contains`. -/
def hashset_contains {κ : Type} [DecidableEq κ] (set : hashset_t κ) (item : κ) : Bool :=
  decide (item ∈ (set.slotlists (set.hash item % set.slotlists_n)).list)

/-- The unlinking of an emptied bucket from the chain, as `hashset_pop` does it. -/
def unlink_slotlist {κ : Type} (set : hashset_t κ) (b : Nat) : hashset_t κ :=
  let slotlist := set.slotlists b
  let set1 :=
    match slotlist.pre with
    | some p => set.set_slot p { set.slotlists p with next := slotlist.next }
    | none => { set with non_null := slotlist.next }
  let set2 :=
    match slotlist.next with
    | some n => set1.set_slot n { set1.slotlists n with pre := slotlist.pre }
    | none => set1
  set2.set_slot b { set2.slotlists b with pre := none, next := none }

/-- `hashset_pop`: `none` is the return value `-1` (empty set); else the item copied
out and the set without it. The item is the first of the bucket at the head of the
chain; a head bucket without items (a dangling chain) is read as an empty set here. -/
def hashset_pop {κ : Type} (set : hashset_t κ) : Option (κ × hashset_t κ) :=
  match set.non_null with
  | none => none
  | some b =>
    match (set.slotlists b).list with
    | [] => none
    | item :: rest =>
      let set1 := set.set_slot b { set.slotlists b with list := rest }
      let set2 := if rest.isEmpty then unlink_slotlist set1 b else set1
      some (item, { set2 with size := set2.size - 1 })

/-- The outer loop of `hashset_remove_all` and of `hashset_to_list`: the buckets met
when following `next` from `slotlist`. A well-formed chain has at most `slotlists_n`
buckets, which is the fuel. -/
def chain_from {κ : Type} (set : hashset_t κ) : Nat → Option Nat → List Nat
  | 0, _ => []
  | _, none => []
  | fuel + 1, some b => b :: chain_from set fuel (set.slotlists b).next

/-- `hashset_remove_all`. -/
def hashset_remove_all {κ : Type} (set : hashset_t κ) : hashset_t κ :=
  let chain := chain_from set set.slotlists_n set.non_null
  { set with
    slotlists := fun i =>
      if i ∈ chain then { list := [], pre := none, next := none } else set.slotlists i,
    non_null := none,
    size := 0 }

/-- `hashset_to_list`. -/
def hashset_to_list {κ : Type} (set : hashset_t κ) : List κ :=
  (chain_from set set.slotlists_n set.non_null).flatMap (fun b => (set.slotlists b).list)

/-! ## id_gen.c -/

/-- `id_generator_t`: the next id, an `unsigned long`. -/
structure id_generator_t where
  id : Nat

/-- `id_generator_create`. -/
def id_generator_create : id_generator_t := { id := 1 }

/-- `id_generator_next_id`: `return gen->id++`, in 64 bits. -/
def id_generator_next_id (gen : id_generator_t) : Nat × id_generator_t :=
  (gen.id, { id := (gen.id + 1) % 2 ^ 64 })

/-! ## kdtree.c -/

/-- `kdnode_t`: `nil` is the `NULL` node. The `parent` link, which no query reads, is
left out. -/
inductive kdnode_t (α : Type) where
  | nil : kdnode_t α
  | node (point : α) (left right : kdnode_t α) : kdnode_t α
deriving DecidableEq

/-- `kdtree_t`. -/
structure kdtree_t (α : Type) where
  root : kdnode_t α
  rect : rect_t
  size : Nat
deriving DecidableEq

/-- The `SWAP` of two array cells. -/
def swap_cells {α : Type} (points : List α) (i j : Nat) : List α :=
  match points.get? i, points.get? j with
  | some a, some b => (points.set i b).set j a
  | _, _ => points

/-- The first loop of `uniq_and_shuffle_points`: a point is copied to `to` when
`hashset_add`, keyed by the bytes of the point (its coordinates), returns `0`. -/
def uniq_points {α : Type} (pt : α → point_t) :
    List α → hashset_t point_t → List α → List α
  | [], _, to_ => to_
  | p :: rest, set, to_ =>
    match hashset_add set (pt p) with
    | (0, set1) => uniq_points pt rest set1 (to_ ++ [p])
    | (_, set1) => uniq_points pt rest set1 to_

/-- The second loop of `uniq_and_shuffle_points`: `rand = random() % i--` and
`SWAP(to[rand], to[i])`. `k` counts the calls of `random()` made so far, `rnd k` being
the value of call `k`. -/
def shuffle_points {α : Type} (rnd : Nat → Nat) : Nat → Nat → List α → List α
  | 0, _, to_ => to_
  | i + 1, k, to_ => shuffle_points rnd i (k + 1) (swap_cells to_ (rnd k % (i + 1)) i)

/-- `uniq_and_shuffle_points`: the array `to`, whose length is the new `*pn`. -/
def uniq_and_shuffle_points {α : Type} (pt : α → point_t) (hash : point_t → Nat)
    (rnd : Nat → Nat) (from_ : List α) : List α :=
  let to_ := uniq_points pt from_ (hashset_create from_.length hash) []
  shuffle_points rnd to_.length 0 to_

/-- `partition_points`, called with `p < r`. The counter of the model is the `i + 1` of
the source, which starts at `p`. -/
def partition_points {α : Type} (pt : α → point_t) (points : List α) (xd p r : Nat) :
    Nat × List α :=
  match points.get? r with
  | none => (p, points)
  | some x =>
    let st := (List.range' p (r - p)).foldl
      (fun (st : Nat × List α) j =>
        match st.2.get? j with
        | some pj =>
          if (pt pj).dim xd ≤ (pt x).dim xd then (st.1 + 1, swap_cells st.2 st.1 j) else st
        | none => st)
      (p, points)
    (st.1, swap_cells st.2 st.1 r)

/-- `select_point`: the index of the `i`-th smallest of `points[p..r]` on axis `xd`
after rearranging that slab. The recursion of the source narrows the slab each time, so
the fuel `r - p + 1` is never used up. -/
def select_point {α : Type} (pt : α → point_t) (xd : Nat) :
    Nat → List α → Nat → Nat → Nat → Nat × List α
  | 0, points, p, _, _ => (p, points)
  | fuel + 1, points, p, r, i =>
    if p = r then (p, points)
    else
      let (q, points1) := partition_points pt points xd p r
      let k := q - p + 1
      if i = k then (q, points1)
      else if i < k then select_point pt xd fuel points1 p (q - 1) i
      else select_point pt xd fuel points1 (q + 1) r (i - k)

/-- `median_point`. -/
def median_point {α : Type} (pt : α → point_t) (points : List α) (xd p r : Nat) :
    Nat × List α :=
  select_point pt xd (r - p + 1) points p r ((r - p) / 2 + 1)

/-- The `!xd` of C. -/
def lnot (xd : Nat) : Nat := if xd = 0 then 1 else 0

/-- `build_kdtree` on the slab `points[p..r]`, where `r1` is `r + 1`, so that the empty
slab `p > r` of the source is `p ≥ r1`. Returns the node and the rearranged array. Each
call narrows the slab, so the fuel `r1 - p` is never used up. -/
def build_kdtree {α : Type} (pt : α → point_t) :
    Nat → List α → Nat → Nat → Nat → kdnode_t α × List α
  | 0, points, _, _, _ => (kdnode_t.nil, points)
  | fuel + 1, points, xd, p, r1 =>
    if p ≥ r1 then (kdnode_t.nil, points)
    else
      let (m, points1) := median_point pt points xd p (r1 - 1)
      match points1.get? m with
      | none => (kdnode_t.nil, points1)
      | some pm =>
        let xd1 := lnot xd
        let (left, points2) := build_kdtree pt fuel points1 xd1 p m
        let (right, points3) := build_kdtree pt fuel points2 xd1 (m + 1) r1
        (kdnode_t.node pm left right, points3)

/-- `kdtree_create_static`; `none` is the `NULL` returned when no point is left. -/
def kdtree_create_static {α : Type} (pt : α → point_t) (hash : point_t → Nat)
    (rnd : Nat → Nat) (_points : List α) : Option (kdtree_t α) :=
  let points := uniq_and_shuffle_points pt hash rnd _points
  match points with
  | [] => none
  | p0 :: _ =>
    let rect := points.foldl (fun r p => rect_enlarge_to r (pt p)) (rect_init_point (pt p0))
    some { root := (build_kdtree pt points.length points 1 0 points.length).1,
           rect := rect,
           size := points.length }

/-- `point_dist_t`. -/
structure point_dist_t (α : Type) where
  point : α
  dist : ℚ
deriving DecidableEq

/-- `knn`: the array `best` after the call. The two sub-rectangles start as `{}`; the
return values of `rect_set_lower` and `rect_set_upper` are not looked at. -/
def knn {α : Type} (pt : α → point_t) (point : point_t) (dist : ℚ) :
    kdnode_t α → rect_t → Nat → List (point_dist_t α) → List (point_dist_t α)
  | kdnode_t.nil, _, _, best => best
  | kdnode_t.node np left right, rect, xd, best =>
    if rect_min_dist_to rect point > dist then best
    else
      let d := point_dist (pt np) point
      let best1 := if d ≤ dist then array_append best { point := np, dist := d } else best
      let left_rect := (rect_set_lower rect rect_zero point xd).2
      let right_rect := (rect_set_upper rect rect_zero point xd).2
      let best2 := knn pt point dist left left_rect (lnot xd) best1
      knn pt point dist right right_rect (lnot xd) best2

/-- The comparator `cmp` of kdtree.c, on the distances. -/
def cmp_dist {α : Type} (a b : point_dist_t α) : Int :=
  if a.dist < b.dist then -1 else if a.dist > b.dist then 1 else 0

/-- `kdtree_k_nearest_neighbour`: the result array. -/
def kdtree_k_nearest_neighbour {α : Type} (libc : Libc) (pt : α → point_t)
    (tree : kdtree_t α) (point : point_t) (thre : ℚ) : List α :=
  let best := knn pt point thre tree.root tree.rect 0 []
  (libc.qsort cmp_dist best).map (fun pd => pd.point)

/-! ## dbscan.c -/

/-- `cpoint_t`: a point and its cluster id (an `unsigned long`). -/
structure cpoint_t where
  point : point_t
  cluster_id : Nat
deriving DecidableEq

/-- `cpoint_init`. -/
def cpoint_init (x y : ℚ) : cpoint_t := { point := ⟨x, y⟩, cluster_id := 0 }

/-- `cpointset_t`: the representative, a copy of a `cpoint_t`, and the array of the
points it stands for. A `cpoint_p` is the index of the point in the caller's array. -/
structure cpointset_t where
  cpoint : cpoint_t
  cpoints : List Nat
deriving DecidableEq

/-- `cpointset_create`. -/
def cpointset_create (cpoint : cpoint_t) : cpointset_t := { cpoint := cpoint, cpoints := [] }

/-- What a dangling handle reads; no handle of the program dangles. -/
def cpoint_null : cpoint_t := { point := ⟨0, 0⟩, cluster_id := 0 }

/-- The caller's point behind the handle `i`. -/
def cpoint_at (heap : List cpoint_t) (i : Nat) : cpoint_t := heap.getD i cpoint_null

/-- The point-set behind the handle `i`, the pointer `cpointsets[i]`. -/
def cpointset_at (sets : List cpointset_t) (i : Nat) : cpointset_t :=
  sets.getD i { cpoint := cpoint_null, cpoints := [] }

/-- The comparator `cmp` of dbscan.c, on handles of the caller's points. -/
def cmp_point (heap : List cpoint_t) (p1 p2 : Nat) : Int :=
  if (cpoint_at heap p1).point.x < (cpoint_at heap p2).point.x then -1
  else if (cpoint_at heap p1).point.x > (cpoint_at heap p2).point.x then 1
  else if (cpoint_at heap p1).point.y < (cpoint_at heap p2).point.y then -1
  else if (cpoint_at heap p1).point.y > (cpoint_at heap p2).point.y then 1
  else 0

/-- The body of the sweep of `convert_points`, on `(result, last)`: a new point-set is
opened when the coordinates differ from those of `last`; the point joins the point-set
opened last. -/
def convert_step (heap : List cpoint_t) (st : List cpointset_t × Option Nat) (ti : Nat) :
    List cpointset_t × Option Nat :=
  let opened : List cpointset_t × Option Nat :=
    match st.2 with
    | none => (st.1 ++ [cpointset_create (cpoint_at heap ti)], some ti)
    | some last =>
      if (cpoint_at heap last).point.x ≠ (cpoint_at heap ti).point.x ∨
          (cpoint_at heap last).point.y ≠ (cpoint_at heap ti).point.y then
        (st.1 ++ [cpointset_create (cpoint_at heap ti)], some ti)
      else st
  match opened.1.getLast? with
  | none => opened
  | some s =>
    (opened.1.dropLast ++ [{ s with cpoints := array_append s.cpoints ti }], opened.2)

/-- `convert_points`: sort the handles by coordinates, then sweep. -/
def convert_points (libc : Libc) (heap : List cpoint_t) : List cpointset_t :=
  let temp := libc.qsort (cmp_point heap) (List.range heap.length)
  (temp.foldl (convert_step heap) ([], none)).1

/-- The assignment `cp->cluster_id = id` through a handle of a caller's point. -/
def set_cluster_id (heap : List cpoint_t) (cp : Nat) (id : Nat) : List cpoint_t :=
  match heap.get? cp with
  | some c => heap.set cp { c with cluster_id := id }
  | none => heap

/-- The assignment `p->cpoint.cluster_id = id` through a handle of a point-set. -/
def set_rep_id (sets : List cpointset_t) (p : Nat) (id : Nat) : List cpointset_t :=
  match sets.get? p with
  | some s => sets.set p { s with cpoint := { s.cpoint with cluster_id := id } }
  | none => sets

/-- What the allocator and the C library decide in one call of `dbscan_cluster`: the
hash of the address of each point-set (the key of `visited`, `nnset` and `hullset`), the
hash of the bytes of a point (the key of the set in `uniq_and_shuffle_points`), and the
`random()` streams of the two calls of `kdtree_create_static`. -/
structure env_t where
  libc : Libc
  addr_hash : Nat → Nat
  point_hash : point_t → Nat
  rnd : Nat → Nat
  rnd_noise : Nat → Nat

/-- The variables of `dbscan_cluster` that change while it runs. -/
structure dbscan_t where
  cpoints : List cpoint_t
  cpointsets : List cpointset_t
  gen : id_generator_t
  next_id : Nat
  visited : hashset_t Nat
  nnset : hashset_t Nat
  noise : List Nat

/-- The cast `(point_p) cpointsets[i]`, dereferenced. -/
def rep_point (sets : List cpointset_t) (i : Nat) : point_t := (cpointset_at sets i).cpoint.point

/-- The stamping block: the id goes to the representative and to every point it
stands for. -/
def stamp (st : dbscan_t) (p : Nat) (id : Nat) : dbscan_t :=
  { st with
    cpointsets := set_rep_id st.cpointsets p id,
    cpoints := (cpointset_at st.cpointsets p).cpoints.foldl
      (fun heap cp => set_cluster_id heap cp id) st.cpoints }

/-- The loop `total += array_size(nn[j]->cpoints)`. -/
def total_of (sets : List cpointset_t) (nn : List Nat) : Nat :=
  nn.foldl (fun total h => total + array_size (cpointset_at sets h).cpoints) 0

/-- A loop that adds every item of a list to a set. -/
def hashset_add_all {κ : Type} [DecidableEq κ] (set : hashset_t κ) (items : List κ) :
    hashset_t κ :=
  items.foldl (fun s item => (hashset_add s item).2) set

/-- How a stretch of `dbscan_cluster` ends: it never ends (`spin`), it returns `-1`
with the caller's points as they are then (`abort`), or it goes on (`go`). -/
inductive run_t (σ : Type) where
  | spin : run_t σ
  | abort (cpoints : List cpoint_t) : run_t σ
  | go (st : σ) : run_t σ

/-- The hull set of the current `nnset`: the hulls of `hashset_to_list(nnset)`, added
to the emptied set `hullset` (`none` when `convex_hulls` does not return). -/
def hull_set (env : env_t) (st : dbscan_t) (hullset : hashset_t Nat) :
    Option (hashset_t Nat) :=
  (convex_hulls env.libc (rep_point st.cpointsets) (hashset_to_list st.nnset)).map
    (fun hulls => hashset_add_all hullset hulls)

/-- The loop `while (hashset_size(nnset))` that expands the current cluster. Every pass
pops one item, and items are added only in a pass that visits a new point-set, so
`(size + 1) * (size + 1)` passes always suffice; `spin` also covers fuel used up. -/
def expand (env : env_t) (tree : kdtree_t Nat) (eps : ℚ) (min_pts : Nat) :
    Nat → dbscan_t → hashset_t Nat → run_t dbscan_t
  | 0, _, _ => run_t.spin
  | fuel + 1, st, hullset =>
    if hashset_size st.nnset = 0 then run_t.go st
    else
      match hashset_pop st.nnset with
      | none => run_t.abort st.cpoints
      | some (p, nnset1) =>
        let st1 := { st with nnset := nnset1 }
        let visit : Option (dbscan_t × hashset_t Nat) :=
          if !hashset_contains st1.visited p then
            let st2 := { st1 with visited := (hashset_add st1.visited p).2 }
            if hashset_contains hullset p then
              let nn_ := kdtree_k_nearest_neighbour env.libc (rep_point st2.cpointsets)
                tree (rep_point st2.cpointsets p) eps
              let total := total_of st2.cpointsets nn_
              let st3 :=
                if total ≥ min_pts then { st2 with nnset := hashset_add_all st2.nnset nn_ }
                else st2
              (hull_set env st3 (hashset_remove_all hullset)).map (fun hs => (st3, hs))
            else some (st2, hullset)
          else some (st1, hullset)
        match visit with
        | none => run_t.spin
        | some (st4, hullset4) =>
          let st5 :=
            if (cpointset_at st4.cpointsets p).cpoint.cluster_id = 0 then stamp st4 p st4.next_id
            else st4
          expand env tree eps min_pts fuel st5 hullset4

/-- The body of the loop over `cpointsets[i]` in `dbscan_cluster`. -/
def cluster_step (env : env_t) (tree : kdtree_t Nat) (eps : ℚ) (min_pts : Nat)
    (st : dbscan_t) (point : Nat) : run_t dbscan_t :=
  if hashset_contains st.visited point then run_t.go st
  else
    let st1 := { st with visited := (hashset_add st.visited point).2 }
    let nn := kdtree_k_nearest_neighbour env.libc (rep_point st1.cpointsets) tree
      (rep_point st1.cpointsets point) eps
    let total := total_of st1.cpointsets nn
    if total < min_pts then run_t.go { st1 with noise := array_append st1.noise point }
    else
      let (next_id, gen1) := id_generator_next_id st1.gen
      let st2 := stamp { st1 with gen := gen1, next_id := next_id } point next_id
      let st3 := { st2 with nnset := hashset_add_all (hashset_remove_all st2.nnset) (nn.drop 1) }
      match hull_set env st3 (hashset_create 0 env.addr_hash) with
      | none => run_t.spin
      | some hullset =>
        expand env tree eps min_pts
          ((st3.cpointsets.length + 1) * (st3.cpointsets.length + 1)) st3 hullset

/-- The loop over `cpointsets[i]`, for the handles in `points`. -/
def cluster_loop (env : env_t) (tree : kdtree_t Nat) (eps : ℚ) (min_pts : Nat) :
    dbscan_t → List Nat → run_t dbscan_t
  | st, [] => run_t.go st
  | st, point :: rest =>
    match cluster_step env tree eps min_pts st point with
    | run_t.go st1 => cluster_loop env tree eps min_pts st1 rest
    | other => other

/-- The body of the last loop of `dbscan_cluster`, over `noise2`: an unlabelled
point-set takes a new id, and gives it to every point-set the noise tree finds around
it. -/
def noise_step (env : env_t) (noise_tree : kdtree_t Nat) (eps : ℚ)
    (st : dbscan_t) (cp : Nat) : dbscan_t :=
  if (cpointset_at st.cpointsets cp).cpoint.cluster_id = 0 then
    let nn := kdtree_k_nearest_neighbour env.libc (rep_point st.cpointsets) noise_tree
      (rep_point st.cpointsets cp) eps
    let (next_id, gen1) := id_generator_next_id st.gen
    nn.foldl (fun s h => stamp s h next_id) { st with gen := gen1, next_id := next_id }
  else st

/-- The block "collect the noise"; `none` is the return of `-1` when the noise tree
cannot be built. -/
def collect_noise (env : env_t) (eps : ℚ) (st : dbscan_t) : Option dbscan_t :=
  if array_size st.noise ≠ 0 then
    let noise2 := st.noise.filter
      (fun point => decide ((cpointset_at st.cpointsets point).cpoint.cluster_id = 0))
    if array_size noise2 ≠ 0 then
      match kdtree_create_static (rep_point st.cpointsets) env.point_hash env.rnd_noise noise2 with
      | none => none
      | some noise_tree => some (noise2.foldl (noise_step env noise_tree eps) st)
    else some st
  else some st

/-- `dbscan_cluster`: `none` when the call does not return, else the value returned and
the caller's points after the call. Sizes stay below `2 ^ 31`, so that neither the
`unsigned int` counters nor the conversion of `next_id` to the `int` result wrap. -/
def dbscan_cluster (env : env_t) (cpoints : List cpoint_t) (eps : ℚ) (min_pts : Nat) :
    Option (Int × List cpoint_t) :=
  let eps := eps * eps
  let cpointsets := convert_points env.libc cpoints
  let size := cpointsets.length
  match kdtree_create_static (rep_point cpointsets) env.point_hash env.rnd (List.range size) with
  | none => some (-1, cpoints)
  | some tree =>
    let st : dbscan_t :=
      { cpoints := cpoints,
        cpointsets := cpointsets,
        gen := id_generator_create,
        next_id := 0,
        visited := hashset_create size env.addr_hash,
        nnset := hashset_create size env.addr_hash,
        noise := [] }
    match cluster_loop env tree eps min_pts st (List.range size) with
    | run_t.spin => none
    | run_t.abort heap => some (-1, heap)
    | run_t.go st1 =>
      match collect_noise env eps st1 with
      | none => some (-1, st1.cpoints)
      | some st2 => some ((st2.next_id : Int), st2.cpoints)

/-! ## Vocabulary of the statements and of the proofs -/

/-- `a` lies strictly above `o` in the order by `y`, then `x`: every point other than
the anchor does, relative to the anchor. -/
def above (o a : point_t) : Prop := o.y < a.y ∨ (o.y = a.y ∧ o.x < a.x)

/-- `o` is least in the order by `y`, then `x`. -/
def lex_le (o a : point_t) : Prop := o.y < a.y ∨ (o.y = a.y ∧ o.x ≤ a.x)

/-- The pops of one pass of the scan, on the stack above the anchor, top first. The
last point on the stack is never tested for a pop here: with the anchor below it the
candidate makes a left turn. -/
def gpop {α : Type} (pt : α → point_t) (q : α) : List α → List α
  | [] => []
  | t1 :: rest =>
    match rest with
    | [] => [t1]
    | t2 :: _ => if is_left_turn (pt t2) (pt t1) (pt q) then t1 :: rest else gpop pt q rest

/-- The scan, on the stack above the anchor, top first. -/
def gscan {α : Type} (pt : α → point_t) : List α → List α → List α
  | rs, [] => rs
  | rs, q :: qs => gscan pt (q :: gpop pt q rs) qs

/-- The point `p` lies in the closed triangle `o a b`. -/
def in_tri (o a b p : point_t) : Prop := 0 ≤ cross o a p ∧ 0 ≤ cross o p b ∧ 0 ≤ cross a b p

/-- On a stack held top first: `p` lies in the triangle of the anchor and two neighbours
on the stack. -/
def housed {α : Type} (o : point_t) (pt : α → point_t) (p : point_t) : List α → Prop
  | [] => False
  | b :: rest =>
    match rest with
    | [] => False
    | a :: _ => in_tri o (pt a) (pt b) p ∨ housed o pt p rest

/-- On a stack held top first: every three points of the stack, taken bottom to top, make
a left turn. -/
def rccw {α : Type} (pt : α → point_t) : List α → Prop
  | [] => True
  | c :: l => l.Pairwise (fun b a => 0 < cross (pt a) (pt b) (pt c)) ∧ rccw pt l

/-- On a stack held top first: the directions from the anchor turn left from each point
to every point above it. -/
def rsorted {α : Type} (o : point_t) (pt : α → point_t) (rs : List α) : Prop :=
  rs.Pairwise (fun b a => 0 < cross o (pt a) (pt b))

/-- One step of the sweep of `rerange`, on the tails kept so far, last one first. -/
def rtstep {α : Type} (o : point_t) (pt : α → point_t) : List α → α → List α
  | [], _ => []
  | last :: r, t =>
    if cross o (pt t) (pt last) ≠ 0 then t :: last :: r
    else if point_dist o (pt last) < point_dist o (pt t) then t :: r
    else last :: r

/-- The buckets `chain` are linked to each other by `pre` and `next`, the first one
having `prev` before it. -/
def hs_linked {κ : Type} (set : hashset_t κ) : Option Nat → List Nat → Prop
  | _, [] => True
  | prev, b :: rest =>
    (set.slotlists b).pre = prev ∧ (set.slotlists b).next = rest.head? ∧
      hs_linked set (some b) rest

/-- A well-formed state of the hash set: `chain` lists the non-empty buckets in the
order of the links, starting at `non_null`; the other buckets are blank; an item sits in
the bucket of its hash, once; and `size` counts the items. -/
structure hs_wf {κ : Type} (set : hashset_t κ) (chain : List Nat) : Prop where
  npos : 0 < set.slotlists_n
  nodup : chain.Nodup
  lt : ∀ b ∈ chain, b < set.slotlists_n
  head : set.non_null = chain.head?
  linked : hs_linked set none chain
  out : ∀ b, b ∉ chain → set.slotlists b = { list := [], pre := none, next := none }
  nonempty : ∀ b ∈ chain, (set.slotlists b).list ≠ []
  hashed : ∀ b k, k ∈ (set.slotlists b).list → set.hash k % set.slotlists_n = b
  items_nodup : ∀ b, (set.slotlists b).list.Nodup
  size_eq : set.size = (chain.map (fun b => (set.slotlists b).list.length)).sum

/-- The state of the hash set is well-formed. -/
def hs_ok {κ : Type} (set : hashset_t κ) : Prop := ∃ chain, hs_wf set chain

/-- The points of a tree, node first. -/
def kd_points {α : Type} : kdnode_t α → List α
  | kdnode_t.nil => []
  | kdnode_t.node p l r => p :: (kd_points l ++ kd_points r)

/-- The points of the slab `points[p..r1-1]`. -/
def slab {α : Type} (l : List α) (p r1 : Nat) : List α := (l.drop p).take (r1 - p)

/-- `l2` is a rearrangement of `l1` that leaves the cells outside `[p, r1)` alone. -/
def framed {α : Type} (l1 l2 : List α) (p r1 : Nat) : Prop :=
  l2.Perm l1 ∧ ∀ k, (k < p ∨ r1 ≤ k) → l2[k]? = l1[k]?

/-- What `uniq_points` computes, with the set as the list `seen` of the points met. -/
def uniq_spec {α : Type} (pt : α → point_t) : List α → List point_t → List α → List α
  | [], _, to_ => to_
  | p :: rest, seen, to_ =>
    if pt p ∈ seen then uniq_spec pt rest seen to_
    else uniq_spec pt rest (pt p :: seen) (to_ ++ [p])

/-- What `knn` appends for a tree: the handles within the threshold, node first. -/
def within {α : Type} (pt : α → point_t) (q : point_t) (dist : ℚ) (l : List α) :
    List (point_dist_t α) :=
  (l.filter (fun h => decide (point_dist (pt h) q ≤ dist))).map
    (fun h => { point := h, dist := point_dist (pt h) q })

/-- The order of `cmp_point`: by `x`, then `y`. -/
def pxy_le (a b : point_t) : Prop := a.x < b.x ∨ (a.x = b.x ∧ a.y ≤ b.y)

/-- What holds of `(result, last)` in the sweep of `convert_points` after the handles
`done`: the point-sets hold the handles met, in order; every point-set has the point of
its members and is a copy of the first; no two point-sets have the same point; and
`last` has the point of the last point-set, which is the greatest met. -/
def conv_inv (heap : List cpoint_t) (st : List cpointset_t × Option Nat) (done : List Nat) :
    Prop :=
  st.1.flatMap (fun s => s.cpoints) = done ∧
  (∀ s ∈ st.1, ∃ m ms, s.cpoints = m :: ms ∧ s.cpoint = cpoint_at heap m ∧
    ∀ x ∈ s.cpoints, (cpoint_at heap x).point = s.cpoint.point) ∧
  (st.1.map (fun s => s.cpoint.point)).Nodup ∧
  ((st.2 = none ∧ st.1 = []) ∨
    (∃ l s, st.2 = some l ∧ st.1.getLast? = some s ∧
      s.cpoint.point = (cpoint_at heap l).point ∧
      ∀ m ∈ done, pxy_le (cpoint_at heap m).point (cpoint_at heap l).point))

/-- The cluster id of the representative of the point-set `p`. -/
def rid (sets : List cpointset_t) (p : Nat) : Nat := (cpointset_at sets p).cpoint.cluster_id

/-- The cluster id of the caller's point `m`. -/
def hid (heap : List cpoint_t) (m : Nat) : Nat := (cpoint_at heap m).cluster_id

/-- The handles of the points the point-set `p` stands for. -/
def members (sets : List cpointset_t) (p : Nat) : List Nat := (cpointset_at sets p).cpoints

/-- What no step of `dbscan_cluster` changes in the point-sets. -/
def shape (sets : List cpointset_t) : List (point_t × List Nat) :=
  sets.map (fun s => (s.cpoint.point, s.cpoints))

/-- What the clustering uses of `convert_points`, in terms of handles: every point-set
stands for some point; every caller's point is in a point-set, and in one only; no two
point-sets have the same coordinates; the members of a point-set have its coordinates. -/
structure geom (heap0 : List cpoint_t) (sets0 : List cpointset_t) : Prop where
  nonempty : ∀ p < sets0.length, members sets0 p ≠ []
  covered : ∀ i < heap0.length, ∃ p < sets0.length, i ∈ members sets0 p
  bound : ∀ p < sets0.length, ∀ m ∈ members sets0 p, m < heap0.length
  disjoint : ∀ p < sets0.length, ∀ q < sets0.length, ∀ m, m ∈ members sets0 p →
    m ∈ members sets0 q → p = q
  inj : ∀ p < sets0.length, ∀ q < sets0.length, rep_point sets0 p = rep_point sets0 q → p = q
  coords : ∀ p < sets0.length, ∀ m ∈ members sets0 p,
    (cpoint_at heap0 m).point = rep_point sets0 p
  copy : ∀ p < sets0.length, ∃ m, (cpointset_at sets0 p).cpoint = cpoint_at heap0 m

/-- The invariant of the main loop of `dbscan_cluster`, between two passes (`pend`
empty) and inside a pass, where `pend` holds the point-set that is visited and not yet
dealt with. -/
structure inv2 (heap0 : List cpoint_t) (sets0 : List cpointset_t) (pend : List Nat)
    (st : dbscan_t) : Prop where
  shape_eq : shape st.cpointsets = shape sets0
  points_eq : st.cpoints.map (fun c => c.point) = heap0.map (fun c => c.point)
  mem_id : ∀ p < sets0.length, ∀ m ∈ members sets0 p, hid st.cpoints m = rid st.cpointsets p
  vis_ok : hs_ok st.visited
  nn_ok : hs_ok st.nnset
  vis_lt : ∀ x ∈ hashset_to_list st.visited, x < sets0.length
  nn_lt : ∀ x ∈ hashset_to_list st.nnset, x < sets0.length
  lab_vis : ∀ p < sets0.length, rid st.cpointsets p ≠ 0 → p ∈ hashset_to_list st.visited
  vis_lab : ∀ p ∈ hashset_to_list st.visited,
    rid st.cpointsets p ≠ 0 ∨ p ∈ st.noise ∨ p ∈ pend
  gen_eq : st.gen.id = st.next_id + 1
  id_le : ∀ p < sets0.length, rid st.cpointsets p ≤ st.next_id
  id_ex : ∀ k, 1 ≤ k → k ≤ st.next_id → ∃ p < sets0.length, rid st.cpointsets p = k
  next_le : st.next_id + pend.length ≤ (hashset_to_list st.visited).length
  noise_vis : ∀ x ∈ st.noise, x ∈ hashset_to_list st.visited
  noise_nodup : st.noise.Nodup

/-- From `st` to `st1` no positive id changed and no point-set left `visited`. -/
structure grow (st st1 : dbscan_t) : Prop where
  rid_keep : ∀ p, rid st.cpointsets p ≠ 0 → rid st1.cpointsets p = rid st.cpointsets p
  hid_keep : ∀ m, hid st.cpoints m ≠ 0 → hid st1.cpoints m = hid st.cpoints m
  vis_mono : ∀ x ∈ hashset_to_list st.visited, x ∈ hashset_to_list st1.visited
  next_mono : st.next_id ≤ st1.next_id

/-- What every stamping keeps: the point-sets and the coordinates are those of
`convert_points`, and the members of a point-set carry the id of its representative. -/
structure lab (heap0 : List cpoint_t) (sets0 : List cpointset_t) (st : dbscan_t) : Prop where
  shape_eq : shape st.cpointsets = shape sets0
  points_eq : st.cpoints.map (fun c => c.point) = heap0.map (fun c => c.point)
  mem_id : ∀ p < sets0.length, ∀ m ∈ members sets0 p, hid st.cpoints m = rid st.cpointsets p

/-- The invariant of the loop over `noise2`, after the point-sets `done`. `base` is the
state when the loop starts. -/
structure inv3 (heap0 : List cpoint_t) (sets0 : List cpointset_t) (base : dbscan_t)
    (noise2 : List Nat) (eps2 : ℚ) (done : List Nat) (st : dbscan_t) : Prop where
  is_lab : lab heap0 sets0 st
  gen_eq : st.gen.id = st.next_id + 1
  id_le : ∀ p < sets0.length, rid st.cpointsets p ≤ st.next_id
  next_le : st.next_id ≤ base.next_id + done.length
  next_ge : base.next_id ≤ st.next_id
  keep : ∀ p, p ∉ noise2 → rid st.cpointsets p = rid base.cpointsets p
  done_lab : ∀ c ∈ done, rid st.cpointsets c ≠ 0
  new_ex : ∀ k, base.next_id < k → k ≤ st.next_id → ∃ c ∈ noise2, rid st.cpointsets c = k ∧
    ∀ x ∈ noise2, point_dist (rep_point sets0 x) (rep_point sets0 c) ≤ eps2 →
      rid st.cpointsets x ≠ 0

/-- The state in which the main loop of `dbscan_cluster` starts. -/
def dbscan_init (env : env_t) (cpoints : List cpoint_t) : dbscan_t :=
  { cpoints := cpoints,
    cpointsets := convert_points env.libc cpoints,
    gen := id_generator_create,
    next_id := 0,
    visited := hashset_create (convert_points env.libc cpoints).length env.addr_hash,
    nnset := hashset_create (convert_points env.libc cpoints).length env.addr_hash,
    noise := [] }

/-- The point with both coordinates multiplied by `c`. -/
def sc (c : ℚ) (p : point_t) : point_t := ⟨c * p.x, c * p.y⟩

/-- The interval with both ends multiplied by `c`. -/
def sci (c : ℚ) (itv : interval_t) : interval_t := ⟨c * itv.lower, c * itv.upper⟩

/-- The rectangle with all bounds multiplied by `c`. -/
def scr (c : ℚ) (r : rect_t) : rect_t := ⟨sci c r.x_itv, sci c r.y_itv⟩

/-- The tree with its bounding rectangle scaled; the nodes hold handles. -/
def sct {α : Type} (c : ℚ) (t : kdtree_t α) : kdtree_t α := { t with rect := scr c t.rect }

/-- The entry of a query result with its squared distance scaled. -/
def scpd {α : Type} (c : ℚ) (pd : point_dist_t α) : point_dist_t α :=
  { pd with dist := c * c * pd.dist }

/-- The caller's point with its coordinates multiplied by `c`. -/
def scp (c : ℚ) (cp : cpoint_t) : cpoint_t := { cp with point := sc c cp.point }

/-- The point-set with the coordinates of its representative multiplied by `c`. -/
def scs (c : ℚ) (s : cpointset_t) : cpointset_t := { s with cpoint := scp c s.cpoint }

/-- The state of `dbscan_cluster` with all coordinates multiplied by `c`. -/
def scd (c : ℚ) (st : dbscan_t) : dbscan_t :=
  { st with cpoints := st.cpoints.map (scp c), cpointsets := st.cpointsets.map (scs c) }

/-- The end of a stretch of `dbscan_cluster` with all coordinates multiplied by `c`. -/
def scrun (c : ℚ) : run_t dbscan_t → run_t dbscan_t
  | run_t.spin => run_t.spin
  | run_t.abort cpoints => run_t.abort (cpoints.map (scp c))
  | run_t.go st => run_t.go (scd c st)

/-- The gap between `p` and the interval: how far `p` lies outside it. -/
def interval_gap (itv : interval_t) (p : ℚ) : ℚ :=
  if p < itv.lower then itv.lower - p else if itv.upper < p then p - itv.upper else 0

/-- The coordinate of the interval nearest to `p`. -/
def interval_clamp (itv : interval_t) (p : ℚ) : ℚ :=
  if p < itv.lower then itv.lower else if itv.upper < p then itv.upper else p

/-- `rect_set_upper` on rectangles in memory: `from_` and `to_` are the addresses
passed to it, and `*to` is the one object the function writes. -/
def rect_set_upper_at (mem : Nat → rect_t) (from_ to_ : Nat) (point : point_t) (xd : Nat) :
    Int × (Nat → rect_t) :=
  ((rect_set_upper (mem from_) (mem to_) point xd).1,
    fun a => if a = to_ then (rect_set_upper (mem from_) (mem to_) point xd).2 else mem a)

/-- `rect_set_lower` on rectangles in memory, as `rect_set_upper_at`. -/
def rect_set_lower_at (mem : Nat → rect_t) (from_ to_ : Nat) (point : point_t) (xd : Nat) :
    Int × (Nat → rect_t) :=
  ((rect_set_lower (mem from_) (mem to_) point xd).1,
    fun a => if a = to_ then (rect_set_lower (mem from_) (mem to_) point xd).2 else mem a)

/-- The values returned by `n` calls of `id_generator_next_id` in a row, and the
generator after them. -/
def id_generator_calls : Nat → id_generator_t → List Nat × id_generator_t
  | 0, gen => ([], gen)
  | n + 1, gen =>
    ((id_generator_next_id gen).1 ::
        (id_generator_calls n (id_generator_next_id gen).2).1,
      (id_generator_calls n (id_generator_next_id gen).2).2)

/-- Two of the `n` point-sets carry the same id and lie within the squared threshold
`eps2` of each other: a link of a chain. `pt` gives the coordinates and `r` the ids. -/
def linked (n : Nat) (pt : Nat → point_t) (r : Nat → Nat) (eps2 : ℚ) (a b : Nat) : Prop :=
  a < n ∧ b < n ∧ r a = r b ∧ point_dist (pt a) (pt b) ≤ eps2

/-- The comparison engine of C20, after the words of the spec and not after the source:
the loop that expands the current cluster with the hull filter removed, in which every
unvisited frontier representative is range-queried and, if core, expanded. It is `expand`
without the hull set and without the test `hashset_contains(hullset, p)`. -/
def expand_nohull (env : env_t) (tree : kdtree_t Nat) (eps : ℚ) (min_pts : Nat) :
    Nat → dbscan_t → run_t dbscan_t
  | 0, _ => run_t.spin
  | fuel + 1, st =>
    if hashset_size st.nnset = 0 then run_t.go st
    else
      match hashset_pop st.nnset with
      | none => run_t.abort st.cpoints
      | some (p, nnset1) =>
        let st1 := { st with nnset := nnset1 }
        let st4 :=
          if !hashset_contains st1.visited p then
            let st2 := { st1 with visited := (hashset_add st1.visited p).2 }
            let nn_ := kdtree_k_nearest_neighbour env.libc (rep_point st2.cpointsets)
              tree (rep_point st2.cpointsets p) eps
            let total := total_of st2.cpointsets nn_
            if total ≥ min_pts then { st2 with nnset := hashset_add_all st2.nnset nn_ }
            else st2
          else st1
        let st5 :=
          if (cpointset_at st4.cpointsets p).cpoint.cluster_id = 0 then stamp st4 p st4.next_id
          else st4
        expand_nohull env tree eps min_pts fuel st5

/-- The comparison engine of C20: the body of the main loop of the engine without the
hull filter; it is `cluster_step` with `expand_nohull` for `expand`. -/
def cluster_step_nohull (env : env_t) (tree : kdtree_t Nat) (eps : ℚ) (min_pts : Nat)
    (st : dbscan_t) (point : Nat) : run_t dbscan_t :=
  if hashset_contains st.visited point then run_t.go st
  else
    let st1 := { st with visited := (hashset_add st.visited point).2 }
    let nn := kdtree_k_nearest_neighbour env.libc (rep_point st1.cpointsets) tree
      (rep_point st1.cpointsets point) eps
    let total := total_of st1.cpointsets nn
    if total < min_pts then run_t.go { st1 with noise := array_append st1.noise point }
    else
      let (next_id, gen1) := id_generator_next_id st1.gen
      let st2 := stamp { st1 with gen := gen1, next_id := next_id } point next_id
      let st3 := { st2 with nnset := hashset_add_all (hashset_remove_all st2.nnset) (nn.drop 1) }
      expand_nohull env tree eps min_pts
        ((st3.cpointsets.length + 1) * (st3.cpointsets.length + 1)) st3

/-- The comparison engine of C20: the main loop of the engine without the hull filter. -/
def cluster_loop_nohull (env : env_t) (tree : kdtree_t Nat) (eps : ℚ) (min_pts : Nat) :
    dbscan_t → List Nat → run_t dbscan_t
  | st, [] => run_t.go st
  | st, point :: rest =>
    match cluster_step_nohull env tree eps min_pts st point with
    | run_t.go st1 => cluster_loop_nohull env tree eps min_pts st1 rest
    | other => other

/-- The comparison engine of C20: `dbscan_cluster` with the hull filter removed; the
conversion of the points, the tree, the seeding of the clusters and the noise block are
those of `dbscan_cluster`. -/
def dbscan_cluster_nohull (env : env_t) (cpoints : List cpoint_t) (eps : ℚ) (min_pts : Nat) :
    Option (Int × List cpoint_t) :=
  let eps := eps * eps
  let cpointsets := convert_points env.libc cpoints
  let size := cpointsets.length
  match kdtree_create_static (rep_point cpointsets) env.point_hash env.rnd (List.range size) with
  | none => some (-1, cpoints)
  | some tree =>
    let st : dbscan_t :=
      { cpoints := cpoints,
        cpointsets := cpointsets,
        gen := id_generator_create,
        next_id := 0,
        visited := hashset_create size env.addr_hash,
        nnset := hashset_create size env.addr_hash,
        noise := [] }
    match cluster_loop_nohull env tree eps min_pts st (List.range size) with
    | run_t.spin => none
    | run_t.abort heap => some (-1, heap)
    | run_t.go st1 =>
      match collect_noise env eps st1 with
      | none => some (-1, st1.cpoints)
      | some st2 => some ((st2.next_id : Int), st2.cpoints)

/-- The two arrays of points give the same partition, up to the names of the ids: two
points have the same id in the one exactly when they have the same id in the other. -/
def same_partition (a b : List cpoint_t) : Prop :=
  a.length = b.length ∧
  ∀ i < a.length, ∀ j < a.length,
    ((cpoint_at a i).cluster_id = (cpoint_at a j).cluster_id ↔
      (cpoint_at b i).cluster_id = (cpoint_at b j).cluster_id)

/-- The input of the chain scenario in exact arithmetic: `n` unlabelled points whose
coordinates are exactly `(i * d, 0)`. It is the array the program receives when the
products `i * d` are doubles; `rounded_chain` is the array of the rounded products. -/
def chain_points (n : Nat) (d : ℚ) : List cpoint_t :=
  (List.range n).map (fun (i : Nat) => cpoint_init ((i : ℚ) * d) 0)

/-- The invariant of a subtree built by `build_kdtree` on the axis `xd`: a left
subtree of `⌊(m - 1) / 2⌋` points and a right subtree of the other `⌈(m - 1) / 2⌉` points
when the subtree holds `m` points, no coordinate on the axis `xd` in the left subtree
above the node's, none in the right subtree below it, and the same in both subtrees on
the other axis. -/
def balanced {α : Type} (pt : α → point_t) : Nat → kdnode_t α → Prop
  | _, kdnode_t.nil => True
  | xd, kdnode_t.node p l r =>
    (kd_points l).length = ((kd_points (kdnode_t.node p l r)).length - 1) / 2 ∧
    (kd_points r).length = ((kd_points (kdnode_t.node p l r)).length - 1)
      - ((kd_points (kdnode_t.node p l r)).length - 1) / 2 ∧
    (∀ a ∈ kd_points l, (pt a).dim xd ≤ (pt p).dim xd) ∧
    (∀ a ∈ kd_points r, (pt p).dim xd ≤ (pt a).dim xd) ∧
    balanced pt (lnot xd) l ∧ balanced pt (lnot xd) r

/-- The loop of `partition_points` after the cells `p .. s - 1`: the cells before the
counter hold coordinates up to the pivot's, the cells from the counter on hold greater
ones. -/
def part_inv {α : Type} (pt : α → point_t) (x : α) (xd p r len s : Nat)
    (st : Nat × List α) : Prop :=
  p ≤ st.1 ∧ st.1 ≤ s ∧ st.2.length = len ∧ st.2[r]? = some x ∧
  (∀ k a, p ≤ k → k < st.1 → st.2[k]? = some a → (pt a).dim xd ≤ (pt x).dim xd) ∧
  (∀ k a, st.1 ≤ k → k < s → st.2[k]? = some a → (pt x).dim xd < (pt a).dim xd)

/-- The unlinking of an emptied bucket from the chain, as `hashset_remove` does it: the
links `pre` and `next` of the bucket itself are left as they are. -/
def unlink_slotlist_keep {κ : Type} (set : hashset_t κ) (b : Nat) : hashset_t κ :=
  let slotlist := set.slotlists b
  let set1 :=
    match slotlist.pre with
    | some p => set.set_slot p { set.slotlists p with next := slotlist.next }
    | none => { set with non_null := slotlist.next }
  match slotlist.next with
  | some n => set1.set_slot n { set1.slotlists n with pre := slotlist.pre }
  | none => set1

/-- `hashset_remove`: `-1` when the item is not in its bucket, else `0` and the item is
taken out of the bucket, which is unlinked from the chain when it is left without items.
The size is a `size_t`. -/
def hashset_remove {κ : Type} [DecidableEq κ] (set : hashset_t κ) (item : κ) :
    Int × hashset_t κ :=
  let b := set.hash item % set.slotlists_n
  let slotlist := set.slotlists b
  if item ∈ slotlist.list then
    let set1 := set.set_slot b { slotlist with list := slotlist.list.erase item }
    let set2 := if (set1.slotlists b).list.isEmpty then unlink_slotlist_keep set1 b else set1
    (0, { set2 with size := (set2.size + (2 ^ 64 - 1)) % 2 ^ 64 })
  else (-1, set)

/-- How a call of `hashset_pop` ends: it returns `-1`; it returns `0`, with the item
copied out and the set after the call; or it finds no slot in the bucket at the head of
the chain, where `slot` is `NULL` and `slot->data` and `slot->next` are read through it. -/
inductive pop_t (κ : Type) where
  | empty : pop_t κ
  | popped (item : κ) (set : hashset_t κ) : pop_t κ
  | fault : pop_t κ

/-- `hashset_pop`, with the read through `NULL` told apart from the return of `-1`. -/
def hashset_pop_run {κ : Type} (set : hashset_t κ) : pop_t κ :=
  match set.non_null with
  | none => pop_t.empty
  | some b =>
    match (set.slotlists b).list with
    | [] => pop_t.fault
    | item :: rest =>
      let set1 := set.set_slot b { set.slotlists b with list := rest }
      let set2 := if rest.isEmpty then unlink_slotlist set1 b else set1
      pop_t.popped item { set2 with size := set2.size - 1 }

/-- A call on a hash set of the trace of a test: `size` is `hashset_size`, `contains` is
`hashset_contains`. -/
inductive hs_call (κ : Type) where
  | add (item : κ)
  | remove (item : κ)
  | remove_all
  | pop
  | size
  | contains (item : κ)

/-- What a call of the trace gives back: the value returned, the item copied out by a
`hashset_pop` that returns `0`, or the read through `NULL`, after which no call is made. -/
inductive hs_ret (κ : Type) where
  | ret (code : Int)
  | item (x : κ)
  | fault
deriving DecidableEq

/-- The calls of a trace, one after the other on the same set. -/
def hs_calls {κ : Type} [DecidableEq κ] : hashset_t κ → List (hs_call κ) → List (hs_ret κ)
  | _, [] => []
  | set, hs_call.add x :: rest =>
    hs_ret.ret (hashset_add set x).1 :: hs_calls (hashset_add set x).2 rest
  | set, hs_call.remove x :: rest =>
    hs_ret.ret (hashset_remove set x).1 :: hs_calls (hashset_remove set x).2 rest
  | set, hs_call.remove_all :: rest => hs_calls (hashset_remove_all set) rest
  | set, hs_call.pop :: rest =>
    match hashset_pop_run set with
    | pop_t.empty => hs_ret.ret (-1) :: hs_calls set rest
    | pop_t.popped x set1 => hs_ret.item x :: hs_calls set1 rest
    | pop_t.fault => [hs_ret.fault]
  | set, hs_call.size :: rest => hs_ret.ret (hashset_size set) :: hs_calls set rest
  | set, hs_call.contains x :: rest =>
    hs_ret.ret (if hashset_contains set x then 1 else 0) :: hs_calls set rest

/-! ## Double arithmetic: the rounding of one operation -/

/-- The integer nearest to `a / b`, the even one of the two when `a / b` lies half way. -/
def round_even (a b : Nat) : Nat :=
  if 2 * (a % b) < b then a / b
  else if b < 2 * (a % b) then a / b + 1
  else if (a / b) % 2 = 0 then a / b else a / b + 1

/-- The binary logarithm of `n`, rounded down, found by halving `n` at most `fuel`
times. -/
def log2_fuel : Nat → Nat → Nat
  | 0, _ => 0
  | fuel + 1, n => if n < 2 then 0 else log2_fuel fuel (n / 2) + 1

/-- The binary logarithm of `n`, rounded down (and 0 for `n = 0`). -/
def ilog2 (n : Nat) : Nat := log2_fuel n n

/-- The exponent of the last place of the double nearest to `a / b`, for positive `a`
and `b`: the `e` with `2 ^ 52 ≤ a / b / 2 ^ e < 2 ^ 53`. -/
def fl_exp (a b : Nat) : Int :=
  (if b * 2 ^ ilog2 a ≤ a * 2 ^ ilog2 b then (ilog2 a : Int) - (ilog2 b : Int)
    else (ilog2 a : Int) - (ilog2 b : Int) - 1) - 52

/-- The significand of the double nearest to `a / b`, as an integer of 53 bits. -/
def fl_sig (a b : Nat) : Nat :=
  if 0 ≤ fl_exp a b then round_even a (b * 2 ^ (fl_exp a b).toNat)
  else round_even (a * 2 ^ (-fl_exp a b).toNat) b

/-- The value of type `double` of an operation whose exact result is `q`: the nearest
number with a significand of 53 bits, ties to even (IEEE 754 binary64, rounding to
nearest). The range of the exponent is not modelled: no overflow, no subnormal numbers. -/
def fl (q : ℚ) : ℚ :=
  if q = 0 then 0
  else
    (if q < 0 then -1 else 1) * (fl_sig q.num.natAbs q.den : ℚ) *
      (if 0 ≤ fl_exp q.num.natAbs q.den
        then ((2 ^ (fl_exp q.num.natAbs q.den).toNat : Nat) : ℚ)
        else 1 / ((2 ^ (-fl_exp q.num.natAbs q.den).toNat : Nat) : ℚ))

/-- `point_dist` in double arithmetic, `pow(a->x - b->x, 2) + pow(a->y - b->y, 2)`: the
two differences, the two squares and the sum are each rounded to a double. -/
def point_dist_fl (a b : point_t) : ℚ :=
  fl (fl (fl (a.x - b.x) ^ 2) + fl (fl (a.y - b.y) ^ 2))

/-- No double operation on the chain `(i * d, 0)`, `i < n`, rounds: `eps`, `eps * eps`
and the coordinates `i * d` are doubles, and for any two points of the chain
`point_dist` in double arithmetic is the exact squared distance. -/
structure chain_exact (n : Nat) (d eps : ℚ) : Prop where
  eps_exact : fl eps = eps
  eps2_exact : fl (eps * eps) = eps * eps
  coord_exact : ∀ c ∈ chain_points n d, fl c.point.x = c.point.x
  dist_exact : ∀ a ∈ chain_points n d, ∀ b ∈ chain_points n d,
    point_dist_fl a.point b.point = point_dist a.point b.point

/-! ## The insertion sort is a `qsort` -/

theorem insert_back_perm {α : Type} (cmp : α → α → Int) (a : α) (l : List α) :
    (insert_back cmp a l).Perm (a :: l) := by
  induction l with
  | nil => simp [insert_back]
  | cons b l ih =>
    unfold insert_back
    split
    · exact (List.Perm.cons b ih).trans (List.Perm.swap a b l)
    · exact List.Perm.refl _

theorem insertion_fold_perm {α : Type} (cmp : α → α → Int) (l acc : List α) :
    (l.foldl (fun acc a => insert_back cmp a acc) acc).Perm (l ++ acc) := by
  induction l generalizing acc with
  | nil => simp
  | cons a l ih =>
    simp only [List.foldl_cons]
    refine (ih _).trans ?_
    refine (List.Perm.append_left l (insert_back_perm cmp a acc)).trans ?_
    exact List.perm_middle

theorem insertion_sort_perm {α : Type} (cmp : α → α → Int) (l : List α) :
    (insertion_sort cmp l).Perm l := by
  have h := insertion_fold_perm cmp l []
  rw [List.append_nil] at h
  exact (List.reverse_perm _).trans h

theorem insert_back_sorted {α : Type} (cmp : α → α → Int) (L : List α)
    (hc : Consistent cmp L) (a : α) (ha : a ∈ L) (l : List α) (hl : ∀ x ∈ l, x ∈ L)
    (hs : l.Pairwise (fun x y => cmp y x ≤ 0)) :
    (insert_back cmp a l).Pairwise (fun x y => cmp y x ≤ 0) := by
  induction l with
  | nil => simp [insert_back]
  | cons b l ih =>
    have hb : b ∈ L := hl b (List.mem_cons_self _ _)
    have hl' : ∀ x ∈ l, x ∈ L := fun x hx => hl x (List.mem_cons_of_mem _ hx)
    rw [List.pairwise_cons] at hs
    unfold insert_back
    split
    · rename_i hab
      refine List.Pairwise.cons ?_ (ih hl' hs.2)
      intro y hy
      rcases List.mem_cons.1 ((insert_back_perm cmp a l).subset hy) with rfl | hy
      · by_contra h
        have h1 : 0 < cmp y b := not_le.1 h
        have h2 : cmp b y < 0 := (hc.1 b hb y ha).2 h1
        omega
      · exact hs.1 y hy
    · rename_i hab
      have hba : cmp b a ≤ 0 := not_lt.1 hab
      refine List.Pairwise.cons ?_ (List.Pairwise.cons hs.1 hs.2)
      intro y hy
      rcases List.mem_cons.1 hy with rfl | hy
      · exact hba
      · exact hc.2 y (hl' y hy) b hb a ha (hs.1 y hy) hba

theorem insertion_fold_sorted {α : Type} (cmp : α → α → Int) (L : List α)
    (hc : Consistent cmp L) (l acc : List α) (hl : ∀ x ∈ l, x ∈ L) (hacc : ∀ x ∈ acc, x ∈ L)
    (hs : acc.Pairwise (fun x y => cmp y x ≤ 0)) :
    (l.foldl (fun acc a => insert_back cmp a acc) acc).Pairwise (fun x y => cmp y x ≤ 0) := by
  induction l generalizing acc with
  | nil => simpa
  | cons a l ih =>
    simp only [List.foldl_cons]
    apply ih _ (fun x hx => hl x (List.mem_cons_of_mem _ hx))
    · intro x hx
      rcases List.mem_cons.1 ((insert_back_perm cmp a acc).subset hx) with rfl | hx
      · exact hl _ (List.mem_cons_self _ _)
      · exact hacc x hx
    · exact insert_back_sorted cmp L hc a (hl a (List.mem_cons_self _ _)) acc hacc hs

theorem insertion_sort_sorted {α : Type} (cmp : α → α → Int) (l : List α)
    (hc : Consistent cmp l) : (insertion_sort cmp l).Pairwise (fun a b => cmp a b ≤ 0) := by
  unfold insertion_sort
  rw [List.pairwise_reverse]
  exact insertion_fold_sorted cmp l hc l [] (fun _ h => h) (by simp) List.Pairwise.nil

theorem insert_back_map {α β : Type} (f : α → β) (c : α → α → Int) (d : β → β → Int)
    (a : α) (l : List α) (h : ∀ b ∈ l, d (f b) (f a) = c b a) :
    insert_back d (f a) (l.map f) = (insert_back c a l).map f := by
  induction l with
  | nil => simp [insert_back]
  | cons b l ih =>
    simp only [List.map_cons, insert_back, h b (List.mem_cons_self _ _)]
    split
    · simp [ih (fun x hx => h x (List.mem_cons_of_mem _ hx))]
    · simp

theorem insertion_fold_map {α β : Type} (f : α → β) (c : α → α → Int) (d : β → β → Int)
    (L : List α) (h : ∀ a ∈ L, ∀ b ∈ L, d (f a) (f b) = c a b)
    (l acc : List α) (hl : ∀ x ∈ l, x ∈ L) (hacc : ∀ x ∈ acc, x ∈ L) :
    (l.map f).foldl (fun acc a => insert_back d a acc) (acc.map f) =
      (l.foldl (fun acc a => insert_back c a acc) acc).map f := by
  induction l generalizing acc with
  | nil => simp
  | cons a l ih =>
    simp only [List.map_cons, List.foldl_cons]
    have ha : a ∈ L := hl _ (List.mem_cons_self _ _)
    rw [insert_back_map f c d a acc (fun b hb => h b (hacc b hb) a ha)]
    apply ih _ (fun x hx => hl x (List.mem_cons_of_mem _ hx))
    intro x hx
    rcases List.mem_cons.1 ((insert_back_perm c a acc).subset hx) with rfl | hx
    · exact ha
    · exact hacc x hx

theorem insertion_sort_map {α β : Type} (f : α → β) (c : α → α → Int) (d : β → β → Int)
    (l : List α) (h : ∀ a ∈ l, ∀ b ∈ l, d (f a) (f b) = c a b) :
    insertion_sort d (l.map f) = (insertion_sort c l).map f := by
  unfold insertion_sort
  have h1 := insertion_fold_map f c d l h l [] (fun _ h => h) (by simp)
  rw [List.map_nil] at h1
  rw [h1, List.map_reverse]

/-- The C library whose `qsort` is the insertion sort. -/
def libc_insertion : Libc :=
  { qsort := fun cmp l => insertion_sort cmp l,
    qsort_perm := fun cmp l => insertion_sort_perm cmp l,
    qsort_sorted := fun cmp l hc => insertion_sort_sorted cmp l hc,
    qsort_natural := fun f c d l h => insertion_sort_map f c d l h }

/-! ## Claims settled by evaluating the code -/

/-- C4 (range-query soundness) fails on the code: the tree built from `(1,0)` and `(1,1)`,
queried at `(2,1)` with threshold `1`, returns nothing, although `(1,1)` is at squared
distance `1`. The query point lies to the right of the bounding rectangle `[1,1] × [0,1]`,
so at the root `rect_set_upper` fails on the x axis and the right subtree, which holds
`(1,1)`, is visited with the zeroed rectangle and pruned. -/
theorem C4_query_outside_rect_misses_neighbour :
    ∃ tree, kdtree_create_static id (fun _ => 0) (fun _ => 0)
        [(⟨1, 0⟩ : point_t), ⟨1, 1⟩] = some tree ∧
      kdtree_k_nearest_neighbour libc_insertion id tree ⟨2, 1⟩ 1 = [] ∧
      point_dist ⟨1, 1⟩ ⟨2, 1⟩ ≤ 1 ∧
      tree.root = kdnode_t.node ⟨1, 0⟩ kdnode_t.nil
        (kdnode_t.node ⟨1, 1⟩ kdnode_t.nil kdnode_t.nil) := by
  refine ⟨_, rfl, ?_, ?_, ?_⟩
  · decide!
  · decide!
  · decide!

/-! ## Plane geometry of the cross product -/

theorem point_ext {a b : point_t} (hx : a.x = b.x) (hy : a.y = b.y) : a = b := by
  cases a; cases b; simp_all

theorem above_of_lex_le {o a : point_t} (h : lex_le o a) (hne : a ≠ o) : above o a := by
  rcases h with h | ⟨h1, h2⟩
  · exact Or.inl h
  · refine Or.inr ⟨h1, lt_of_le_of_ne h2 ?_⟩
    intro hx
    exact hne (point_ext hx.symm h1.symm)

theorem cross_swap (o a b : point_t) : cross o a b = - cross o b a := by
  unfold cross; ring

theorem cross_cyc (a b c : point_t) : cross a b c = cross b c a := by
  unfold cross; ring

theorem cross_self_left (a b : point_t) : cross a a b = 0 := by
  unfold cross; ring

theorem cross_self_right (a b : point_t) : cross a b b = 0 := by
  unfold cross; ring

theorem cross_self_mid (a b : point_t) : cross a b a = 0 := by
  unfold cross; ring

/-- The identity behind transitivity of the angular order. -/
theorem cross_trans_id (o a b c : point_t) :
    (b.y - o.y) * cross o a c = (c.y - o.y) * cross o a b + (a.y - o.y) * cross o b c := by
  unfold cross; ring

theorem cross_trans_ge {o a b c : point_t} (ha : above o a) (hb : above o b) (hc : above o c)
    (h1 : 0 ≤ cross o a b) (h2 : 0 ≤ cross o b c) : 0 ≤ cross o a c := by
  have hid := cross_trans_id o a b c
  have hay : 0 ≤ a.y - o.y := by rcases ha with h | ⟨h, _⟩ <;> linarith
  have hcy : 0 ≤ c.y - o.y := by rcases hc with h | ⟨h, _⟩ <;> linarith
  rcases hb with hb | ⟨hb1, hb2⟩
  · have hpos : 0 < b.y - o.y := by linarith
    have : 0 ≤ (b.y - o.y) * cross o a c := by
      rw [hid]; exact add_nonneg (mul_nonneg hcy h1) (mul_nonneg hay h2)
    exact nonneg_of_mul_nonneg_right this hpos
  · -- b on the horizontal ray
    have hbx : 0 < b.x - o.x := by linarith
    have e1 : cross o a b = - ((a.y - o.y) * (b.x - o.x)) := by unfold cross; rw [← hb1]; ring
    have e2 : cross o b c = (b.x - o.x) * (c.y - o.y) := by unfold cross; rw [← hb1]; ring
    have hay0 : a.y - o.y = 0 := by
      have : (a.y - o.y) * (b.x - o.x) ≤ 0 := by linarith
      have h3 : a.y - o.y ≤ 0 := by
        by_contra hcon
        have : 0 < (a.y - o.y) * (b.x - o.x) := mul_pos (not_le.1 hcon) hbx
        linarith
      linarith
    have hax : 0 < a.x - o.x := by
      rcases ha with h | ⟨_, h⟩
      · linarith
      · linarith
    have e3 : cross o a c = (a.x - o.x) * (c.y - o.y) := by
      unfold cross; rw [show a.y - o.y = 0 from hay0]; ring
    rw [e3]; exact mul_nonneg (le_of_lt hax) hcy

theorem cross_trans_gt_left {o a b c : point_t} (ha : above o a) (hb : above o b)
    (hc : above o c) (h1 : 0 < cross o a b) (h2 : 0 ≤ cross o b c) : 0 < cross o a c := by
  have hge := cross_trans_ge ha hb hc (le_of_lt h1) h2
  rcases lt_or_eq_of_le hge with h | h
  · exact h
  · exfalso
    -- cross o a c = 0 and cross o b c ≥ 0, so cross o b a ≥ 0 by transitivity through c
    have h3 : 0 ≤ cross o c a := by rw [cross_swap]; linarith
    have h4 := cross_trans_ge hb hc ha h2 h3
    rw [cross_swap] at h4
    linarith

theorem cross_trans_gt_right {o a b c : point_t} (ha : above o a) (hb : above o b)
    (hc : above o c) (h1 : 0 ≤ cross o a b) (h2 : 0 < cross o b c) : 0 < cross o a c := by
  have hge := cross_trans_ge ha hb hc h1 (le_of_lt h2)
  rcases lt_or_eq_of_le hge with h | h
  · exact h
  · exfalso
    have h3 : 0 ≤ cross o c a := by rw [cross_swap]; linarith
    have h4 := cross_trans_ge hc ha hb h3 h1
    rw [cross_swap] at h4
    linarith

/-- Barycentric identity: the value of an edge function at `p` from its values at the
corners of the triangle `o a b`. -/
theorem cross_bary (o a b p x y : point_t) :
    cross o a b * cross x y p =
      cross a b p * cross x y o + cross o p b * cross x y a + cross o a p * cross x y b := by
  unfold cross; ring

/-- A point of the triangle `o a b` is on the left of every line that has the three
corners on its left. -/
theorem left_of_triangle {o a b p x y : point_t} (hD : 0 < cross o a b)
    (h1 : 0 ≤ cross a b p) (h2 : 0 ≤ cross o p b) (h3 : 0 ≤ cross o a p)
    (fo : 0 ≤ cross x y o) (fa : 0 ≤ cross x y a) (fb : 0 ≤ cross x y b) :
    0 ≤ cross x y p := by
  have hid := cross_bary o a b p x y
  have : 0 ≤ cross o a b * cross x y p := by
    rw [hid]
    exact add_nonneg (add_nonneg (mul_nonneg h1 fo) (mul_nonneg h2 fa)) (mul_nonneg h3 fb)
  exact nonneg_of_mul_nonneg_right this hD

/-! ## The scan of `convex_hulls` on a stack held top first -/

theorem array_pop_reverse_cons {α : Type} (a : α) (l : List α) :
    (array_pop (a :: l).reverse).2 = l.reverse := by
  simp [array_pop]

theorem array_at_last {α : Type} (a : α) (l : List α) :
    array_at (a :: l).reverse (((array_size (a :: l).reverse : Nat) : Int) - 1) = some a := by
  unfold array_at array_size
  have h1 : ((a :: l).reverse.length : Int) - 1 = ((l.length : Nat) : Int) := by
    simp
  rw [h1]
  simp [List.getElem?_append_right]

theorem array_at_last2 {α : Type} (a b : α) (l : List α) :
    array_at (a :: b :: l).reverse (((array_size (a :: b :: l).reverse : Nat) : Int) - 2)
      = some b := by
  unfold array_at array_size
  have h1 : ((a :: b :: l).reverse.length : Int) - 2 = ((l.length : Nat) : Int) := by
    simp
  rw [h1]
  have h2 : (a :: b :: l).reverse = l.reverse ++ ([b] ++ [a]) := by simp
  rw [h2]
  have h3 : (l.reverse ++ ([b] ++ [a])).get? l.length = some b := by
    rw [List.get?_eq_getElem?, List.getElem?_append_right (by simp)]
    simp
  rw [if_pos ⟨by omega, by simp⟩, Int.toNat_ofNat]
  exact h3

theorem gpop_ne_nil {α : Type} (pt : α → point_t) (q : α) (rs : List α) (h : rs ≠ []) :
    gpop pt q rs ≠ [] := by
  induction rs with
  | nil => exact absurd rfl h
  | cons t1 rest ih =>
    cases rest with
    | nil => simp [gpop]
    | cons t2 rest' =>
      unfold gpop
      simp only
      split
      · simp
      · exact ih (by simp)

theorem gpop_suffix {α : Type} (pt : α → point_t) (q : α) (rs : List α) :
    gpop pt q rs <:+ rs := by
  induction rs with
  | nil => simp [gpop]
  | cons t1 rest ih =>
    cases rest with
    | nil => simp [gpop]
    | cons t2 rest' =>
      unfold gpop
      simp only
      split
      · exact List.suffix_refl _
      · exact List.IsSuffix.trans ih (List.suffix_cons _ _)

/-- The inner loop of the scan, started on a stack of the anchor and at least one more
point with `top2`, `top1` its top two, stops at the stack that `gpop` computes, when the
candidate makes a left turn with the anchor and the point next to it. -/
theorem scan_while_gpop {α : Type} (pt : α → point_t) (q o : α) (rest : List α) :
    ∀ (t1 : α) (fuel : Nat), (t1 :: rest).length + 2 ≤ fuel →
      is_left_turn (pt o) (pt ((t1 :: rest).getLast (by simp))) (pt q) = true →
      ∃ top2 top1, scan_while pt q fuel (t1 :: rest ++ [o]).reverse
          ((rest ++ [o]).head (by simp)) t1 =
        some ((gpop pt q (t1 :: rest) ++ [o]).reverse, top2, top1) := by
  induction rest with
  | nil =>
    intro t1 fuel hf hl
    obtain ⟨f, rfl⟩ : ∃ f, fuel = f + 1 := ⟨fuel - 1, by simp at hf; omega⟩
    simp only [List.getLast_singleton] at hl
    refine ⟨o, t1, ?_⟩
    simp [scan_while, hl, gpop]
  | cons t2 rest' ih =>
    intro t1 fuel hf hl
    obtain ⟨f, rfl⟩ : ∃ f, fuel = f + 1 := ⟨fuel - 1, by simp at hf; omega⟩
    by_cases hturn : is_left_turn (pt t2) (pt t1) (pt q) = true
    · refine ⟨t2, t1, ?_⟩
      simp [scan_while, hturn, gpop]
    · have hl' : is_left_turn (pt o) (pt ((t2 :: rest').getLast (by simp))) (pt q) = true := by
        rw [List.getLast_cons (by simp)] at hl
        exact hl
      obtain ⟨a, b, hab⟩ := ih t2 f (by simp at hf ⊢; omega) hl'
      refine ⟨a, b, ?_⟩
      have hpop : (array_pop (t1 :: (t2 :: rest') ++ [o]).reverse).2
          = (t2 :: rest' ++ [o]).reverse := by
        have := array_pop_reverse_cons t1 (t2 :: rest' ++ [o])
        simpa using this
      have htop1 : array_at (t2 :: rest' ++ [o]).reverse
          (((array_size (t2 :: rest' ++ [o]).reverse : Nat) : Int) - 1) = some t2 := by
        have := array_at_last t2 (rest' ++ [o])
        simpa using this
      have htop2 : array_at (t2 :: rest' ++ [o]).reverse
          (((array_size (t2 :: rest' ++ [o]).reverse : Nat) : Int) - 2)
          = some ((rest' ++ [o]).head (by simp)) := by
        cases rest' with
        | nil =>
          have := array_at_last2 t2 o []
          simpa using this
        | cons t3 r =>
          have := array_at_last2 t2 t3 (r ++ [o])
          simpa using this
      have hg : gpop pt q (t1 :: t2 :: rest') = gpop pt q (t2 :: rest') := by
        conv => lhs; unfold gpop
        simp [hturn]
      have hstep : scan_while pt q (f + 1) (t1 :: (t2 :: rest') ++ [o]).reverse
          (((t2 :: rest') ++ [o]).head (by simp)) t1 =
          scan_while pt q f (t2 :: rest' ++ [o]).reverse ((rest' ++ [o]).head (by simp)) t2 := by
        rw [scan_while]
        simp only [List.cons_append, List.head_cons, hturn, Bool.false_eq_true, if_false]
        simp only [List.cons_append] at hpop htop1 htop2
        rw [hpop, htop1, htop2]
        rfl
      rw [hg, hstep, hab]

theorem gpop_getLast {α : Type} (pt : α → point_t) (q : α) (rs : List α) (h : rs ≠ []) :
    (gpop pt q rs).getLast (gpop_ne_nil pt q rs h) = rs.getLast h := by
  obtain ⟨pre, hpre⟩ := gpop_suffix pt q rs
  have hne := gpop_ne_nil pt q rs h
  have : rs.getLast h = (pre ++ gpop pt q rs).getLast (by simp [hne]) := by
    congr 1
    exact hpre.symm
  rw [this]
  symm
  apply List.getLast_append_of_ne_nil

theorem scan_step_gpop {α : Type} (pt : α → point_t) (q o t1 : α) (rest : List α)
    (hl : is_left_turn (pt o) (pt ((t1 :: rest).getLast (by simp))) (pt q) = true) :
    scan_step pt (t1 :: rest ++ [o]).reverse q =
      some (q :: gpop pt q (t1 :: rest) ++ [o]).reverse := by
  obtain ⟨a, b, hab⟩ := scan_while_gpop pt q o rest t1 ((t1 :: rest ++ [o]).reverse.length + 1)
    (by simp) hl
  have htop1 : array_at (t1 :: rest ++ [o]).reverse
      (((array_size (t1 :: rest ++ [o]).reverse : Nat) : Int) - 1) = some t1 := by
    have := array_at_last t1 (rest ++ [o])
    simpa using this
  have htop2 : array_at (t1 :: rest ++ [o]).reverse
      (((array_size (t1 :: rest ++ [o]).reverse : Nat) : Int) - 2)
      = some ((rest ++ [o]).head (by simp)) := by
    cases rest with
    | nil =>
      have := array_at_last2 t1 o []
      simpa using this
    | cons t3 r =>
      have := array_at_last2 t1 t3 (r ++ [o])
      simpa using this
  unfold scan_step
  simp only [List.cons_append] at htop1 htop2 hab ⊢
  rw [htop1, htop2]
  simp only [hab, Option.map_some', array_append]
  simp

theorem scan_loop_gscan {α : Type} (pt : α → point_t) (o : α) (qs : List α) :
    ∀ (rs : List α) (hne : rs ≠ []),
      (∀ q ∈ qs, is_left_turn (pt o) (pt (rs.getLast hne)) (pt q) = true) →
      scan_loop pt (rs ++ [o]).reverse qs = some (gscan pt rs qs ++ [o]).reverse := by
  induction qs with
  | nil => intro rs _ _; simp [scan_loop, gscan]
  | cons q qs ih =>
    intro rs hne hq
    obtain ⟨t1, rest, rfl⟩ : ∃ t1 rest, rs = t1 :: rest := by
      cases rs with
      | nil => exact absurd rfl hne
      | cons a l => exact ⟨a, l, rfl⟩
    have hstep := scan_step_gpop pt q o t1 rest (hq q (List.mem_cons_self _ _))
    rw [scan_loop, hstep]
    simp only [Option.bind_eq_bind, Option.some_bind]
    have hlast : (q :: gpop pt q (t1 :: rest)).getLast (by simp) = (t1 :: rest).getLast hne := by
      rw [List.getLast_cons (gpop_ne_nil pt q _ hne)]
      exact gpop_getLast pt q _ hne
    have := ih (q :: gpop pt q (t1 :: rest)) (by simp)
      (fun x hx => by rw [hlast]; exact hq x (List.mem_cons_of_mem _ hx))
    rw [gscan]
    simpa using this

/-! ## The invariant of the scan -/

theorem cross_id_one (o a b c q : point_t) :
    cross o b c * cross a b q = cross o a b * cross b c q + cross o b q * cross a b c := by
  unfold cross; ring

theorem cross_id_two (o a b c q : point_t) :
    cross o b c * cross a c q = cross o a c * cross b c q + cross o c q * cross a b c := by
  unfold cross; ring

theorem housed_cons {α : Type} (o : point_t) (pt : α → point_t) (p : point_t) (b a : α)
    (l : List α) :
    housed o pt p (b :: a :: l) ↔ in_tri o (pt a) (pt b) p ∨ housed o pt p (a :: l) := by
  conv => lhs; unfold housed

/-- Case of a pop: a point of the triangle under the popped top moves to the triangle
of the new top and the candidate. -/
theorem in_tri_pop_left {o t2 t1 q p : point_t} (h21 : 0 < cross o t2 t1)
    (h1q : 0 < cross o t1 q) (h2q : 0 < cross o t2 q) (hturn : cross t2 t1 q ≤ 0)
    (hp : in_tri o t2 t1 p) : in_tri o t2 q p := by
  obtain ⟨p1, p2, p3⟩ := hp
  refine ⟨p1, ?_, ?_⟩
  · have := left_of_triangle (x := q) (y := o) h21 p3 p2 p1
      (by rw [cross_self_right]) (by rw [cross_cyc]; exact le_of_lt h2q)
      (by rw [cross_cyc]; exact le_of_lt h1q)
    rw [cross_cyc] at this
    exact this
  · exact left_of_triangle (x := t2) (y := q) h21 p3 p2 p1
      (by rw [cross_cyc, cross_cyc]; exact le_of_lt h2q) (by rw [cross_self_mid])
      (by rw [cross_swap]; linarith)

/-- Case of a pop: a point of the triangle of the popped top and the candidate moves to
the triangle of the new top and the candidate. -/
theorem in_tri_pop_right {o t2 t1 q p : point_t} (h21 : 0 < cross o t2 t1)
    (h1q : 0 < cross o t1 q) (h2q : 0 < cross o t2 q) (hturn : cross t2 t1 q ≤ 0)
    (hp : in_tri o t1 q p) : in_tri o t2 q p := by
  obtain ⟨p1, p2, p3⟩ := hp
  refine ⟨?_, p2, ?_⟩
  · exact left_of_triangle (x := o) (y := t2) h1q p3 p2 p1
      (by rw [cross_self_mid]) (le_of_lt h21) (le_of_lt h2q)
  · exact left_of_triangle (x := t2) (y := q) h1q p3 p2 p1
      (by rw [cross_cyc, cross_cyc]; exact le_of_lt h2q) (by rw [cross_swap]; linarith)
      (by rw [cross_self_right])

/-- The pops keep every processed point housed, counting the triangle of the top and
the candidate. -/
theorem gpop_housed {α : Type} (o : point_t) (pt : α → point_t) (q : α) (p : point_t)
    (rs : List α) :
    ∀ (t1 : α), rsorted o pt (t1 :: rs) → (∀ x ∈ t1 :: rs, 0 < cross o (pt x) (pt q)) →
      (housed o pt p (t1 :: rs) ∨ in_tri o (pt t1) (pt q) p) →
      housed o pt p (q :: gpop pt q (t1 :: rs)) := by
  induction rs with
  | nil =>
    intro t1 _ _ h
    rcases h with h | h
    · exact absurd h (by simp [housed])
    · simp only [gpop]
      rw [housed_cons]
      exact Or.inl h
  | cons t2 rest ih =>
    intro t1 hs hq h
    by_cases hturn : is_left_turn (pt t2) (pt t1) (pt q) = true
    · have hg : gpop pt q (t1 :: t2 :: rest) = t1 :: t2 :: rest := by
        conv => lhs; unfold gpop
        simp [hturn]
      rw [hg, housed_cons]
      exact h.symm
    · have hg : gpop pt q (t1 :: t2 :: rest) = gpop pt q (t2 :: rest) := by
        conv => lhs; unfold gpop
        simp [hturn]
      rw [hg]
      have hle : cross (pt t2) (pt t1) (pt q) ≤ 0 := by
        simp only [is_left_turn, decide_eq_true_eq, gt_iff_lt, not_lt] at hturn
        exact hturn
      have h21 : 0 < cross o (pt t2) (pt t1) := by
        have := (List.pairwise_cons.1 hs).1 t2 (List.mem_cons_self _ _)
        exact this
      have h1q := hq t1 (List.mem_cons_self _ _)
      have h2q := hq t2 (List.mem_cons_of_mem _ (List.mem_cons_self _ _))
      apply ih t2 (List.pairwise_cons.1 hs).2 (fun x hx => hq x (List.mem_cons_of_mem _ hx))
      rcases h with h | h
      · rw [housed_cons] at h
        rcases h with h | h
        · exact Or.inr (in_tri_pop_left h21 h1q h2q hle h)
        · exact Or.inl h
      · exact Or.inr (in_tri_pop_right h21 h1q h2q hle h)

/-- After the pops the candidate makes a left turn with every two points left on the
stack. -/
theorem gpop_rccw {α : Type} (o : point_t) (pt : α → point_t) (q : α) (rs : List α) :
    ∀ (t1 : α), rsorted o pt (t1 :: rs) → (∀ x ∈ t1 :: rs, 0 < cross o (pt x) (pt q)) →
      rccw pt (t1 :: rs) → rccw pt (q :: gpop pt q (t1 :: rs)) := by
  induction rs with
  | nil =>
    intro t1 _ _ _
    simp [gpop, rccw]
  | cons t2 rest ih =>
    intro t1 hs hq hc
    by_cases hturn : is_left_turn (pt t2) (pt t1) (pt q) = true
    · have hg : gpop pt q (t1 :: t2 :: rest) = t1 :: t2 :: rest := by
        conv => lhs; unfold gpop
        simp [hturn]
      rw [hg]
      have hlt : 0 < cross (pt t2) (pt t1) (pt q) := by
        simpa [is_left_turn] using hturn
      refine ⟨?_, hc⟩
      have hs1 := List.pairwise_cons.1 hs
      have hc1 : (t2 :: rest).Pairwise (fun b a => 0 < cross (pt a) (pt b) (pt t1)) := hc.1
      -- every point below the top makes a left turn with the top and the candidate
      have htop : ∀ a ∈ t2 :: rest, 0 < cross (pt a) (pt t1) (pt q) := by
        intro a ha
        rcases List.mem_cons.1 ha with rfl | ha
        · exact hlt
        · have e := cross_id_two o (pt a) (pt t2) (pt t1) (pt q)
          have k1 : 0 < cross o (pt t2) (pt t1) := hs1.1 t2 (List.mem_cons_self _ _)
          have k2 : 0 < cross o (pt a) (pt t1) := hs1.1 a (List.mem_cons_of_mem _ ha)
          have k3 : 0 < cross o (pt t1) (pt q) := hq t1 (List.mem_cons_self _ _)
          have k4 : 0 < cross (pt a) (pt t2) (pt t1) := (List.pairwise_cons.1 hc1).1 a ha
          have : 0 < cross o (pt t2) (pt t1) * cross (pt a) (pt t1) (pt q) := by
            rw [e]; exact add_pos (mul_pos k2 hlt) (mul_pos k3 k4)
          exact pos_of_mul_pos_right this (le_of_lt k1)
      refine List.pairwise_cons.2 ⟨htop, ?_⟩
      -- two points below the top
      have hboth := hs1.2.and hc1
      refine List.Pairwise.imp_of_mem ?_ hboth
      intro b a hb ha hba
      have e := cross_id_one o (pt a) (pt b) (pt t1) (pt q)
      have k1 : 0 < cross o (pt b) (pt t1) := hs1.1 b hb
      have k2 : 0 < cross o (pt b) (pt q) := hq b (List.mem_cons_of_mem _ hb)
      have : 0 < cross o (pt b) (pt t1) * cross (pt a) (pt b) (pt q) := by
        rw [e]; exact add_pos (mul_pos hba.1 (htop b hb)) (mul_pos k2 hba.2)
      exact pos_of_mul_pos_right this (le_of_lt k1)
    · have hg : gpop pt q (t1 :: t2 :: rest) = gpop pt q (t2 :: rest) := by
        conv => lhs; unfold gpop
        simp [hturn]
      rw [hg]
      exact ih t2 (List.pairwise_cons.1 hs).2 (fun x hx => hq x (List.mem_cons_of_mem _ hx)) hc.2

theorem in_tri_self {o t q : point_t} (h : 0 < cross o t q) : in_tri o t q q :=
  ⟨le_of_lt h, by rw [cross_self_right], by rw [cross_self_right]⟩

theorem in_tri_self_left {o t q : point_t} (h : 0 < cross o t q) : in_tri o t q t :=
  ⟨by rw [cross_self_right], le_of_lt h, by rw [cross_self_mid]⟩

/-- The invariant of the scan: the stack stays sorted by direction, every three of its
points make a left turn, and every processed point is housed. -/
theorem gscan_inv {α : Type} (o : point_t) (pt : α → point_t) (qs : List α) :
    ∀ (rs : List α), rs ≠ [] → rsorted o pt rs →
      qs.Pairwise (fun a b => 0 < cross o (pt a) (pt b)) →
      (∀ x ∈ rs, ∀ q ∈ qs, 0 < cross o (pt x) (pt q)) → rccw pt rs →
      gscan pt rs qs ≠ [] ∧ rsorted o pt (gscan pt rs qs) ∧ rccw pt (gscan pt rs qs) ∧
      (∀ p, (housed o pt p rs ∨ ∃ q ∈ qs, p = pt q) → housed o pt p (gscan pt rs qs)) ∧
      (∀ x ∈ gscan pt rs qs, x ∈ rs ∨ x ∈ qs) ∧
      (∀ h1 h2, (gscan pt rs qs).getLast h1 = rs.getLast h2) := by
  induction qs with
  | nil =>
    intro rs hne hs _ _ hc
    exact ⟨hne, hs, hc, fun p hp => hp.elim id (fun ⟨q, hq, _⟩ => absurd hq (List.not_mem_nil _)),
      fun x hx => Or.inl hx, fun _ _ => rfl⟩
  | cons q qs ih =>
    intro rs hne hs hqs hrq hc
    obtain ⟨t1, rest, rfl⟩ : ∃ t1 rest, rs = t1 :: rest := by
      cases rs with
      | nil => exact absurd rfl hne
      | cons a l => exact ⟨a, l, rfl⟩
    have hq : ∀ x ∈ t1 :: rest, 0 < cross o (pt x) (pt q) :=
      fun x hx => hrq x hx q (List.mem_cons_self _ _)
    have hsuf := gpop_suffix pt q (t1 :: rest)
    have hsub : ∀ x ∈ gpop pt q (t1 :: rest), x ∈ t1 :: rest := fun x hx => hsuf.subset hx
    have hs' : rsorted o pt (q :: gpop pt q (t1 :: rest)) :=
      List.pairwise_cons.2 ⟨fun x hx => hq x (hsub x hx), hs.sublist hsuf.sublist⟩
    have hc' := gpop_rccw o pt q rest t1 hs hq hc
    have hqs' := List.pairwise_cons.1 hqs
    have hrq' : ∀ x ∈ q :: gpop pt q (t1 :: rest), ∀ q' ∈ qs, 0 < cross o (pt x) (pt q') := by
      intro x hx q' hq'
      rcases List.mem_cons.1 hx with rfl | hx
      · exact hqs'.1 q' hq'
      · exact hrq x (hsub x hx) q' (List.mem_cons_of_mem _ hq')
    obtain ⟨r1, r2, r3, r4, r5, r6⟩ := ih (q :: gpop pt q (t1 :: rest)) (by simp) hs' hqs'.2 hrq' hc'
    rw [gscan]
    refine ⟨r1, r2, r3, ?_, ?_, ?_⟩
    · intro p hp
      apply r4
      rcases hp with hp | ⟨q', hq', rfl⟩
      · exact Or.inl (gpop_housed o pt q p rest t1 hs hq (Or.inl hp))
      · rcases List.mem_cons.1 hq' with rfl | hq'
        · exact Or.inl (gpop_housed o pt q' (pt q') rest t1 hs hq
            (Or.inr (in_tri_self (hq t1 (List.mem_cons_self _ _)))))
        · exact Or.inr ⟨q', hq', rfl⟩
    · intro x hx
      rcases r5 x hx with h | h
      · rcases List.mem_cons.1 h with rfl | h
        · exact Or.inr (List.mem_cons_self _ _)
        · exact Or.inl (hsub x h)
      · exact Or.inr (List.mem_cons_of_mem _ h)
    · intro h1 h2
      rw [r6 h1 (by simp), List.getLast_cons (gpop_ne_nil pt q _ hne)]
      exact gpop_getLast pt q _ hne

theorem lex_le_refl (a : point_t) : lex_le a a := Or.inr ⟨rfl, le_refl _⟩

/-- The state of the first loop of `rerange` after `k` passes. -/
theorem min_step_fold {α : Type} (pt : α → point_t) (points : List α) (k : Nat)
    (hk : k ≤ points.length) :
    (k = 0 ∧ (List.range k).foldl (min_step pt points) (none, 0) = (none, 0)) ∨
    (∃ m pm, m < k ∧ points.get? m = some pm ∧
      (List.range k).foldl (min_step pt points) (none, 0) = (some (pt pm).y, m) ∧
      ∀ j pj, j < k → points.get? j = some pj → lex_le (pt pm) (pt pj)) := by
  induction k with
  | zero => exact Or.inl ⟨rfl, rfl⟩
  | succ k ih =>
    right
    have hklt : k < points.length := hk
    obtain ⟨pk, hpk⟩ : ∃ pk, points.get? k = some pk :=
      ⟨points[k], by simp [List.get?_eq_getElem?, hklt]⟩
    have hpk' : points[k]? = some pk := by simpa [List.get?_eq_getElem?] using hpk
    rw [List.range_succ, List.foldl_append, List.foldl_cons, List.foldl_nil]
    rcases ih (Nat.le_of_lt hklt) with ⟨rfl, h0⟩ | ⟨m, pm, hm, hpm, hf, hmin⟩
    · rw [h0]
      refine ⟨0, pk, by omega, hpk, ?_, ?_⟩
      · simp [min_step, hpk']
      · intro j pj hj hpj
        have : j = 0 := by omega
        subst this
        rw [hpk] at hpj
        cases hpj
        exact lex_le_refl _
    · rw [hf]
      have hpm' : points[m]? = some pm := by simpa [List.get?_eq_getElem?] using hpm
      by_cases h1 : (pt pk).y < (pt pm).y
      · refine ⟨k, pk, by omega, hpk, ?_, ?_⟩
        · simp [min_step, hpk', h1]
        · intro j pj hj hpj
          rcases Nat.lt_succ_iff_lt_or_eq.1 hj with hj | rfl
          · have := hmin j pj hj hpj
            left
            rcases this with h | ⟨h, _⟩ <;> linarith
          · rw [hpk] at hpj
            cases hpj
            exact lex_le_refl _
      · by_cases h2 : (pt pk).y = (pt pm).y
        · by_cases h3 : (pt pk).x < (pt pm).x
          · refine ⟨k, pk, by omega, hpk, ?_, ?_⟩
            · simp [min_step, hpk', h2, hpm', h3]
            · intro j pj hj hpj
              rcases Nat.lt_succ_iff_lt_or_eq.1 hj with hj | rfl
              · rcases hmin j pj hj hpj with h | ⟨h, h'⟩
                · exact Or.inl (by linarith)
                · exact Or.inr ⟨by linarith, by linarith⟩
              · rw [hpk] at hpj
                cases hpj
                exact lex_le_refl _
          · refine ⟨m, pm, by omega, hpm, ?_, ?_⟩
            · simp [min_step, hpk', h2, hpm', h3]
            · intro j pj hj hpj
              rcases Nat.lt_succ_iff_lt_or_eq.1 hj with hj | rfl
              · exact hmin j pj hj hpj
              · rw [hpk] at hpj
                cases hpj
                exact Or.inr ⟨h2.symm, not_lt.1 h3⟩
        · refine ⟨m, pm, by omega, hpm, ?_, ?_⟩
          · simp [min_step, hpk', h1, h2]
          · intro j pj hj hpj
            rcases Nat.lt_succ_iff_lt_or_eq.1 hj with hj | rfl
            · exact hmin j pj hj hpj
            · rw [hpk] at hpj
              cases hpj
              exact Or.inl (lt_of_le_of_ne (not_lt.1 h1) (fun h => h2 h.symm))

/-- `min_index` is the index of a point that is least by `y`, then `x`. -/
theorem min_index_spec {α : Type} (pt : α → point_t) (points : List α) (h : points ≠ []) :
    ∃ head, points.get? (min_index pt points) = some head ∧
      min_index pt points < points.length ∧
      ∀ p ∈ points, lex_le (pt head) (pt p) := by
  have hlen : 0 < points.length := List.length_pos.2 h
  rcases min_step_fold pt points points.length (le_refl _) with ⟨h0, _⟩ | ⟨m, pm, hm, hpm, hf, hmin⟩
  · omega
  · refine ⟨pm, ?_, ?_, ?_⟩
    · unfold min_index; rw [hf]; exact hpm
    · unfold min_index; rw [hf]; exact hm
    · intro p hp
      obtain ⟨j, hj, rfl⟩ := List.getElem_of_mem hp
      exact hmin j _ hj (by simp [List.get?_eq_getElem?, hj])

theorem clock_direct_ne_zero {α : Type} (pt : α → point_t) (l1 l2 : line_t α) :
    clock_direct pt l1 l2 ≠ 0 ↔ cross (pt l1.head) (pt l1.tail) (pt l2.tail) ≠ 0 := by
  unfold clock_direct
  simp only
  rcases lt_trichotomy (cross (pt l1.head) (pt l1.tail) (pt l2.tail)) 0 with h | h | h
  · simp [h, not_lt_of_gt h, ne_of_lt h]
  · simp [h]
  · simp [h, not_lt_of_gt h, ne_of_gt h]

theorem cmp_line_le {α : Type} (pt : α → point_t) (l1 l2 : line_t α) :
    cmp_line pt l1 l2 ≤ 0 ↔ 0 ≤ cross (pt l1.head) (pt l1.tail) (pt l2.tail) := by
  unfold cmp_line clock_direct
  simp only
  rcases lt_trichotomy (cross (pt l1.head) (pt l1.tail) (pt l2.tail)) 0 with h | h | h
  · simp [h, not_lt_of_gt h, not_le_of_gt h]
  · simp [h]
  · simp [h, not_lt_of_gt h, le_of_lt h]

theorem cmp_line_lt {α : Type} (pt : α → point_t) (l1 l2 : line_t α) :
    cmp_line pt l1 l2 < 0 ↔ 0 < cross (pt l1.head) (pt l1.tail) (pt l2.tail) := by
  unfold cmp_line clock_direct
  simp only
  rcases lt_trichotomy (cross (pt l1.head) (pt l1.tail) (pt l2.tail)) 0 with h | h | h
  · simp [h, not_lt_of_gt h]
  · simp [h]
  · simp [h, not_lt_of_gt h]

theorem cmp_line_gt {α : Type} (pt : α → point_t) (l1 l2 : line_t α) :
    0 < cmp_line pt l1 l2 ↔ cross (pt l1.head) (pt l1.tail) (pt l2.tail) < 0 := by
  unfold cmp_line clock_direct
  simp only
  rcases lt_trichotomy (cross (pt l1.head) (pt l1.tail) (pt l2.tail)) 0 with h | h | h
  · simp [h, not_lt_of_gt h]
  · simp [h]
  · simp [h, not_lt_of_gt h]

theorem rtstep_ne_nil {α : Type} (o : point_t) (pt : α → point_t) (rrt : List α) (t : α)
    (h : rrt ≠ []) : rtstep o pt rrt t ≠ [] := by
  cases rrt with
  | nil => exact absurd rfl h
  | cons last r =>
    simp only [rtstep]
    split_ifs <;> simp

theorem rerange_step_rt {α : Type} (pt : α → point_t) (head : α) (rrt : List α)
    (hne : rrt ≠ []) (t : α) :
    rerange_step pt (rrt.reverse.map (fun p => ({ head := head, tail := p } : line_t α)))
        { head := head, tail := t } =
      (rtstep (pt head) pt rrt t).reverse.map
        (fun p => ({ head := head, tail := p } : line_t α)) := by
  cases rrt with
  | nil => exact absurd rfl hne
  | cons last r =>
    have hrev : (last :: r).reverse.map (fun p => ({ head := head, tail := p } : line_t α))
        = (({ head := head, tail := last } : line_t α) ::
            r.map (fun p => ({ head := head, tail := p } : line_t α))).reverse := by
      simp [List.map_reverse]
    rw [hrev]
    unfold rerange_step
    rw [array_at_last]
    simp only [clock_direct_ne_zero, line_length, rtstep, array_append, array_pop_reverse_cons]
    split
    · simp [List.map_reverse]
    · split
      · simp [List.map_reverse]
      · simp [List.map_reverse]

theorem rerange_fold_rt {α : Type} (pt : α → point_t) (head : α) (ts : List α) :
    ∀ (rrt : List α), rrt ≠ [] →
      (ts.map (fun p => ({ head := head, tail := p } : line_t α))).foldl (rerange_step pt)
        (rrt.reverse.map (fun p => ({ head := head, tail := p } : line_t α))) =
      (ts.foldl (rtstep (pt head) pt) rrt).reverse.map
        (fun p => ({ head := head, tail := p } : line_t α)) := by
  induction ts with
  | nil => intro rrt _; rfl
  | cons t ts ih =>
    intro rrt hne
    simp only [List.map_cons, List.foldl_cons]
    rw [rerange_step_rt pt head rrt hne t]
    exact ih _ (rtstep_ne_nil _ pt rrt t hne)

theorem cross_collinear {o l a b : point_t} (hl : above o l) (h1 : cross o l a = 0)
    (h2 : cross o l b = 0) : cross o a b = 0 := by
  have e1 : (l.y - o.y) * cross o a b = (b.y - o.y) * cross o a l + (a.y - o.y) * cross o l b := by
    unfold cross; ring
  have e2 : (l.x - o.x) * cross o a b = (b.x - o.x) * cross o a l + (a.x - o.x) * cross o l b := by
    unfold cross; ring
  have h3 : cross o a l = 0 := by rw [cross_swap, h1]; simp
  rw [h3, h2] at e1 e2
  simp only [mul_zero, add_zero] at e1 e2
  rcases hl with hl | ⟨_, hl⟩
  · rcases mul_eq_zero.1 e1 with h | h
    · linarith
    · exact h
  · rcases mul_eq_zero.1 e2 with h | h
    · linarith
    · exact h

/-- The sweep keeps the tails sorted strictly by direction, and every processed tail
has among them one of its direction that is at least as far from the anchor. -/
theorem sweep_inv {α : Type} (o : point_t) (pt : α → point_t) (ts : List α) :
    ∀ (rrt proc : List α), rrt ≠ [] → (∀ x ∈ rrt, x ∈ proc) →
      (∀ x ∈ proc ++ ts, above o (pt x)) → rsorted o pt rrt →
      ts.Pairwise (fun a b => 0 ≤ cross o (pt a) (pt b)) →
      (∀ x ∈ proc, ∀ t ∈ ts, 0 ≤ cross o (pt x) (pt t)) →
      (∀ t ∈ proc, ∃ r ∈ rrt, cross o (pt r) (pt t) = 0 ∧
        point_dist o (pt t) ≤ point_dist o (pt r)) →
      ts.foldl (rtstep o pt) rrt ≠ [] ∧
      (∀ x ∈ ts.foldl (rtstep o pt) rrt, x ∈ proc ++ ts) ∧
      rsorted o pt (ts.foldl (rtstep o pt) rrt) ∧
      (∀ t ∈ proc ++ ts, ∃ r ∈ ts.foldl (rtstep o pt) rrt, cross o (pt r) (pt t) = 0 ∧
        point_dist o (pt t) ≤ point_dist o (pt r)) := by
  induction ts with
  | nil =>
    intro rrt proc hne hsub _ hs _ _ hcov
    simp only [List.foldl_nil, List.append_nil]
    exact ⟨hne, hsub, hs, hcov⟩
  | cons t ts ih =>
    intro rrt proc hne hsub hab hs hts hpt hcov
    obtain ⟨last, r, rfl⟩ : ∃ last r, rrt = last :: r := by
      cases rrt with
      | nil => exact absurd rfl hne
      | cons a l => exact ⟨a, l, rfl⟩
    have hts' := List.pairwise_cons.1 hts
    have hs' := List.pairwise_cons.1 hs
    have hlast_proc : last ∈ proc := hsub last (List.mem_cons_self _ _)
    have habt : above o (pt t) := hab t (by simp)
    have habl : above o (pt last) := hab last (by simp [hlast_proc])
    have hge : 0 ≤ cross o (pt last) (pt t) := hpt last hlast_proc t (List.mem_cons_self _ _)
    have hab' : ∀ x ∈ (proc ++ [t]) ++ ts, above o (pt x) := by
      intro x hx; apply hab; simpa using hx
    have hpt' : ∀ x ∈ proc ++ [t], ∀ t' ∈ ts, 0 ≤ cross o (pt x) (pt t') := by
      intro x hx t' ht'
      rcases List.mem_append.1 hx with hx | hx
      · exact hpt x hx t' (List.mem_cons_of_mem _ ht')
      · simp only [List.mem_singleton] at hx
        subst hx
        exact hts'.1 t' ht'
    have key : ∀ rrt', rrt' ≠ [] → (∀ x ∈ rrt', x ∈ proc ++ [t]) → rsorted o pt rrt' →
        (∀ t' ∈ proc ++ [t], ∃ r ∈ rrt', cross o (pt r) (pt t') = 0 ∧
          point_dist o (pt t') ≤ point_dist o (pt r)) →
        ts.foldl (rtstep o pt) rrt' ≠ [] ∧
        (∀ x ∈ ts.foldl (rtstep o pt) rrt', x ∈ proc ++ t :: ts) ∧
        rsorted o pt (ts.foldl (rtstep o pt) rrt') ∧
        (∀ t' ∈ proc ++ t :: ts, ∃ r ∈ ts.foldl (rtstep o pt) rrt', cross o (pt r) (pt t') = 0 ∧
          point_dist o (pt t') ≤ point_dist o (pt r)) := fun rrt' h1 h2 h3 h4 => by
      have := ih rrt' (proc ++ [t]) h1 h2 hab' h3 hts'.2 hpt' h4
      simpa using this
    simp only [List.foldl_cons]
    by_cases hc : cross o (pt t) (pt last) ≠ 0
    · have hstep : rtstep o pt (last :: r) t = t :: last :: r := by simp [rtstep, hc]
      have hgt : 0 < cross o (pt last) (pt t) := by
        rcases lt_or_eq_of_le hge with h | h
        · exact h
        · exfalso; apply hc; rw [cross_swap, ← h]; simp
      rw [hstep]
      apply key (t :: last :: r) (by simp)
      · intro x hx
        rcases List.mem_cons.1 hx with rfl | hx
        · simp
        · exact List.mem_append_left _ (hsub x hx)
      · refine List.pairwise_cons.2 ⟨?_, hs⟩
        intro a ha
        rcases List.mem_cons.1 ha with rfl | ha
        · exact hgt
        · exact cross_trans_gt_left (hab a (by simp [hsub a (List.mem_cons_of_mem _ ha)]))
            habl habt (hs'.1 a ha) (le_of_lt hgt)
      · intro t' ht'
        rcases List.mem_append.1 ht' with ht' | ht'
        · obtain ⟨x, hx, hx1, hx2⟩ := hcov t' ht'
          exact ⟨x, List.mem_cons_of_mem _ hx, hx1, hx2⟩
        · simp only [List.mem_singleton] at ht'
          subst ht'
          exact ⟨t', List.mem_cons_self _ _, cross_self_right _ _, le_refl _⟩
    · have hc0 : cross o (pt t) (pt last) = 0 := not_not.1 hc
      have hc1 : cross o (pt last) (pt t) = 0 := by rw [cross_swap, hc0]; simp
      by_cases hd : point_dist o (pt last) < point_dist o (pt t)
      · have hstep : rtstep o pt (last :: r) t = t :: r := by simp [rtstep, hc0, hd]
        rw [hstep]
        apply key (t :: r) (by simp)
        · intro x hx
          rcases List.mem_cons.1 hx with rfl | hx
          · simp
          · exact List.mem_append_left _ (hsub x (List.mem_cons_of_mem _ hx))
        · refine List.pairwise_cons.2 ⟨?_, hs'.2⟩
          intro a ha
          exact cross_trans_gt_left (hab a (by simp [hsub a (List.mem_cons_of_mem _ ha)]))
            habl habt (hs'.1 a ha) hge
        · intro t' ht'
          rcases List.mem_append.1 ht' with ht' | ht'
          · obtain ⟨x, hx, hx1, hx2⟩ := hcov t' ht'
            rcases List.mem_cons.1 hx with rfl | hx
            · exact ⟨t, List.mem_cons_self _ _, cross_collinear habl hc1 hx1, by linarith⟩
            · exact ⟨x, List.mem_cons_of_mem _ hx, hx1, hx2⟩
          · simp only [List.mem_singleton] at ht'
            subst ht'
            exact ⟨t', List.mem_cons_self _ _, cross_self_right _ _, le_refl _⟩
      · have hstep : rtstep o pt (last :: r) t = last :: r := by simp [rtstep, hc0, hd]
        rw [hstep]
        apply key (last :: r) (by simp) ?_ hs
        · intro t' ht'
          rcases List.mem_append.1 ht' with ht' | ht'
          · exact hcov t' ht'
          · simp only [List.mem_singleton] at ht'
            subst ht'
            exact ⟨last, List.mem_cons_self _ _, hc1, not_lt.1 hd⟩
        · intro x hx
          exact List.mem_append_left _ (hsub x hx)

/-- The comparator of `rerange` is consistent on lines from one head to points above it. -/
theorem cmp_line_consistent {α : Type} (pt : α → point_t) (head : α) (others : List α)
    (hab : ∀ p ∈ others, above (pt head) (pt p)) :
    Consistent (cmp_line pt)
      (others.map (fun p => ({ head := head, tail := p } : line_t α))) := by
  constructor
  · intro a ha b hb
    obtain ⟨pa, _, rfl⟩ := List.mem_map.1 ha
    obtain ⟨pb, _, rfl⟩ := List.mem_map.1 hb
    rw [cmp_line_lt, cmp_line_gt]
    simp only
    rw [cross_swap (pt head) (pt pb) (pt pa)]
    constructor <;> intro h <;> linarith
  · intro a ha b hb c hc
    obtain ⟨pa, hpa, rfl⟩ := List.mem_map.1 ha
    obtain ⟨pb, hpb, rfl⟩ := List.mem_map.1 hb
    obtain ⟨pc, hpc, rfl⟩ := List.mem_map.1 hc
    simp only [cmp_line_le]
    exact cross_trans_ge (hab pa hpa) (hab pb hpb) (hab pc hpc)

/-- What `rerange` computes from the sorted tails. -/
theorem rerange_eq {α : Type} (libc : Libc) (pt : α → point_t) (points : List α) (head : α)
    (hget : points.get? (min_index pt points) = some head) :
    ∃ ts, ts.Perm (points.take (min_index pt points) ++ points.drop (min_index pt points + 1)) ∧
      libc.qsort (cmp_line pt) ((points.take (min_index pt points) ++
        points.drop (min_index pt points + 1)).map
          (fun p => ({ head := head, tail := p } : line_t α))) =
        ts.map (fun p => ({ head := head, tail := p } : line_t α)) ∧
      rerange libc pt points = match ts with
        | [] => [head]
        | t0 :: ts' => head :: (ts'.foldl (rtstep (pt head) pt) [t0]).reverse := by
  let mk : α → line_t α := fun p => ({ head := head, tail := p } : line_t α)
  let others := points.take (min_index pt points) ++ points.drop (min_index pt points + 1)
  let sorted := libc.qsort (cmp_line pt) (others.map mk)
  have hperm : sorted.Perm (others.map mk) := libc.qsort_perm _ _
  have hmk : ∀ l ∈ sorted, mk l.tail = l := by
    intro l hl
    obtain ⟨p, _, rfl⟩ := List.mem_map.1 (hperm.subset hl)
    rfl
  have hs : sorted = (sorted.map (fun l => l.tail)).map mk := by
    rw [List.map_map]
    conv => lhs; rw [← List.map_id sorted]
    exact List.map_congr_left (fun l hl => (hmk l hl).symm)
  refine ⟨sorted.map (fun l => l.tail), ?_, hs, ?_⟩
  · have := hperm.map (fun l => l.tail)
    simpa [List.map_map, mk, Function.comp_def] using this
  · unfold rerange
    simp only [hget]
    show (match sorted with
      | [] => [head]
      | l0 :: rest => head :: ((rest.foldl (rerange_step pt) [l0]).map (fun (l : line_t α) => l.tail))) = _
    generalize hts : sorted.map (fun l => l.tail) = ts at hs
    rw [hs]
    cases ts with
    | nil => rfl
    | cons t0 ts' =>
      simp only [List.map_cons]
      have := rerange_fold_rt pt head ts' [t0] (by simp)
      simp only [List.reverse_singleton, List.map_singleton] at this
      rw [this, List.map_map]
      simp [Function.comp_def]

theorem split_at_index {α : Type} (l : List α) (i : Nat) (a : α) (h : l.get? i = some a) :
    l = l.take i ++ a :: l.drop (i + 1) := by
  rw [List.get?_eq_getElem?] at h
  obtain ⟨hi, rfl⟩ := List.getElem?_eq_some_iff.1 h
  rw [← List.drop_eq_getElem_cons hi, List.take_append_drop]

/-- `rerange` on points with pairwise distinct coordinates returns the anchor, then
tails sorted strictly by direction; every other point has among the tails one of its
direction that is at least as far from the anchor. -/
theorem rerange_spec {α : Type} (libc : Libc) (pt : α → point_t) (points : List α)
    (hlen : 2 ≤ points.length) (hd : (points.map pt).Nodup) :
    ∃ head tails, rerange libc pt points = head :: tails ∧
      points.get? (min_index pt points) = some head ∧
      (∀ p ∈ points, lex_le (pt head) (pt p)) ∧ tails ≠ [] ∧
      (∀ t ∈ tails, t ∈ points ∧ above (pt head) (pt t)) ∧
      tails.Pairwise (fun a b => 0 < cross (pt head) (pt a) (pt b)) ∧
      (∀ p ∈ points, p = head ∨ ∃ t ∈ tails, cross (pt head) (pt t) (pt p) = 0 ∧
        point_dist (pt head) (pt p) ≤ point_dist (pt head) (pt t)) := by
  obtain ⟨head, hget, hmi, hmin⟩ := min_index_spec pt points (by
    intro h; rw [h] at hlen; simp at hlen)
  obtain ⟨ts, hperm, hsorted, hre⟩ := rerange_eq libc pt points head hget
  have hsplit := split_at_index points _ head hget
  generalize hoth : points.take (min_index pt points) ++ points.drop (min_index pt points + 1)
    = others at hperm hsorted
  have hd' : (pt head :: others.map pt).Nodup := by
    rw [hsplit] at hd
    rw [List.map_append, List.map_cons] at hd
    have := List.nodup_middle.1 hd
    rw [← hoth, List.map_append]
    exact this
  have hoth_mem : ∀ p ∈ others, p ∈ points ∧ above (pt head) (pt p) := by
    intro p hp
    have hp' : p ∈ points := by
      rw [hsplit]
      rw [← hoth] at hp
      rcases List.mem_append.1 hp with h | h
      · exact List.mem_append_left _ h
      · exact List.mem_append_right _ (List.mem_cons_of_mem _ h)
    refine ⟨hp', above_of_lex_le (hmin p hp') ?_⟩
    intro heq
    exact (List.nodup_cons.1 hd').1 (heq ▸ List.mem_map_of_mem pt hp)
  have hmem_pts : ∀ p ∈ points, p = head ∨ p ∈ others := by
    intro p hp
    rw [hsplit] at hp
    rw [← hoth]
    rcases List.mem_append.1 hp with h | h
    · exact Or.inr (List.mem_append_left _ h)
    · rcases List.mem_cons.1 h with h | h
      · exact Or.inl h
      · exact Or.inr (List.mem_append_right _ h)
  have hts_mem : ∀ t ∈ ts, t ∈ points ∧ above (pt head) (pt t) :=
    fun t ht => hoth_mem t (hperm.subset ht)
  have hcons := cmp_line_consistent pt head others (fun p hp => (hoth_mem p hp).2)
  have hpw := libc.qsort_sorted (cmp_line pt) _ hcons
  rw [hsorted, List.pairwise_map] at hpw
  simp only [cmp_line_le] at hpw
  have hlen_ts : ts.length = points.length - 1 := by
    rw [hperm.length_eq, ← hoth, List.length_append, List.length_take, List.length_drop]
    omega
  cases ts with
  | nil => simp at hlen_ts; omega
  | cons t0 ts' =>
    simp only at hre
    have hpw' := List.pairwise_cons.1 hpw
    obtain ⟨r1, r2, r3, r4⟩ := sweep_inv (pt head) pt ts' [t0] [t0] (by simp) (fun x hx => hx)
      (fun x hx => (hts_mem x (by simpa using hx)).2) (by simp [rsorted]) hpw'.2
      (fun x hx t ht => by
        simp only [List.mem_singleton] at hx
        subst hx
        exact hpw'.1 t ht)
      (fun t ht => by
        simp only [List.mem_singleton] at ht
        subst ht
        exact ⟨t, List.mem_singleton_self _, cross_self_right _ _, le_refl _⟩)
    refine ⟨head, _, hre, hget, hmin, by simpa using r1, ?_, ?_, ?_⟩
    · intro t ht
      exact hts_mem t (by simpa using r2 t (List.mem_reverse.1 ht))
    · rw [List.pairwise_reverse]
      exact r3
    · intro p hp
      rcases hmem_pts p hp with h | h
      · exact Or.inl h
      · right
        obtain ⟨r, hr, hr1, hr2⟩ := r4 p (by simpa using hperm.symm.subset h)
        exact ⟨r, List.mem_reverse.2 hr, hr1, hr2⟩

/-- The shape of the result of `convex_hulls` on more than three points with pairwise
distinct coordinates: the anchor, then a stack (here top first) that is sorted by
direction and convex, and that houses a point of the direction of every other input
point, at least as far from the anchor. -/
theorem convex_hulls_distinct {α : Type} (libc : Libc) (pt : α → point_t) (points : List α)
    (hlen : 3 < points.length) (hd : (points.map pt).Nodup) :
    ∃ head R, convex_hulls libc pt points = some (head :: R.reverse) ∧ R ≠ [] ∧
      (∀ p ∈ points, lex_le (pt head) (pt p)) ∧ head ∈ points ∧
      (∀ x ∈ R, x ∈ points ∧ above (pt head) (pt x)) ∧
      rsorted (pt head) pt R ∧ rccw pt R ∧
      (∀ p ∈ points, p = head ∨ ∃ t, above (pt head) (pt t) ∧
        cross (pt head) (pt t) (pt p) = 0 ∧
        point_dist (pt head) (pt p) ≤ point_dist (pt head) (pt t) ∧
        (R = [t] ∨ housed (pt head) pt (pt t) R)) := by
  obtain ⟨head, tails, hre, hget, hmin, hne, htl, hpw, hcov⟩ :=
    rerange_spec libc pt points (by omega) hd
  have hhead : head ∈ points := List.get?_mem hget
  have hif : ¬ points.length ≤ 3 := by omega
  cases tails with
  | nil => exact absurd rfl hne
  | cons p1 tl =>
    cases tl with
    | nil =>
      refine ⟨head, [p1], by unfold convex_hulls; rw [if_neg hif, hre]; rfl, by simp, hmin,
        hhead, ?_, by simp [rsorted], by simp [rccw], ?_⟩
      · intro x hx
        simp only [List.mem_singleton] at hx
        subst hx
        exact htl x (List.mem_singleton_self _)
      · intro p hp
        rcases hcov p hp with h | ⟨t, ht, h1, h2⟩
        · exact Or.inl h
        · simp only [List.mem_singleton] at ht
          subst ht
          exact Or.inr ⟨t, (htl t (List.mem_singleton_self _)).2, h1, h2, Or.inl rfl⟩
    | cons p2 rest =>
      have hpw1 := List.pairwise_cons.1 hpw
      have hpw2 := List.pairwise_cons.1 hpw1.2
      have h12 : 0 < cross (pt head) (pt p1) (pt p2) := hpw1.1 p2 (List.mem_cons_self _ _)
      have hloop := scan_loop_gscan pt head rest [p2, p1] (by simp) (fun q hq => by
        have : 0 < cross (pt head) (pt p1) (pt q) :=
          hpw1.1 q (List.mem_cons_of_mem _ hq)
        simpa [is_left_turn] using this)
      have hrs : rsorted (pt head) pt [p2, p1] := by
        simp [rsorted, h12]
      obtain ⟨r1, r2, r3, r4, r5, _⟩ := gscan_inv (pt head) pt rest [p2, p1] (by simp) hrs hpw2.2
        (fun x hx q hq => by
          simp only [List.mem_cons, List.mem_singleton, List.not_mem_nil, or_false] at hx
          rcases hx with rfl | rfl
          · exact hpw2.1 q hq
          · exact hpw1.1 q (List.mem_cons_of_mem _ hq))
        (by simp [rccw])
      have hsub : ∀ x ∈ gscan pt [p2, p1] rest, x ∈ p1 :: p2 :: rest := by
        intro x hx
        rcases r5 x hx with h | h
        · simp only [List.mem_cons, List.mem_singleton, List.not_mem_nil, or_false] at h
          rcases h with rfl | rfl <;> simp
        · simp [h]
      refine ⟨head, gscan pt [p2, p1] rest, ?_, r1, hmin, hhead, fun x hx => htl x (hsub x hx),
        r2, r3, ?_⟩
      · unfold convex_hulls
        rw [if_neg hif, hre]
        simp only
        have : [head, p1, p2] = ([p2, p1] ++ [head]).reverse := by simp
        rw [this, hloop]
        simp
      · intro p hp
        rcases hcov p hp with h | ⟨t, ht, h1, h2⟩
        · exact Or.inl h
        · refine Or.inr ⟨t, (htl t ht).2, h1, h2, Or.inr (r4 _ ?_)⟩
          rcases List.mem_cons.1 ht with rfl | ht
          · left
            rw [housed_cons]
            exact Or.inl (in_tri_self_left h12)
          · rcases List.mem_cons.1 ht with rfl | ht
            · left
              rw [housed_cons]
              exact Or.inl (in_tri_self h12)
            · exact Or.inr ⟨t, ht, rfl⟩

/-! ## Claims on the convex hull -/

theorem hs_linked_congr {κ : Type} (s1 s2 : hashset_t κ) (chain : List Nat) :
    ∀ prev, (∀ b ∈ chain, (s2.slotlists b).pre = (s1.slotlists b).pre ∧
        (s2.slotlists b).next = (s1.slotlists b).next) → hs_linked s1 prev chain →
      hs_linked s2 prev chain := by
  induction chain with
  | nil => intro _ _ _; trivial
  | cons b rest ih =>
    intro prev h hl
    obtain ⟨h1, h2, h3⟩ := hl
    refine ⟨?_, ?_, ih (some b) (fun x hx => h x (List.mem_cons_of_mem _ hx)) h3⟩
    · rw [(h b (List.mem_cons_self _ _)).1]; exact h1
    · rw [(h b (List.mem_cons_self _ _)).2]; exact h2

theorem chain_from_linked {κ : Type} (set : hashset_t κ) (chain : List Nat) :
    ∀ prev fuel, chain.length ≤ fuel → hs_linked set prev chain →
      chain_from set fuel chain.head? = chain := by
  induction chain with
  | nil => intro _ fuel _ _; cases fuel <;> rfl
  | cons b rest ih =>
    intro prev fuel hf hl
    obtain ⟨f, rfl⟩ : ∃ f, fuel = f + 1 := ⟨fuel - 1, by simp at hf; omega⟩
    obtain ⟨_, h2, h3⟩ := hl
    simp only [List.head?_cons, chain_from, h2]
    rw [ih (some b) f (by simp at hf; omega) h3]

theorem nodup_length_le {chain : List Nat} {n : Nat} (hn : chain.Nodup)
    (hlt : ∀ b ∈ chain, b < n) : chain.length ≤ n := by
  have h := List.Nodup.length_le_card (α := Fin n)
    (l := chain.pmap (fun b hb => (⟨b, hb⟩ : Fin n)) hlt)
    (hn.pmap (fun a _ b _ hab => by simpa using hab))
  simpa using h

theorem hs_wf_chain {κ : Type} {set : hashset_t κ} {chain : List Nat} (h : hs_wf set chain) :
    chain_from set set.slotlists_n set.non_null = chain := by
  rw [h.head]
  exact chain_from_linked set chain none _ (nodup_length_le h.nodup h.lt) h.linked

theorem hs_wf_to_list {κ : Type} {set : hashset_t κ} {chain : List Nat}
    (h : hs_wf set chain) :
    hashset_to_list set = chain.flatMap (fun b => (set.slotlists b).list) := by
  unfold hashset_to_list
  rw [hs_wf_chain h]

theorem hs_wf_create {κ : Type} (init_size : Nat) (hash : κ → Nat) :
    hs_wf (hashset_create init_size hash) [] := by
  refine ⟨?_, List.nodup_nil, by simp, rfl, trivial, fun _ _ => rfl, by simp, ?_, ?_, rfl⟩
  · unfold hashset_create DEFAULT_CAPACITY
    simp only
    split <;> omega
  · intro b k hk
    simp [hashset_create] at hk
  · intro b
    simp [hashset_create]

theorem hs_mem_to_list {κ : Type} {set : hashset_t κ} {chain : List Nat}
    (h : hs_wf set chain) (k : κ) :
    k ∈ hashset_to_list set ↔
      k ∈ (set.slotlists (set.hash k % set.slotlists_n)).list := by
  rw [hs_wf_to_list h, List.mem_flatMap]
  constructor
  · rintro ⟨b, _, hk⟩
    rw [h.hashed b k hk]
    exact hk
  · intro hk
    refine ⟨_, ?_, hk⟩
    by_contra hb
    rw [h.out _ hb] at hk
    simp at hk

theorem hs_contains_iff {κ : Type} [DecidableEq κ] {set : hashset_t κ} (h : hs_ok set)
    (k : κ) : hashset_contains set k = true ↔ k ∈ hashset_to_list set := by
  obtain ⟨chain, hw⟩ := h
  rw [hs_mem_to_list hw]
  simp [hashset_contains]

theorem hs_to_list_nodup {κ : Type} {set : hashset_t κ} (h : hs_ok set) :
    (hashset_to_list set).Nodup := by
  obtain ⟨chain, hw⟩ := h
  rw [hs_wf_to_list hw, List.nodup_flatMap]
  refine ⟨fun b _ => hw.items_nodup b, ?_⟩
  refine hw.nodup.imp_of_mem ?_
  intro a b ha hb hab
  simp only [Function.onFun, List.disjoint_left]
  intro k hka hkb
  exact hab ((hw.hashed a k hka).symm.trans (hw.hashed b k hkb))

theorem hs_size_eq {κ : Type} {set : hashset_t κ} (h : hs_ok set) :
    hashset_size set = (hashset_to_list set).length := by
  obtain ⟨chain, hw⟩ := h
  rw [hs_wf_to_list hw, List.length_flatMap]
  exact hw.size_eq

theorem set_slot_slotlists {κ : Type} (set : hashset_t κ) (b : Nat) (s : slotlist_t κ)
    (i : Nat) : (set.set_slot b s).slotlists i = if i = b then s else set.slotlists i := rfl

/-- The state after `hashset_add` of an item that is not in the set. -/
theorem hs_wf_add_new {κ : Type} [DecidableEq κ] {set : hashset_t κ} {chain : List Nat}
    (h : hs_wf set chain) (k : κ)
    (hk : k ∉ (set.slotlists (set.hash k % set.slotlists_n)).list) :
    ∃ chain', hs_wf (hashset_add set k).2 chain' ∧ (hashset_add set k).1 = 0 ∧
      (hashset_add set k).2.hash = set.hash ∧
      (hashset_add set k).2.slotlists_n = set.slotlists_n ∧
      ∀ i, ((hashset_add set k).2.slotlists i).list =
        if i = set.hash k % set.slotlists_n then
          (set.slotlists (set.hash k % set.slotlists_n)).list ++ [k]
        else (set.slotlists i).list := by
  generalize hb : set.hash k % set.slotlists_n = b at hk
  have hblt : b < set.slotlists_n := by rw [← hb]; exact Nat.mod_lt _ h.npos
  by_cases hmem : b ∈ chain
  · -- the bucket has items already
    have hne := h.nonempty b hmem
    obtain ⟨hd, rest, hchain⟩ : ∃ hd rest, chain = hd :: rest := by
      cases chain with
      | nil => simp at hmem
      | cons a l => exact ⟨a, l, rfl⟩
    have hnn : set.non_null = some hd := by rw [h.head, hchain]; rfl
    have hform : hashset_add set k =
        (0, { (set.set_slot b { set.slotlists b with list := (set.slotlists b).list ++ [k] }) with
              size := set.size + 1 }) := by
      unfold hashset_add
      simp only [hb, hk, if_false]
      have : (set.slotlists b).list.isEmpty = false := by
        cases hl : (set.slotlists b).list with
        | nil => exact absurd hl hne
        | cons a l => rfl
      simp [hashset_t.set_slot, hnn, this]
    rw [hform]
    refine ⟨chain, ⟨h.npos, h.nodup, h.lt, h.head, ?_, ?_, ?_, ?_, ?_, ?_⟩, rfl, rfl, rfl, ?_⟩
    · refine hs_linked_congr set _ chain none ?_ h.linked
      intro i _
      simp only [set_slot_slotlists]
      split
      · rename_i hib; rw [hib]; exact ⟨rfl, rfl⟩
      · exact ⟨rfl, rfl⟩
    · intro i hi
      have hib : i ≠ b := fun e => hi (e ▸ hmem)
      simp only [set_slot_slotlists, if_neg hib]
      exact h.out i hi
    · intro i hi
      simp only [set_slot_slotlists]
      split
      · simp
      · exact h.nonempty i hi
    · intro i x hx
      simp only [set_slot_slotlists] at hx
      split at hx
      · rename_i hib
        simp only [List.mem_append, List.mem_singleton] at hx
        rcases hx with hx | rfl
        · rw [hib]; exact h.hashed b x hx
        · rw [hib]; exact hb
      · exact h.hashed i x hx
    · intro i
      simp only [set_slot_slotlists]
      split
      · exact List.Nodup.append (h.items_nodup b) (List.nodup_singleton k)
          (by simpa [List.disjoint_left] using hk)
      · exact h.items_nodup i
    · simp only [set_slot_slotlists]
      rw [h.size_eq]
      obtain ⟨p1, p2, hsplit⟩ := List.append_of_mem hmem
      have hnd := h.nodup
      rw [hsplit] at hnd ⊢
      have hb1 : b ∉ p1 := fun hx => by
        have := List.nodup_append.1 hnd
        exact this.2.2 hx (List.mem_cons_self _ _)
      have hb2 : b ∉ p2 := by
        have := (List.nodup_append.1 hnd).2.1
        exact (List.nodup_cons.1 this).1
      have e1 : ∀ l : List Nat, b ∉ l →
          (l.map (fun i => (if i = b then
            ({ set.slotlists b with list := (set.slotlists b).list ++ [k] } : slotlist_t κ)
            else set.slotlists i).list.length)) =
          l.map (fun i => (set.slotlists i).list.length) := by
        intro l hl
        apply List.map_congr_left
        intro i hi
        have : i ≠ b := fun e => hl (e ▸ hi)
        simp [this]
      simp only [List.map_append, List.map_cons, List.sum_append, List.sum_cons, e1 p1 hb1,
        e1 p2 hb2, if_true, List.length_append, List.length_singleton]
      omega
    · intro i
      simp only [set_slot_slotlists]
      split <;> rfl
  · -- a blank bucket
    have hblank := h.out b hmem
    have hlist : (set.slotlists b).list = [] := by rw [hblank]
    have hsum : ∀ (f : Nat → slotlist_t κ), (∀ i ∈ chain, (f i).list = (set.slotlists i).list) →
        (chain.map (fun i => (f i).list.length)).sum = set.size := by
      intro f hf
      rw [h.size_eq]
      congr 1
      exact List.map_congr_left (fun i hi => by rw [hf i hi])
    cases hchain : chain with
    | nil =>
      have hnn : set.non_null = none := by rw [h.head, hchain]; rfl
      have hform : hashset_add set k =
          (0, { (set.set_slot b { list := [k], pre := none, next := none }) with
                non_null := some b, size := set.size + 1 }) := by
        unfold hashset_add
        simp only [hb, hk, if_false]
        simp [hashset_t.set_slot, hnn, hblank]
      rw [hform]
      refine ⟨[b], ⟨h.npos, List.nodup_singleton b, by simpa using hblt, rfl, ?_, ?_, ?_, ?_, ?_,
        ?_⟩, rfl, rfl, rfl, ?_⟩
      · simp [hs_linked, set_slot_slotlists]
      · intro i hi
        have hib : i ≠ b := by simpa using hi
        simp only [set_slot_slotlists, if_neg hib]
        exact h.out i (by rw [hchain]; simp)
      · intro i hi
        have hib : i = b := by simpa using hi
        simp [set_slot_slotlists, hib]
      · intro i x hx
        simp only [set_slot_slotlists] at hx
        split at hx
        · rename_i hib
          simp only [List.mem_singleton] at hx
          rw [hib, hx]; exact hb
        · exact h.hashed i x hx
      · intro i
        simp only [set_slot_slotlists]
        split
        · exact List.nodup_singleton k
        · exact h.items_nodup i
      · have := h.size_eq
        rw [hchain] at this
        simp only [List.map_nil, List.sum_nil] at this
        simp [set_slot_slotlists, this]
      · intro i
        simp only [set_slot_slotlists, hlist, List.nil_append]
        split <;> rfl
    | cons hd rest =>
      have hnn : set.non_null = some hd := by rw [h.head, hchain]; rfl
      have hhd : hd ≠ b := fun e => hmem (by rw [hchain, e]; exact List.mem_cons_self _ _)
      have hform : hashset_add set k =
          (0, { ((set.set_slot b { list := [k], pre := none, next := none }).set_slot hd
                  { set.slotlists hd with pre := some b }).set_slot b
                  { list := [k], pre := none, next := some hd } with
                non_null := some b, size := set.size + 1 }) := by
        unfold hashset_add
        simp only [hb, hk, if_false]
        simp [hashset_t.set_slot, hnn, hblank, hhd, Ne.symm hhd]
      rw [hform]
      have hl := h.linked
      rw [hchain] at hl
      obtain ⟨l1, l2, l3⟩ := hl
      have hnd := h.nodup
      rw [hchain] at hnd
      have hmem' : b ∉ hd :: rest := by rw [← hchain]; exact hmem
      refine ⟨b :: hd :: rest, ⟨h.npos, List.nodup_cons.2 ⟨hmem', hnd⟩, ?_, rfl, ?_, ?_, ?_, ?_,
        ?_, ?_⟩, rfl, rfl, rfl, ?_⟩
      · intro i hi
        rcases List.mem_cons.1 hi with rfl | hi
        · exact hblt
        · exact h.lt i (by rw [hchain]; exact hi)
      · refine ⟨by simp [set_slot_slotlists], by simp [set_slot_slotlists], ?_, ?_, ?_⟩
        · simp [set_slot_slotlists, hhd]
        · simp [set_slot_slotlists, hhd, l2]
        · refine hs_linked_congr set _ rest (some hd) ?_ l3
          intro i hi
          have h1 : i ≠ b := fun e => hmem' (e ▸ List.mem_cons_of_mem _ hi)
          have h2 : i ≠ hd := fun e => (List.nodup_cons.1 hnd).1 (e ▸ hi)
          simp [set_slot_slotlists, h1, h2]
      · intro i hi
        have h1 : i ≠ b := fun e => hi (e ▸ List.mem_cons_self _ _)
        have h2 : i ≠ hd := fun e => hi (e ▸ List.mem_cons_of_mem _ (List.mem_cons_self _ _))
        simp only [set_slot_slotlists, if_neg h1, if_neg h2]
        exact h.out i (by rw [hchain]; exact fun hx => hi (List.mem_cons_of_mem _ hx))
      · intro i hi
        simp only [set_slot_slotlists]
        split
        · simp
        · split
          · exact h.nonempty hd (by rw [hchain]; exact List.mem_cons_self _ _)
          · rename_i h1 h2
            rcases List.mem_cons.1 hi with hi | hi
            · exact absurd hi h1
            · exact h.nonempty i (by rw [hchain]; exact hi)
      · intro i x hx
        simp only [set_slot_slotlists] at hx
        split at hx
        · rename_i hib
          simp only [List.mem_singleton] at hx
          rw [hib, hx]; exact hb
        · split at hx
          · rename_i h1 h2
            rw [h2]; exact h.hashed hd x hx
          · exact h.hashed i x hx
      · intro i
        simp only [set_slot_slotlists]
        split
        · exact List.nodup_singleton k
        · split
          · exact h.items_nodup hd
          · exact h.items_nodup i
      · have hs := hsum (fun i => (((set.set_slot b { list := [k], pre := none, next := none }).set_slot hd
                  { set.slotlists hd with pre := some b }).set_slot b
                  { list := [k], pre := none, next := some hd }).slotlists i) (by
          intro i hi
          have h1 : i ≠ b := fun e => hmem (e ▸ hi)
          simp only [set_slot_slotlists, if_neg h1]
          split
          · rename_i h2; rw [h2]
          · rfl)
        rw [hchain] at hs
        simp only [List.map_cons, List.sum_cons] at hs ⊢
        rw [hs]
        simp [set_slot_slotlists]
        omega
      · intro i
        simp only [set_slot_slotlists, hlist, List.nil_append]
        split
        · rfl
        · split
          · rename_i h1 h2; rw [h2]
          · rfl

/-- `hashset_add` keeps the state well-formed, adds the item to the items of the set, and
returns `0` exactly when the item was not in the set. -/
theorem hs_add_spec {κ : Type} [DecidableEq κ] {set : hashset_t κ} (h : hs_ok set) (k : κ) :
    hs_ok (hashset_add set k).2 ∧ (hashset_add set k).2.hash = set.hash ∧
    (∀ x, x ∈ hashset_to_list (hashset_add set k).2 ↔ x = k ∨ x ∈ hashset_to_list set) ∧
    ((hashset_add set k).1 = 0 ↔ k ∉ hashset_to_list set) := by
  obtain ⟨chain, hw⟩ := h
  by_cases hk : k ∈ (set.slotlists (set.hash k % set.slotlists_n)).list
  · have hform : hashset_add set k = (-1, set) := by
      unfold hashset_add
      simp [hk]
    have hmem : k ∈ hashset_to_list set := (hs_mem_to_list hw k).2 hk
    rw [hform]
    refine ⟨⟨chain, hw⟩, rfl, ?_, ?_⟩
    · intro x
      constructor
      · exact Or.inr
      · rintro (rfl | h)
        · exact hmem
        · exact h
    · simp [hmem]
  · obtain ⟨chain', hw', h0, hh, hn, hl⟩ := hs_wf_add_new hw k hk
    refine ⟨⟨chain', hw'⟩, hh, ?_, ?_⟩
    · intro x
      rw [hs_mem_to_list hw', hs_mem_to_list hw, hh, hn, hl]
      split
      · rename_i hx
        rw [hx]
        simp only [List.mem_append, List.mem_singleton]
        constructor
        · rintro (h | h)
          · exact Or.inr h
          · exact Or.inl h
        · rintro (h | h)
          · exact Or.inr h
          · exact Or.inl h
      · rename_i hx
        constructor
        · exact Or.inr
        · rintro (h | h)
          · exact absurd (by rw [h]) hx
          · exact h
    · rw [h0, hs_mem_to_list hw]
      simp [hk]

/-- `hashset_remove_all` leaves a well-formed empty set. -/
theorem hs_remove_all_spec {κ : Type} {set : hashset_t κ} (h : hs_ok set) :
    hs_ok (hashset_remove_all set) ∧ hashset_to_list (hashset_remove_all set) = [] ∧
    (hashset_remove_all set).hash = set.hash := by
  obtain ⟨chain, hw⟩ := h
  have hwf : hs_wf (hashset_remove_all set) [] := by
    unfold hashset_remove_all
    rw [hs_wf_chain hw]
    refine ⟨hw.npos, List.nodup_nil, by simp, rfl, trivial, ?_, by simp, ?_, ?_, rfl⟩
    · intro b _
      simp only
      split
      · rfl
      · rename_i hb; exact hw.out b hb
    · intro b k hk
      simp only at hk
      split at hk
      · simp at hk
      · exact hw.hashed b k hk
    · intro b
      simp only
      split
      · exact List.nodup_nil
      · exact hw.items_nodup b
  refine ⟨⟨[], hwf⟩, ?_, rfl⟩
  rw [hs_wf_to_list hwf]
  rfl

/-- `hashset_add_all` keeps the state well-formed and adds the items. -/
theorem hs_add_all_spec {κ : Type} [DecidableEq κ] (items : List κ) :
    ∀ {set : hashset_t κ}, hs_ok set →
      hs_ok (hashset_add_all set items) ∧ (hashset_add_all set items).hash = set.hash ∧
      (∀ x, x ∈ hashset_to_list (hashset_add_all set items) ↔
        x ∈ items ∨ x ∈ hashset_to_list set) := by
  induction items with
  | nil => intro set h; exact ⟨h, rfl, fun x => by simp [hashset_add_all]⟩
  | cons k items ih =>
    intro set h
    obtain ⟨h1, h2, h3, _⟩ := hs_add_spec h k
    obtain ⟨i1, i2, i3⟩ := ih h1
    have e : hashset_add_all set (k :: items) = hashset_add_all (hashset_add set k).2 items := rfl
    rw [e]
    refine ⟨i1, i2.trans h2, ?_⟩
    intro x
    rw [i3, h3, List.mem_cons]
    tauto

theorem flatMap_congr_list {κ : Type} (chain : List Nat) (f g : Nat → slotlist_t κ)
    (h : ∀ b ∈ chain, (f b).list = (g b).list) :
    chain.flatMap (fun b => (f b).list) = chain.flatMap (fun b => (g b).list) := by
  induction chain with
  | nil => rfl
  | cons a l ih =>
    simp only [List.flatMap_cons]
    rw [h a (List.mem_cons_self _ _), ih (fun b hb => h b (List.mem_cons_of_mem _ hb))]

theorem sum_congr_list {κ : Type} (chain : List Nat) (f g : Nat → slotlist_t κ)
    (h : ∀ b ∈ chain, (f b).list = (g b).list) :
    (chain.map (fun b => (f b).list.length)).sum = (chain.map (fun b => (g b).list.length)).sum := by
  congr 1
  exact List.map_congr_left (fun b hb => by rw [h b hb])

/-- `hashset_pop` on a well-formed state: it fails exactly on the empty set, and else
takes out the first item of `hashset_to_list`. -/
theorem hs_pop_spec {κ : Type} {set : hashset_t κ} (h : hs_ok set) :
    (hashset_to_list set = [] ∧ hashset_pop set = none) ∨
    (∃ k rest set', hashset_to_list set = k :: rest ∧ hashset_pop set = some (k, set') ∧
      hs_ok set' ∧ hashset_to_list set' = rest ∧ set'.hash = set.hash) := by
  obtain ⟨chain, hw⟩ := h
  cases hchain : chain with
  | nil =>
    left
    have hnn : set.non_null = none := by rw [hw.head, hchain]; rfl
    refine ⟨by rw [hs_wf_to_list hw, hchain]; rfl, ?_⟩
    unfold hashset_pop
    rw [hnn]
  | cons hd tl =>
    right
    have hnn : set.non_null = some hd := by rw [hw.head, hchain]; rfl
    have hmem : hd ∈ chain := by rw [hchain]; exact List.mem_cons_self _ _
    have hnd := hw.nodup
    rw [hchain] at hnd
    have hhd_tl : hd ∉ tl := (List.nodup_cons.1 hnd).1
    have hl := hw.linked
    rw [hchain] at hl
    obtain ⟨l1, l2, l3⟩ := hl
    obtain ⟨item, items, hitems⟩ : ∃ item items, (set.slotlists hd).list = item :: items := by
      cases hx : (set.slotlists hd).list with
      | nil => exact absurd hx (hw.nonempty hd hmem)
      | cons a l => exact ⟨a, l, rfl⟩
    have htl : hashset_to_list set = item :: (items ++ tl.flatMap (fun b => (set.slotlists b).list)) := by
      rw [hs_wf_to_list hw, hchain, List.flatMap_cons, hitems]
      rfl
    have hsz := hw.size_eq
    rw [hchain] at hsz
    simp only [List.map_cons, List.sum_cons, hitems, List.length_cons] at hsz
    cases hit : items with
    | cons i2 items' =>
      -- the bucket keeps items
      have hform : hashset_pop set = some (item,
          { (set.set_slot hd { set.slotlists hd with list := items }) with
            size := set.size - 1 }) := by
        unfold hashset_pop
        rw [hnn]
        simp only [hitems, hit]
        simp [hashset_t.set_slot]
      have hwf : hs_wf ({ (set.set_slot hd { set.slotlists hd with list := items }) with
            size := set.size - 1 }) chain := by
        refine ⟨hw.npos, hw.nodup, hw.lt, hw.head, ?_, ?_, ?_, ?_, ?_, ?_⟩
        · refine hs_linked_congr set _ chain none ?_ hw.linked
          intro i _
          simp only [set_slot_slotlists]
          split
          · rename_i hib; rw [hib]; exact ⟨rfl, rfl⟩
          · exact ⟨rfl, rfl⟩
        · intro i hi
          have hib : i ≠ hd := fun e => hi (e ▸ hmem)
          simp only [set_slot_slotlists, if_neg hib]
          exact hw.out i hi
        · intro i hi
          simp only [set_slot_slotlists]
          split
          · simp [hit]
          · exact hw.nonempty i hi
        · intro i x hx
          simp only [set_slot_slotlists] at hx
          split at hx
          · rename_i hib
            rw [hib]
            exact hw.hashed hd x (by rw [hitems]; exact List.mem_cons_of_mem _ hx)
          · exact hw.hashed i x hx
        · intro i
          simp only [set_slot_slotlists]
          split
          · have := hw.items_nodup hd
            rw [hitems] at this
            exact (List.nodup_cons.1 this).2
          · exact hw.items_nodup i
        · rw [hchain]
          simp only [set_slot_slotlists, List.map_cons, List.sum_cons, if_true]
          have := sum_congr_list tl
            (fun i => if i = hd then ({ set.slotlists hd with list := items } : slotlist_t κ)
              else set.slotlists i) set.slotlists (by
              intro i hi
              have : i ≠ hd := fun e => hhd_tl (e ▸ hi)
              simp [this])
          simp only at this
          rw [this]
          omega
      refine ⟨item, _, _, htl, hform, ⟨chain, hwf⟩, ?_, rfl⟩
      rw [hs_wf_to_list hwf, hchain, List.flatMap_cons]
      simp only [set_slot_slotlists, if_true]
      congr 1
      exact flatMap_congr_list tl _ _ (by
        intro i hi
        have : i ≠ hd := fun e => hhd_tl (e ▸ hi)
        simp [this])
    | nil =>
      -- the bucket is emptied and unlinked
      rw [hit] at hitems
      have hform : ∃ s', hashset_pop set = some (item, s') ∧ s'.hash = set.hash ∧
          s'.slotlists_n = set.slotlists_n ∧ s'.size = set.size - 1 ∧
          s'.non_null = tl.head? ∧
          (∀ i, s'.slotlists i = if i = hd then { list := [], pre := none, next := none }
            else if some i = tl.head? then { set.slotlists i with pre := none }
            else set.slotlists i) := by
        unfold hashset_pop
        rw [hnn]
        simp only [hitems, List.isEmpty_nil, if_true]
        refine ⟨_, rfl, ?_⟩
        cases tl with
        | nil =>
          simp only [List.head?_nil] at l2
          refine ⟨?_, ?_, ?_, ?_, ?_⟩
          · simp [unlink_slotlist, hashset_t.set_slot, l1, l2]
          · simp [unlink_slotlist, hashset_t.set_slot, l1, l2]
          · simp [unlink_slotlist, hashset_t.set_slot, l1, l2]
          · simp [unlink_slotlist, hashset_t.set_slot, l1, l2]
          · intro i
            simp only [unlink_slotlist, hashset_t.set_slot, if_true, l1, l2, List.head?_nil]
            split <;> simp_all
        | cons n tl' =>
          simp only [List.head?_cons] at l2
          have hn : n ≠ hd := fun e => hhd_tl (e ▸ List.mem_cons_self _ _)
          refine ⟨?_, ?_, ?_, ?_, ?_⟩
          · simp [unlink_slotlist, hashset_t.set_slot, l1, l2]
          · simp [unlink_slotlist, hashset_t.set_slot, l1, l2]
          · simp [unlink_slotlist, hashset_t.set_slot, l1, l2]
          · simp [unlink_slotlist, hashset_t.set_slot, l1, l2]
          · intro i
            simp only [unlink_slotlist, hashset_t.set_slot, if_true, l1, l2,
              List.head?_cons, Option.some.injEq]
            by_cases h1 : i = hd
            · simp [h1, hn, Ne.symm hn]
            · by_cases h2 : i = n
              · simp [h1, h2, hn, Ne.symm hn]
              · simp [h1, h2, hn, Ne.symm hn]
      obtain ⟨s', hpop, hh, hn, hsize, hnon, hslots⟩ := hform
      have hwf : hs_wf s' tl := by
        refine ⟨hn ▸ hw.npos, (List.nodup_cons.1 hnd).2, ?_, hnon, ?_, ?_, ?_, ?_, ?_, ?_⟩
        · intro b hb
          rw [hn]
          exact hw.lt b (by rw [hchain]; exact List.mem_cons_of_mem _ hb)
        · cases tl with
          | nil => trivial
          | cons n tl' =>
            obtain ⟨m1, m2, m3⟩ := l3
            have hnhd : n ≠ hd := fun e => hhd_tl (e ▸ List.mem_cons_self _ _)
            refine ⟨?_, ?_, ?_⟩
            · rw [hslots]; simp [hnhd]
            · rw [hslots]; simp [hnhd, m2]
            · refine hs_linked_congr set _ tl' (some n) ?_ m3
              intro i hi
              have h1 : i ≠ hd := fun e => hhd_tl (e ▸ List.mem_cons_of_mem _ hi)
              have h2 : i ≠ n := fun e =>
                (List.nodup_cons.1 (List.nodup_cons.1 hnd).2).1 (e ▸ hi)
              rw [hslots]
              simp [h1, h2]
        · intro i hi
          rw [hslots]
          by_cases h1 : i = hd
          · simp [h1]
          · have h2 : ¬ some i = tl.head? := by
              intro e
              exact hi (List.mem_of_mem_head? e.symm)
            simp only [if_neg h1, if_neg h2]
            exact hw.out i (by
              rw [hchain]
              intro hx
              rcases List.mem_cons.1 hx with hx | hx
              · exact h1 hx
              · exact hi hx)
        · intro i hi
          have h1 : i ≠ hd := fun e => hhd_tl (e ▸ hi)
          rw [hslots]
          simp only [if_neg h1]
          split
          · exact hw.nonempty i (by rw [hchain]; exact List.mem_cons_of_mem _ hi)
          · exact hw.nonempty i (by rw [hchain]; exact List.mem_cons_of_mem _ hi)
        · intro i x hx
          rw [hslots] at hx
          rw [hh, hn]
          split at hx
          · simp at hx
          · split at hx
            · exact hw.hashed i x hx
            · exact hw.hashed i x hx
        · intro i
          rw [hslots]
          split
          · exact List.nodup_nil
          · split
            · exact hw.items_nodup i
            · exact hw.items_nodup i
        · rw [hsize]
          have := sum_congr_list tl s'.slotlists set.slotlists (by
            intro i hi
            have h1 : i ≠ hd := fun e => hhd_tl (e ▸ hi)
            rw [hslots]
            simp only [if_neg h1]
            split <;> rfl)
          rw [this]
          simp only [hit, List.length_nil] at hsz
          omega
      refine ⟨item, _, s', by rw [htl, hit], hpop, ⟨tl, hwf⟩, ?_, hh⟩
      rw [hs_wf_to_list hwf, List.nil_append]
      exact flatMap_congr_list tl _ _ (by
        intro i hi
        have h1 : i ≠ hd := fun e => hhd_tl (e ▸ hi)
        rw [hslots]
        simp only [if_neg h1]
        split <;> rfl)

/-! ## The k-d tree: construction -/

theorem swap_cells_length {α : Type} (l : List α) (i j : Nat) :
    (swap_cells l i j).length = l.length := by
  unfold swap_cells
  split <;> simp

theorem swap_cells_perm {α : Type} (l : List α) (i j : Nat) : (swap_cells l i j).Perm l := by
  classical
  unfold swap_cells
  split
  · rename_i a b ha hb
    rw [List.get?_eq_getElem?] at ha hb
    obtain ⟨hi, rfl⟩ := List.getElem?_eq_some_iff.1 ha
    obtain ⟨hj, rfl⟩ := List.getElem?_eq_some_iff.1 hb
    by_cases hij : i = j
    · subst hij
      have e : (l.set i l[i]).set i l[i] = l := by
        apply List.ext_getElem
        · simp
        · intro n h1 h2
          by_cases hn : i = n
          · subst hn; simp
          · simp [List.getElem_set, hn]
      rw [e]
    · rw [List.perm_iff_count]
      intro x
      have hj' : j < (l.set i l[j]).length := by simpa using hj
      rw [List.count_set _ _ _ _ hj', List.count_set _ _ _ _ hi]
      have h1 : 0 < l.count l[i] := List.count_pos_iff.2 (List.getElem_mem hi)
      have h2 : 0 < l.count l[j] := List.count_pos_iff.2 (List.getElem_mem hj)
      simp only [List.getElem_set, hij, if_false]
      by_cases e1 : l[i] = x <;> by_cases e2 : l[j] = x
      · subst e1; simp [e2]
      · subst e1; simp [e2]
      · subst e2; simp [e1]
      · simp [e1, e2]
  · exact List.Perm.refl _

theorem shuffle_points_perm {α : Type} (rnd : Nat → Nat) (i : Nat) :
    ∀ (k : Nat) (l : List α), (shuffle_points rnd i k l).Perm l := by
  induction i with
  | zero => intro k l; exact List.Perm.refl _
  | succ i ih =>
    intro k l
    unfold shuffle_points
    exact (ih _ _).trans (swap_cells_perm _ _ _)

theorem swap_cells_getElem? {α : Type} (l : List α) (i j k : Nat) (hi : k ≠ i) (hj : k ≠ j) :
    (swap_cells l i j)[k]? = l[k]? := by
  unfold swap_cells
  split
  · simp [List.getElem?_set, Ne.symm hi, Ne.symm hj]
  · rfl

theorem framed_refl {α : Type} (l : List α) (p r1 : Nat) : framed l l p r1 :=
  ⟨List.Perm.refl _, fun _ _ => rfl⟩

theorem framed_trans {α : Type} {l1 l2 l3 : List α} {p r1 : Nat} (h1 : framed l1 l2 p r1)
    (h2 : framed l2 l3 p r1) : framed l1 l3 p r1 :=
  ⟨h2.1.trans h1.1, fun k hk => (h2.2 k hk).trans (h1.2 k hk)⟩

theorem framed_mono {α : Type} {l1 l2 : List α} {p r1 p' r1' : Nat} (h : framed l1 l2 p' r1')
    (hp : p ≤ p') (hr : r1' ≤ r1) : framed l1 l2 p r1 :=
  ⟨h.1, fun k hk => h.2 k (by omega)⟩

theorem framed_swap {α : Type} (l : List α) (p r1 i j : Nat) (hi : p ≤ i ∧ i < r1)
    (hj : p ≤ j ∧ j < r1) : framed l (swap_cells l i j) p r1 :=
  ⟨swap_cells_perm l i j, fun k hk => swap_cells_getElem? l i j k (by omega) (by omega)⟩

theorem split_slab {α : Type} (l : List α) (p r1 : Nat) (hp : p ≤ r1) :
    l = l.take p ++ (slab l p r1 ++ l.drop r1) := by
  unfold slab
  have : l.drop r1 = (l.drop p).drop (r1 - p) := by
    rw [List.drop_drop]; congr 1; omega
  rw [this, List.take_append_drop, List.take_append_drop]

theorem framed_slab {α : Type} {l1 l2 : List α} {p r1 : Nat} (h : framed l1 l2 p r1)
    (hp : p ≤ r1) : (slab l2 p r1).Perm (slab l1 p r1) := by
  have hlen : l2.length = l1.length := h.1.length_eq
  have e1 : l2.take p = l1.take p := by
    apply List.ext_getElem?
    intro k
    simp only [List.getElem?_take]
    split
    · exact h.2 k (Or.inl (by assumption))
    · rfl
  have e2 : l2.drop r1 = l1.drop r1 := by
    apply List.ext_getElem?
    intro k
    simp only [List.getElem?_drop]
    exact h.2 _ (Or.inr (by omega))
  have s1 := split_slab l1 p r1 hp
  have s2 := split_slab l2 p r1 hp
  have hperm := h.1
  rw [s1, s2, e1, e2] at hperm
  exact (List.perm_append_right_iff _).1 ((List.perm_append_left_iff _).1 hperm)

theorem slab_split_at {α : Type} (l : List α) (p m r1 : Nat) (pm : α) (h1 : p ≤ m)
    (h2 : m < r1) (hm : l[m]? = some pm) :
    slab l p r1 = slab l p m ++ pm :: slab l (m + 1) r1 := by
  unfold slab
  obtain ⟨hml, rfl⟩ := List.getElem?_eq_some_iff.1 hm
  have e : r1 - p = (m - p) + (r1 - m) := by omega
  rw [e, List.take_add, List.drop_drop]
  congr 1
  have e2 : p + (m - p) = m := by omega
  rw [e2]
  have e3 : r1 - m = (r1 - (m + 1)) + 1 := by omega
  rw [e3, List.drop_eq_getElem_cons hml, List.take_succ_cons]

theorem partition_fold_framed {α : Type} (pt : α → point_t) (x : α) (xd p r : Nat) (len : Nat) :
    ∀ (s : Nat) (st : Nat × List α) (points : List α), p ≤ s → s + len ≤ r →
      p ≤ st.1 → st.1 ≤ s → framed points st.2 p r →
      p ≤ ((List.range' s len).foldl
        (fun (st : Nat × List α) j =>
          match st.2.get? j with
          | some pj =>
            if (pt pj).dim xd ≤ (pt x).dim xd then (st.1 + 1, swap_cells st.2 st.1 j) else st
          | none => st) st).1 ∧
      ((List.range' s len).foldl
        (fun (st : Nat × List α) j =>
          match st.2.get? j with
          | some pj =>
            if (pt pj).dim xd ≤ (pt x).dim xd then (st.1 + 1, swap_cells st.2 st.1 j) else st
          | none => st) st).1 ≤ s + len ∧
      framed points ((List.range' s len).foldl
        (fun (st : Nat × List α) j =>
          match st.2.get? j with
          | some pj =>
            if (pt pj).dim xd ≤ (pt x).dim xd then (st.1 + 1, swap_cells st.2 st.1 j) else st
          | none => st) st).2 p r := by
  induction len with
  | zero => intro s st points _ _ h1 h2 h3; exact ⟨h1, by simpa using h2, h3⟩
  | succ len ih =>
    intro s st points hps hsr h1 h2 h3
    simp only [List.range', List.foldl_cons]
    have key : ∀ st' : Nat × List α, p ≤ st'.1 → st'.1 ≤ s + 1 → framed points st'.2 p r → _ :=
      fun st' a b c => ih (s + 1) st' points (by omega) (by omega) a b c
    have e : s + 1 + len = s + (len + 1) := by omega
    rw [← e]
    split
    · split
      · exact key _ (by simp; omega) (by simp; omega)
          (framed_trans h3 (framed_swap _ p r _ _ ⟨h1, by omega⟩ ⟨hps, by omega⟩))
      · exact key _ h1 (by omega) h3
    · exact key _ h1 (by omega) h3

/-- `partition_points` rearranges the slab `points[p..r]` and returns an index in it. -/
theorem partition_points_framed {α : Type} (pt : α → point_t) (points : List α)
    (xd p r : Nat) (hpr : p ≤ r) :
    p ≤ (partition_points pt points xd p r).1 ∧ (partition_points pt points xd p r).1 ≤ r ∧
    framed points (partition_points pt points xd p r).2 p (r + 1) := by
  unfold partition_points
  split
  · exact ⟨le_refl _, hpr, framed_refl _ _ _⟩
  · rename_i x hx
    obtain ⟨a, b, c⟩ := partition_fold_framed pt x xd p r (r - p) p (p, points) points
      (le_refl _) (by omega) (le_refl _) (le_refl _) (framed_refl _ _ _)
    have hb : p + (r - p) = r := by omega
    rw [hb] at b
    have b1 := Nat.lt_succ_of_le b
    refine ⟨a, b, ?_⟩
    exact framed_trans (framed_mono c (le_refl _) (by omega))
      (framed_swap _ p (r + 1) _ _ ⟨a, b1⟩ ⟨hpr, by omega⟩)

/-- `select_point` rearranges the slab `points[p..r]` and returns an index in it. -/
theorem select_point_framed {α : Type} (pt : α → point_t) (xd : Nat) (fuel : Nat) :
    ∀ (points : List α) (p r i : Nat), p ≤ r → r - p + 1 ≤ fuel → 1 ≤ i → i ≤ r - p + 1 →
      p ≤ (select_point pt xd fuel points p r i).1 ∧
      (select_point pt xd fuel points p r i).1 ≤ r ∧
      framed points (select_point pt xd fuel points p r i).2 p (r + 1) := by
  induction fuel with
  | zero => intro points p r i _ hf _ _; omega
  | succ fuel ih =>
    intro points p r i hpr hf hi1 hi2
    unfold select_point
    split
    · rename_i h; subst h
      exact ⟨le_refl _, le_refl _, framed_refl _ _ _⟩
    · rename_i hne
      obtain ⟨a, b, c⟩ := partition_points_framed pt points xd p r hpr
      generalize partition_points pt points xd p r = res at a b c
      obtain ⟨q, points1⟩ := res
      simp only at a b c ⊢
      split
      · exact ⟨a, b, c⟩
      · split
        · rename_i h1 h2
          obtain ⟨x, y, z⟩ := ih points1 p (q - 1) i (by omega) (by omega) hi1 (by omega)
          exact ⟨x, by omega, framed_trans c (framed_mono z (le_refl _) (by omega))⟩
        · rename_i h1 h2
          obtain ⟨x, y, z⟩ := ih points1 (q + 1) r (i - (q - p + 1)) (by omega) (by omega)
            (by omega) (by omega)
          exact ⟨by omega, y, framed_trans c (framed_mono z (by omega) (le_refl _))⟩

theorem median_point_framed {α : Type} (pt : α → point_t) (points : List α) (xd p r : Nat)
    (hpr : p ≤ r) :
    p ≤ (median_point pt points xd p r).1 ∧ (median_point pt points xd p r).1 ≤ r ∧
    framed points (median_point pt points xd p r).2 p (r + 1) := by
  unfold median_point
  refine select_point_framed pt xd _ points p r _ hpr (le_refl _) (by omega) ?_
  have : (r - p) / 2 ≤ r - p := Nat.div_le_self _ _
  omega

/-- `build_kdtree` puts the points of the slab, each once, in the tree. -/
theorem build_kdtree_framed {α : Type} (pt : α → point_t) (fuel : Nat) :
    ∀ (points : List α) (xd p r1 : Nat), r1 ≤ points.length → r1 - p ≤ fuel →
      framed points (build_kdtree pt fuel points xd p r1).2 p r1 ∧
      (kd_points (build_kdtree pt fuel points xd p r1).1).Perm (slab points p r1) := by
  induction fuel with
  | zero =>
    intro points xd p r1 _ hf
    have : r1 - p = 0 := by omega
    simp [build_kdtree, framed_refl, kd_points, slab, this]
  | succ fuel ih =>
    intro points xd p r1 hlen hf
    unfold build_kdtree
    split
    · rename_i hge
      have : r1 - p = 0 := by omega
      simp [framed_refl, kd_points, slab, this]
    · rename_i hlt
      have hpr : p < r1 := by omega
      obtain ⟨a, b, c⟩ := median_point_framed pt points xd p (r1 - 1) (by omega)
      generalize median_point pt points xd p (r1 - 1) = res at a b c
      obtain ⟨m, points1⟩ := res
      simp only at a b c ⊢
      have hr1 : r1 - 1 + 1 = r1 := by omega
      rw [hr1] at c
      have hlen1 : points1.length = points.length := c.1.length_eq
      have hm : m < points1.length := by omega
      have hget : points1.get? m = some points1[m] := by
        rw [List.get?_eq_getElem?]; exact List.getElem?_eq_getElem hm
      rw [hget]
      simp only
      obtain ⟨l1, l2⟩ := ih points1 (lnot xd) p m (by omega) (by omega)
      generalize build_kdtree pt fuel points1 (lnot xd) p m = resl at l1 l2
      obtain ⟨left, points2⟩ := resl
      simp only at l1 l2 ⊢
      have hlen2 : points2.length = points1.length := l1.1.length_eq
      obtain ⟨r1', r2'⟩ := ih points2 (lnot xd) (m + 1) r1 (by omega) (by omega)
      generalize build_kdtree pt fuel points2 (lnot xd) (m + 1) r1 = resr at r1' r2'
      obtain ⟨right, points3⟩ := resr
      simp only at r1' r2' ⊢
      refine ⟨framed_trans c (framed_trans (framed_mono l1 (le_refl _) (by omega))
        (framed_mono r1' (by omega) (le_refl _))), ?_⟩
      simp only [kd_points]
      have hs := slab_split_at points1 p m r1 points1[m] a (by omega)
        (List.getElem?_eq_getElem hm)
      have hp2 : (slab points2 (m + 1) r1) = (slab points1 (m + 1) r1) := by
        unfold slab
        apply List.ext_getElem?
        intro k
        simp only [List.getElem?_take, List.getElem?_drop]
        split
        · exact l1.2 _ (Or.inr (by omega))
        · rfl
      refine List.Perm.trans ?_ (framed_slab c (by omega))
      rw [hs]
      refine List.Perm.trans ?_ List.perm_middle.symm
      refine List.Perm.cons _ ?_
      exact List.Perm.append l2 (hp2 ▸ r2')

/-! ## The k-d tree: duplicates and the bounding rectangle -/

theorem uniq_points_spec {α : Type} (pt : α → point_t) (from_ : List α) :
    ∀ (set : hashset_t point_t) (seen : List point_t) (to_ : List α), hs_ok set →
      (∀ x, x ∈ hashset_to_list set ↔ x ∈ seen) →
      uniq_points pt from_ set to_ = uniq_spec pt from_ seen to_ := by
  induction from_ with
  | nil => intro _ _ _ _ _; rfl
  | cons p rest ih =>
    intro set seen to_ hok hseen
    obtain ⟨h1, _, h3, h4⟩ := hs_add_spec hok (pt p)
    unfold uniq_points uniq_spec
    generalize hashset_add set (pt p) = res at h1 h3 h4
    obtain ⟨c, set1⟩ := res
    simp only at h1 h3 h4 ⊢
    by_cases hin : pt p ∈ seen
    · rw [if_pos hin]
      have hc : c ≠ 0 := fun h => (h4.1 h) ((hseen _).2 hin)
      have hs : ∀ x, x ∈ hashset_to_list set1 ↔ x ∈ seen := by
        intro x
        rw [h3, hseen]
        constructor
        · rintro (rfl | h)
          · exact hin
          · exact h
        · exact Or.inr
      split
      · rename_i heq
        simp only [Prod.mk.injEq] at heq
        exact absurd heq.1 hc
      · rename_i heq
        simp only [Prod.mk.injEq] at heq
        rw [← heq.2]
        exact ih _ _ _ h1 hs
    · rw [if_neg hin]
      have hc : c = 0 := h4.2 (fun h => hin ((hseen _).1 h))
      have hs : ∀ x, x ∈ hashset_to_list set1 ↔ x ∈ pt p :: seen := by
        intro x
        rw [h3, hseen, List.mem_cons]
      split
      · rename_i heq
        simp only [Prod.mk.injEq] at heq
        rw [← heq.2]
        exact ih _ _ _ h1 hs
      · rename_i hne heq
        simp only [Prod.mk.injEq] at heq
        exact absurd (heq.1.symm.trans hc) hne

theorem uniq_spec_distinct {α : Type} (pt : α → point_t) (from_ : List α) :
    ∀ (seen : List point_t) (to_ : List α), (from_.map pt).Nodup →
      (∀ p ∈ from_, pt p ∉ seen) → uniq_spec pt from_ seen to_ = to_ ++ from_ := by
  induction from_ with
  | nil => intro _ _ _ _; simp [uniq_spec]
  | cons p rest ih =>
    intro seen to_ hd hs
    unfold uniq_spec
    rw [if_neg (hs p (List.mem_cons_self _ _))]
    rw [List.map_cons, List.nodup_cons] at hd
    rw [ih _ _ hd.2]
    · simp
    · intro q hq hmem
      rw [List.mem_cons] at hmem
      rcases hmem with h | h
      · exact hd.1 (h ▸ List.mem_map_of_mem pt hq)
      · exact hs q (List.mem_cons_of_mem _ hq) h

/-- On handles of pairwise different points, `uniq_and_shuffle_points` only shuffles. -/
theorem uniq_and_shuffle_perm {α : Type} (pt : α → point_t) (hash : point_t → Nat)
    (rnd : Nat → Nat) (from_ : List α) (hd : (from_.map pt).Nodup) :
    (uniq_and_shuffle_points pt hash rnd from_).Perm from_ := by
  unfold uniq_and_shuffle_points
  have h := uniq_points_spec pt from_ (hashset_create from_.length hash) [] []
    ⟨[], hs_wf_create _ _⟩ (by
      intro x
      rw [hs_wf_to_list (hs_wf_create _ _)]
      simp)
  rw [h, uniq_spec_distinct pt from_ [] [] hd (by simp)]
  simpa using shuffle_points_perm rnd _ 0 from_

theorem rect_contains_iff (rect : rect_t) (q : point_t) :
    rect_contains rect q = true ↔
      rect.x_itv.lower ≤ q.x ∧ q.x ≤ rect.x_itv.upper ∧
      rect.y_itv.lower ≤ q.y ∧ q.y ≤ rect.y_itv.upper := by
  simp [rect_contains, interval_contains, and_assoc]

theorem interval_enlarge_spec (itv : interval_t) (p : ℚ) (hv : itv.lower ≤ itv.upper) :
    (interval_enlarge_to itv p).lower ≤ (interval_enlarge_to itv p).upper ∧
    (interval_enlarge_to itv p).lower ≤ p ∧ p ≤ (interval_enlarge_to itv p).upper ∧
    (interval_enlarge_to itv p).lower ≤ itv.lower ∧
    itv.upper ≤ (interval_enlarge_to itv p).upper := by
  unfold interval_enlarge_to
  split_ifs with h1 h2
  · simp only; refine ⟨?_, ?_, ?_, ?_, ?_⟩ <;> linarith
  · simp only; refine ⟨?_, ?_, ?_, ?_, ?_⟩ <;> linarith
  · refine ⟨?_, ?_, ?_, ?_, ?_⟩ <;> linarith

/-- The rectangle grown over a list of points holds all of them, and what it held. -/
theorem rect_fold_contains {α : Type} (pt : α → point_t) (l : List α) :
    ∀ (rect : rect_t), rect.x_itv.lower ≤ rect.x_itv.upper →
      rect.y_itv.lower ≤ rect.y_itv.upper →
      (∀ q, rect_contains rect q = true →
        rect_contains (l.foldl (fun r p => rect_enlarge_to r (pt p)) rect) q = true) ∧
      (∀ h ∈ l, rect_contains (l.foldl (fun r p => rect_enlarge_to r (pt p)) rect) (pt h)
        = true) := by
  induction l with
  | nil => intro rect _ _; exact ⟨fun q h => h, by simp⟩
  | cons a l ih =>
    intro rect hx hy
    obtain ⟨x1, x2, x3, x4, x5⟩ := interval_enlarge_spec rect.x_itv (pt a).x hx
    obtain ⟨y1, y2, y3, y4, y5⟩ := interval_enlarge_spec rect.y_itv (pt a).y hy
    obtain ⟨i1, i2⟩ := ih (rect_enlarge_to rect (pt a)) x1 y1
    simp only [List.foldl_cons]
    constructor
    · intro q hq
      apply i1
      rw [rect_contains_iff] at hq ⊢
      simp only [rect_enlarge_to]
      refine ⟨?_, ?_, ?_, ?_⟩ <;> linarith [hq.1, hq.2.1, hq.2.2.1, hq.2.2.2]
    · intro h hh
      rw [List.mem_cons] at hh
      rcases hh with rfl | hh
      · apply i1
        rw [rect_contains_iff]
        exact ⟨x2, x3, y2, y3⟩
      · exact i2 h hh

/-- `kdtree_create_static` on handles of pairwise different points: no tree for no
point, else a tree that holds every handle once, in a rectangle that holds every
point. -/
theorem kdtree_create_spec {α : Type} (pt : α → point_t) (hash : point_t → Nat)
    (rnd : Nat → Nat) (l : List α) (hd : (l.map pt).Nodup) :
    (l = [] ∧ kdtree_create_static pt hash rnd l = none) ∨
    (l ≠ [] ∧ ∃ tree, kdtree_create_static pt hash rnd l = some tree ∧
      (kd_points tree.root).Perm l ∧ ∀ h ∈ l, rect_contains tree.rect (pt h) = true) := by
  have hperm := uniq_and_shuffle_perm pt hash rnd l hd
  unfold kdtree_create_static
  generalize uniq_and_shuffle_points pt hash rnd l = points at hperm
  cases points with
  | nil =>
    left
    exact ⟨List.Perm.eq_nil hperm.symm, rfl⟩
  | cons p0 rest =>
    right
    refine ⟨fun h => by rw [h] at hperm; simpa using hperm.length_eq, _, rfl, ?_, ?_⟩
    · simp only
      have h := (build_kdtree_framed pt (p0 :: rest).length (p0 :: rest) 1 0
        (p0 :: rest).length (le_refl _) (by omega)).2
      have hs : slab (p0 :: rest) 0 (p0 :: rest).length = p0 :: rest := by
        unfold slab
        simp
      rw [hs] at h
      exact h.trans hperm
    · intro h hh
      simp only
      exact (rect_fold_contains pt (p0 :: rest) (rect_init_point (pt p0)) (le_refl _)
        (le_refl _)).2 h (hperm.mem_iff.2 hh)

theorem rect_set_lower_contains (rect to_ : rect_t) (q : point_t) (xd : Nat)
    (h : rect_contains rect q = true) :
    rect_contains (rect_set_lower rect to_ q xd).2 q = true := by
  rw [rect_contains_iff] at h
  obtain ⟨h1, h2, h3, h4⟩ := h
  unfold rect_set_lower
  by_cases hx : xd = 0
  · simp only [rect_t.dim, point_t.dim, hx, if_true, rect_t.set_dim]
    rw [if_neg (not_lt.2 h1)]
    split_ifs <;> rw [rect_contains_iff] <;> simp only <;>
      exact ⟨by linarith, by linarith, by linarith, by linarith⟩
  · simp only [rect_t.dim, point_t.dim, hx, if_false, rect_t.set_dim]
    rw [if_neg (not_lt.2 h3)]
    split_ifs <;> rw [rect_contains_iff] <;> simp only <;>
      exact ⟨by linarith, by linarith, by linarith, by linarith⟩

theorem rect_set_upper_contains (rect to_ : rect_t) (q : point_t) (xd : Nat)
    (h : rect_contains rect q = true) :
    rect_contains (rect_set_upper rect to_ q xd).2 q = true := by
  rw [rect_contains_iff] at h
  obtain ⟨h1, h2, h3, h4⟩ := h
  unfold rect_set_upper
  by_cases hx : xd = 0
  · simp only [rect_t.dim, point_t.dim, hx, if_true, rect_t.set_dim]
    rw [if_neg (not_lt.2 h2)]
    split_ifs <;> rw [rect_contains_iff] <;> simp only <;>
      exact ⟨by linarith, by linarith, by linarith, by linarith⟩
  · simp only [rect_t.dim, point_t.dim, hx, if_false, rect_t.set_dim]
    rw [if_neg (not_lt.2 h4)]
    split_ifs <;> rw [rect_contains_iff] <;> simp only <;>
      exact ⟨by linarith, by linarith, by linarith, by linarith⟩

theorem rect_min_dist_inside (rect : rect_t) (q : point_t)
    (h : rect_contains rect q = true) : rect_min_dist_to rect q = 0 := by
  unfold rect_contains at h
  rw [Bool.and_eq_true] at h
  simp [rect_min_dist_to, addsum, h.1, h.2]

/-- A query from inside the rectangle prunes nothing: `knn` appends every point of the
tree that is within the threshold. -/
theorem knn_inside {α : Type} (pt : α → point_t) (q : point_t) (dist : ℚ) (hdist : 0 ≤ dist)
    (node : kdnode_t α) :
    ∀ (rect : rect_t) (xd : Nat) (best : List (point_dist_t α)),
      rect_contains rect q = true →
      knn pt q dist node rect xd best = best ++ within pt q dist (kd_points node) := by
  induction node with
  | nil => intro _ _ best _; simp [knn, within, kd_points]
  | node np left right ihl ihr =>
    intro rect xd best hin
    unfold knn
    rw [rect_min_dist_inside rect q hin, if_neg (not_lt.2 hdist)]
    simp only
    rw [ihl _ _ _ (rect_set_lower_contains rect rect_zero q xd hin),
      ihr _ _ _ (rect_set_upper_contains rect rect_zero q xd hin)]
    simp only [within, kd_points, List.filter_cons, List.filter_append, List.map_append,
      array_append]
    split_ifs with h1 h2 h2
    · simp
    · exact absurd h1 (by simpa using h2)
    · exact absurd (by simpa using h2) h1
    · simp

/-- A query inside the rectangle of the tree returns the handles of the tree within the
threshold, each once. -/
theorem kdtree_knn_inside {α : Type} (libc : Libc) (pt : α → point_t) (tree : kdtree_t α)
    (q : point_t) (thre : ℚ) (hthre : 0 ≤ thre) (hin : rect_contains tree.rect q = true) :
    (kdtree_k_nearest_neighbour libc pt tree q thre).Perm
      ((kd_points tree.root).filter (fun h => decide (point_dist (pt h) q ≤ thre))) := by
  unfold kdtree_k_nearest_neighbour
  simp only
  rw [knn_inside pt q thre hthre tree.root tree.rect 0 [] hin]
  refine ((libc.qsort_perm cmp_dist _).map _).trans ?_
  simp [within, Function.comp_def]

/-- Whatever the query, `knn` only adds handles of the tree. -/
theorem knn_subset {α : Type} (pt : α → point_t) (q : point_t) (dist : ℚ)
    (node : kdnode_t α) :
    ∀ (rect : rect_t) (xd : Nat) (best : List (point_dist_t α)),
      ∀ pd ∈ knn pt q dist node rect xd best, pd ∈ best ∨ pd.point ∈ kd_points node := by
  induction node with
  | nil => intro _ _ best pd h; exact Or.inl (by simpa [knn] using h)
  | node np left right ihl ihr =>
    intro rect xd best pd h
    unfold knn at h
    by_cases h1 : rect_min_dist_to rect q > dist
    · rw [if_pos h1] at h
      exact Or.inl h
    · rw [if_neg h1] at h
      simp only at h
      rcases ihr _ _ _ pd h with h | h
      · rcases ihl _ _ _ pd h with h | h
        · by_cases h2 : point_dist (pt np) q ≤ dist
          · rw [if_pos h2] at h
            simp only [array_append, List.mem_append, List.mem_singleton] at h
            rcases h with h | h
            · exact Or.inl h
            · right; rw [h]; simp [kd_points]
          · rw [if_neg h2] at h
            exact Or.inl h
        · right; simp [kd_points, h]
      · right; simp [kd_points, h]

theorem kdtree_knn_subset {α : Type} (libc : Libc) (pt : α → point_t) (tree : kdtree_t α)
    (q : point_t) (thre : ℚ) :
    ∀ h ∈ kdtree_k_nearest_neighbour libc pt tree q thre, h ∈ kd_points tree.root := by
  intro h hh
  unfold kdtree_k_nearest_neighbour at hh
  simp only [List.mem_map] at hh
  obtain ⟨pd, hpd, rfl⟩ := hh
  rcases knn_subset pt q thre tree.root tree.rect 0 [] pd
    ((libc.qsort_perm cmp_dist _).mem_iff.1 hpd) with h | h
  · simp at h
  · exact h

/-! ## `convert_points` -/

theorem cmp_point_le (heap : List cpoint_t) (a b : Nat) :
    cmp_point heap a b ≤ 0 ↔ pxy_le (cpoint_at heap a).point (cpoint_at heap b).point := by
  unfold cmp_point pxy_le
  split_ifs with h1 h2 h3 h4
  · exact ⟨fun _ => Or.inl h1, fun _ => by decide⟩
  · constructor
    · intro h; exact absurd h (by decide)
    · intro hc
      rcases hc with hc | hc
      · exact absurd hc (not_lt.2 (le_of_lt h2))
      · exact absurd hc.1 (ne_of_gt h2)
  · have e : (cpoint_at heap a).point.x = (cpoint_at heap b).point.x :=
      le_antisymm (not_lt.1 h2) (not_lt.1 h1)
    simp [e, le_of_lt h3]
  · have e : (cpoint_at heap a).point.x = (cpoint_at heap b).point.x :=
      le_antisymm (not_lt.1 h2) (not_lt.1 h1)
    simp [e, not_le.2 h4]
  · have e : (cpoint_at heap a).point.x = (cpoint_at heap b).point.x :=
      le_antisymm (not_lt.1 h2) (not_lt.1 h1)
    simp [e, le_antisymm (not_lt.1 h4) (not_lt.1 h3)]

theorem cmp_point_lt (heap : List cpoint_t) (a b : Nat) :
    cmp_point heap a b < 0 ↔ ¬ pxy_le (cpoint_at heap b).point (cpoint_at heap a).point := by
  unfold cmp_point pxy_le
  split_ifs with h1 h2 h3 h4
  · refine ⟨fun _ hc => ?_, fun _ => by decide⟩
    rcases hc with hc | hc
    · exact absurd hc (not_lt.2 (le_of_lt h1))
    · exact absurd hc.1 (ne_of_gt h1)
  · constructor
    · intro h; exact absurd h (by decide)
    · intro hc; exact absurd (Or.inl h2) hc
  · have e : (cpoint_at heap a).point.x = (cpoint_at heap b).point.x :=
      le_antisymm (not_lt.1 h2) (not_lt.1 h1)
    simp [e, h3]
  · have e : (cpoint_at heap a).point.x = (cpoint_at heap b).point.x :=
      le_antisymm (not_lt.1 h2) (not_lt.1 h1)
    simp [e, le_of_lt h4]
  · have e : (cpoint_at heap a).point.x = (cpoint_at heap b).point.x :=
      le_antisymm (not_lt.1 h2) (not_lt.1 h1)
    simp [e, le_antisymm (not_lt.1 h3) (not_lt.1 h4)]

theorem cmp_point_gt (heap : List cpoint_t) (a b : Nat) :
    0 < cmp_point heap a b ↔ ¬ pxy_le (cpoint_at heap a).point (cpoint_at heap b).point := by
  rw [← cmp_point_le]
  exact not_le.symm

theorem pxy_le_trans {a b c : point_t} (h1 : pxy_le a b) (h2 : pxy_le b c) : pxy_le a c := by
  unfold pxy_le at *
  rcases h1 with h1 | ⟨h1, h1'⟩ <;> rcases h2 with h2 | ⟨h2, h2'⟩
  · exact Or.inl (lt_trans h1 h2)
  · exact Or.inl (h2 ▸ h1)
  · exact Or.inl (h1 ▸ h2)
  · exact Or.inr ⟨h1.trans h2, le_trans h1' h2'⟩

theorem pxy_le_antisymm {a b : point_t} (h1 : pxy_le a b) (h2 : pxy_le b a) : a = b := by
  unfold pxy_le at *
  rcases h1 with h1 | ⟨h1, h1'⟩ <;> rcases h2 with h2 | ⟨h2, h2'⟩
  · exact absurd h1 (not_lt.2 (le_of_lt h2))
  · exact absurd h2.symm (ne_of_lt h1)
  · exact absurd h1.symm (ne_of_lt h2)
  · exact point_ext h1 (le_antisymm h1' h2')

theorem pxy_le_refl (a : point_t) : pxy_le a a := Or.inr ⟨rfl, le_refl _⟩

/-- The comparator of dbscan.c is one `qsort` may be given. -/
theorem cmp_point_consistent (heap : List cpoint_t) (l : List Nat) :
    Consistent (cmp_point heap) l := by
  constructor
  · intro a _ b _
    rw [cmp_point_lt, cmp_point_gt]
  · intro a _ b _ c _ h1 h2
    rw [cmp_point_le] at *
    exact pxy_le_trans h1 h2

theorem convert_step_inv (heap : List cpoint_t) (st : List cpointset_t × Option Nat)
    (done : List Nat) (ti : Nat) (h : conv_inv heap st done)
    (hs : ∀ m ∈ done, pxy_le (cpoint_at heap m).point (cpoint_at heap ti).point) :
    conv_inv heap (convert_step heap st ti) (done ++ [ti]) := by
  obtain ⟨res, last⟩ := st
  obtain ⟨h1, h2, h3, h4⟩ := h
  simp only at h1 h2 h3 h4
  rcases h4 with ⟨rfl, rfl⟩ | ⟨l, s, rfl, hlast, hsl, hle⟩
  · simp only [List.flatMap_nil] at h1
    subst h1
    have e : convert_step heap ([], none) ti =
        ([{ cpoint := cpoint_at heap ti, cpoints := [ti] }], some ti) := by
      simp [convert_step, cpointset_create, array_append]
    rw [e]
    refine ⟨by simp, ?_, by simp, Or.inr ⟨ti, _, rfl, rfl, rfl, ?_⟩⟩
    · intro s hs'
      simp only [List.mem_singleton] at hs'
      subst hs'
      exact ⟨ti, [], rfl, rfl, by simp⟩
    · intro m hm
      simp only [List.nil_append, List.mem_singleton] at hm
      subst hm
      exact pxy_le_refl _
  · have hres : res.dropLast ++ [s] = res := List.dropLast_append_getLast? s hlast
    generalize res.dropLast = pre at hres
    subst hres
    have hsmem : s ∈ pre ++ [s] := by simp
    by_cases hd : (cpoint_at heap l).point = (cpoint_at heap ti).point
    · have e : convert_step heap (pre ++ [s], some l) ti =
          (pre ++ [{ s with cpoints := s.cpoints ++ [ti] }], some l) := by
        simp [convert_step, hd, array_append, List.dropLast_concat]
      rw [e]
      refine ⟨?_, ?_, ?_, Or.inr ⟨l, { s with cpoints := s.cpoints ++ [ti] }, rfl, by simp,
        hsl, ?_⟩⟩
      · simp only [List.flatMap_append, List.flatMap_cons, List.flatMap_nil,
          List.append_nil] at h1 ⊢
        rw [← h1, List.append_assoc]
      · intro s' hs'
        simp only [List.mem_append, List.mem_singleton] at hs'
        rcases hs' with hs' | rfl
        · exact h2 s' (by simp [hs'])
        · obtain ⟨m, ms, e1, e2, e3⟩ := h2 s hsmem
          refine ⟨m, ms ++ [ti], by simp [e1], e2, ?_⟩
          intro x hx
          simp only [List.mem_append, List.mem_singleton] at hx
          rcases hx with hx | rfl
          · exact e3 x hx
          · exact hd.symm.trans hsl.symm
      · simpa using h3
      · intro m hm
        simp only [List.mem_append, List.mem_singleton] at hm
        rcases hm with hm | rfl
        · exact hle m hm
        · rw [hd]; exact pxy_le_refl _
    · have e : convert_step heap (pre ++ [s], some l) ti =
          (pre ++ [s] ++ [{ cpoint := cpoint_at heap ti, cpoints := [ti] }], some ti) := by
        have hd' : ¬ ((cpoint_at heap l).point.x = (cpoint_at heap ti).point.x ∧
            (cpoint_at heap l).point.y = (cpoint_at heap ti).point.y) :=
          fun hc => hd (point_ext hc.1 hc.2)
        have hd2 : ((cpoint_at heap l).point.x ≠ (cpoint_at heap ti).point.x ∨
            (cpoint_at heap l).point.y ≠ (cpoint_at heap ti).point.y) := by
          by_contra hc
          push_neg at hc
          exact hd' hc
        simp only [convert_step, if_pos hd2]
        simp [cpointset_create, array_append, List.dropLast_concat]
      rw [e]
      refine ⟨?_, ?_, ?_, Or.inr ⟨ti, { cpoint := cpoint_at heap ti, cpoints := [ti] }, rfl,
        by simp, rfl, ?_⟩⟩
      · rw [List.flatMap_append, h1]
        simp
      · intro s' hs'
        rw [List.mem_append, List.mem_singleton] at hs'
        rcases hs' with hs' | rfl
        · exact h2 s' hs'
        · exact ⟨ti, [], rfl, rfl, by simp⟩
      · rw [List.map_append, List.map_singleton]
        refine List.Nodup.append h3 (List.nodup_singleton _) ?_
        rw [List.disjoint_singleton]
        intro hmem
        simp only [List.mem_map] at hmem
        obtain ⟨s', hs', hp⟩ := hmem
        obtain ⟨m, ms, e1, e2, e3⟩ := h2 s' hs'
        have hm : m ∈ done := by
          rw [← h1, List.mem_flatMap]
          exact ⟨s', hs', by simp [e1]⟩
        have hk : (cpoint_at heap m).point = (cpoint_at heap ti).point := by
          rw [← hp, e2]
        obtain ⟨m2, ms2, f1, f2, f3⟩ := h2 s hsmem
        have hm2 : m2 ∈ done := by
          rw [← h1, List.mem_flatMap]
          exact ⟨s, hsmem, by simp [f1]⟩
        have hl2 : (cpoint_at heap m2).point = (cpoint_at heap l).point := by
          rw [← hsl, f2]
        apply hd
        apply pxy_le_antisymm
        · rw [← hl2]; exact hs m2 hm2
        · rw [← hk]; exact hle m hm
      · intro m hm
        rw [List.mem_append, List.mem_singleton] at hm
        rcases hm with hm | rfl
        · exact hs m hm
        · exact pxy_le_refl _

theorem convert_fold_inv (heap : List cpoint_t) (l : List Nat) :
    ∀ (st : List cpointset_t × Option Nat) (done : List Nat), conv_inv heap st done →
      (done ++ l).Pairwise (fun a b => cmp_point heap a b ≤ 0) →
      conv_inv heap (l.foldl (convert_step heap) st) (done ++ l) := by
  induction l with
  | nil => intro st done h _; simpa using h
  | cons ti l ih =>
    intro st done h hp
    have e : done ++ ti :: l = (done ++ [ti]) ++ l := by simp
    rw [List.foldl_cons, e]
    apply ih
    · apply convert_step_inv heap st done ti h
      intro m hm
      rw [← cmp_point_le]
      rw [List.pairwise_append] at hp
      exact hp.2.2 m hm ti (List.mem_cons_self _ _)
    · rw [← e]; exact hp

/-- `convert_points`: every input handle is in exactly one point-set; a point-set is a
copy of its first member and has the coordinates of all its members; no two point-sets
have the same coordinates. -/
theorem convert_points_spec (libc : Libc) (heap : List cpoint_t) :
    ((convert_points libc heap).flatMap (fun s => s.cpoints)).Perm (List.range heap.length) ∧
    (∀ s ∈ convert_points libc heap, ∃ m ms, s.cpoints = m :: ms ∧
      s.cpoint = cpoint_at heap m ∧
      ∀ x ∈ s.cpoints, (cpoint_at heap x).point = s.cpoint.point) ∧
    ((convert_points libc heap).map (fun s => s.cpoint.point)).Nodup := by
  have h := convert_fold_inv heap (libc.qsort (cmp_point heap) (List.range heap.length))
    ([], none) [] ⟨rfl, by simp, by simp, Or.inl ⟨rfl, rfl⟩⟩
    (by simpa using libc.qsort_sorted (cmp_point heap) _ (cmp_point_consistent heap _))
  obtain ⟨h1, h2, h3, _⟩ := h
  unfold convert_points
  simp only
  refine ⟨?_, h2, h3⟩
  rw [h1]
  simpa using libc.qsort_perm (cmp_point heap) (List.range heap.length)

/-! ## dbscan.c: labels -/

theorem cpoint_at_eq (heap : List cpoint_t) (i : Nat) :
    cpoint_at heap i = (heap[i]?).getD cpoint_null := by
  unfold cpoint_at
  rw [List.getD_eq_getElem?_getD]

theorem cpointset_at_eq (sets : List cpointset_t) (i : Nat) :
    cpointset_at sets i = (sets[i]?).getD { cpoint := cpoint_null, cpoints := [] } := by
  unfold cpointset_at
  rw [List.getD_eq_getElem?_getD]

theorem set_cluster_id_length (heap : List cpoint_t) (cp id : Nat) :
    (set_cluster_id heap cp id).length = heap.length := by
  unfold set_cluster_id
  split <;> simp

theorem set_cluster_id_points (heap : List cpoint_t) (cp id : Nat) :
    (set_cluster_id heap cp id).map (fun c => c.point) = heap.map (fun c => c.point) := by
  unfold set_cluster_id
  split
  · rename_i c hc
    rw [List.get?_eq_getElem?] at hc
    apply List.ext_getElem?
    intro k
    simp only [List.getElem?_map, List.getElem?_set]
    split
    · rename_i hk
      subst hk
      split
      · simp [hc]
      · rename_i hlt
        rw [List.getElem?_eq_none (by omega)]
    · rfl
  · rfl

theorem hid_set_cluster_id (heap : List cpoint_t) (cp id m : Nat) (h : cp < heap.length) :
    hid (set_cluster_id heap cp id) m = if m = cp then id else hid heap m := by
  unfold hid set_cluster_id
  rw [List.get?_eq_getElem?, List.getElem?_eq_getElem h]
  simp only [cpoint_at_eq, List.getElem?_set]
  by_cases hm : m = cp
  · subst hm
    simp [h]
  · rw [if_neg (Ne.symm hm), if_neg hm]

theorem stamp_heap_spec (id : Nat) (ms : List Nat) :
    ∀ (heap : List cpoint_t), (∀ x ∈ ms, x < heap.length) →
      (ms.foldl (fun heap cp => set_cluster_id heap cp id) heap).length = heap.length ∧
      (ms.foldl (fun heap cp => set_cluster_id heap cp id) heap).map (fun c => c.point)
        = heap.map (fun c => c.point) ∧
      ∀ m, hid (ms.foldl (fun heap cp => set_cluster_id heap cp id) heap) m
        = if m ∈ ms then id else hid heap m := by
  induction ms with
  | nil => intro heap _; simp
  | cons a ms ih =>
    intro heap h
    have ha : a < heap.length := h a (List.mem_cons_self _ _)
    obtain ⟨i1, i2, i3⟩ := ih (set_cluster_id heap a id) (by
      intro x hx
      rw [set_cluster_id_length]
      exact h x (List.mem_cons_of_mem _ hx))
    simp only [List.foldl_cons]
    refine ⟨by rw [i1, set_cluster_id_length], by rw [i2, set_cluster_id_points], ?_⟩
    intro m
    rw [i3, hid_set_cluster_id heap a id m ha]
    by_cases h1 : m ∈ ms
    · simp [h1]
    · by_cases h2 : m = a
      · simp [h2]
      · simp [h1, h2]

theorem set_rep_id_shape (sets : List cpointset_t) (p id : Nat) :
    shape (set_rep_id sets p id) = shape sets := by
  unfold set_rep_id shape
  split
  · rename_i s hs
    rw [List.get?_eq_getElem?] at hs
    apply List.ext_getElem?
    intro k
    simp only [List.getElem?_map, List.getElem?_set]
    split
    · rename_i hk
      subst hk
      split
      · simp [hs]
      · rename_i hlt
        rw [List.getElem?_eq_none (by omega)]
    · rfl
  · rfl

theorem rid_set_rep_id (sets : List cpointset_t) (p id q : Nat) (h : p < sets.length) :
    rid (set_rep_id sets p id) q = if q = p then id else rid sets q := by
  unfold rid set_rep_id
  rw [List.get?_eq_getElem?, List.getElem?_eq_getElem h]
  simp only [cpointset_at_eq, List.getElem?_set]
  by_cases hq : q = p
  · subst hq
    simp [h]
  · rw [if_neg (Ne.symm hq), if_neg hq]

theorem shape_length {a b : List cpointset_t} (h : shape a = shape b) : a.length = b.length := by
  have := congrArg List.length h
  simpa [shape] using this

theorem shape_members {a b : List cpointset_t} (h : shape a = shape b) (p : Nat) :
    members a p = members b p := by
  have h1 := congrArg (fun l => (l[p]?).map Prod.snd) h
  simp only [shape, List.getElem?_map, Option.map_map] at h1
  unfold members
  rw [cpointset_at_eq, cpointset_at_eq]
  cases ha : a[p]? <;> cases hb : b[p]? <;> simp_all

theorem shape_rep_point {a b : List cpointset_t} (h : shape a = shape b) :
    rep_point a = rep_point b := by
  funext p
  have h1 := congrArg (fun l => (l[p]?).map Prod.fst) h
  simp only [shape, List.getElem?_map, Option.map_map] at h1
  unfold rep_point
  rw [cpointset_at_eq, cpointset_at_eq]
  cases ha : a[p]? <;> cases hb : b[p]? <;> simp_all

theorem cpointset_at_lt (sets : List cpointset_t) (p : Nat) (h : p < sets.length) :
    cpointset_at sets p = sets[p] := by
  rw [cpointset_at_eq, List.getElem?_eq_getElem h]
  rfl

theorem convert_points_geom (libc : Libc) (heap0 : List cpoint_t) :
    geom heap0 (convert_points libc heap0) := by
  obtain ⟨h1, h2, h3⟩ := convert_points_spec libc heap0
  generalize convert_points libc heap0 = sets0 at h1 h2 h3
  have hnd : (sets0.flatMap (fun s => s.cpoints)).Nodup :=
    h1.nodup_iff.2 (List.nodup_range _)
  rw [List.nodup_flatMap] at hnd
  refine ⟨?_, ?_, ?_, ?_, ?_, ?_, ?_⟩
  · intro p hp
    obtain ⟨m, ms, e, _, _⟩ := h2 sets0[p] (List.getElem_mem _)
    unfold members
    rw [cpointset_at_lt sets0 p hp, e]
    simp
  · intro i hi
    have hmem : i ∈ sets0.flatMap (fun s => s.cpoints) :=
      h1.mem_iff.2 (List.mem_range.2 hi)
    rw [List.mem_flatMap] at hmem
    obtain ⟨s, hs, his⟩ := hmem
    obtain ⟨p, hp, rfl⟩ := List.mem_iff_getElem.1 hs
    refine ⟨p, hp, ?_⟩
    unfold members
    rw [cpointset_at_lt sets0 p hp]
    exact his
  · intro p hp m hm
    unfold members at hm
    rw [cpointset_at_lt sets0 p hp] at hm
    have hmem : m ∈ sets0.flatMap (fun s => s.cpoints) :=
      List.mem_flatMap.2 ⟨_, List.getElem_mem _, hm⟩
    exact List.mem_range.1 (h1.mem_iff.1 hmem)
  · intro p hp q hq m hmp hmq
    unfold members at hmp hmq
    rw [cpointset_at_lt sets0 p hp] at hmp
    rw [cpointset_at_lt sets0 q hq] at hmq
    have hpw := List.pairwise_iff_getElem.1 hnd.2
    by_contra hne
    rcases Nat.lt_or_gt_of_ne hne with hlt | hlt
    · exact (List.disjoint_left.1 (hpw p q hp hq hlt)) hmp hmq
    · exact (List.disjoint_left.1 (hpw q p hq hp hlt)) hmq hmp
  · intro p hp q hq he
    unfold rep_point at he
    rw [cpointset_at_lt sets0 p hp, cpointset_at_lt sets0 q hq] at he
    have hp' : p < (sets0.map (fun s => s.cpoint.point)).length := by simpa using hp
    have hq' : q < (sets0.map (fun s => s.cpoint.point)).length := by simpa using hq
    have e : (sets0.map (fun s => s.cpoint.point))[p] =
        (sets0.map (fun s => s.cpoint.point))[q] := by
      simpa using he
    exact (List.Nodup.getElem_inj_iff h3).1 e
  · intro p hp m hm
    unfold members at hm
    unfold rep_point
    rw [cpointset_at_lt sets0 p hp] at hm ⊢
    obtain ⟨_, _, _, _, e3⟩ := h2 sets0[p] (List.getElem_mem _)
    exact e3 m hm
  · intro p hp
    obtain ⟨m, _, _, e2, _⟩ := h2 sets0[p] (List.getElem_mem _)
    exact ⟨m, by rw [cpointset_at_lt sets0 p hp, e2]⟩

theorem cpoint_at_zero (heap0 : List cpoint_t) (h : ∀ c ∈ heap0, c.cluster_id = 0) (m : Nat) :
    (cpoint_at heap0 m).cluster_id = 0 := by
  rw [cpoint_at_eq]
  cases hm : heap0[m]? with
  | none => rfl
  | some c => exact h c (List.getElem?_mem hm)

theorem rid_zero (heap0 : List cpoint_t) (sets0 : List cpointset_t) (g : geom heap0 sets0)
    (h : ∀ c ∈ heap0, c.cluster_id = 0) (p : Nat) : rid sets0 p = 0 := by
  unfold rid
  by_cases hp : p < sets0.length
  · obtain ⟨m, e⟩ := g.copy p hp
    rw [e]
    exact cpoint_at_zero heap0 h m
  · rw [cpointset_at_eq, List.getElem?_eq_none (by omega)]
    rfl

/-! ## dbscan.c: the invariant of the main loop -/

/-- The stamping block writes the id on the representative `p` and on its members, and
nothing else. -/
theorem stamp_spec (heap0 : List cpoint_t) (sets0 : List cpointset_t) (g : geom heap0 sets0)
    (st : dbscan_t) (p id : Nat) (hp : p < sets0.length)
    (hs : shape st.cpointsets = shape sets0)
    (hh : st.cpoints.map (fun c => c.point) = heap0.map (fun c => c.point)) :
    shape (stamp st p id).cpointsets = shape sets0 ∧
    (stamp st p id).cpoints.map (fun c => c.point) = heap0.map (fun c => c.point) ∧
    (∀ q, rid (stamp st p id).cpointsets q = if q = p then id else rid st.cpointsets q) ∧
    (∀ m, hid (stamp st p id).cpoints m
      = if m ∈ members sets0 p then id else hid st.cpoints m) := by
  have hlen : st.cpoints.length = heap0.length := by
    simpa using congrArg List.length hh
  have hmem : (cpointset_at st.cpointsets p).cpoints = members sets0 p := shape_members hs p
  obtain ⟨_, s2, s3⟩ := stamp_heap_spec id (members sets0 p) st.cpoints (by
    intro x hx
    rw [hlen]
    exact g.bound p hp x hx)
  unfold stamp
  simp only
  rw [hmem]
  refine ⟨(set_rep_id_shape _ _ _).trans hs, s2.trans hh, ?_, s3⟩
  intro q
  exact rid_set_rep_id _ _ _ _ (by rw [shape_length hs]; exact hp)

theorem grow_refl (st : dbscan_t) : grow st st :=
  ⟨fun _ _ => rfl, fun _ _ => rfl, fun _ h => h, le_refl _⟩

theorem grow_trans {a b c : dbscan_t} (h1 : grow a b) (h2 : grow b c) : grow a c := by
  refine ⟨?_, ?_, fun x hx => h2.vis_mono x (h1.vis_mono x hx), le_trans h1.next_mono h2.next_mono⟩
  · intro p hp
    have e := h1.rid_keep p hp
    rw [h2.rid_keep p (by rw [e]; exact hp), e]
  · intro m hm
    have e := h1.hid_keep m hm
    rw [h2.hid_keep m (by rw [e]; exact hm), e]

theorem inv2_visited_length {heap0 : List cpoint_t} {sets0 : List cpointset_t}
    {pend : List Nat} {st : dbscan_t} (h : inv2 heap0 sets0 pend st) :
    (hashset_to_list st.visited).length ≤ sets0.length :=
  nodup_length_le (hs_to_list_nodup h.vis_ok) h.vis_lt

theorem inv2_nnset_length {heap0 : List cpoint_t} {sets0 : List cpointset_t}
    {pend : List Nat} {st : dbscan_t} (h : inv2 heap0 sets0 pend st) :
    (hashset_to_list st.nnset).length ≤ sets0.length :=
  nodup_length_le (hs_to_list_nodup h.nn_ok) h.nn_lt

/-- Replacing `nnset` by a set of handles of point-sets. -/
theorem inv2_set_nnset {heap0 : List cpoint_t} {sets0 : List cpointset_t}
    {pend : List Nat} {st : dbscan_t} (h : inv2 heap0 sets0 pend st) (s : hashset_t Nat)
    (hok : hs_ok s) (hlt : ∀ x ∈ hashset_to_list s, x < sets0.length) :
    inv2 heap0 sets0 pend { st with nnset := s } :=
  { shape_eq := h.shape_eq, points_eq := h.points_eq, mem_id := h.mem_id, vis_ok := h.vis_ok,
    nn_ok := hok, vis_lt := h.vis_lt, nn_lt := hlt, lab_vis := h.lab_vis, vis_lab := h.vis_lab,
    gen_eq := h.gen_eq, id_le := h.id_le, id_ex := h.id_ex, next_le := h.next_le,
    noise_vis := h.noise_vis, noise_nodup := h.noise_nodup }

/-- Adding an unvisited point-set to `visited`. -/
theorem inv2_visit {heap0 : List cpoint_t} {sets0 : List cpointset_t} {st : dbscan_t}
    (h : inv2 heap0 sets0 [] st) (p : Nat) (hp : p < sets0.length)
    (hnew : p ∉ hashset_to_list st.visited) :
    inv2 heap0 sets0 [p] { st with visited := (hashset_add st.visited p).2 } ∧
    p ∈ hashset_to_list (hashset_add st.visited p).2 ∧
    (∀ x ∈ hashset_to_list st.visited, x ∈ hashset_to_list (hashset_add st.visited p).2) ∧
    rid st.cpointsets p = 0 ∧ p ∉ st.noise := by
  obtain ⟨a1, _, a3, _⟩ := hs_add_spec h.vis_ok p
  have hr : rid st.cpointsets p = 0 := by
    by_contra hc
    exact hnew (h.lab_vis p hp hc)
  have hlen : (hashset_to_list st.visited).length + 1 ≤
      (hashset_to_list (hashset_add st.visited p).2).length := by
    have hsub : List.Subperm (p :: hashset_to_list st.visited)
        (hashset_to_list (hashset_add st.visited p).2) := by
      apply List.subperm_of_subset
      · exact List.nodup_cons.2 ⟨hnew, hs_to_list_nodup h.vis_ok⟩
      · intro x hx
        rw [a3]
        simpa using hx
    simpa using hsub.length_le
  refine ⟨?_, (a3 p).2 (Or.inl rfl), fun x hx => (a3 x).2 (Or.inr hx), hr,
    fun hc => hnew (h.noise_vis p hc)⟩
  exact
  { shape_eq := h.shape_eq, points_eq := h.points_eq, mem_id := h.mem_id, vis_ok := a1,
    nn_ok := h.nn_ok,
    vis_lt := by
      intro x hx
      rcases (a3 x).1 hx with rfl | hx
      · exact hp
      · exact h.vis_lt x hx
    nn_lt := h.nn_lt,
    lab_vis := fun q hq hne => (a3 q).2 (Or.inr (h.lab_vis q hq hne)),
    vis_lab := by
      intro x hx
      rcases (a3 x).1 hx with rfl | hx
      · exact Or.inr (Or.inr (List.mem_singleton.2 rfl))
      · rcases h.vis_lab x hx with h1 | h1 | h1
        · exact Or.inl h1
        · exact Or.inr (Or.inl h1)
        · simp at h1
    gen_eq := h.gen_eq, id_le := h.id_le, id_ex := h.id_ex,
    next_le := by
      have := h.next_le
      simp only [List.length_nil, List.length_singleton] at this ⊢
      omega
    noise_vis := fun x hx => (a3 x).2 (Or.inr (h.noise_vis x hx)),
    noise_nodup := h.noise_nodup }

/-- Stamping an unlabelled, visited point-set with the current id, or with a new one. -/
theorem inv2_stamp {heap0 : List cpoint_t} {sets0 : List cpointset_t} (g : geom heap0 sets0)
    {pend : List Nat} {st : dbscan_t} (h : inv2 heap0 sets0 pend st) (p : Nat)
    (hp : p < sets0.length) (hr : rid st.cpointsets p = 0)
    (hv : p ∈ hashset_to_list st.visited) (hpend : ∀ x ∈ pend, x = p)
    (id : Nat) (gen1 : id_generator_t) (h1 : 1 ≤ id) (hgen : gen1.id = id + 1)
    (hge : st.next_id ≤ id) (hlt : ∀ k, k < id → k ≤ st.next_id)
    (hle : id ≤ st.next_id + pend.length) :
    inv2 heap0 sets0 [] (stamp { st with gen := gen1, next_id := id } p id) ∧
    grow st (stamp { st with gen := gen1, next_id := id } p id) := by
  obtain ⟨s1, s2, s3, s4⟩ := stamp_spec heap0 sets0 g { st with gen := gen1, next_id := id } p id
    hp h.shape_eq h.points_eq
  simp only at s3 s4
  have hmem0 : ∀ m ∈ members sets0 p, hid st.cpoints m = 0 := by
    intro m hm
    rw [h.mem_id p hp m hm, hr]
  constructor
  · exact
    { shape_eq := s1, points_eq := s2,
      mem_id := by
        intro q hq m hm
        rw [s3, s4]
        by_cases hqp : q = p
        · subst hqp
          rw [if_pos hm, if_pos rfl]
        · have hnm : m ∉ members sets0 p := fun hc => hqp (g.disjoint q hq p hp m hm hc)
          rw [if_neg hnm, if_neg hqp]
          exact h.mem_id q hq m hm
      vis_ok := h.vis_ok, nn_ok := h.nn_ok, vis_lt := h.vis_lt, nn_lt := h.nn_lt,
      lab_vis := by
        intro q hq hne
        rw [s3] at hne
        by_cases hqp : q = p
        · subst hqp; exact hv
        · rw [if_neg hqp] at hne
          exact h.lab_vis q hq hne
      vis_lab := by
        intro x hx
        rw [s3]
        by_cases hxp : x = p
        · left; rw [if_pos hxp]; omega
        · rw [if_neg hxp]
          rcases h.vis_lab x hx with h2 | h2 | h2
          · exact Or.inl h2
          · exact Or.inr (Or.inl h2)
          · exact absurd (hpend x h2) hxp
      gen_eq := hgen,
      id_le := by
        intro q hq
        rw [s3]
        split
        · exact le_refl _
        · exact le_trans (h.id_le q hq) hge
      id_ex := by
        intro k hk1 hk2
        by_cases hk : k = id
        · exact ⟨p, hp, by rw [s3, if_pos rfl, hk]⟩
        · obtain ⟨q, hq, hqk⟩ := h.id_ex k hk1 (hlt k (lt_of_le_of_ne hk2 hk))
          refine ⟨q, hq, ?_⟩
          rw [s3, if_neg]
          · exact hqk
          · intro hc
            rw [hc, hr] at hqk
            omega
      next_le := by
        have := h.next_le
        simp only [List.length_nil]
        exact le_trans hle this
      noise_vis := h.noise_vis, noise_nodup := h.noise_nodup }
  · refine ⟨?_, ?_, fun x hx => hx, hge⟩
    · intro q hq
      rw [s3, if_neg]
      intro hc
      exact hq (hc ▸ hr)
    · intro m hm
      rw [s4, if_neg]
      intro hc
      exact hm (hmem0 m hc)

/-- A visited point-set with too few neighbours joins `noise`. -/
theorem inv2_noise {heap0 : List cpoint_t} {sets0 : List cpointset_t} {st : dbscan_t}
    {p : Nat} (h : inv2 heap0 sets0 [p] st) (hv : p ∈ hashset_to_list st.visited)
    (hn : p ∉ st.noise) :
    inv2 heap0 sets0 [] { st with noise := array_append st.noise p } :=
  { shape_eq := h.shape_eq, points_eq := h.points_eq, mem_id := h.mem_id, vis_ok := h.vis_ok,
    nn_ok := h.nn_ok, vis_lt := h.vis_lt, nn_lt := h.nn_lt, lab_vis := h.lab_vis,
    vis_lab := by
      intro x hx
      rcases h.vis_lab x hx with h1 | h1 | h1
      · exact Or.inl h1
      · exact Or.inr (Or.inl (by simp [array_append, h1]))
      · exact Or.inr (Or.inl (by simp [array_append, List.mem_singleton.1 h1]))
    gen_eq := h.gen_eq, id_le := h.id_le, id_ex := h.id_ex,
    next_le := le_trans (Nat.le_add_right _ _) h.next_le,
    noise_vis := by
      intro x hx
      simp only [array_append, List.mem_append, List.mem_singleton] at hx
      rcases hx with hx | rfl
      · exact h.noise_vis x hx
      · exact hv
    noise_nodup := by
      simp only [array_append]
      exact List.Nodup.append h.noise_nodup (List.nodup_singleton _)
        (by simpa [List.disjoint_singleton] using hn) }

/-- The hulls of handles of different point-sets: `convex_hulls` returns. -/
theorem convex_hulls_total {α : Type} (libc : Libc) (pt : α → point_t) (points : List α)
    (hd : (points.map pt).Nodup) : ∃ r, convex_hulls libc pt points = some r := by
  by_cases hlen : points.length ≤ 3
  · exact ⟨points, by unfold convex_hulls; rw [if_pos hlen]⟩
  · obtain ⟨head, R, h, _⟩ := convex_hulls_distinct libc pt points (by omega) hd
    exact ⟨_, h⟩

theorem hull_set_total {heap0 : List cpoint_t} {sets0 : List cpointset_t}
    (g : geom heap0 sets0) {pend : List Nat} {st : dbscan_t} (h : inv2 heap0 sets0 pend st)
    (env : env_t) (hullset : hashset_t Nat) : ∃ hs, hull_set env st hullset = some hs := by
  have hd : ((hashset_to_list st.nnset).map (rep_point st.cpointsets)).Nodup := by
    rw [shape_rep_point h.shape_eq]
    refine List.Nodup.map_on ?_ (hs_to_list_nodup h.nn_ok)
    intro x hx y hy he
    exact g.inj x (h.nn_lt x hx) y (h.nn_lt y hy) he
  obtain ⟨r, hr⟩ := convex_hulls_total env.libc (rep_point st.cpointsets) _ hd
  exact ⟨_, by unfold hull_set; rw [hr]; rfl⟩

/-! ## dbscan.c: the main loop -/

theorem measure_step (n v v1 a a1 fuel : Nat) (hv : v + 1 ≤ v1) (hv1 : v1 ≤ n) (ha : a1 ≤ n)
    (h : (n - v) * (n + 1) + a < fuel + 1) : (n - v1) * (n + 1) + a1 < fuel := by
  have e : n - v = (n - v1) + (v1 - v) := by omega
  have h2 : (n - v1) * (n + 1) + (n + 1) ≤ (n - v) * (n + 1) := by
    rw [e, Nat.add_mul]
    have : 1 * (n + 1) ≤ (v1 - v) * (n + 1) := Nat.mul_le_mul_right _ (by omega)
    omega
  omega

theorem grow_congr_left {a b c : dbscan_t} (h : grow b c) (h1 : a.cpointsets = b.cpointsets)
    (h2 : a.cpoints = b.cpoints) (h3 : a.visited = b.visited) (h4 : a.next_id = b.next_id) :
    grow a c := by
  refine ⟨?_, ?_, ?_, ?_⟩
  · rw [h1]; exact h.rid_keep
  · rw [h2]; exact h.hid_keep
  · rw [h3]; exact h.vis_mono
  · rw [h4]; exact h.next_mono

theorem grow_congr_right {a b c : dbscan_t} (h : grow a b) (h1 : c.cpointsets = b.cpointsets)
    (h2 : c.cpoints = b.cpoints) (h3 : c.visited = b.visited) (h4 : c.next_id = b.next_id) :
    grow a c := by
  refine ⟨?_, ?_, ?_, ?_⟩
  · rw [h1]; exact h.rid_keep
  · rw [h2]; exact h.hid_keep
  · rw [h3]; exact h.vis_mono
  · rw [h4]; exact h.next_mono

theorem grow_of_fields {a b : dbscan_t} (h1 : b.cpointsets = a.cpointsets)
    (h2 : b.cpoints = a.cpoints)
    (h3 : ∀ x ∈ hashset_to_list a.visited, x ∈ hashset_to_list b.visited)
    (h4 : b.next_id = a.next_id) : grow a b := by
  refine ⟨?_, ?_, h3, by rw [h4]⟩
  · intro p _; rw [h1]
  · intro m _; rw [h2]

theorem visit_length {set : hashset_t Nat} (h : hs_ok set) (p : Nat)
    (hnew : p ∉ hashset_to_list set) :
    (hashset_to_list set).length + 1 ≤ (hashset_to_list (hashset_add set p).2).length := by
  obtain ⟨_, _, a3, _⟩ := hs_add_spec h p
  have hsub : List.Subperm (p :: hashset_to_list set)
      (hashset_to_list (hashset_add set p).2) := by
    apply List.subperm_of_subset
    · exact List.nodup_cons.2 ⟨hnew, hs_to_list_nodup h⟩
    · intro x hx
      rw [a3]
      simpa using hx
  simpa using hsub.length_le

theorem measure_init (n v a : Nat) (ha : a ≤ n) :
    (n - v) * (n + 1) + a < (n + 1) * (n + 1) := by
  have h1 : (n - v) * (n + 1) ≤ n * (n + 1) := Nat.mul_le_mul_right _ (Nat.sub_le _ _)
  have h2 : (n + 1) * (n + 1) = n * (n + 1) + (n + 1) := by ring
  omega

theorem expand_spec {heap0 : List cpoint_t} {sets0 : List cpointset_t} (g : geom heap0 sets0)
    (env : env_t) (tree : kdtree_t Nat) (eps : ℚ) (min_pts : Nat)
    (htree : ∀ h ∈ kd_points tree.root, h < sets0.length) :
    ∀ (fuel : Nat) (st : dbscan_t) (hullset : hashset_t Nat), inv2 heap0 sets0 [] st →
      1 ≤ st.next_id →
      (sets0.length - (hashset_to_list st.visited).length) * (sets0.length + 1)
        + (hashset_to_list st.nnset).length < fuel →
      ∃ st1, expand env tree eps min_pts fuel st hullset = run_t.go st1 ∧
        inv2 heap0 sets0 [] st1 ∧ grow st st1 := by
  intro fuel
  induction fuel with
  | zero => intro _ _ _ _ hm; omega
  | succ fuel ih =>
    intro st hullset h h1 hm
    unfold expand
    by_cases hsize : hashset_size st.nnset = 0
    · rw [if_pos hsize]
      exact ⟨st, rfl, h, grow_refl st⟩
    · rw [if_neg hsize]
      rw [hs_size_eq h.nn_ok] at hsize
      rcases hs_pop_spec h.nn_ok with ⟨he, _⟩ | ⟨k, rest, set1, hlist, hpop, hok1, hrest, _⟩
      · rw [he] at hsize; exact absurd rfl hsize
      · rw [hpop]
        simp only
        have hk : k < sets0.length := h.nn_lt k (by rw [hlist]; exact List.mem_cons_self _ _)
        have hi1 : inv2 heap0 sets0 [] { st with nnset := set1 } :=
          inv2_set_nnset h set1 hok1 (by
            intro x hx
            rw [hrest] at hx
            exact h.nn_lt x (by rw [hlist]; exact List.mem_cons_of_mem _ hx))
        have tail : ∀ (st4 : dbscan_t) (hs : hashset_t Nat) (pend : List Nat),
            inv2 heap0 sets0 pend st4 → (∀ x ∈ pend, x = k) →
            k ∈ hashset_to_list st4.visited →
            st4.next_id = st.next_id → grow st st4 →
            (sets0.length - (hashset_to_list st4.visited).length) * (sets0.length + 1)
              + (hashset_to_list st4.nnset).length < fuel →
            (rid st4.cpointsets k ≠ 0 → pend = []) →
            ∃ st1, expand env tree eps min_pts fuel
              (if (cpointset_at st4.cpointsets k).cpoint.cluster_id = 0 then
                stamp st4 k st4.next_id else st4) hs = run_t.go st1 ∧
              inv2 heap0 sets0 [] st1 ∧ grow st st1 := by
          intro st4 hs pend i4 hpend hv4 hn4 g4 hm4 hp4
          by_cases hz : (cpointset_at st4.cpointsets k).cpoint.cluster_id = 0
          · rw [if_pos hz]
            obtain ⟨j1, j2⟩ := inv2_stamp g i4 k hk hz hv4 hpend st4.next_id st4.gen
              (by omega) i4.gen_eq (le_refl _) (fun _ hlt => le_of_lt hlt) (by omega)
            obtain ⟨st1, e1, e2, e3⟩ := ih _ hs j1 (by show 1 ≤ st4.next_id; omega) hm4
            exact ⟨st1, e1, e2, grow_trans (grow_trans g4 j2) e3⟩
          · rw [if_neg hz]
            have hp : pend = [] := hp4 hz
            subst hp
            obtain ⟨st1, e1, e2, e3⟩ := ih _ hs i4 (by omega) hm4
            exact ⟨st1, e1, e2, grow_trans g4 e3⟩
        have hlen : (hashset_to_list st.nnset).length = rest.length + 1 := by
          rw [hlist]; rfl
        by_cases hvis : k ∈ hashset_to_list st.visited
        · have hc : hashset_contains st.visited k = true := (hs_contains_iff h.vis_ok k).2 hvis
          simp only [hc, Bool.not_true, Bool.false_eq_true, if_false]
          refine tail _ hullset [] hi1 (by simp) hvis rfl
            (grow_of_fields rfl rfl (fun _ hx => hx) rfl) ?_ (fun _ => rfl)
          show (sets0.length - (hashset_to_list st.visited).length) * (sets0.length + 1)
            + (hashset_to_list set1).length < fuel
          rw [hrest]
          omega
        · have hc : hashset_contains st.visited k = false := by
            rw [← Bool.not_eq_true, hs_contains_iff h.vis_ok k]
            exact hvis
          simp only [hc, Bool.not_false, if_true]
          obtain ⟨v1, v2, v3, v4, v5⟩ := inv2_visit hi1 k hk hvis
          have hvlen := visit_length h.vis_ok k hvis
          have hv1len := inv2_visited_length v1
          have hg2 : ∀ (s : hashset_t Nat), grow st
              { cpoints := st.cpoints, cpointsets := st.cpointsets, gen := st.gen,
                next_id := st.next_id, visited := (hashset_add st.visited k).2,
                nnset := s, noise := st.noise } :=
            fun s => grow_of_fields rfl rfl v3 rfl
          have hms : ∀ (s : hashset_t Nat), hs_ok s →
              (∀ x ∈ hashset_to_list s, x < sets0.length) →
              (sets0.length - (hashset_to_list (hashset_add st.visited k).2).length)
                * (sets0.length + 1) + (hashset_to_list s).length < fuel := by
            intro s hs1 hs2
            exact measure_step _ _ _ _ _ _ hvlen hv1len
              (nodup_length_le (hs_to_list_nodup hs1) hs2) hm
          have hlt1 : ∀ x ∈ hashset_to_list set1, x < sets0.length := hi1.nn_lt
          by_cases hh : hashset_contains hullset k = true
          · simp only [hh, if_true]
            have hnnlt : ∀ x ∈ kdtree_k_nearest_neighbour env.libc (rep_point st.cpointsets)
                tree (rep_point st.cpointsets k) eps, x < sets0.length :=
              fun x hx => htree x (kdtree_knn_subset _ _ _ _ _ x hx)
            generalize kdtree_k_nearest_neighbour env.libc (rep_point st.cpointsets)
                tree (rep_point st.cpointsets k) eps = nn_ at hnnlt ⊢
            by_cases ht : min_pts ≤ total_of st.cpointsets nn_
            · simp only [ge_iff_le, ht, if_true]
              obtain ⟨b1, _, b3⟩ := hs_add_all_spec nn_ hok1
              have hlt3 : ∀ x ∈ hashset_to_list (hashset_add_all set1 nn_),
                  x < sets0.length := by
                intro x hx
                rcases (b3 x).1 hx with hx | hx
                · exact hnnlt x hx
                · exact hlt1 x hx
              have i3 : inv2 heap0 sets0 [k]
                  { cpoints := st.cpoints, cpointsets := st.cpointsets, gen := st.gen,
                    next_id := st.next_id, visited := (hashset_add st.visited k).2,
                    nnset := hashset_add_all set1 nn_, noise := st.noise } :=
                inv2_set_nnset v1 _ b1 hlt3
              obtain ⟨hs, hhs⟩ := hull_set_total g i3 env (hashset_remove_all hullset)
              rw [hhs]
              simp only [Option.map_some']
              exact tail _ hs [k] i3 (by simp) v2 rfl
                (hg2 _) (hms _ b1 hlt3) (fun hne => absurd v4 hne)
            · simp only [ge_iff_le, ht, if_false]
              have i3 : inv2 heap0 sets0 [k]
                  { cpoints := st.cpoints, cpointsets := st.cpointsets, gen := st.gen,
                    next_id := st.next_id, visited := (hashset_add st.visited k).2,
                    nnset := set1, noise := st.noise } := v1
              obtain ⟨hs, hhs⟩ := hull_set_total g i3 env (hashset_remove_all hullset)
              rw [hhs]
              simp only [Option.map_some']
              exact tail _ hs [k] i3 (by simp) v2 rfl
                (hg2 _) (hms _ hok1 hlt1) (fun hne => absurd v4 hne)
          · simp only [hh, Bool.false_eq_true, if_false]
            exact tail _ hullset [k] v1 (by simp) v2 rfl
              (hg2 _) (hms _ hok1 hlt1) (fun hne => absurd v4 hne)

theorem cluster_step_spec {heap0 : List cpoint_t} {sets0 : List cpointset_t}
    (g : geom heap0 sets0) (env : env_t) (tree : kdtree_t Nat) (eps : ℚ) (min_pts : Nat)
    (htree : ∀ h ∈ kd_points tree.root, h < sets0.length) (hN : sets0.length + 2 < 2 ^ 64)
    (st : dbscan_t) (point : Nat) (h : inv2 heap0 sets0 [] st) (hp : point < sets0.length) :
    ∃ st1, cluster_step env tree eps min_pts st point = run_t.go st1 ∧
      inv2 heap0 sets0 [] st1 ∧ grow st st1 ∧ point ∈ hashset_to_list st1.visited := by
  unfold cluster_step
  by_cases hvis : point ∈ hashset_to_list st.visited
  · rw [if_pos ((hs_contains_iff h.vis_ok point).2 hvis)]
    exact ⟨st, rfl, h, grow_refl st, hvis⟩
  · have hc : ¬ hashset_contains st.visited point = true := by
      rw [hs_contains_iff h.vis_ok point]
      exact hvis
    rw [if_neg hc]
    obtain ⟨v1, v2, v3, v4, v5⟩ := inv2_visit h point hp hvis
    have hv1len : (hashset_to_list (hashset_add st.visited point).2).length ≤ sets0.length :=
      inv2_visited_length v1
    simp only
    have hnnlt : ∀ x ∈ kdtree_k_nearest_neighbour env.libc (rep_point st.cpointsets)
        tree (rep_point st.cpointsets point) eps, x < sets0.length :=
      fun x hx => htree x (kdtree_knn_subset _ _ _ _ _ x hx)
    generalize kdtree_k_nearest_neighbour env.libc (rep_point st.cpointsets)
        tree (rep_point st.cpointsets point) eps = nn_ at hnnlt ⊢
    by_cases ht : total_of st.cpointsets nn_ < min_pts
    · rw [if_pos ht]
      exact ⟨_, rfl, inv2_noise v1 v2 v5, grow_of_fields rfl rfl v3 rfl, v2⟩
    · rw [if_neg ht]
      have hnext : st.next_id + 1 ≤ (hashset_to_list (hashset_add st.visited point).2).length :=
        v1.next_le
      have hmod : (st.next_id + 1 + 1) % 2 ^ 64 = st.next_id + 1 + 1 :=
        Nat.mod_eq_of_lt (by omega)
      have hgen : id_generator_next_id st.gen =
          (st.next_id + 1, { id := (st.next_id + 1 + 1) % 2 ^ 64 }) := by
        unfold id_generator_next_id
        rw [h.gen_eq]
      obtain ⟨j1, j2⟩ := inv2_stamp g v1 point hp v4 v2 (by simp) (st.next_id + 1)
        { id := (st.next_id + 1 + 1) % 2 ^ 64 } (by omega) hmod (by simp)
        (fun k hk => by simp only at hk ⊢; omega) (by simp)
      rw [hgen]
      simp only
      have j1a : inv2 heap0 sets0 [] (stamp
          { cpoints := st.cpoints, cpointsets := st.cpointsets,
            gen := { id := (st.next_id + 1 + 1) % 2 ^ 64 }, next_id := st.next_id + 1,
            visited := (hashset_add st.visited point).2, nnset := st.nnset,
            noise := st.noise } point (st.next_id + 1)) := j1
      have gv : grow st
          { cpoints := st.cpoints, cpointsets := st.cpointsets, gen := st.gen,
            next_id := st.next_id, visited := (hashset_add st.visited point).2,
            nnset := st.nnset, noise := st.noise } := grow_of_fields rfl rfl v3 rfl
      have j2a : grow st (stamp
          { cpoints := st.cpoints, cpointsets := st.cpointsets,
            gen := { id := (st.next_id + 1 + 1) % 2 ^ 64 }, next_id := st.next_id + 1,
            visited := (hashset_add st.visited point).2, nnset := st.nnset,
            noise := st.noise } point (st.next_id + 1)) :=
        grow_trans gv j2
      have j3a : point ∈ hashset_to_list (stamp
          { cpoints := st.cpoints, cpointsets := st.cpointsets,
            gen := { id := (st.next_id + 1 + 1) % 2 ^ 64 }, next_id := st.next_id + 1,
            visited := (hashset_add st.visited point).2, nnset := st.nnset,
            noise := st.noise } point (st.next_id + 1)).visited := v2
      have j4a : 1 ≤ (stamp
          { cpoints := st.cpoints, cpointsets := st.cpointsets,
            gen := { id := (st.next_id + 1 + 1) % 2 ^ 64 }, next_id := st.next_id + 1,
            visited := (hashset_add st.visited point).2, nnset := st.nnset,
            noise := st.noise } point (st.next_id + 1)).next_id := Nat.le_add_left 1 _
      generalize stamp
          { cpoints := st.cpoints, cpointsets := st.cpointsets,
            gen := { id := (st.next_id + 1 + 1) % 2 ^ 64 }, next_id := st.next_id + 1,
            visited := (hashset_add st.visited point).2, nnset := st.nnset,
            noise := st.noise } point (st.next_id + 1) = S at j1a j2a j3a j4a ⊢
      obtain ⟨r1, r2, _⟩ := hs_remove_all_spec j1a.nn_ok
      obtain ⟨b1, _, b3⟩ := hs_add_all_spec (nn_.drop 1) r1
      have hlt3 : ∀ x ∈ hashset_to_list
          (hashset_add_all (hashset_remove_all S.nnset) (nn_.drop 1)), x < sets0.length := by
        intro x hx
        rcases (b3 x).1 hx with hx | hx
        · exact hnnlt x (List.mem_of_mem_drop hx)
        · rw [r2] at hx
          simp at hx
      have i3 : inv2 heap0 sets0 []
          { cpoints := S.cpoints, cpointsets := S.cpointsets, gen := S.gen,
            next_id := S.next_id, visited := S.visited,
            nnset := hashset_add_all (hashset_remove_all S.nnset) (nn_.drop 1),
            noise := S.noise } := inv2_set_nnset j1a _ b1 hlt3
      obtain ⟨hs, hhs⟩ := hull_set_total g i3 env (hashset_create 0 env.addr_hash)
      rw [hhs]
      simp only
      rw [shape_length j1a.shape_eq]
      obtain ⟨st1, e1, e2, e3⟩ := expand_spec g env tree eps min_pts htree
        ((sets0.length + 1) * (sets0.length + 1)) _ hs i3 j4a
        (measure_init _ _ _ (nodup_length_le (hs_to_list_nodup b1) hlt3))
      exact ⟨st1, e1, e2,
        grow_trans j2a (grow_congr_left e3 rfl rfl rfl rfl),
        e3.vis_mono _ j3a⟩

/-- The main loop over the point-sets `points`: it ends, every one of them is visited,
and no positive id is changed. -/
theorem cluster_loop_spec {heap0 : List cpoint_t} {sets0 : List cpointset_t}
    (g : geom heap0 sets0) (env : env_t) (tree : kdtree_t Nat) (eps : ℚ) (min_pts : Nat)
    (htree : ∀ h ∈ kd_points tree.root, h < sets0.length) (hN : sets0.length + 2 < 2 ^ 64)
    (points : List Nat) :
    ∀ (st : dbscan_t), inv2 heap0 sets0 [] st → (∀ x ∈ points, x < sets0.length) →
      ∃ st1, cluster_loop env tree eps min_pts st points = run_t.go st1 ∧
        inv2 heap0 sets0 [] st1 ∧ grow st st1 ∧
        ∀ x ∈ points, x ∈ hashset_to_list st1.visited := by
  induction points with
  | nil => intro st h _; exact ⟨st, rfl, h, grow_refl st, by simp⟩
  | cons point rest ih =>
    intro st h hlt
    obtain ⟨st1, e1, e2, e3, e4⟩ := cluster_step_spec g env tree eps min_pts htree hN st point h
      (hlt point (List.mem_cons_self _ _))
    obtain ⟨st2, f1, f2, f3, f4⟩ := ih st1 e2 (fun x hx => hlt x (List.mem_cons_of_mem _ hx))
    refine ⟨st2, ?_, f2, grow_trans e3 f3, ?_⟩
    · unfold cluster_loop
      rw [e1]
      exact f1
    · intro x hx
      rw [List.mem_cons] at hx
      rcases hx with rfl | hx
      · exact f3.vis_mono _ e4
      · exact f4 x hx

/-! ## dbscan.c: the noise -/

theorem inv2_lab {heap0 : List cpoint_t} {sets0 : List cpointset_t} {pend : List Nat}
    {st : dbscan_t} (h : inv2 heap0 sets0 pend st) : lab heap0 sets0 st :=
  ⟨h.shape_eq, h.points_eq, h.mem_id⟩

theorem stamp_lab {heap0 : List cpoint_t} {sets0 : List cpointset_t} (g : geom heap0 sets0)
    {st : dbscan_t} (h : lab heap0 sets0 st) (p id : Nat) (hp : p < sets0.length) :
    lab heap0 sets0 (stamp st p id) ∧
    (∀ q, rid (stamp st p id).cpointsets q = if q = p then id else rid st.cpointsets q) ∧
    (stamp st p id).gen = st.gen ∧ (stamp st p id).next_id = st.next_id := by
  obtain ⟨s1, s2, s3, s4⟩ := stamp_spec heap0 sets0 g st p id hp h.shape_eq h.points_eq
  refine ⟨⟨s1, s2, ?_⟩, s3, rfl, rfl⟩
  intro q hq m hm
  rw [s3, s4]
  by_cases hqp : q = p
  · subst hqp
    rw [if_pos hm, if_pos rfl]
  · have hnm : m ∉ members sets0 p := fun hc => hqp (g.disjoint q hq p hp m hm hc)
    rw [if_neg hnm, if_neg hqp]
    exact h.mem_id q hq m hm

theorem stamp_fold_lab {heap0 : List cpoint_t} {sets0 : List cpointset_t}
    (g : geom heap0 sets0) (id : Nat) (nn : List Nat) :
    ∀ (st : dbscan_t), lab heap0 sets0 st → (∀ x ∈ nn, x < sets0.length) →
      lab heap0 sets0 (nn.foldl (fun s h => stamp s h id) st) ∧
      (∀ q, rid (nn.foldl (fun s h => stamp s h id) st).cpointsets q
        = if q ∈ nn then id else rid st.cpointsets q) ∧
      (nn.foldl (fun s h => stamp s h id) st).gen = st.gen ∧
      (nn.foldl (fun s h => stamp s h id) st).next_id = st.next_id := by
  induction nn with
  | nil => intro st h _; exact ⟨h, fun q => by simp, rfl, rfl⟩
  | cons a nn ih =>
    intro st h hlt
    obtain ⟨a1, a2, a3, a4⟩ := stamp_lab g h a id (hlt a (List.mem_cons_self _ _))
    obtain ⟨b1, b2, b3, b4⟩ := ih (stamp st a id) a1
      (fun x hx => hlt x (List.mem_cons_of_mem _ hx))
    simp only [List.foldl_cons]
    refine ⟨b1, ?_, b3.trans a3, b4.trans a4⟩
    intro q
    rw [b2, a2]
    by_cases h1 : q ∈ nn
    · simp [h1]
    · by_cases h2 : q = a
      · simp [h2]
      · simp [h1, h2]

theorem point_dist_comm (a b : point_t) : point_dist a b = point_dist b a := by
  unfold point_dist
  ring

theorem point_dist_self (a : point_t) : point_dist a a = 0 := by
  unfold point_dist
  ring

theorem noise_step_inv {heap0 : List cpoint_t} {sets0 : List cpointset_t}
    (g : geom heap0 sets0) (env : env_t) (noise_tree : kdtree_t Nat) (eps2 : ℚ)
    (heps : 0 ≤ eps2) (base : dbscan_t) (noise2 : List Nat)
    (hlt : ∀ x ∈ noise2, x < sets0.length)
    (hperm : (kd_points noise_tree.root).Perm noise2)
    (hrect : ∀ x ∈ noise2, rect_contains noise_tree.rect (rep_point sets0 x) = true)
    (hN : base.next_id + noise2.length + 2 < 2 ^ 64)
    (done : List Nat) (st : dbscan_t) (cp : Nat) (hcp : cp ∈ noise2)
    (hdone : done.length < noise2.length)
    (h : inv3 heap0 sets0 base noise2 eps2 done st) :
    inv3 heap0 sets0 base noise2 eps2 (done ++ [cp]) (noise_step env noise_tree eps2 st cp) := by
  unfold noise_step
  by_cases hz : (cpointset_at st.cpointsets cp).cpoint.cluster_id = 0
  · rw [if_pos hz]
    simp only
    have hrp : rep_point st.cpointsets = rep_point sets0 := shape_rep_point h.is_lab.shape_eq
    rw [hrp]
    have hnn : ∀ x, x ∈ kdtree_k_nearest_neighbour env.libc (rep_point sets0) noise_tree
        (rep_point sets0 cp) eps2 ↔
        x ∈ noise2 ∧ point_dist (rep_point sets0 x) (rep_point sets0 cp) ≤ eps2 := by
      intro x
      rw [(kdtree_knn_inside env.libc (rep_point sets0) noise_tree (rep_point sets0 cp) eps2
        heps (hrect cp hcp)).mem_iff, List.mem_filter, hperm.mem_iff]
      simp
    generalize kdtree_k_nearest_neighbour env.libc (rep_point sets0) noise_tree
        (rep_point sets0 cp) eps2 = nn_ at hnn ⊢
    have hnext := h.next_le
    have hmod : (st.next_id + 1 + 1) % 2 ^ 64 = st.next_id + 1 + 1 :=
      Nat.mod_eq_of_lt (by omega)
    have hgen : id_generator_next_id st.gen =
        (st.next_id + 1, { id := (st.next_id + 1 + 1) % 2 ^ 64 }) := by
      unfold id_generator_next_id
      rw [h.gen_eq]
    rw [hgen]
    simp only
    have hl0 : lab heap0 sets0
        { st with gen := { id := (st.next_id + 1 + 1) % 2 ^ 64 }, next_id := st.next_id + 1 } :=
      ⟨h.is_lab.shape_eq, h.is_lab.points_eq, h.is_lab.mem_id⟩
    obtain ⟨f1, f2, f3, f4⟩ := stamp_fold_lab g (st.next_id + 1) nn_ _ hl0
      (fun x hx => hlt x ((hnn x).1 hx).1)
    simp only at f2 f3 f4
    have hself : cp ∈ nn_ := (hnn cp).2 ⟨hcp, by rw [point_dist_self]; exact heps⟩
    exact
    { is_lab := f1,
      gen_eq := by rw [f3, f4]; exact hmod,
      id_le := by
        intro p hp
        rw [f2, f4]
        split
        · exact le_refl _
        · exact le_trans (h.id_le p hp) (Nat.le_succ _)
      next_le := by
        rw [f4, List.length_append, List.length_singleton]
        omega
      next_ge := by
        rw [f4]
        exact le_trans h.next_ge (Nat.le_succ _)
      keep := by
        intro p hp
        rw [f2, if_neg (fun hc => hp ((hnn p).1 hc).1)]
        exact h.keep p hp
      done_lab := by
        intro c hc
        rw [f2]
        split
        · omega
        · rw [List.mem_append, List.mem_singleton] at hc
          rcases hc with hc | hc
          · exact h.done_lab c hc
          · subst hc
            rename_i hn
            exact absurd hself hn
      new_ex := by
        intro k hk1 hk2
        rw [f4] at hk2
        by_cases hk : k = st.next_id + 1
        · refine ⟨cp, hcp, by rw [f2, if_pos hself, hk], ?_⟩
          intro x hx hd
          rw [f2, if_pos ((hnn x).2 ⟨hx, hd⟩)]
          omega
        · obtain ⟨c, hc, hck, hcn⟩ := h.new_ex k hk1 (by omega)
          have hcnn : c ∉ nn_ := by
            intro hc2
            have hd := ((hnn c).1 hc2).2
            rw [point_dist_comm] at hd
            exact hcn cp hcp hd hz
          refine ⟨c, hc, by rw [f2, if_neg hcnn]; exact hck, ?_⟩
          intro x hx hd
          rw [f2]
          split
          · omega
          · exact hcn x hx hd }
  · rw [if_neg hz]
    exact
    { is_lab := h.is_lab, gen_eq := h.gen_eq, id_le := h.id_le,
      next_le := by
        rw [List.length_append, List.length_singleton]
        exact le_trans h.next_le (by omega)
      next_ge := h.next_ge, keep := h.keep,
      done_lab := by
        intro c hc
        rw [List.mem_append, List.mem_singleton] at hc
        rcases hc with hc | hc
        · exact h.done_lab c hc
        · subst hc
          exact hz
      new_ex := h.new_ex }

theorem noise_fold_inv {heap0 : List cpoint_t} {sets0 : List cpointset_t}
    (g : geom heap0 sets0) (env : env_t) (noise_tree : kdtree_t Nat) (eps2 : ℚ)
    (heps : 0 ≤ eps2) (base : dbscan_t) (noise2 : List Nat)
    (hlt : ∀ x ∈ noise2, x < sets0.length)
    (hperm : (kd_points noise_tree.root).Perm noise2)
    (hrect : ∀ x ∈ noise2, rect_contains noise_tree.rect (rep_point sets0 x) = true)
    (hN : base.next_id + noise2.length + 2 < 2 ^ 64) (rest : List Nat) :
    ∀ (done : List Nat) (st : dbscan_t), done ++ rest = noise2 →
      inv3 heap0 sets0 base noise2 eps2 done st →
      inv3 heap0 sets0 base noise2 eps2 noise2 (rest.foldl (noise_step env noise_tree eps2) st) := by
  induction rest with
  | nil =>
    intro done st he h
    rw [List.append_nil] at he
    subst he
    exact h
  | cons cp rest ih =>
    intro done st he h
    rw [List.foldl_cons]
    apply ih (done ++ [cp]) _ (by rw [← he]; simp)
    apply noise_step_inv g env noise_tree eps2 heps base noise2 hlt hperm hrect hN done st cp
      (by rw [← he]; simp) (by rw [← he]; simp) h

theorem inv3_init {heap0 : List cpoint_t} {sets0 : List cpointset_t} {base : dbscan_t}
    (h : inv2 heap0 sets0 [] base) (noise2 : List Nat) (eps2 : ℚ) :
    inv3 heap0 sets0 base noise2 eps2 [] base :=
  { is_lab := inv2_lab h, gen_eq := h.gen_eq, id_le := h.id_le, next_le := Nat.le_add_right _ _,
    next_ge := le_refl _, keep := fun _ _ => rfl, done_lab := by simp,
    new_ex := fun k h1 h2 => absurd h2 (not_le.2 h1) }

/-- The block "collect the noise" after the main loop: it never fails, and it leaves the
invariant of its loop with every unlabelled noise point-set dealt with. -/
theorem collect_noise_spec {heap0 : List cpoint_t} {sets0 : List cpointset_t}
    (g : geom heap0 sets0) (env : env_t) (eps2 : ℚ) (heps : 0 ≤ eps2) (base : dbscan_t)
    (h : inv2 heap0 sets0 [] base) (hN : sets0.length + sets0.length + 2 < 2 ^ 64) :
    ∃ st2, collect_noise env eps2 base = some st2 ∧
      inv3 heap0 sets0 base
        (base.noise.filter
          (fun point => decide ((cpointset_at base.cpointsets point).cpoint.cluster_id = 0)))
        eps2
        (base.noise.filter
          (fun point => decide ((cpointset_at base.cpointsets point).cpoint.cluster_id = 0)))
        st2 := by
  unfold collect_noise
  simp only [array_size]
  generalize hn2 : base.noise.filter
    (fun point => decide ((cpointset_at base.cpointsets point).cpoint.cluster_id = 0)) = noise2
  have hsub : ∀ x ∈ noise2, x ∈ base.noise := by
    intro x hx
    rw [← hn2] at hx
    exact (List.mem_filter.1 hx).1
  have hlt : ∀ x ∈ noise2, x < sets0.length :=
    fun x hx => h.vis_lt x (h.noise_vis x (hsub x hx))
  have hnd : noise2.Nodup := by
    rw [← hn2]
    exact h.noise_nodup.filter _
  have hlen : noise2.length ≤ sets0.length := nodup_length_le hnd hlt
  by_cases hnoise : base.noise.length = 0
  · have hnil : noise2 = [] := by
      rw [← hn2, List.length_eq_zero.1 hnoise]
      rfl
    rw [if_neg (by simpa using hnoise)]
    subst hnil
    exact ⟨base, rfl, inv3_init h [] eps2⟩
  · rw [if_pos (by simpa using hnoise)]
    by_cases hn2len : noise2.length = 0
    · have hnil : noise2 = [] := List.length_eq_zero.1 hn2len
      rw [if_neg (by simpa using hn2len)]
      subst hnil
      exact ⟨base, rfl, inv3_init h [] eps2⟩
    · rw [if_pos (by simpa using hn2len)]
      have hd : (noise2.map (rep_point base.cpointsets)).Nodup := by
        rw [shape_rep_point h.shape_eq]
        refine List.Nodup.map_on ?_ hnd
        intro x hx y hy he
        exact g.inj x (hlt x hx) y (hlt y hy) he
      rcases kdtree_create_spec (rep_point base.cpointsets) env.point_hash env.rnd_noise
        noise2 hd with ⟨hnil, _⟩ | ⟨_, tree, htree, hperm, hrect⟩
      · rw [hnil] at hn2len
        exact absurd rfl hn2len
      · rw [htree]
        simp only
        refine ⟨_, rfl, ?_⟩
        have hvl := inv2_visited_length h
        have hnl := h.next_le
        simp only [List.length_nil, Nat.add_zero] at hnl
        apply noise_fold_inv g env tree eps2 heps base noise2 hlt hperm
          (by rw [← shape_rep_point h.shape_eq]; exact hrect) (by omega) noise2 [] base rfl
        exact inv3_init h noise2 eps2

/-! ## dbscan.c: the whole call -/

theorem hs_create_to_list {κ : Type} (n : Nat) (hash : κ → Nat) :
    hashset_to_list (hashset_create n hash) = [] := by
  rw [hs_wf_to_list (hs_wf_create n hash)]
  rfl

theorem inv2_init (env : env_t) (heap0 : List cpoint_t)
    (g : geom heap0 (convert_points env.libc heap0))
    (h0 : ∀ c ∈ heap0, c.cluster_id = 0) :
    inv2 heap0 (convert_points env.libc heap0) [] (dbscan_init env heap0) :=
  { shape_eq := rfl, points_eq := rfl,
    mem_id := by
      intro p _ m _
      show (cpoint_at heap0 m).cluster_id = rid (convert_points env.libc heap0) p
      rw [cpoint_at_zero heap0 h0 m, rid_zero heap0 _ g h0 p]
    vis_ok := ⟨[], hs_wf_create _ _⟩,
    nn_ok := ⟨[], hs_wf_create _ _⟩,
    vis_lt := by
      intro x hx
      simp [dbscan_init, hs_create_to_list] at hx
    nn_lt := by
      intro x hx
      simp [dbscan_init, hs_create_to_list] at hx
    lab_vis := by
      intro p _ hne
      exact absurd (rid_zero heap0 _ g h0 p) hne
    vis_lab := by
      intro x hx
      simp [dbscan_init, hs_create_to_list] at hx
    gen_eq := rfl,
    id_le := by
      intro p _
      show rid (convert_points env.libc heap0) p ≤ 0
      rw [rid_zero heap0 _ g h0 p]
    id_ex := by
      intro k h1 h2
      have : (dbscan_init env heap0).next_id = 0 := rfl
      omega
    next_le := Nat.zero_le _,
    noise_vis := by
      intro x hx
      simp [dbscan_init] at hx
    noise_nodup := List.nodup_nil }

theorem flatMap_length_ge (l : List cpointset_t) (h : ∀ s ∈ l, s.cpoints ≠ []) :
    l.length ≤ (l.flatMap (fun s => s.cpoints)).length := by
  induction l with
  | nil => simp
  | cons a l ih =>
    have ha : a.cpoints ≠ [] := h a (List.mem_cons_self _ _)
    have hpos : 0 < a.cpoints.length := List.length_pos.2 ha
    have := ih (fun s hs => h s (List.mem_cons_of_mem _ hs))
    simp only [List.flatMap_cons, List.length_append, List.length_cons]
    omega

theorem convert_points_length_le (libc : Libc) (heap0 : List cpoint_t) :
    (convert_points libc heap0).length ≤ heap0.length := by
  obtain ⟨h1, h2, _⟩ := convert_points_spec libc heap0
  have h3 := flatMap_length_ge (convert_points libc heap0) (by
    intro s hs
    obtain ⟨m, ms, e, _⟩ := h2 s hs
    rw [e]
    simp)
  have h4 := h1.length_eq
  rw [List.length_range] at h4
  omega

/-- What a call of `dbscan_cluster` on unlabelled points goes through: the tree is
built, the main loop ends in a state `base`, the noise block ends in a state `st2`, and
the call returns the last id given and the points of `st2`. -/
theorem dbscan_run (env : env_t) (heap0 : List cpoint_t) (eps : ℚ) (min_pts : Nat)
    (hne : heap0 ≠ []) (h0 : ∀ c ∈ heap0, c.cluster_id = 0) (hlen : heap0.length < 2 ^ 31) :
    ∃ tree base st2,
      kdtree_create_static (rep_point (convert_points env.libc heap0)) env.point_hash env.rnd
        (List.range (convert_points env.libc heap0).length) = some tree ∧
      (∀ h ∈ kd_points tree.root, h < (convert_points env.libc heap0).length) ∧
      cluster_loop env tree (eps * eps) min_pts (dbscan_init env heap0)
        (List.range (convert_points env.libc heap0).length) = run_t.go base ∧
      inv2 heap0 (convert_points env.libc heap0) [] base ∧
      (∀ p < (convert_points env.libc heap0).length, p ∈ hashset_to_list base.visited) ∧
      collect_noise env (eps * eps) base = some st2 ∧
      inv3 heap0 (convert_points env.libc heap0) base
        (base.noise.filter
          (fun point => decide ((cpointset_at base.cpointsets point).cpoint.cluster_id = 0)))
        (eps * eps)
        (base.noise.filter
          (fun point => decide ((cpointset_at base.cpointsets point).cpoint.cluster_id = 0)))
        st2 ∧
      dbscan_cluster env heap0 eps min_pts = some ((st2.next_id : Int), st2.cpoints) := by
  have g := convert_points_geom env.libc heap0
  have hle := convert_points_length_le env.libc heap0
  have hpos : 0 < heap0.length := List.length_pos.2 hne
  obtain ⟨p0, hp0, _⟩ := g.covered 0 hpos
  have hd : ((List.range (convert_points env.libc heap0).length).map
      (rep_point (convert_points env.libc heap0))).Nodup := by
    refine List.Nodup.map_on ?_ (List.nodup_range _)
    intro x hx y hy he
    exact g.inj x (List.mem_range.1 hx) y (List.mem_range.1 hy) he
  have h31 : (2 : Nat) ^ 31 + 2 ^ 31 + 2 < 2 ^ 64 := by norm_num
  rcases kdtree_create_spec (rep_point (convert_points env.libc heap0)) env.point_hash env.rnd
    _ hd with ⟨hnil, _⟩ | ⟨_, tree, htree, hperm, _⟩
  · have := congrArg List.length hnil
    rw [List.length_range] at this
    simp only [List.length_nil] at this
    omega
  · have hkd : ∀ h ∈ kd_points tree.root, h < (convert_points env.libc heap0).length :=
      fun h hh => List.mem_range.1 (hperm.mem_iff.1 hh)
    obtain ⟨base, e1, e2, _, e4⟩ := cluster_loop_spec g env tree (eps * eps) min_pts hkd
      (by omega) (List.range (convert_points env.libc heap0).length) (dbscan_init env heap0)
      (inv2_init env heap0 g h0) (fun x hx => List.mem_range.1 hx)
    obtain ⟨st2, f1, f2⟩ := collect_noise_spec g env (eps * eps) (mul_self_nonneg eps) base e2
      (by omega)
    refine ⟨tree, base, st2, htree, hkd, e1, e2, fun p hp => e4 p (List.mem_range.2 hp),
      f1, f2, ?_⟩
    unfold dbscan_cluster
    simp only
    rw [htree]
    simp only
    have e1a : cluster_loop env tree (eps * eps) min_pts
        { cpoints := heap0, cpointsets := convert_points env.libc heap0,
          gen := id_generator_create, next_id := 0,
          visited := hashset_create (convert_points env.libc heap0).length env.addr_hash,
          nnset := hashset_create (convert_points env.libc heap0).length env.addr_hash,
          noise := [] }
        (List.range (convert_points env.libc heap0).length) = run_t.go base := e1
    rw [e1a]
    simp only
    rw [f1]

theorem hid_default (heap : List cpoint_t) (m : Nat) (h : heap.length ≤ m) : hid heap m = 0 := by
  unfold hid
  rw [cpoint_at_eq, List.getElem?_eq_none h]
  rfl

theorem lab_length {heap0 : List cpoint_t} {sets0 : List cpointset_t} {st : dbscan_t}
    (h : lab heap0 sets0 st) : st.cpoints.length = heap0.length := by
  simpa using congrArg List.length h.points_eq

/-- The labels when the noise block is over, on the point-sets: all are labelled, the
ids are those from `1` to the last one given, and the ids of the main loop are kept. -/
theorem final_rid {heap0 : List cpoint_t} {sets0 : List cpointset_t} {base st2 : dbscan_t}
    {eps2 : ℚ} (h2 : inv2 heap0 sets0 [] base)
    (hall : ∀ p < sets0.length, p ∈ hashset_to_list base.visited)
    (h3 : inv3 heap0 sets0 base
      (base.noise.filter
        (fun point => decide ((cpointset_at base.cpointsets point).cpoint.cluster_id = 0)))
      eps2
      (base.noise.filter
        (fun point => decide ((cpointset_at base.cpointsets point).cpoint.cluster_id = 0)))
      st2) :
    (∀ p < sets0.length, 1 ≤ rid st2.cpointsets p ∧ rid st2.cpointsets p ≤ st2.next_id) ∧
    (∀ k, 1 ≤ k → k ≤ st2.next_id → ∃ p < sets0.length, rid st2.cpointsets p = k) ∧
    (∀ p, rid base.cpointsets p ≠ 0 → rid st2.cpointsets p = rid base.cpointsets p) := by
  have hin : ∀ p, p ∈ base.noise.filter
      (fun point => decide ((cpointset_at base.cpointsets point).cpoint.cluster_id = 0)) ↔
      p ∈ base.noise ∧ rid base.cpointsets p = 0 := by
    intro p
    rw [List.mem_filter]
    simp [rid]
  have hkeep : ∀ p, rid base.cpointsets p ≠ 0 → rid st2.cpointsets p = rid base.cpointsets p :=
    fun p hp => h3.keep p (fun hc => hp ((hin p).1 hc).2)
  refine ⟨?_, ?_, hkeep⟩
  · intro p hp
    refine ⟨?_, h3.id_le p hp⟩
    by_cases hz : rid base.cpointsets p = 0
    · have hn : p ∈ base.noise := by
        rcases h2.vis_lab p (hall p hp) with h | h | h
        · exact absurd hz h
        · exact h
        · simp at h
      exact Nat.pos_of_ne_zero (h3.done_lab p ((hin p).2 ⟨hn, hz⟩))
    · rw [hkeep p hz]
      exact Nat.pos_of_ne_zero hz
  · intro k hk1 hk2
    by_cases hk : k ≤ base.next_id
    · obtain ⟨p, hp, e⟩ := h2.id_ex k hk1 hk
      exact ⟨p, hp, by rw [hkeep p (by omega), e]⟩
    · obtain ⟨c, hc, e, _⟩ := h3.new_ex k (by omega) hk2
      exact ⟨c, h2.vis_lt c (h2.noise_vis c ((hin c).1 hc).1), e⟩

/-- The labels when the noise block is over, on the caller's points. -/
theorem final_hid {heap0 : List cpoint_t} {sets0 : List cpointset_t} (g : geom heap0 sets0)
    {base st2 : dbscan_t} {eps2 : ℚ} (h2 : inv2 heap0 sets0 [] base)
    (hall : ∀ p < sets0.length, p ∈ hashset_to_list base.visited)
    (h3 : inv3 heap0 sets0 base
      (base.noise.filter
        (fun point => decide ((cpointset_at base.cpointsets point).cpoint.cluster_id = 0)))
      eps2
      (base.noise.filter
        (fun point => decide ((cpointset_at base.cpointsets point).cpoint.cluster_id = 0)))
      st2) :
    st2.cpoints.map (fun c => c.point) = heap0.map (fun c => c.point) ∧
    (∀ m < heap0.length, 1 ≤ hid st2.cpoints m ∧ hid st2.cpoints m ≤ st2.next_id) ∧
    (∀ k, 1 ≤ k → k ≤ st2.next_id → ∃ m < heap0.length, hid st2.cpoints m = k) ∧
    (∀ i < heap0.length, ∀ j < heap0.length,
      (cpoint_at heap0 i).point = (cpoint_at heap0 j).point →
      hid st2.cpoints i = hid st2.cpoints j) ∧
    (∀ m, hid base.cpoints m ≠ 0 → hid st2.cpoints m = hid base.cpoints m) := by
  obtain ⟨r1, r2, r3⟩ := final_rid h2 hall h3
  refine ⟨h3.is_lab.points_eq, ?_, ?_, ?_, ?_⟩
  · intro m hm
    obtain ⟨p, hp, hmp⟩ := g.covered m hm
    rw [h3.is_lab.mem_id p hp m hmp]
    exact r1 p hp
  · intro k hk1 hk2
    obtain ⟨p, hp, e⟩ := r2 k hk1 hk2
    obtain ⟨m, hm⟩ := List.exists_mem_of_ne_nil _ (g.nonempty p hp)
    exact ⟨m, g.bound p hp m hm, by rw [h3.is_lab.mem_id p hp m hm, e]⟩
  · intro i hi j hj he
    obtain ⟨p, hp, hip⟩ := g.covered i hi
    obtain ⟨q, hq, hjq⟩ := g.covered j hj
    have hpq : p = q := by
      apply g.inj p hp q hq
      rw [← g.coords p hp i hip, ← g.coords q hq j hjq]
      exact he
    subst hpq
    rw [h3.is_lab.mem_id p hp i hip, h3.is_lab.mem_id p hp j hjq]
  · intro m hm
    have hm' : m < heap0.length := by
      by_contra hc
      apply hm
      apply hid_default
      rw [lab_length (inv2_lab h2)]
      omega
    obtain ⟨p, hp, hmp⟩ := g.covered m hm'
    rw [h3.is_lab.mem_id p hp m hmp, h2.mem_id p hp m hmp]
    apply r3
    rw [← h2.mem_id p hp m hmp]
    exact hm

/-- One run of the allocator and of the C library: `qsort` is an insertion sort, a
point-set is hashed by its index, every point has the same hash and `random()` returns
`0` each time. -/
def env_fixed : env_t :=
  { libc := libc_insertion,
    addr_hash := fun p => p,
    point_hash := fun _ => 0,
    rnd := fun _ => 0,
    rnd_noise := fun _ => 0 }

theorem cpoint_at_some {heap : List cpoint_t} {i : Nat} {c : cpoint_t}
    (h : heap[i]? = some c) : cpoint_at heap i = c := by
  rw [cpoint_at_eq, h]
  rfl

theorem cpoint_at_point_eq {a b : List cpoint_t}
    (h : a.map (fun c => c.point) = b.map (fun c => c.point)) (i : Nat) :
    (cpoint_at a i).point = (cpoint_at b i).point := by
  have h1 := congrArg (fun l => l[i]?) h
  simp only [List.getElem?_map] at h1
  rw [cpoint_at_eq, cpoint_at_eq]
  cases ha : a[i]? <;> cases hb : b[i]? <;> simp_all

/-- A call of `dbscan_cluster` on a non-empty array of unlabelled points returns the
number `r` of ids given, with the coordinates as they were, every id between `1` and
`r`, every such id on some point, and one id per coordinate pair. -/
theorem dbscan_cluster_labels (env : env_t) (cpoints : List cpoint_t) (eps : ℚ)
    (min_pts : Nat) (hne : cpoints ≠ []) (h0 : ∀ c ∈ cpoints, c.cluster_id = 0)
    (hlen : cpoints.length < 2 ^ 31) :
    ∃ (r : Nat) (heap : List cpoint_t),
      dbscan_cluster env cpoints eps min_pts = some ((r : Int), heap) ∧
      heap.map (fun c => c.point) = cpoints.map (fun c => c.point) ∧
      (∀ c ∈ heap, 1 ≤ c.cluster_id ∧ c.cluster_id ≤ r) ∧
      (∀ k, 1 ≤ k → k ≤ r → ∃ c ∈ heap, c.cluster_id = k) ∧
      (∀ (i j : Nat) (a b : cpoint_t), heap[i]? = some a → heap[j]? = some b →
        a.point = b.point → a.cluster_id = b.cluster_id) := by
  obtain ⟨tree, base, st2, _, _, _, h2, hall, _, h3, hres⟩ :=
    dbscan_run env cpoints eps min_pts hne h0 hlen
  obtain ⟨f1, f2, f3, f4, _⟩ := final_hid (convert_points_geom env.libc cpoints) h2 hall h3
  have hl : st2.cpoints.length = cpoints.length := by
    simpa using congrArg List.length f1
  refine ⟨st2.next_id, st2.cpoints, hres, f1, ?_, ?_, ?_⟩
  · intro c hc
    obtain ⟨m, hm, e⟩ := List.mem_iff_getElem.1 hc
    have := f2 m (by omega)
    unfold hid at this
    rw [cpoint_at_some ((List.getElem?_eq_getElem hm).trans (congrArg some e))] at this
    exact this
  · intro k hk1 hk2
    obtain ⟨m, hm, e⟩ := f3 k hk1 hk2
    have hm2 : m < st2.cpoints.length := by omega
    refine ⟨st2.cpoints[m], List.getElem_mem _, ?_⟩
    unfold hid at e
    rw [cpoint_at_some (List.getElem?_eq_getElem hm2)] at e
    exact e
  · intro i j a b ha hb hab
    have hi : i < st2.cpoints.length := by
      by_contra hc
      rw [List.getElem?_eq_none (by omega)] at ha
      cases ha
    have hj : j < st2.cpoints.length := by
      by_contra hc
      rw [List.getElem?_eq_none (by omega)] at hb
      cases hb
    have e := f4 i (by omega) j (by omega) (by
      rw [← cpoint_at_point_eq f1 i, ← cpoint_at_point_eq f1 j, cpoint_at_some ha,
        cpoint_at_some hb]
      exact hab)
    unfold hid at e
    rw [cpoint_at_some ha, cpoint_at_some hb] at e
    exact e

/-- C3 (counterexample). Two points at `(0, 0)` that come in with the ids 5 and 7: with
`eps = 1` and `min_pts = 3` the call returns 0 and the two ids are still 5 and 7. -/
theorem C3_prelabelled_twins_keep_their_ids :
    dbscan_cluster env_fixed [⟨⟨0, 0⟩, 5⟩, ⟨⟨0, 0⟩, 7⟩] 1 3
      = some (0, [⟨⟨0, 0⟩, 5⟩, ⟨⟨0, 0⟩, 7⟩]) := by decide!

/-- C3 (coalescence, amended). After a call of `dbscan_cluster` on a non-empty array of
points that all start with `cluster_id` 0, any two points with the same coordinates
have the same `cluster_id`. -/
theorem C3_coalescence (env : env_t) (cpoints : List cpoint_t) (eps : ℚ) (min_pts : Nat)
    (hne : cpoints ≠ []) (h0 : ∀ c ∈ cpoints, c.cluster_id = 0)
    (hlen : cpoints.length < 2 ^ 31) :
    ∃ (r : Int) (heap : List cpoint_t),
      dbscan_cluster env cpoints eps min_pts = some (r, heap) ∧ r ≠ -1 ∧
      heap.map (fun c => c.point) = cpoints.map (fun c => c.point) ∧
      ∀ (i j : Nat) (a b : cpoint_t), heap[i]? = some a → heap[j]? = some b →
        a.point = b.point → a.cluster_id = b.cluster_id := by
  obtain ⟨r, heap, h1, h2, _, _, h5⟩ := dbscan_cluster_labels env cpoints eps min_pts hne h0 hlen
  exact ⟨(r : Int), heap, h1, by omega, h2, h5⟩

theorem C3_coalescence_witness :
    [cpoint_init 0 0, cpoint_init 10 10, cpoint_init 0 0] ≠ [] ∧
    (∀ c ∈ [cpoint_init 0 0, cpoint_init 10 10, cpoint_init 0 0], c.cluster_id = 0) ∧
    [cpoint_init 0 0, cpoint_init 10 10, cpoint_init 0 0].length < 2 ^ 31 ∧
    ∃ (r : Int) (heap : List cpoint_t),
      dbscan_cluster env_fixed [cpoint_init 0 0, cpoint_init 10 10, cpoint_init 0 0] 1 2
        = some (r, heap) ∧ r ≠ -1 ∧
      heap.map (fun c => c.point)
        = [cpoint_init 0 0, cpoint_init 10 10, cpoint_init 0 0].map (fun c => c.point) ∧
      ∀ (i j : Nat) (a b : cpoint_t), heap[i]? = some a → heap[j]? = some b →
        a.point = b.point → a.cluster_id = b.cluster_id :=
  ⟨by simp, by simp [cpoint_init], by simp,
    C3_coalescence env_fixed [cpoint_init 0 0, cpoint_init 10 10, cpoint_init 0 0] 1 2
      (by simp) (by simp [cpoint_init]) (by simp)⟩

theorem dbscan_cluster_nil (env : env_t) (eps : ℚ) (min_pts : Nat) :
    dbscan_cluster env [] eps min_pts = some (-1, []) := by
  have hq : env.libc.qsort (cmp_point []) [] = [] :=
    List.Perm.eq_nil (env.libc.qsort_perm (cmp_point []) [])
  have hc : convert_points env.libc [] = [] := by
    unfold convert_points
    simp [hq]
  unfold dbscan_cluster
  simp only [hc]
  rfl

theorem cluster_loop_cons (env : env_t) (tree : kdtree_t Nat) (eps : ℚ) (min_pts : Nat)
    (st : dbscan_t) (a : Nat) (l : List Nat) :
    cluster_loop env tree eps min_pts st (a :: l) =
      match cluster_step env tree eps min_pts st a with
      | run_t.go st1 => cluster_loop env tree eps min_pts st1 l
      | other => other := by
  cases h : cluster_step env tree eps min_pts st a <;> simp [cluster_loop, h]

theorem cluster_loop_append (env : env_t) (tree : kdtree_t Nat) (eps : ℚ) (min_pts : Nat)
    (l1 : List Nat) :
    ∀ (st s1 : dbscan_t) (l2 : List Nat),
      cluster_loop env tree eps min_pts st l1 = run_t.go s1 →
      cluster_loop env tree eps min_pts st (l1 ++ l2) = cluster_loop env tree eps min_pts s1 l2 := by
  induction l1 with
  | nil =>
    intro st s1 l2 h
    simp only [cluster_loop, run_t.go.injEq] at h
    subst h
    rfl
  | cons a l1 ih =>
    intro st s1 l2 h
    simp only [List.cons_append]
    rw [cluster_loop_cons] at h ⊢
    cases hstep : cluster_step env tree eps min_pts st a with
    | spin => rw [hstep] at h; cases h
    | abort heap => rw [hstep] at h; cases h
    | go st1 =>
      rw [hstep] at h
      simp only at h ⊢
      exact ih st1 s1 l2 h

theorem sc_injective {c : ℚ} (hc : 0 < c) {a b : point_t} (h : sc c a = sc c b) : a = b := by
  unfold sc at h
  simp only [point_t.mk.injEq] at h
  have hc0 : c ≠ 0 := ne_of_gt hc
  exact point_ext (mul_left_cancel₀ hc0 h.1) (mul_left_cancel₀ hc0 h.2)

theorem point_dist_sc (c : ℚ) (a b : point_t) :
    point_dist (sc c a) (sc c b) = c * c * point_dist a b := by
  unfold point_dist sc
  ring

theorem cross_sc (c : ℚ) (a b d : point_t) :
    cross (sc c a) (sc c b) (sc c d) = c * c * cross a b d := by
  unfold cross sc
  ring

theorem sc_dim (c : ℚ) (p : point_t) (xd : Nat) : (sc c p).dim xd = c * p.dim xd := by
  unfold point_t.dim sc
  split <;> rfl

theorem mul_lt_mul_iff_sc {c : ℚ} (hc : 0 < c) (a b : ℚ) : c * a < c * b ↔ a < b :=
  mul_lt_mul_left hc

theorem mul_le_mul_iff_sc {c : ℚ} (hc : 0 < c) (a b : ℚ) : c * a ≤ c * b ↔ a ≤ b :=
  mul_le_mul_left hc

theorem mul_eq_mul_iff_sc {c : ℚ} (hc : 0 < c) (a b : ℚ) : c * a = c * b ↔ a = b :=
  ⟨fun h => mul_left_cancel₀ (ne_of_gt hc) h, fun h => by rw [h]⟩

theorem mul_pos_iff_sc {c : ℚ} (hc : 0 < c) (a : ℚ) : 0 < c * a ↔ 0 < a := by
  constructor
  · intro h
    by_contra hn
    have : c * a ≤ 0 := mul_nonpos_of_nonneg_of_nonpos (le_of_lt hc) (not_lt.1 hn)
    exact absurd h (not_lt.2 this)
  · exact fun h => mul_pos hc h

theorem mul_neg_iff_sc {c : ℚ} (hc : 0 < c) (a : ℚ) : c * a < 0 ↔ a < 0 := by
  constructor
  · intro h
    by_contra hn
    have : 0 ≤ c * a := mul_nonneg (le_of_lt hc) (not_lt.1 hn)
    exact absurd h (not_lt.2 this)
  · exact fun h => mul_neg_of_pos_of_neg hc h

theorem clock_direct_sc {α : Type} {c : ℚ} (hc : 0 < c) (pt : α → point_t) (l1 l2 : line_t α) :
    clock_direct (fun a => sc c (pt a)) l1 l2 = clock_direct pt l1 l2 := by
  unfold clock_direct
  simp only [cross_sc, gt_iff_lt, mul_pos_iff_sc (mul_pos hc hc), mul_neg_iff_sc (mul_pos hc hc)]

theorem cmp_line_sc {α : Type} {c : ℚ} (hc : 0 < c) (pt : α → point_t) :
    cmp_line (fun a => sc c (pt a)) = cmp_line pt := by
  funext l1 l2
  unfold cmp_line
  rw [clock_direct_sc hc]

theorem is_left_turn_sc {c : ℚ} (hc : 0 < c) (a b d : point_t) :
    is_left_turn (sc c a) (sc c b) (sc c d) = is_left_turn a b d := by
  unfold is_left_turn
  simp only [cross_sc, gt_iff_lt, mul_pos_iff_sc (mul_pos hc hc)]

theorem line_length_sc {α : Type} (c : ℚ) (pt : α → point_t) (l : line_t α) :
    line_length (fun a => sc c (pt a)) l = c * c * line_length pt l := by
  unfold line_length
  rw [point_dist_sc]

theorem min_step_sc {α : Type} {c : ℚ} (hc : 0 < c) (pt : α → point_t) (points : List α)
    (st : Option ℚ × Nat) (i : Nat) :
    min_step (fun a => sc c (pt a)) points (st.1.map (fun y => c * y), st.2) i =
      ((min_step pt points st i).1.map (fun y => c * y), (min_step pt points st i).2) := by
  obtain ⟨my, mi⟩ := st
  unfold min_step
  cases hpi : points.get? i with
  | none => rfl
  | some pi =>
    cases my with
    | none => rfl
    | some min_y =>
      simp only [Option.map_some', sc, mul_lt_mul_iff_sc hc, mul_eq_mul_iff_sc hc]
      split_ifs with h1 h2
      · rfl
      · cases hpm : points.get? mi with
        | none => rfl
        | some pm =>
          simp only
          split_ifs <;> rfl
      · rfl

theorem min_index_sc {α : Type} {c : ℚ} (hc : 0 < c) (pt : α → point_t) (points : List α) :
    min_index (fun a => sc c (pt a)) points = min_index pt points := by
  unfold min_index
  have key : ∀ (l : List Nat) (st : Option ℚ × Nat),
      l.foldl (min_step (fun a => sc c (pt a)) points) (st.1.map (fun y => c * y), st.2) =
        ((l.foldl (min_step pt points) st).1.map (fun y => c * y),
          (l.foldl (min_step pt points) st).2) := by
    intro l
    induction l with
    | nil => intro st; rfl
    | cons i l ih =>
      intro st
      simp only [List.foldl_cons]
      rw [min_step_sc hc, ih]
  have := key (List.range points.length) (none, 0)
  simp only [Option.map_none'] at this
  rw [this]

theorem rerange_step_sc {α : Type} {c : ℚ} (hc : 0 < c) (pt : α → point_t)
    (rlines : List (line_t α)) (line : line_t α) :
    rerange_step (fun a => sc c (pt a)) rlines line = rerange_step pt rlines line := by
  unfold rerange_step
  simp only [clock_direct_sc hc, line_length_sc, mul_lt_mul_iff_sc (mul_pos hc hc)]

theorem rerange_sc {α : Type} {c : ℚ} (hc : 0 < c) (libc : Libc) (pt : α → point_t)
    (points : List α) :
    rerange libc (fun a => sc c (pt a)) points = rerange libc pt points := by
  unfold rerange
  have hs : rerange_step (fun a => sc c (pt a)) = rerange_step pt := by
    funext r l
    exact rerange_step_sc hc pt r l
  simp only [min_index_sc hc, cmp_line_sc hc, hs]

theorem scan_while_sc {α : Type} {c : ℚ} (hc : 0 < c) (pt : α → point_t) (pi : α)
    (fuel : Nat) :
    ∀ (stack : List α) (top2 top1 : α),
      scan_while (fun a => sc c (pt a)) pi fuel stack top2 top1 =
        scan_while pt pi fuel stack top2 top1 := by
  induction fuel with
  | zero => intro _ _ _; rfl
  | succ fuel ih =>
    intro stack top2 top1
    unfold scan_while
    simp only [is_left_turn_sc hc, ih]

theorem convex_hulls_sc {α : Type} {c : ℚ} (hc : 0 < c) (libc : Libc) (pt : α → point_t)
    (points : List α) :
    convex_hulls libc (fun a => sc c (pt a)) points = convex_hulls libc pt points := by
  have hstep : scan_step (fun a => sc c (pt a)) = scan_step pt := by
    funext stack pi
    unfold scan_step
    simp only [scan_while_sc hc]
  have hloop : ∀ (rest stack : List α),
      scan_loop (fun a => sc c (pt a)) stack rest = scan_loop pt stack rest := by
    intro rest
    induction rest with
    | nil => intro _; rfl
    | cons pi rest ih =>
      intro stack
      unfold scan_loop
      rw [hstep]
      simp only [ih]
  unfold convex_hulls
  simp only [rerange_sc hc, hloop]

/-! ## Scaling the k-d tree -/

theorem scr_zero (c : ℚ) : scr c rect_zero = rect_zero := by
  simp [scr, sci, rect_zero]

theorem rect_init_point_sc (c : ℚ) (p : point_t) :
    rect_init_point (sc c p) = scr c (rect_init_point p) := rfl

theorem interval_contains_sc {c : ℚ} (hc : 0 < c) (itv : interval_t) (p : ℚ) :
    interval_contains (sci c itv) (c * p) = interval_contains itv p := by
  unfold interval_contains sci
  simp only [ge_iff_le, mul_le_mul_iff_sc hc]

theorem interval_enlarge_sc {c : ℚ} (hc : 0 < c) (itv : interval_t) (p : ℚ) :
    interval_enlarge_to (sci c itv) (c * p) = sci c (interval_enlarge_to itv p) := by
  unfold interval_enlarge_to sci
  simp only [gt_iff_lt, mul_lt_mul_iff_sc hc]
  split_ifs <;> rfl

theorem rect_enlarge_sc {c : ℚ} (hc : 0 < c) (r : rect_t) (p : point_t) :
    rect_enlarge_to (scr c r) (sc c p) = scr c (rect_enlarge_to r p) := by
  unfold rect_enlarge_to scr sc
  simp only [interval_enlarge_sc hc]

theorem addsum_sc {c : ℚ} (hc : 0 < c) (itv : interval_t) (p : ℚ) :
    addsum (sci c itv) (c * p) = c * c * addsum itv p := by
  unfold addsum
  rw [interval_contains_sc hc]
  simp only [sci, mul_lt_mul_iff_sc hc]
  split_ifs <;> ring

theorem rect_min_dist_sc {c : ℚ} (hc : 0 < c) (r : rect_t) (p : point_t) :
    rect_min_dist_to (scr c r) (sc c p) = c * c * rect_min_dist_to r p := by
  unfold rect_min_dist_to scr sc
  simp only [addsum_sc hc]
  ring

theorem scr_dim (c : ℚ) (r : rect_t) (xd : Nat) : (scr c r).dim xd = sci c (r.dim xd) := by
  unfold rect_t.dim scr
  split <;> rfl

theorem scr_set_dim (c : ℚ) (r : rect_t) (xd : Nat) (itv : interval_t) :
    (scr c r).set_dim xd (sci c itv) = scr c (r.set_dim xd itv) := by
  unfold rect_t.set_dim scr
  split <;> rfl

theorem rect_set_upper_sc {c : ℚ} (hc : 0 < c) (from_ to_ : rect_t) (p : point_t) (xd : Nat) :
    rect_set_upper (scr c from_) (scr c to_) (sc c p) xd =
      ((rect_set_upper from_ to_ p xd).1, scr c (rect_set_upper from_ to_ p xd).2) := by
  unfold rect_set_upper
  simp only [scr_dim, sc_dim, sci, mul_lt_mul_iff_sc hc]
  split_ifs
  · rfl
  · simp only
    rw [← scr_set_dim]
    rfl
  · rfl

theorem rect_set_lower_sc {c : ℚ} (hc : 0 < c) (from_ to_ : rect_t) (p : point_t) (xd : Nat) :
    rect_set_lower (scr c from_) (scr c to_) (sc c p) xd =
      ((rect_set_lower from_ to_ p xd).1, scr c (rect_set_lower from_ to_ p xd).2) := by
  unfold rect_set_lower
  simp only [scr_dim, sc_dim, sci, gt_iff_lt, mul_lt_mul_iff_sc hc]
  split_ifs
  · rfl
  · simp only
    rw [← scr_set_dim]
    rfl
  · rfl

theorem uniq_spec_sc {α : Type} {c : ℚ} (hc : 0 < c) (pt : α → point_t) (from_ : List α) :
    ∀ (seen : List point_t) (to_ : List α),
      uniq_spec (fun a => sc c (pt a)) from_ (seen.map (sc c)) to_ = uniq_spec pt from_ seen to_ := by
  induction from_ with
  | nil => intro _ _; rfl
  | cons p rest ih =>
    intro seen to_
    unfold uniq_spec
    have hmem : sc c (pt p) ∈ seen.map (sc c) ↔ pt p ∈ seen := by
      rw [List.mem_map]
      constructor
      · rintro ⟨x, hx, he⟩
        rw [← sc_injective hc he]
        exact hx
      · exact fun h => ⟨_, h, rfl⟩
    by_cases h : pt p ∈ seen
    · rw [if_pos (hmem.2 h), if_pos h, ih]
    · rw [if_neg (fun hh => h (hmem.1 hh)), if_neg h, ← ih (pt p :: seen)]
      rfl

theorem uniq_points_create {α : Type} (pt : α → point_t) (hash : point_t → Nat) (n : Nat)
    (from_ : List α) :
    uniq_points pt from_ (hashset_create n hash) [] = uniq_spec pt from_ [] [] :=
  uniq_points_spec pt from_ (hashset_create n hash) [] [] ⟨[], hs_wf_create _ _⟩ (by
    intro x
    rw [hs_wf_to_list (hs_wf_create _ _)]
    simp)

/-- The array left by `uniq_and_shuffle_points` depends neither on the hash of the
points nor on the scale. -/
theorem uniq_and_shuffle_sc {α : Type} {c : ℚ} (hc : 0 < c) (pt : α → point_t)
    (hash hash2 : point_t → Nat) (rnd : Nat → Nat) (from_ : List α) :
    uniq_and_shuffle_points (fun a => sc c (pt a)) hash2 rnd from_ =
      uniq_and_shuffle_points pt hash rnd from_ := by
  unfold uniq_and_shuffle_points
  simp only [uniq_points_create]
  have := uniq_spec_sc hc pt from_ [] []
  simp only [List.map_nil] at this
  rw [this]

theorem partition_points_sc {α : Type} {c : ℚ} (hc : 0 < c) (pt : α → point_t)
    (points : List α) (xd p r : Nat) :
    partition_points (fun a => sc c (pt a)) points xd p r = partition_points pt points xd p r := by
  unfold partition_points
  simp only [sc_dim, mul_le_mul_iff_sc hc]

theorem select_point_sc {α : Type} {c : ℚ} (hc : 0 < c) (pt : α → point_t) (xd : Nat)
    (fuel : Nat) :
    ∀ (points : List α) (p r i : Nat),
      select_point (fun a => sc c (pt a)) xd fuel points p r i =
        select_point pt xd fuel points p r i := by
  induction fuel with
  | zero => intro _ _ _ _; rfl
  | succ fuel ih =>
    intro points p r i
    unfold select_point
    simp only [partition_points_sc hc, ih]

theorem median_point_sc {α : Type} {c : ℚ} (hc : 0 < c) (pt : α → point_t)
    (points : List α) (xd p r : Nat) :
    median_point (fun a => sc c (pt a)) points xd p r = median_point pt points xd p r := by
  unfold median_point
  rw [select_point_sc hc]

theorem build_kdtree_sc {α : Type} {c : ℚ} (hc : 0 < c) (pt : α → point_t) (fuel : Nat) :
    ∀ (points : List α) (xd p r1 : Nat),
      build_kdtree (fun a => sc c (pt a)) fuel points xd p r1 =
        build_kdtree pt fuel points xd p r1 := by
  induction fuel with
  | zero => intro _ _ _ _; rfl
  | succ fuel ih =>
    intro points xd p r1
    unfold build_kdtree
    simp only [median_point_sc hc, ih]

theorem rect_fold_sc {α : Type} {c : ℚ} (hc : 0 < c) (pt : α → point_t) (l : List α) :
    ∀ (r : rect_t),
      l.foldl (fun r p => rect_enlarge_to r (sc c (pt p))) (scr c r) =
        scr c (l.foldl (fun r p => rect_enlarge_to r (pt p)) r) := by
  induction l with
  | nil => intro _; rfl
  | cons a l ih =>
    intro r
    simp only [List.foldl_cons]
    rw [rect_enlarge_sc hc, ih]

/-- The tree of the scaled points is the tree of the points, in the scaled rectangle,
whatever the hash of the points is. -/
theorem kdtree_create_sc {α : Type} {c : ℚ} (hc : 0 < c) (pt : α → point_t)
    (hash hash2 : point_t → Nat) (rnd : Nat → Nat) (l : List α) :
    kdtree_create_static (fun a => sc c (pt a)) hash2 rnd l =
      (kdtree_create_static pt hash rnd l).map (sct c) := by
  unfold kdtree_create_static
  simp only [uniq_and_shuffle_sc hc pt hash hash2]
  cases uniq_and_shuffle_points pt hash rnd l with
  | nil => rfl
  | cons p0 rest =>
    simp only [Option.map_some', sct, build_kdtree_sc hc, rect_init_point_sc,
      rect_fold_sc hc]

theorem knn_sc {α : Type} {c : ℚ} (hc : 0 < c) (pt : α → point_t) (q : point_t) (dist : ℚ)
    (node : kdnode_t α) :
    ∀ (rect : rect_t) (xd : Nat) (best : List (point_dist_t α)),
      knn (fun a => sc c (pt a)) (sc c q) (c * c * dist) node (scr c rect) xd
          (best.map (scpd c)) =
        (knn pt q dist node rect xd best).map (scpd c) := by
  induction node with
  | nil => intro _ _ _; rfl
  | node np left right ihl ihr =>
    intro rect xd best
    unfold knn
    rw [rect_min_dist_sc hc]
    simp only [gt_iff_lt, mul_lt_mul_iff_sc (mul_pos hc hc), point_dist_sc,
      mul_le_mul_iff_sc (mul_pos hc hc)]
    split_ifs with h1 h2
    · rfl
    · have e1 := rect_set_lower_sc hc rect rect_zero q xd
      have e2 := rect_set_upper_sc hc rect rect_zero q xd
      rw [scr_zero] at e1 e2
      rw [e1, e2]
      simp only
      have hb : array_append (best.map (scpd c))
          { point := np, dist := c * c * point_dist (pt np) q } =
          (array_append best { point := np, dist := point_dist (pt np) q }).map (scpd c) := by
        simp [array_append, scpd]
      rw [hb, ihl, ihr]
    · have e1 := rect_set_lower_sc hc rect rect_zero q xd
      have e2 := rect_set_upper_sc hc rect rect_zero q xd
      rw [scr_zero] at e1 e2
      rw [e1, e2]
      simp only
      rw [ihl, ihr]

theorem cmp_dist_sc {α : Type} {c : ℚ} (hc : 0 < c) (a b : point_dist_t α) :
    cmp_dist (scpd c a) (scpd c b) = cmp_dist a b := by
  unfold cmp_dist scpd
  simp only [gt_iff_lt, mul_lt_mul_iff_sc (mul_pos hc hc)]

/-- The query on the scaled tree, from the scaled point, with the scaled threshold,
returns what the query returns. -/
theorem kdtree_knn_sc {α : Type} {c : ℚ} (hc : 0 < c) (libc : Libc) (pt : α → point_t)
    (tree : kdtree_t α) (q : point_t) (thre : ℚ) :
    kdtree_k_nearest_neighbour libc (fun a => sc c (pt a)) (sct c tree) (sc c q)
        (c * c * thre) =
      kdtree_k_nearest_neighbour libc pt tree q thre := by
  unfold kdtree_k_nearest_neighbour
  simp only [sct]
  have h := knn_sc hc pt q thre tree.root tree.rect 0 []
  simp only [List.map_nil] at h
  rw [h, libc.qsort_natural (scpd c) cmp_dist cmp_dist _ (fun a _ b _ => cmp_dist_sc hc a b)]
  simp [scpd, Function.comp_def]

/-! ## Scaling the clustering -/

theorem scp_null (c : ℚ) : scp c cpoint_null = cpoint_null := by
  simp [scp, sc, cpoint_null]

theorem cpoint_at_sc (c : ℚ) (heap : List cpoint_t) (i : Nat) :
    cpoint_at (heap.map (scp c)) i = scp c (cpoint_at heap i) := by
  rw [cpoint_at_eq, cpoint_at_eq, List.getElem?_map]
  cases heap[i]? with
  | none => exact (scp_null c).symm
  | some x => rfl

theorem cpointset_at_sc (c : ℚ) (sets : List cpointset_t) (i : Nat) :
    cpointset_at (sets.map (scs c)) i = scs c (cpointset_at sets i) := by
  rw [cpointset_at_eq, cpointset_at_eq, List.getElem?_map]
  cases sets[i]? with
  | none =>
    simp only [Option.map_none', Option.getD_none, scs, scp_null]
  | some x => rfl

theorem rep_point_sc (c : ℚ) (sets : List cpointset_t) :
    rep_point (sets.map (scs c)) = fun i => sc c (rep_point sets i) := by
  funext i
  unfold rep_point
  rw [cpointset_at_sc]
  rfl

theorem cmp_point_sc {c : ℚ} (hc : 0 < c) (heap : List cpoint_t) :
    cmp_point (heap.map (scp c)) = cmp_point heap := by
  funext a b
  unfold cmp_point
  simp only [cpoint_at_sc, scp, sc, gt_iff_lt, mul_lt_mul_iff_sc hc]

theorem convert_step_sc {c : ℚ} (hc : 0 < c) (heap : List cpoint_t)
    (st : List cpointset_t × Option Nat) (ti : Nat) :
    convert_step (heap.map (scp c)) (st.1.map (scs c), st.2) ti =
      ((convert_step heap st ti).1.map (scs c), (convert_step heap st ti).2) := by
  obtain ⟨res, last⟩ := st
  have hne : ∀ (l : Nat), ((cpoint_at (heap.map (scp c)) l).point.x ≠
        (cpoint_at (heap.map (scp c)) ti).point.x ∨
      (cpoint_at (heap.map (scp c)) l).point.y ≠ (cpoint_at (heap.map (scp c)) ti).point.y) ↔
      ((cpoint_at heap l).point.x ≠ (cpoint_at heap ti).point.x ∨
        (cpoint_at heap l).point.y ≠ (cpoint_at heap ti).point.y) := by
    intro l
    simp only [cpoint_at_sc, scp, sc, ne_eq, mul_eq_mul_iff_sc hc]
  have hcr : cpointset_create (cpoint_at (heap.map (scp c)) ti) =
      scs c (cpointset_create (cpoint_at heap ti)) := by
    rw [cpoint_at_sc]
    rfl
  have hlast : ∀ (l : List cpointset_t) (o : Option Nat),
      (match (l.map (scs c)).getLast? with
        | none => (l.map (scs c), o)
        | some s => ((l.map (scs c)).dropLast ++
            [{ s with cpoints := array_append s.cpoints ti }], o)) =
      ((match l.getLast? with
        | none => (l, o)
        | some s => (l.dropLast ++ [{ s with cpoints := array_append s.cpoints ti }], o)).1.map
          (scs c),
       (match l.getLast? with
        | none => (l, o)
        | some s => (l.dropLast ++ [{ s with cpoints := array_append s.cpoints ti }], o)).2) := by
    intro l o
    rw [List.getLast?_map]
    cases l.getLast? with
    | none => rfl
    | some s =>
      simp only [Option.map_some', List.map_append, List.map_dropLast, List.map_cons,
        List.map_nil]
      rfl
  unfold convert_step
  cases last with
  | none =>
    simp only [hcr]
    have := hlast (res ++ [cpointset_create (cpoint_at heap ti)]) (some ti)
    simp only [List.map_append, List.map_cons, List.map_nil] at this
    exact this
  | some l =>
    simp only [hne l, hcr]
    by_cases h : ((cpoint_at heap l).point.x ≠ (cpoint_at heap ti).point.x ∨
        (cpoint_at heap l).point.y ≠ (cpoint_at heap ti).point.y)
    · simp only [if_pos h]
      have := hlast (res ++ [cpointset_create (cpoint_at heap ti)]) (some ti)
      simp only [List.map_append, List.map_cons, List.map_nil] at this
      exact this
    · simp only [if_neg h]
      exact hlast res (some l)

theorem convert_points_sc {c : ℚ} (hc : 0 < c) (libc : Libc) (heap : List cpoint_t) :
    convert_points libc (heap.map (scp c)) = (convert_points libc heap).map (scs c) := by
  unfold convert_points
  simp only [cmp_point_sc hc, List.length_map]
  have key : ∀ (l : List Nat) (st : List cpointset_t × Option Nat),
      l.foldl (convert_step (heap.map (scp c))) (st.1.map (scs c), st.2) =
        ((l.foldl (convert_step heap) st).1.map (scs c), (l.foldl (convert_step heap) st).2) := by
    intro l
    induction l with
    | nil => intro st; rfl
    | cons a l ih =>
      intro st
      simp only [List.foldl_cons]
      rw [convert_step_sc hc, ih]
  have := key (libc.qsort (cmp_point heap) (List.range heap.length)) ([], none)
  simp only [List.map_nil] at this
  rw [this]

theorem set_cluster_id_sc (c : ℚ) (heap : List cpoint_t) (cp id : Nat) :
    set_cluster_id (heap.map (scp c)) cp id = (set_cluster_id heap cp id).map (scp c) := by
  unfold set_cluster_id
  rw [List.get?_eq_getElem?, List.get?_eq_getElem?, List.getElem?_map]
  cases heap[cp]? with
  | none => rfl
  | some x =>
    simp only [Option.map_some', List.map_set]
    rfl

theorem set_rep_id_sc (c : ℚ) (sets : List cpointset_t) (p id : Nat) :
    set_rep_id (sets.map (scs c)) p id = (set_rep_id sets p id).map (scs c) := by
  unfold set_rep_id
  rw [List.get?_eq_getElem?, List.get?_eq_getElem?, List.getElem?_map]
  cases sets[p]? with
  | none => rfl
  | some x =>
    simp only [Option.map_some', List.map_set]
    rfl

theorem stamp_sc (c : ℚ) (st : dbscan_t) (p id : Nat) :
    stamp (scd c st) p id = scd c (stamp st p id) := by
  have hfold : ∀ (ms : List Nat) (heap : List cpoint_t),
      ms.foldl (fun heap cp => set_cluster_id heap cp id) (heap.map (scp c)) =
        (ms.foldl (fun heap cp => set_cluster_id heap cp id) heap).map (scp c) := by
    intro ms
    induction ms with
    | nil => intro _; rfl
    | cons a ms ih =>
      intro heap
      simp only [List.foldl_cons]
      rw [set_cluster_id_sc, ih]
  unfold stamp scd
  simp only [set_rep_id_sc, cpointset_at_sc, scs, hfold]

theorem total_of_sc (c : ℚ) (sets : List cpointset_t) (nn : List Nat) :
    total_of (sets.map (scs c)) nn = total_of sets nn := by
  unfold total_of
  simp only [cpointset_at_sc, scs]

theorem rid_sc (c : ℚ) (sets : List cpointset_t) (p : Nat) :
    (cpointset_at (sets.map (scs c)) p).cpoint.cluster_id
      = (cpointset_at sets p).cpoint.cluster_id := by
  rw [cpointset_at_sc]
  rfl

theorem hull_set_sc {c : ℚ} (hc : 0 < c) (env env2 : env_t) (hl : env2.libc = env.libc)
    (st : dbscan_t) (hullset : hashset_t Nat) :
    hull_set env2 (scd c st) hullset = hull_set env st hullset := by
  unfold hull_set
  have : (scd c st).cpointsets = st.cpointsets.map (scs c) := rfl
  rw [this, rep_point_sc, convex_hulls_sc hc, hl]
  rfl

theorem nn_sc {c : ℚ} (hc : 0 < c) (env env2 : env_t) (hl : env2.libc = env.libc)
    (tree : kdtree_t Nat) (eps2 : ℚ) (sets : List cpointset_t) (p : Nat) :
    kdtree_k_nearest_neighbour env2.libc (rep_point (sets.map (scs c))) (sct c tree)
        (rep_point (sets.map (scs c)) p) (c * c * eps2) =
      kdtree_k_nearest_neighbour env.libc (rep_point sets) tree (rep_point sets p) eps2 := by
  rw [rep_point_sc, hl]
  exact kdtree_knn_sc hc env.libc (rep_point sets) tree (rep_point sets p) eps2

theorem scd_nnset (c : ℚ) (st : dbscan_t) : (scd c st).nnset = st.nnset := rfl

theorem scd_visited (c : ℚ) (st : dbscan_t) : (scd c st).visited = st.visited := rfl

theorem scd_next_id (c : ℚ) (st : dbscan_t) : (scd c st).next_id = st.next_id := rfl

theorem scd_gen (c : ℚ) (st : dbscan_t) : (scd c st).gen = st.gen := rfl

theorem scd_noise (c : ℚ) (st : dbscan_t) : (scd c st).noise = st.noise := rfl

theorem scd_cpoints (c : ℚ) (st : dbscan_t) : (scd c st).cpoints = st.cpoints.map (scp c) := rfl

theorem scd_cpointsets (c : ℚ) (st : dbscan_t) :
    (scd c st).cpointsets = st.cpointsets.map (scs c) := rfl

theorem scd_mk (c : ℚ) (heap : List cpoint_t) (sets : List cpointset_t) (g : id_generator_t)
    (n : Nat) (v nn : hashset_t Nat) (no : List Nat) :
    ({ cpoints := heap.map (scp c), cpointsets := sets.map (scs c), gen := g, next_id := n,
       visited := v, nnset := nn, noise := no } : dbscan_t) =
      scd c { cpoints := heap, cpointsets := sets, gen := g, next_id := n, visited := v,
              nnset := nn, noise := no } := rfl

theorem ite_scd (c : ℚ) (p : Prop) [Decidable p] (a b : dbscan_t) :
    (if p then scd c a else scd c b) = scd c (if p then a else b) := by
  split <;> rfl

theorem expand_sc {c : ℚ} (hc : 0 < c) (env env2 : env_t) (hl : env2.libc = env.libc)
    (tree : kdtree_t Nat) (eps2 : ℚ) (min_pts : Nat) :
    ∀ (fuel : Nat) (st : dbscan_t) (hullset : hashset_t Nat),
      expand env2 (sct c tree) (c * c * eps2) min_pts fuel (scd c st) hullset =
        scrun c (expand env tree eps2 min_pts fuel st hullset) := by
  intro fuel
  induction fuel with
  | zero => intro _ _; rfl
  | succ fuel ih =>
    intro st hullset
    have tail : ∀ (p : Nat) (st4 : dbscan_t) (hs : hashset_t Nat),
        expand env2 (sct c tree) (c * c * eps2) min_pts fuel
          (if (cpointset_at (scd c st4).cpointsets p).cpoint.cluster_id = 0 then
            stamp (scd c st4) p (scd c st4).next_id else scd c st4) hs =
        scrun c (expand env tree eps2 min_pts fuel
          (if (cpointset_at st4.cpointsets p).cpoint.cluster_id = 0 then
            stamp st4 p st4.next_id else st4) hs) := by
      intro p st4 hs
      rw [scd_cpointsets, rid_sc, scd_next_id, stamp_sc, ite_scd]
      exact ih _ _
    unfold expand
    simp only [scd_nnset, scd_visited, scd_next_id, scd_gen, scd_noise, scd_cpoints,
      scd_cpointsets, rid_sc, nn_sc hc env env2 hl, total_of_sc]
    simp only [scd_mk, ite_scd, hull_set_sc hc env env2 hl]
    by_cases hsz : hashset_size st.nnset = 0
    · simp only [hsz, if_true, scrun]
    · simp only [hsz, if_false]
      cases hpop : hashset_pop st.nnset with
      | none => rfl
      | some pr =>
        obtain ⟨p, nnset1⟩ := pr
        simp only
        cases hv : hashset_contains st.visited p with
        | true =>
          simp only [Bool.not_true, Bool.false_eq_true, if_false]
          exact tail p _ _
        | false =>
          simp only [Bool.not_false, if_true]
          cases hh : hashset_contains hullset p with
          | false =>
            simp only [Bool.false_eq_true, if_false]
            exact tail p _ _
          | true =>
            simp only [if_true]
            generalize (if total_of st.cpointsets
                (kdtree_k_nearest_neighbour env.libc (rep_point st.cpointsets) tree
                  (rep_point st.cpointsets p) eps2) ≥ min_pts then
                ({ cpoints := st.cpoints, cpointsets := st.cpointsets, gen := st.gen,
                   next_id := st.next_id, visited := (hashset_add st.visited p).2,
                   nnset := hashset_add_all nnset1
                     (kdtree_k_nearest_neighbour env.libc (rep_point st.cpointsets) tree
                       (rep_point st.cpointsets p) eps2),
                   noise := st.noise } : dbscan_t)
              else { cpoints := st.cpoints, cpointsets := st.cpointsets, gen := st.gen,
                     next_id := st.next_id, visited := (hashset_add st.visited p).2,
                     nnset := nnset1, noise := st.noise }) = st3
            cases hull_set env st3 (hashset_remove_all hullset) with
            | none => rfl
            | some hs =>
              simp only [Option.map_some']
              exact tail p _ _

theorem cluster_step_sc {c : ℚ} (hc : 0 < c) (env env2 : env_t) (hl : env2.libc = env.libc)
    (ha : env2.addr_hash = env.addr_hash) (tree : kdtree_t Nat) (eps2 : ℚ) (min_pts : Nat)
    (st : dbscan_t) (point : Nat) :
    cluster_step env2 (sct c tree) (c * c * eps2) min_pts (scd c st) point =
      scrun c (cluster_step env tree eps2 min_pts st point) := by
  unfold cluster_step
  simp only [scd_nnset, scd_visited, scd_next_id, scd_gen, scd_noise, scd_cpoints,
    scd_cpointsets, rid_sc, nn_sc hc env env2 hl, total_of_sc, ha]
  simp only [scd_mk, stamp_sc, scd_nnset, scd_visited, scd_next_id, scd_gen, scd_noise,
    scd_cpoints, scd_cpointsets, hull_set_sc hc env env2 hl, List.length_map]
  cases hv : hashset_contains st.visited point with
  | true => rfl
  | false =>
    simp only [Bool.false_eq_true, if_false]
    split_ifs with ht
    · rfl
    · cases hull_set env _ (hashset_create 0 env.addr_hash) with
      | none => rfl
      | some hullset =>
        simp only
        exact expand_sc hc env env2 hl tree eps2 min_pts _ _ hullset

theorem cluster_loop_sc {c : ℚ} (hc : 0 < c) (env env2 : env_t) (hl : env2.libc = env.libc)
    (ha : env2.addr_hash = env.addr_hash) (tree : kdtree_t Nat) (eps2 : ℚ) (min_pts : Nat)
    (points : List Nat) :
    ∀ (st : dbscan_t),
      cluster_loop env2 (sct c tree) (c * c * eps2) min_pts (scd c st) points =
        scrun c (cluster_loop env tree eps2 min_pts st points) := by
  induction points with
  | nil => intro _; rfl
  | cons point rest ih =>
    intro st
    rw [cluster_loop_cons, cluster_loop_cons, cluster_step_sc hc env env2 hl ha]
    cases cluster_step env tree eps2 min_pts st point with
    | spin => rfl
    | abort heap => rfl
    | go st1 => exact ih st1

theorem stamp_fold_sc (c : ℚ) (id : Nat) (nn : List Nat) :
    ∀ (st : dbscan_t),
      nn.foldl (fun s h => stamp s h id) (scd c st) =
        scd c (nn.foldl (fun s h => stamp s h id) st) := by
  induction nn with
  | nil => intro _; rfl
  | cons a nn ih =>
    intro st
    simp only [List.foldl_cons]
    rw [stamp_sc, ih]

theorem noise_step_sc {c : ℚ} (hc : 0 < c) (env env2 : env_t) (hl : env2.libc = env.libc)
    (noise_tree : kdtree_t Nat) (eps2 : ℚ) (st : dbscan_t) (cp : Nat) :
    noise_step env2 (sct c noise_tree) (c * c * eps2) (scd c st) cp =
      scd c (noise_step env noise_tree eps2 st cp) := by
  unfold noise_step
  simp only [scd_nnset, scd_visited, scd_next_id, scd_gen, scd_noise, scd_cpoints,
    scd_cpointsets, rid_sc, nn_sc hc env env2 hl]
  simp only [scd_mk, stamp_fold_sc]
  split_ifs <;> rfl

theorem collect_noise_sc {c : ℚ} (hc : 0 < c) (env env2 : env_t) (hl : env2.libc = env.libc)
    (hrn : env2.rnd_noise = env.rnd_noise) (eps2 : ℚ) (st : dbscan_t) :
    collect_noise env2 (c * c * eps2) (scd c st) =
      (collect_noise env eps2 st).map (scd c) := by
  have hfold : ∀ (nt : kdtree_t Nat) (l : List Nat) (s : dbscan_t),
      l.foldl (noise_step env2 (sct c nt) (c * c * eps2)) (scd c s) =
        scd c (l.foldl (noise_step env nt eps2) s) := by
    intro nt l
    induction l with
    | nil => intro _; rfl
    | cons a l ih =>
      intro s
      simp only [List.foldl_cons]
      rw [noise_step_sc hc env env2 hl, ih]
  unfold collect_noise
  simp only [scd_noise, scd_cpointsets, rid_sc, rep_point_sc, hrn,
    kdtree_create_sc hc (rep_point st.cpointsets) env.point_hash env2.point_hash]
  split_ifs with h1 h2
  · cases kdtree_create_static (rep_point st.cpointsets) env.point_hash env.rnd_noise
        (st.noise.filter
          (fun point => decide ((cpointset_at st.cpointsets point).cpoint.cluster_id = 0))) with
    | none => rfl
    | some nt =>
      simp only [Option.map_some']
      rw [hfold]
  · rfl
  · rfl

/-- Scaling all coordinates and `eps` by `c > 0`, with whatever hash of the points:
`dbscan_cluster` returns the same value and gives the same ids. -/
theorem dbscan_cluster_sc {c : ℚ} (hc : 0 < c) (env env2 : env_t) (hl : env2.libc = env.libc)
    (ha : env2.addr_hash = env.addr_hash) (hr : env2.rnd = env.rnd)
    (hrn : env2.rnd_noise = env.rnd_noise) (cpoints : List cpoint_t) (eps : ℚ)
    (min_pts : Nat) :
    dbscan_cluster env2 (cpoints.map (scp c)) (c * eps) min_pts =
      (dbscan_cluster env cpoints eps min_pts).map (fun r => (r.1, r.2.map (scp c))) := by
  have he : c * eps * (c * eps) = c * c * (eps * eps) := by ring
  unfold dbscan_cluster
  simp only [he, hl, ha, hr, convert_points_sc hc, rep_point_sc, List.length_map,
    kdtree_create_sc hc (rep_point (convert_points env.libc cpoints)) env.point_hash
      env2.point_hash]
  cases kdtree_create_static (rep_point (convert_points env.libc cpoints)) env.point_hash
      env.rnd (List.range (convert_points env.libc cpoints).length) with
  | none => rfl
  | some tree =>
    simp only [Option.map_some', scd_mk]
    rw [cluster_loop_sc hc env env2 hl ha]
    cases cluster_loop env tree (eps * eps) min_pts _
        (List.range (convert_points env.libc cpoints).length) with
    | spin => rfl
    | abort heap => rfl
    | go st1 =>
      simp only [scrun]
      rw [collect_noise_sc hc env env2 hl hrn]
      cases collect_noise env (eps * eps) st1 with
      | none => rfl
      | some st2 => rfl

/-- C8 (scale invariance). With the same `qsort`, address hashes and `random()` streams
(so the same shuffle and the same pop order of the frontier), whatever the hash of the
points' bytes, `dbscan_cluster` on the points with all coordinates doubled and `eps`
doubled returns what it returns on the points with `eps`, and gives every point the
same `cluster_id`; if one call does not return, neither does the other. -/
theorem C8_scale_invariance (env : env_t) (hash2 : point_t → Nat) (cpoints : List cpoint_t)
    (eps : ℚ) (min_pts : Nat) :
    dbscan_cluster { env with point_hash := hash2 } (cpoints.map (scp 2)) (2 * eps) min_pts =
      (dbscan_cluster env cpoints eps min_pts).map (fun r => (r.1, r.2.map (scp 2))) :=
  dbscan_cluster_sc (by norm_num) env { env with point_hash := hash2 } rfl rfl rfl rfl
    cpoints eps min_pts

/-! ## Claims on the small cases of the hull, the rectangles and the id generator -/

/-- C11. A list of at most 3 points, the empty list, a single point and a pair
included, is returned by `convex_hulls` as it is: same length, same elements, same
order. -/
theorem C11_small_input_unchanged {α : Type} (libc : Libc) (pt : α → point_t)
    (points : List α) (h : points.length ≤ 3) :
    convex_hulls libc pt points = some points := by
  unfold convex_hulls
  rw [if_pos h]

theorem C11_small_input_unchanged_witness :
    ([⟨2, 0⟩, ⟨0, 0⟩, ⟨1, 0⟩] : List point_t).length ≤ 3 ∧
    convex_hulls libc_insertion (fun p => p) ([⟨2, 0⟩, ⟨0, 0⟩, ⟨1, 0⟩] : List point_t)
      = some [⟨2, 0⟩, ⟨0, 0⟩, ⟨1, 0⟩] :=
  ⟨by simp, C11_small_input_unchanged libc_insertion (fun p => p) [⟨2, 0⟩, ⟨0, 0⟩, ⟨1, 0⟩]
    (by simp)⟩

theorem addsum_eq_gap (itv : interval_t) (p : ℚ) :
    addsum itv p = interval_gap itv p ^ 2 := by
  unfold addsum interval_gap interval_contains
  by_cases h1 : p < itv.lower
  · have : ¬ p ≥ itv.lower := not_le.2 h1
    simp [h1, this]
    ring
  · by_cases h2 : itv.upper < p
    · have : ¬ p ≤ itv.upper := not_le.2 h2
      simp [h1, h2, this]
      ring
    · simp [h1, h2, not_lt.1 h1, not_lt.1 h2]

theorem interval_gap_nonneg (itv : interval_t) (p : ℚ) : 0 ≤ interval_gap itv p := by
  unfold interval_gap
  split_ifs <;> linarith

theorem interval_gap_zero_iff (itv : interval_t) (p : ℚ) :
    interval_gap itv p = 0 ↔ interval_contains itv p = true := by
  unfold interval_gap interval_contains
  simp only [ge_iff_le, Bool.and_eq_true, decide_eq_true_eq]
  split_ifs with h1 h2
  · constructor
    · intro h; linarith
    · intro h; linarith [h.1]
  · constructor
    · intro h; linarith
    · intro h; linarith [h.2]
  · exact ⟨fun _ => ⟨not_lt.1 h1, not_lt.1 h2⟩, fun _ => rfl⟩

theorem interval_gap_le (itv : interval_t) (p s : ℚ) (hs : interval_contains itv s = true) :
    interval_gap itv p ^ 2 ≤ (s - p) ^ 2 := by
  unfold interval_contains at hs
  simp only [ge_iff_le, Bool.and_eq_true, decide_eq_true_eq] at hs
  unfold interval_gap
  split_ifs with h1 h2
  · nlinarith [hs.1, hs.2]
  · nlinarith [hs.1, hs.2]
  · nlinarith [sq_nonneg (s - p)]

theorem interval_clamp_spec (itv : interval_t) (p : ℚ) (hv : itv.lower ≤ itv.upper) :
    interval_contains itv (interval_clamp itv p) = true ∧
    (interval_clamp itv p - p) ^ 2 = interval_gap itv p ^ 2 := by
  unfold interval_contains interval_clamp interval_gap
  simp only [ge_iff_le, Bool.and_eq_true, decide_eq_true_eq]
  split_ifs with h1 h2
  · exact ⟨⟨le_refl _, hv⟩, rfl⟩
  · exact ⟨⟨hv, le_refl _⟩, by ring⟩
  · exact ⟨⟨not_lt.1 h1, not_lt.1 h2⟩, by ring⟩

/-- C13. For a rectangle with `lower ≤ upper` on both axes, `rect_min_dist_to` is the
sum of the squared axis gaps; it is 0 exactly when the rectangle contains the point; it
is at most the squared distance from the point to any point of the rectangle, and some
point of the rectangle is at that squared distance: it is the minimum. -/
theorem C13_rect_min_dist (rect : rect_t) (p : point_t)
    (hx : rect.x_itv.lower ≤ rect.x_itv.upper) (hy : rect.y_itv.lower ≤ rect.y_itv.upper) :
    rect_min_dist_to rect p = interval_gap rect.x_itv p.x ^ 2 + interval_gap rect.y_itv p.y ^ 2 ∧
    (rect_min_dist_to rect p = 0 ↔ rect_contains rect p = true) ∧
    (∀ s, rect_contains rect s = true → rect_min_dist_to rect p ≤ point_dist s p) ∧
    (∃ s, rect_contains rect s = true ∧ point_dist s p = rect_min_dist_to rect p) := by
  have he : rect_min_dist_to rect p =
      interval_gap rect.x_itv p.x ^ 2 + interval_gap rect.y_itv p.y ^ 2 := by
    unfold rect_min_dist_to
    rw [addsum_eq_gap, addsum_eq_gap]
    ring
  refine ⟨he, ?_, ?_, ?_⟩
  · rw [he]
    unfold rect_contains
    rw [Bool.and_eq_true, ← interval_gap_zero_iff, ← interval_gap_zero_iff]
    have h1 := interval_gap_nonneg rect.x_itv p.x
    have h2 := interval_gap_nonneg rect.y_itv p.y
    constructor
    · intro h
      have a : interval_gap rect.x_itv p.x ^ 2 = 0 := by nlinarith [sq_nonneg (interval_gap rect.x_itv p.x), sq_nonneg (interval_gap rect.y_itv p.y)]
      have b : interval_gap rect.y_itv p.y ^ 2 = 0 := by nlinarith [sq_nonneg (interval_gap rect.x_itv p.x), sq_nonneg (interval_gap rect.y_itv p.y)]
      exact ⟨pow_eq_zero_iff (by norm_num) |>.1 a, pow_eq_zero_iff (by norm_num) |>.1 b⟩
    · rintro ⟨a, b⟩
      rw [a, b]
      norm_num
  · intro s hs
    unfold rect_contains at hs
    rw [Bool.and_eq_true] at hs
    rw [he]
    unfold point_dist
    exact add_le_add (interval_gap_le _ _ _ hs.1) (interval_gap_le _ _ _ hs.2)
  · obtain ⟨a1, a2⟩ := interval_clamp_spec rect.x_itv p.x hx
    obtain ⟨b1, b2⟩ := interval_clamp_spec rect.y_itv p.y hy
    refine ⟨⟨interval_clamp rect.x_itv p.x, interval_clamp rect.y_itv p.y⟩, ?_, ?_⟩
    · unfold rect_contains
      rw [Bool.and_eq_true]
      exact ⟨a1, b1⟩
    · rw [he]
      unfold point_dist
      rw [a2, b2]

theorem C13_rect_min_dist_witness :
    (⟨⟨0, 1⟩, ⟨0, 1⟩⟩ : rect_t).x_itv.lower ≤ (⟨⟨0, 1⟩, ⟨0, 1⟩⟩ : rect_t).x_itv.upper ∧
    (⟨⟨0, 1⟩, ⟨0, 1⟩⟩ : rect_t).y_itv.lower ≤ (⟨⟨0, 1⟩, ⟨0, 1⟩⟩ : rect_t).y_itv.upper ∧
    (rect_min_dist_to ⟨⟨0, 1⟩, ⟨0, 1⟩⟩ ⟨3, 1 / 2⟩ =
        interval_gap (⟨⟨0, 1⟩, ⟨0, 1⟩⟩ : rect_t).x_itv (⟨3, 1 / 2⟩ : point_t).x ^ 2 +
          interval_gap (⟨⟨0, 1⟩, ⟨0, 1⟩⟩ : rect_t).y_itv (⟨3, 1 / 2⟩ : point_t).y ^ 2 ∧
      (rect_min_dist_to ⟨⟨0, 1⟩, ⟨0, 1⟩⟩ ⟨3, 1 / 2⟩ = 0 ↔
        rect_contains ⟨⟨0, 1⟩, ⟨0, 1⟩⟩ ⟨3, 1 / 2⟩ = true) ∧
      (∀ s, rect_contains ⟨⟨0, 1⟩, ⟨0, 1⟩⟩ s = true →
        rect_min_dist_to ⟨⟨0, 1⟩, ⟨0, 1⟩⟩ ⟨3, 1 / 2⟩ ≤ point_dist s ⟨3, 1 / 2⟩) ∧
      (∃ s, rect_contains ⟨⟨0, 1⟩, ⟨0, 1⟩⟩ s = true ∧
        point_dist s ⟨3, 1 / 2⟩ = rect_min_dist_to ⟨⟨0, 1⟩, ⟨0, 1⟩⟩ ⟨3, 1 / 2⟩)) :=
  ⟨by simp, by simp, C13_rect_min_dist ⟨⟨0, 1⟩, ⟨0, 1⟩⟩ ⟨3, 1 / 2⟩ (by simp) (by simp)⟩

theorem rect_set_dim_self (r : rect_t) (xd : Nat) : r.set_dim xd (r.dim xd) = r := by
  unfold rect_t.set_dim rect_t.dim
  split <;> rfl

theorem rect_set_upper_spec (from_ to_ : rect_t) (p : point_t) (xd : Nat) :
    ((from_.dim xd).upper < p.dim xd → rect_set_upper from_ to_ p xd = (-1, to_)) ∧
    (¬ (from_.dim xd).upper < p.dim xd → rect_set_upper from_ to_ p xd =
      (0, from_.set_dim xd
        { lower := max (from_.dim xd).lower (p.dim xd), upper := (from_.dim xd).upper })) := by
  unfold rect_set_upper
  constructor
  · intro h
    simp only [h, if_true]
  · intro h
    simp only [h, if_false]
    by_cases h2 : (from_.dim xd).lower < p.dim xd
    · simp only [h2, if_true, max_eq_right (le_of_lt h2)]
    · simp only [h2, if_false, max_eq_left (not_lt.1 h2)]
      rw [rect_set_dim_self]

theorem rect_set_lower_spec (from_ to_ : rect_t) (p : point_t) (xd : Nat) :
    ((from_.dim xd).lower > p.dim xd → rect_set_lower from_ to_ p xd = (-1, to_)) ∧
    (¬ (from_.dim xd).lower > p.dim xd → rect_set_lower from_ to_ p xd =
      (0, from_.set_dim xd
        { lower := (from_.dim xd).lower, upper := min (from_.dim xd).upper (p.dim xd) })) := by
  unfold rect_set_lower
  constructor
  · intro h
    simp only [h, if_true]
  · intro h
    simp only [h, if_false]
    by_cases h2 : (from_.dim xd).upper > p.dim xd
    · simp only [h2, if_true, min_eq_right (le_of_lt h2)]
    · simp only [h2, if_false, min_eq_left (not_lt.1 h2)]
      rw [rect_set_dim_self]

/-- C14 (rectangle split). With the source at `from_` and the destination at another
address `to_`: `rect_set_upper` returns `-1` exactly when the point's coordinate on `xd`
is above the upper bound of the source on `xd`, and then writes nothing; otherwise it
returns `0` and the destination is the source with the lower bound on `xd` raised to
the maximum of that bound and the coordinate. `rect_set_lower` mirrors it: `-1` exactly
when the coordinate is below the lower bound, else the upper bound becomes the minimum.
The source is never changed. -/
theorem C14_rect_split (mem : Nat → rect_t) (from_ to_ : Nat) (p : point_t) (xd : Nat)
    (hne : from_ ≠ to_) :
    (((rect_set_upper_at mem from_ to_ p xd).1 = -1 ↔
        ((mem from_).dim xd).upper < p.dim xd) ∧
      (((mem from_).dim xd).upper < p.dim xd → (rect_set_upper_at mem from_ to_ p xd).2 = mem) ∧
      (¬ ((mem from_).dim xd).upper < p.dim xd →
        (rect_set_upper_at mem from_ to_ p xd).1 = 0 ∧
        (rect_set_upper_at mem from_ to_ p xd).2 to_ = (mem from_).set_dim xd
          { lower := max ((mem from_).dim xd).lower (p.dim xd),
            upper := ((mem from_).dim xd).upper }) ∧
      (rect_set_upper_at mem from_ to_ p xd).2 from_ = mem from_) ∧
    (((rect_set_lower_at mem from_ to_ p xd).1 = -1 ↔
        p.dim xd < ((mem from_).dim xd).lower) ∧
      (p.dim xd < ((mem from_).dim xd).lower → (rect_set_lower_at mem from_ to_ p xd).2 = mem) ∧
      (¬ p.dim xd < ((mem from_).dim xd).lower →
        (rect_set_lower_at mem from_ to_ p xd).1 = 0 ∧
        (rect_set_lower_at mem from_ to_ p xd).2 to_ = (mem from_).set_dim xd
          { lower := ((mem from_).dim xd).lower,
            upper := min ((mem from_).dim xd).upper (p.dim xd) }) ∧
      (rect_set_lower_at mem from_ to_ p xd).2 from_ = mem from_) := by
  obtain ⟨u1, u2⟩ := rect_set_upper_spec (mem from_) (mem to_) p xd
  obtain ⟨l1, l2⟩ := rect_set_lower_spec (mem from_) (mem to_) p xd
  unfold rect_set_upper_at rect_set_lower_at
  simp only [if_neg hne]
  refine ⟨⟨?_, ?_, ?_, trivial⟩, ⟨?_, ?_, ?_, trivial⟩⟩
  · by_cases h : ((mem from_).dim xd).upper < p.dim xd
    · simp [u1 h, h]
    · simp [u2 h, h]
  · intro h
    rw [u1 h]
    funext a
    split
    · rename_i ha; rw [ha]
    · rfl
  · intro h
    rw [u2 h]
    simp
  · by_cases h : p.dim xd < ((mem from_).dim xd).lower
    · simp [l1 h, h]
    · simp [l2 h, h]
  · intro h
    rw [l1 h]
    funext a
    split
    · rename_i ha; rw [ha]
    · rfl
  · intro h
    rw [l2 h]
    simp

theorem C14_rect_split_witness :
    (0 : Nat) ≠ 1 ∧
    (((rect_set_upper_at (fun _ => ⟨⟨0, 4⟩, ⟨0, 4⟩⟩) 0 1 ⟨1, 5⟩ 0).1 = -1 ↔
        (((fun _ => ⟨⟨0, 4⟩, ⟨0, 4⟩⟩ : Nat → rect_t) 0).dim 0).upper < (⟨1, 5⟩ : point_t).dim 0) ∧
      ((((fun _ => ⟨⟨0, 4⟩, ⟨0, 4⟩⟩ : Nat → rect_t) 0).dim 0).upper < (⟨1, 5⟩ : point_t).dim 0 →
        (rect_set_upper_at (fun _ => ⟨⟨0, 4⟩, ⟨0, 4⟩⟩) 0 1 ⟨1, 5⟩ 0).2
          = (fun _ => ⟨⟨0, 4⟩, ⟨0, 4⟩⟩)) ∧
      (¬ (((fun _ => ⟨⟨0, 4⟩, ⟨0, 4⟩⟩ : Nat → rect_t) 0).dim 0).upper
          < (⟨1, 5⟩ : point_t).dim 0 →
        (rect_set_upper_at (fun _ => ⟨⟨0, 4⟩, ⟨0, 4⟩⟩) 0 1 ⟨1, 5⟩ 0).1 = 0 ∧
        (rect_set_upper_at (fun _ => ⟨⟨0, 4⟩, ⟨0, 4⟩⟩) 0 1 ⟨1, 5⟩ 0).2 1 =
          ((fun _ => ⟨⟨0, 4⟩, ⟨0, 4⟩⟩ : Nat → rect_t) 0).set_dim 0
            { lower := max (((fun _ => ⟨⟨0, 4⟩, ⟨0, 4⟩⟩ : Nat → rect_t) 0).dim 0).lower
                ((⟨1, 5⟩ : point_t).dim 0),
              upper := (((fun _ => ⟨⟨0, 4⟩, ⟨0, 4⟩⟩ : Nat → rect_t) 0).dim 0).upper }) ∧
      (rect_set_upper_at (fun _ => ⟨⟨0, 4⟩, ⟨0, 4⟩⟩) 0 1 ⟨1, 5⟩ 0).2 0
        = (fun _ => ⟨⟨0, 4⟩, ⟨0, 4⟩⟩ : Nat → rect_t) 0) ∧
    (((rect_set_lower_at (fun _ => ⟨⟨0, 4⟩, ⟨0, 4⟩⟩) 0 1 ⟨1, 5⟩ 0).1 = -1 ↔
        (⟨1, 5⟩ : point_t).dim 0 < (((fun _ => ⟨⟨0, 4⟩, ⟨0, 4⟩⟩ : Nat → rect_t) 0).dim 0).lower) ∧
      ((⟨1, 5⟩ : point_t).dim 0 < (((fun _ => ⟨⟨0, 4⟩, ⟨0, 4⟩⟩ : Nat → rect_t) 0).dim 0).lower →
        (rect_set_lower_at (fun _ => ⟨⟨0, 4⟩, ⟨0, 4⟩⟩) 0 1 ⟨1, 5⟩ 0).2
          = (fun _ => ⟨⟨0, 4⟩, ⟨0, 4⟩⟩)) ∧
      (¬ (⟨1, 5⟩ : point_t).dim 0
          < (((fun _ => ⟨⟨0, 4⟩, ⟨0, 4⟩⟩ : Nat → rect_t) 0).dim 0).lower →
        (rect_set_lower_at (fun _ => ⟨⟨0, 4⟩, ⟨0, 4⟩⟩) 0 1 ⟨1, 5⟩ 0).1 = 0 ∧
        (rect_set_lower_at (fun _ => ⟨⟨0, 4⟩, ⟨0, 4⟩⟩) 0 1 ⟨1, 5⟩ 0).2 1 =
          ((fun _ => ⟨⟨0, 4⟩, ⟨0, 4⟩⟩ : Nat → rect_t) 0).set_dim 0
            { lower := (((fun _ => ⟨⟨0, 4⟩, ⟨0, 4⟩⟩ : Nat → rect_t) 0).dim 0).lower,
              upper := min (((fun _ => ⟨⟨0, 4⟩, ⟨0, 4⟩⟩ : Nat → rect_t) 0).dim 0).upper
                ((⟨1, 5⟩ : point_t).dim 0) }) ∧
      (rect_set_lower_at (fun _ => ⟨⟨0, 4⟩, ⟨0, 4⟩⟩) 0 1 ⟨1, 5⟩ 0).2 0
        = (fun _ => ⟨⟨0, 4⟩, ⟨0, 4⟩⟩ : Nat → rect_t) 0) :=
  ⟨by decide, C14_rect_split (fun _ => ⟨⟨0, 4⟩, ⟨0, 4⟩⟩) 0 1 ⟨1, 5⟩ 0 (by decide)⟩

theorem cmp_dist_le {α : Type} (a b : point_dist_t α) : cmp_dist a b ≤ 0 ↔ a.dist ≤ b.dist := by
  unfold cmp_dist
  split_ifs with h1 h2
  · exact ⟨fun _ => le_of_lt h1, fun _ => by decide⟩
  · constructor
    · intro h; exact absurd h (by decide)
    · intro h; exact absurd h (not_le.2 h2)
  · exact ⟨fun _ => not_lt.1 h2, fun _ => le_refl _⟩

theorem cmp_dist_lt {α : Type} (a b : point_dist_t α) : cmp_dist a b < 0 ↔ a.dist < b.dist := by
  unfold cmp_dist
  split_ifs with h1 h2
  · exact ⟨fun _ => h1, fun _ => by decide⟩
  · constructor
    · intro h; exact absurd h (by decide)
    · intro h; exact absurd h h1
  · constructor
    · intro h; exact absurd h (by decide)
    · intro h; exact absurd h h1

theorem cmp_dist_gt {α : Type} (a b : point_dist_t α) : 0 < cmp_dist a b ↔ b.dist < a.dist := by
  rw [← not_le, cmp_dist_le, not_le]

/-- The comparator of kdtree.c is one `qsort` may be given. -/
theorem cmp_dist_consistent {α : Type} (l : List (point_dist_t α)) : Consistent cmp_dist l := by
  constructor
  · intro a _ b _
    rw [cmp_dist_lt, cmp_dist_gt]
  · intro a _ b _ c _ h1 h2
    rw [cmp_dist_le] at *
    exact le_trans h1 h2

/-- Every entry `knn` adds holds the squared distance from its point to the query. -/
theorem knn_dist {α : Type} (pt : α → point_t) (q : point_t) (dist : ℚ) (node : kdnode_t α) :
    ∀ (rect : rect_t) (xd : Nat) (best : List (point_dist_t α)),
      ∀ pd ∈ knn pt q dist node rect xd best,
        pd ∈ best ∨ pd.dist = point_dist (pt pd.point) q := by
  induction node with
  | nil => intro _ _ best pd h; exact Or.inl (by simpa [knn] using h)
  | node np left right ihl ihr =>
    intro rect xd best pd h
    unfold knn at h
    by_cases h1 : rect_min_dist_to rect q > dist
    · rw [if_pos h1] at h
      exact Or.inl h
    · rw [if_neg h1] at h
      simp only at h
      rcases ihr _ _ _ pd h with h | h
      · rcases ihl _ _ _ pd h with h | h
        · by_cases h2 : point_dist (pt np) q ≤ dist
          · rw [if_pos h2] at h
            simp only [array_append, List.mem_append, List.mem_singleton] at h
            rcases h with h | h
            · exact Or.inl h
            · right; rw [h]
          · rw [if_neg h2] at h
            exact Or.inl h
        · exact Or.inr h
      · exact Or.inr h

theorem id_generator_calls_range (n : Nat) :
    ∀ (gen : id_generator_t), gen.id + n ≤ 2 ^ 64 →
      (id_generator_calls n gen).1 = List.range' gen.id n := by
  induction n with
  | zero => intro _ _; rfl
  | succ n ih =>
    intro gen h
    unfold id_generator_calls
    simp only [id_generator_next_id, List.range'_succ]
    by_cases hn : n = 0
    · subst hn
      rfl
    · have hmod : (gen.id + 1) % 2 ^ 64 = gen.id + 1 := Nat.mod_eq_of_lt (by omega)
      rw [ih _ (by simp only [hmod]; omega)]
      simp only [hmod]

/-- C16 (monotone ids). On a generator just created, as long as the 64-bit counter has
not wrapped (`n < 2 ^ 64` calls), the calls of `id_generator_next_id` return
`1, 2, ..., n`: the `k`-th call returns `k`, and the values are strictly increasing. -/
theorem C16_monotone_ids (n : Nat) (h : n < 2 ^ 64) :
    (id_generator_calls n id_generator_create).1 = List.range' 1 n ∧
    (∀ k, 1 ≤ k → k ≤ n → (id_generator_calls n id_generator_create).1[k - 1]? = some k) ∧
    (id_generator_calls n id_generator_create).1.Pairwise (fun a b => a < b) := by
  have he := id_generator_calls_range n id_generator_create (by
    show 1 + n ≤ 2 ^ 64
    omega)
  have he2 : (id_generator_calls n id_generator_create).1 = List.range' 1 n := he
  refine ⟨he2, ?_, ?_⟩
  · intro k hk1 hk2
    rw [he2, List.getElem?_range' _ _ (by omega)]
    simp only [Nat.one_mul]
    congr 1
    omega
  · rw [he2]
    exact List.pairwise_lt_range' 1 n

theorem C16_monotone_ids_witness :
    5 < 2 ^ 64 ∧
    ((id_generator_calls 5 id_generator_create).1 = List.range' 1 5 ∧
    (∀ k, 1 ≤ k → k ≤ 5 → (id_generator_calls 5 id_generator_create).1[k - 1]? = some k) ∧
    (id_generator_calls 5 id_generator_create).1.Pairwise (fun a b => a < b)) :=
  ⟨by decide, C16_monotone_ids 5 (by decide)⟩

/-! ## Claims on the coalescer and on the range query -/

theorem cpoint_at_lt (heap : List cpoint_t) (i : Nat) (h : i < heap.length) :
    cpoint_at heap i = heap[i] := by
  rw [cpoint_at_eq, List.getElem?_eq_getElem h]
  rfl

/-- C12 (coalescer partition). The member lists of the groups returned by
`convert_points`, one after the other, hold every input point once, so every input
point is in exactly one group; the members of a group have the coordinates of its
representative; no two groups have the same coordinates, and the number of groups is
the number of distinct coordinates of the input; every group has at least one member
and the sizes of the groups sum to the size of the input. -/
theorem C12_coalescer_partition (libc : Libc) (heap : List cpoint_t) :
    ((convert_points libc heap).flatMap (fun s => s.cpoints)).Perm (List.range heap.length) ∧
    (∀ i < heap.length, ∃ p < (convert_points libc heap).length,
      i ∈ members (convert_points libc heap) p ∧
      ∀ q < (convert_points libc heap).length, i ∈ members (convert_points libc heap) q →
        q = p) ∧
    (∀ s ∈ convert_points libc heap, ∀ m ∈ s.cpoints,
      (cpoint_at heap m).point = s.cpoint.point) ∧
    ((convert_points libc heap).map (fun s => s.cpoint.point)).Nodup ∧
    (convert_points libc heap).length = ((heap.map (fun c => c.point)).dedup).length ∧
    (∀ s ∈ convert_points libc heap, 1 ≤ s.cpoints.length) ∧
    ((convert_points libc heap).map (fun s => s.cpoints.length)).sum = heap.length := by
  obtain ⟨h1, h2, h3⟩ := convert_points_spec libc heap
  have g := convert_points_geom libc heap
  refine ⟨h1, ?_, ?_, h3, ?_, ?_, ?_⟩
  · intro i hi
    obtain ⟨p, hp, hip⟩ := g.covered i hi
    exact ⟨p, hp, hip, fun q hq hiq => g.disjoint q hq p hp i hiq hip⟩
  · intro s hs m hm
    obtain ⟨_, _, _, _, e3⟩ := h2 s hs
    exact e3 m hm
  · have hperm : ((convert_points libc heap).map (fun s => s.cpoint.point)).Perm
        ((heap.map (fun c => c.point)).dedup) := by
      rw [List.perm_ext_iff_of_nodup h3 (List.nodup_dedup _)]
      intro x
      rw [List.mem_dedup, List.mem_map, List.mem_map]
      constructor
      · rintro ⟨s, hs, rfl⟩
        obtain ⟨m, ms, e1, e2, _⟩ := h2 s hs
        have hm : m ∈ (convert_points libc heap).flatMap (fun s => s.cpoints) :=
          List.mem_flatMap.2 ⟨s, hs, by rw [e1]; exact List.mem_cons_self _ _⟩
        have hlt : m < heap.length := List.mem_range.1 (h1.mem_iff.1 hm)
        refine ⟨heap[m], List.getElem_mem _, ?_⟩
        rw [e2, cpoint_at_lt heap m hlt]
      · rintro ⟨c, hc, rfl⟩
        obtain ⟨i, hi, rfl⟩ := List.mem_iff_getElem.1 hc
        obtain ⟨p, hp, hip⟩ := g.covered i hi
        refine ⟨(convert_points libc heap)[p], List.getElem_mem _, ?_⟩
        have := g.coords p hp i hip
        rw [cpoint_at_lt heap i hi] at this
        rw [this]
        unfold rep_point
        rw [cpointset_at_lt _ p hp]
    simpa using hperm.length_eq
  · intro s hs
    obtain ⟨m, ms, e1, _, _⟩ := h2 s hs
    rw [e1]
    simp
  · have := h1.length_eq
    rw [List.length_flatMap, List.length_range] at this
    exact this

/-- Two points at the origin and one far away. -/
def twins_and_far : List cpoint_t := [cpoint_init 0 0, cpoint_init 0 0, cpoint_init 5 5]

/-- The tree that `dbscan_cluster` builds for `twins_and_far` in the run `env_fixed`. -/
def twins_and_far_tree : kdtree_t Nat :=
  (kdtree_create_static (rep_point (convert_points env_fixed.libc twins_and_far))
    env_fixed.point_hash env_fixed.rnd
    (List.range (convert_points env_fixed.libc twins_and_far).length)).getD
    { root := kdnode_t.nil, rect := rect_zero, size := 0 }

theorem convex_hulls_of_le_three {α : Type} (libc : Libc) (pt : α → point_t)
    (points : List α) (h : points.length ≤ 3) :
    convex_hulls libc pt points = some points := by
  unfold convex_hulls
  rw [if_pos h]

/-- With at most three point-sets the hull set holds the whole frontier. -/
theorem hull_set_small {heap0 : List cpoint_t} {sets0 : List cpointset_t}
    {pend : List Nat} {st : dbscan_t} (h : inv2 heap0 sets0 pend st)
    (hN3 : sets0.length ≤ 3) (env : env_t) (hullset : hashset_t Nat) (hok : hs_ok hullset) :
    ∃ hs, hull_set env st hullset = some hs ∧ hs_ok hs ∧
      ∀ x ∈ hashset_to_list st.nnset, hashset_contains hs x = true := by
  have hlen : (hashset_to_list st.nnset).length ≤ 3 :=
    le_trans (nodup_length_le (hs_to_list_nodup h.nn_ok) h.nn_lt) hN3
  obtain ⟨b1, _, b3⟩ := hs_add_all_spec (hashset_to_list st.nnset) hok
  refine ⟨hashset_add_all hullset (hashset_to_list st.nnset), ?_, b1, ?_⟩
  · unfold hull_set
    rw [convex_hulls_of_le_three _ _ _ hlen]
    rfl
  · intro x hx
    exact (hs_contains_iff b1 x).2 ((b3 x).2 (Or.inl hx))

/-- With at most three point-sets the expansion loop never meets the hull filter: it
does what the loop without the filter does. -/
theorem expand_eq {heap0 : List cpoint_t} {sets0 : List cpointset_t} (g : geom heap0 sets0)
    (env : env_t) (tree : kdtree_t Nat) (eps2 : ℚ) (min_pts : Nat)
    (htree : ∀ h ∈ kd_points tree.root, h < sets0.length) (hN3 : sets0.length ≤ 3) :
    ∀ (fuel : Nat) (st : dbscan_t) (hullset : hashset_t Nat), inv2 heap0 sets0 [] st →
      1 ≤ st.next_id → hs_ok hullset →
      (∀ x ∈ hashset_to_list st.nnset, hashset_contains hullset x = true) →
      expand env tree eps2 min_pts fuel st hullset =
        expand_nohull env tree eps2 min_pts fuel st := by
  intro fuel
  induction fuel with
  | zero => intro _ _ _ _ _ _; rfl
  | succ fuel ih =>
    intro st hullset h h1 hok hJ
    unfold expand expand_nohull
    by_cases hsize : hashset_size st.nnset = 0
    · rw [if_pos hsize, if_pos hsize]
    · rw [if_neg hsize, if_neg hsize]
      rw [hs_size_eq h.nn_ok] at hsize
      rcases hs_pop_spec h.nn_ok with ⟨he, _⟩ | ⟨k, rest, set1, hlist, hpop, hok1, hrest, _⟩
      · rw [he] at hsize; exact absurd rfl hsize
      · rw [hpop]
        simp only
        have hkin : k ∈ hashset_to_list st.nnset := by
          rw [hlist]; exact List.mem_cons_self _ _
        have hk : k < sets0.length := h.nn_lt k hkin
        have hsub : ∀ x ∈ hashset_to_list set1, x ∈ hashset_to_list st.nnset := by
          intro x hx
          rw [hrest] at hx
          rw [hlist]
          exact List.mem_cons_of_mem _ hx
        have hi1 : inv2 heap0 sets0 [] { st with nnset := set1 } :=
          inv2_set_nnset h set1 hok1 (fun x hx => h.nn_lt x (hsub x hx))
        have tail : ∀ (st4 : dbscan_t) (hs : hashset_t Nat) (pend : List Nat),
            inv2 heap0 sets0 pend st4 → (∀ x ∈ pend, x = k) →
            k ∈ hashset_to_list st4.visited →
            st4.next_id = st.next_id →
            (rid st4.cpointsets k ≠ 0 → pend = []) →
            hs_ok hs → (∀ x ∈ hashset_to_list st4.nnset, hashset_contains hs x = true) →
            expand env tree eps2 min_pts fuel
              (if (cpointset_at st4.cpointsets k).cpoint.cluster_id = 0 then
                stamp st4 k st4.next_id else st4) hs =
            expand_nohull env tree eps2 min_pts fuel
              (if (cpointset_at st4.cpointsets k).cpoint.cluster_id = 0 then
                stamp st4 k st4.next_id else st4) := by
          intro st4 hs pend i4 hpend hv4 hn4 hp4 hok4 hJ4
          by_cases hz : (cpointset_at st4.cpointsets k).cpoint.cluster_id = 0
          · rw [if_pos hz]
            obtain ⟨j1, _⟩ := inv2_stamp g i4 k hk hz hv4 hpend st4.next_id st4.gen
              (by omega) i4.gen_eq (le_refl _) (fun _ hlt => le_of_lt hlt) (by omega)
            exact ih _ hs j1 (by show 1 ≤ st4.next_id; omega) hok4 hJ4
          · rw [if_neg hz]
            have hp : pend = [] := hp4 hz
            subst hp
            exact ih _ hs i4 (by omega) hok4 hJ4
        by_cases hvis : k ∈ hashset_to_list st.visited
        · have hc : hashset_contains st.visited k = true := (hs_contains_iff h.vis_ok k).2 hvis
          simp only [hc, Bool.not_true, Bool.false_eq_true, if_false]
          exact tail _ hullset [] hi1 (by simp) hvis rfl (fun _ => rfl) hok
            (fun x hx => hJ x (hsub x hx))
        · have hc : hashset_contains st.visited k = false := by
            rw [← Bool.not_eq_true, hs_contains_iff h.vis_ok k]
            exact hvis
          simp only [hc, Bool.not_false, if_true]
          obtain ⟨v1, v2, _, v4, _⟩ := inv2_visit hi1 k hk hvis
          have hlt1 : ∀ x ∈ hashset_to_list set1, x < sets0.length := hi1.nn_lt
          have hh : hashset_contains hullset k = true := hJ k hkin
          simp only [hh, if_true]
          have hnnlt : ∀ x ∈ kdtree_k_nearest_neighbour env.libc (rep_point st.cpointsets)
              tree (rep_point st.cpointsets k) eps2, x < sets0.length :=
            fun x hx => htree x (kdtree_knn_subset _ _ _ _ _ x hx)
          generalize kdtree_k_nearest_neighbour env.libc (rep_point st.cpointsets)
              tree (rep_point st.cpointsets k) eps2 = nn_ at hnnlt ⊢
          obtain ⟨r1, _, _⟩ := hs_remove_all_spec hok
          by_cases ht : min_pts ≤ total_of st.cpointsets nn_
          · simp only [ge_iff_le, ht, if_true]
            obtain ⟨b1, _, b3⟩ := hs_add_all_spec nn_ hok1
            have hlt3 : ∀ x ∈ hashset_to_list (hashset_add_all set1 nn_),
                x < sets0.length := by
              intro x hx
              rcases (b3 x).1 hx with hx | hx
              · exact hnnlt x hx
              · exact hlt1 x hx
            have i3 : inv2 heap0 sets0 [k]
                { cpoints := st.cpoints, cpointsets := st.cpointsets, gen := st.gen,
                  next_id := st.next_id, visited := (hashset_add st.visited k).2,
                  nnset := hashset_add_all set1 nn_, noise := st.noise } :=
              inv2_set_nnset v1 _ b1 hlt3
            obtain ⟨hs, hhs, hsok, hsJ⟩ := hull_set_small i3 hN3 env
              (hashset_remove_all hullset) r1
            rw [hhs]
            simp only [Option.map_some']
            exact tail _ hs [k] i3 (by simp) v2 rfl (fun hne => absurd v4 hne) hsok hsJ
          · simp only [ge_iff_le, ht, if_false]
            have i3 : inv2 heap0 sets0 [k]
                { cpoints := st.cpoints, cpointsets := st.cpointsets, gen := st.gen,
                  next_id := st.next_id, visited := (hashset_add st.visited k).2,
                  nnset := set1, noise := st.noise } := v1
            obtain ⟨hs, hhs, hsok, hsJ⟩ := hull_set_small i3 hN3 env
              (hashset_remove_all hullset) r1
            rw [hhs]
            simp only [Option.map_some']
            exact tail _ hs [k] i3 (by simp) v2 rfl (fun hne => absurd v4 hne) hsok hsJ

/-- With at most three point-sets a pass of the main loop does what the pass without
the hull filter does. -/
theorem cluster_step_eq {heap0 : List cpoint_t} {sets0 : List cpointset_t}
    (g : geom heap0 sets0) (env : env_t) (tree : kdtree_t Nat) (eps2 : ℚ) (min_pts : Nat)
    (htree : ∀ h ∈ kd_points tree.root, h < sets0.length) (hN : sets0.length + 2 < 2 ^ 64)
    (hN3 : sets0.length ≤ 3)
    (st : dbscan_t) (point : Nat) (h : inv2 heap0 sets0 [] st) (hp : point < sets0.length) :
    cluster_step env tree eps2 min_pts st point =
      cluster_step_nohull env tree eps2 min_pts st point := by
  unfold cluster_step cluster_step_nohull
  by_cases hvis : point ∈ hashset_to_list st.visited
  · rw [if_pos ((hs_contains_iff h.vis_ok point).2 hvis),
      if_pos ((hs_contains_iff h.vis_ok point).2 hvis)]
  · have hc : ¬ hashset_contains st.visited point = true := by
      rw [hs_contains_iff h.vis_ok point]
      exact hvis
    rw [if_neg hc, if_neg hc]
    obtain ⟨v1, v2, v3, v4, v5⟩ := inv2_visit h point hp hvis
    have hv1len : (hashset_to_list (hashset_add st.visited point).2).length ≤ sets0.length :=
      inv2_visited_length v1
    simp only
    have hnnlt : ∀ x ∈ kdtree_k_nearest_neighbour env.libc (rep_point st.cpointsets)
        tree (rep_point st.cpointsets point) eps2, x < sets0.length :=
      fun x hx => htree x (kdtree_knn_subset _ _ _ _ _ x hx)
    generalize kdtree_k_nearest_neighbour env.libc (rep_point st.cpointsets)
        tree (rep_point st.cpointsets point) eps2 = nn_ at hnnlt ⊢
    by_cases ht : total_of st.cpointsets nn_ < min_pts
    · rw [if_pos ht, if_pos ht]
    · rw [if_neg ht, if_neg ht]
      have hnext : st.next_id + 1 ≤ (hashset_to_list (hashset_add st.visited point).2).length :=
        v1.next_le
      have hmod : (st.next_id + 1 + 1) % 2 ^ 64 = st.next_id + 1 + 1 :=
        Nat.mod_eq_of_lt (by omega)
      have hgen : id_generator_next_id st.gen =
          (st.next_id + 1, { id := (st.next_id + 1 + 1) % 2 ^ 64 }) := by
        unfold id_generator_next_id
        rw [h.gen_eq]
      obtain ⟨j1, _⟩ := inv2_stamp g v1 point hp v4 v2 (by simp) (st.next_id + 1)
        { id := (st.next_id + 1 + 1) % 2 ^ 64 } (by omega) hmod (by simp)
        (fun k hk => by simp only at hk ⊢; omega) (by simp)
      rw [hgen]
      simp only
      have j1a : inv2 heap0 sets0 [] (stamp
          { cpoints := st.cpoints, cpointsets := st.cpointsets,
            gen := { id := (st.next_id + 1 + 1) % 2 ^ 64 }, next_id := st.next_id + 1,
            visited := (hashset_add st.visited point).2, nnset := st.nnset,
            noise := st.noise } point (st.next_id + 1)) := j1
      have j4a : (stamp
          { cpoints := st.cpoints, cpointsets := st.cpointsets,
            gen := { id := (st.next_id + 1 + 1) % 2 ^ 64 }, next_id := st.next_id + 1,
            visited := (hashset_add st.visited point).2, nnset := st.nnset,
            noise := st.noise } point (st.next_id + 1)).next_id = st.next_id + 1 := rfl
      generalize stamp
          { cpoints := st.cpoints, cpointsets := st.cpointsets,
            gen := { id := (st.next_id + 1 + 1) % 2 ^ 64 }, next_id := st.next_id + 1,
            visited := (hashset_add st.visited point).2, nnset := st.nnset,
            noise := st.noise } point (st.next_id + 1) = S at j1a j4a ⊢
      obtain ⟨r1, r2, _⟩ := hs_remove_all_spec j1a.nn_ok
      obtain ⟨b1, _, b3⟩ := hs_add_all_spec (nn_.drop 1) r1
      have hlt3 : ∀ x ∈ hashset_to_list
          (hashset_add_all (hashset_remove_all S.nnset) (nn_.drop 1)), x < sets0.length := by
        intro x hx
        rcases (b3 x).1 hx with hx | hx
        · exact hnnlt x (List.mem_of_mem_drop hx)
        · rw [r2] at hx
          simp at hx
      have i3 : inv2 heap0 sets0 []
          { cpoints := S.cpoints, cpointsets := S.cpointsets, gen := S.gen,
            next_id := S.next_id, visited := S.visited,
            nnset := hashset_add_all (hashset_remove_all S.nnset) (nn_.drop 1),
            noise := S.noise } := inv2_set_nnset j1a _ b1 hlt3
      obtain ⟨hs, hhs, hsok, hsJ⟩ := hull_set_small i3 hN3 env
        (hashset_create 0 env.addr_hash) ⟨[], hs_wf_create _ _⟩
      rw [hhs]
      simp only
      exact expand_eq g env tree eps2 min_pts htree hN3 _ _ hs i3
        (by show 1 ≤ S.next_id; omega) hsok hsJ

theorem cluster_loop_nohull_cons (env : env_t) (tree : kdtree_t Nat) (eps : ℚ) (min_pts : Nat)
    (st : dbscan_t) (a : Nat) (rest : List Nat) :
    cluster_loop_nohull env tree eps min_pts st (a :: rest) =
      match cluster_step_nohull env tree eps min_pts st a with
      | run_t.go st1 => cluster_loop_nohull env tree eps min_pts st1 rest
      | other => other := by
  cases h : cluster_step_nohull env tree eps min_pts st a <;> simp [cluster_loop_nohull, h]

/-- With at most three point-sets the main loop does what the loop without the hull
filter does. -/
theorem cluster_loop_eq {heap0 : List cpoint_t} {sets0 : List cpointset_t}
    (g : geom heap0 sets0) (env : env_t) (tree : kdtree_t Nat) (eps2 : ℚ) (min_pts : Nat)
    (htree : ∀ h ∈ kd_points tree.root, h < sets0.length) (hN : sets0.length + 2 < 2 ^ 64)
    (hN3 : sets0.length ≤ 3) (points : List Nat) :
    ∀ (st : dbscan_t), inv2 heap0 sets0 [] st → (∀ x ∈ points, x < sets0.length) →
      cluster_loop env tree eps2 min_pts st points =
        cluster_loop_nohull env tree eps2 min_pts st points := by
  induction points with
  | nil => intro st _ _; rfl
  | cons point rest ih =>
    intro st h hlt
    obtain ⟨st1, e1, e2, _, _⟩ := cluster_step_spec g env tree eps2 min_pts htree hN st point h
      (hlt point (List.mem_cons_self _ _))
    rw [cluster_loop_cons, cluster_loop_nohull_cons,
      ← cluster_step_eq g env tree eps2 min_pts htree hN hN3 st point h
        (hlt point (List.mem_cons_self _ _)), e1]
    exact ih st1 e2 (fun x hx => hlt x (List.mem_cons_of_mem _ hx))

/-- There are no more point-sets than distinct coordinate pairs. -/
theorem convert_points_length_le_distinct (libc : Libc) (heap0 : List cpoint_t) :
    (convert_points libc heap0).length ≤ ((heap0.map (fun c => c.point)).dedup).length := by
  have g := convert_points_geom libc heap0
  have hd : ((List.range (convert_points libc heap0).length).map
      (rep_point (convert_points libc heap0))).Nodup := by
    refine List.Nodup.map_on ?_ (List.nodup_range _)
    intro x hx y hy he
    exact g.inj x (List.mem_range.1 hx) y (List.mem_range.1 hy) he
  have hsub : (List.range (convert_points libc heap0).length).map
      (rep_point (convert_points libc heap0)) ⊆ (heap0.map (fun c => c.point)).dedup := by
    intro q hq
    rw [List.mem_map] at hq
    obtain ⟨p, hp, rfl⟩ := hq
    have hp1 := List.mem_range.1 hp
    obtain ⟨m, hm⟩ := List.exists_mem_of_ne_nil _ (g.nonempty p hp1)
    have hml := g.bound p hp1 m hm
    rw [List.mem_dedup, List.mem_map]
    refine ⟨heap0[m], List.getElem_mem _, ?_⟩
    rw [← g.coords p hp1 m hm, cpoint_at_some (List.getElem?_eq_getElem hml)]
  have := (List.subperm_of_subset hd hsub).length_le
  simpa using this

/-- On unlabelled points at no more than three places, the engine without the hull
filter returns what `dbscan_cluster` returns. -/
theorem dbscan_cluster_nohull_eq (env : env_t) (heap0 : List cpoint_t) (eps : ℚ)
    (min_pts : Nat) (hne : heap0 ≠ []) (h0 : ∀ c ∈ heap0, c.cluster_id = 0)
    (hlen : heap0.length < 2 ^ 31)
    (h3 : ((heap0.map (fun c => c.point)).dedup).length ≤ 3) :
    dbscan_cluster_nohull env heap0 eps min_pts = dbscan_cluster env heap0 eps min_pts := by
  have g := convert_points_geom env.libc heap0
  have hle := convert_points_length_le env.libc heap0
  have hN3 := le_trans (convert_points_length_le_distinct env.libc heap0) h3
  obtain ⟨tree, _, _, htree, htl, _, _, _, _, _, _⟩ :=
    dbscan_run env heap0 eps min_pts hne h0 hlen
  have e := cluster_loop_eq g env tree (eps * eps) min_pts htl (by omega) hN3
    (List.range (convert_points env.libc heap0).length) (dbscan_init env heap0)
    (inv2_init env heap0 g h0) (fun x hx => List.mem_range.1 hx)
  unfold dbscan_init at e
  unfold dbscan_cluster_nohull dbscan_cluster
  simp only
  rw [htree]
  simp only
  rw [e]

/-- C20 (counterexample). Five points, `eps = 5` and `min_pts = 3`. The cluster grows
from `(-4, 1)` with the frontier `(0, 2)`, `(0, 4)`; the query at `(0, 4)` adds `(4, 1)`
and `(-4, 1)`, and `(0, 2)` is then inside the hull of the frontier, so that it is not
queried and its neighbour `(0, -3)` is left to the noise block, which gives it the id 2.
Without the hull filter `(0, 2)` is queried and `(0, -3)` joins the cluster: the two
partitions differ. -/
theorem C20_interior_frontier_point_not_queried :
    dbscan_cluster env_fixed
      [cpoint_init (-4) 1, cpoint_init 0 4, cpoint_init 4 1, cpoint_init 0 2, cpoint_init 0 (-3)] 5 3
      = some (2, [⟨⟨-4, 1⟩, 1⟩, ⟨⟨0, 4⟩, 1⟩, ⟨⟨4, 1⟩, 1⟩, ⟨⟨0, 2⟩, 1⟩, ⟨⟨0, -3⟩, 2⟩]) ∧
    dbscan_cluster_nohull env_fixed
      [cpoint_init (-4) 1, cpoint_init 0 4, cpoint_init 4 1, cpoint_init 0 2, cpoint_init 0 (-3)] 5 3
      = some (1, [⟨⟨-4, 1⟩, 1⟩, ⟨⟨0, 4⟩, 1⟩, ⟨⟨4, 1⟩, 1⟩, ⟨⟨0, 2⟩, 1⟩, ⟨⟨0, -3⟩, 1⟩]) ∧
    ¬ same_partition [⟨⟨-4, 1⟩, 1⟩, ⟨⟨0, 4⟩, 1⟩, ⟨⟨4, 1⟩, 1⟩, ⟨⟨0, 2⟩, 1⟩, ⟨⟨0, -3⟩, 2⟩]
      [⟨⟨-4, 1⟩, 1⟩, ⟨⟨0, 4⟩, 1⟩, ⟨⟨4, 1⟩, 1⟩, ⟨⟨0, 2⟩, 1⟩, ⟨⟨0, -3⟩, 1⟩] := by
  refine ⟨by decide!, by decide!, ?_⟩
  intro h
  have h1 := (h.2 3 (by decide) 4 (by decide)).2 rfl
  revert h1
  decide

/-- C20 (hull-set pruning, amended). On a non-empty array of points that all start with
`cluster_id` 0 and lie at no more than three distinct places, `dbscan_cluster` and the
same engine with the hull filter removed return the same number and leave the same
partition (indeed the same ids): `convex_hulls` returns three points or fewer as they
are, so that every point-set of the frontier is in the hull set. -/
theorem C20_pruning_keeps_partition (env : env_t) (cpoints : List cpoint_t) (eps : ℚ)
    (min_pts : Nat) (hne : cpoints ≠ []) (h0 : ∀ c ∈ cpoints, c.cluster_id = 0)
    (hlen : cpoints.length < 2 ^ 31)
    (h3 : ((cpoints.map (fun c => c.point)).dedup).length ≤ 3) :
    ∃ (r : Int) (heap heap2 : List cpoint_t),
      dbscan_cluster env cpoints eps min_pts = some (r, heap) ∧ r ≠ -1 ∧
      dbscan_cluster_nohull env cpoints eps min_pts = some (r, heap2) ∧
      same_partition heap heap2 := by
  obtain ⟨r, heap, h1, _⟩ := dbscan_cluster_labels env cpoints eps min_pts hne h0 hlen
  refine ⟨(r : Int), heap, heap, h1, by omega, ?_, rfl, fun _ _ _ _ => Iff.rfl⟩
  rw [dbscan_cluster_nohull_eq env cpoints eps min_pts hne h0 hlen h3]
  exact h1

theorem C20_pruning_keeps_partition_witness :
    [cpoint_init 0 0, cpoint_init 10 10, cpoint_init 0 1, cpoint_init 0 0] ≠ [] ∧
    (∀ c ∈ [cpoint_init 0 0, cpoint_init 10 10, cpoint_init 0 1, cpoint_init 0 0],
      c.cluster_id = 0) ∧
    [cpoint_init 0 0, cpoint_init 10 10, cpoint_init 0 1, cpoint_init 0 0].length < 2 ^ 31 ∧
    (([cpoint_init 0 0, cpoint_init 10 10, cpoint_init 0 1, cpoint_init 0 0].map
      (fun c => c.point)).dedup).length ≤ 3 ∧
    ∃ (r : Int) (heap heap2 : List cpoint_t),
      dbscan_cluster env_fixed
        [cpoint_init 0 0, cpoint_init 10 10, cpoint_init 0 1, cpoint_init 0 0] 1 2
        = some (r, heap) ∧ r ≠ -1 ∧
      dbscan_cluster_nohull env_fixed
        [cpoint_init 0 0, cpoint_init 10 10, cpoint_init 0 1, cpoint_init 0 0] 1 2
        = some (r, heap2) ∧
      same_partition heap heap2 :=
  ⟨by simp, by simp [cpoint_init], by simp, by decide!,
    C20_pruning_keeps_partition env_fixed
      [cpoint_init 0 0, cpoint_init 10 10, cpoint_init 0 1, cpoint_init 0 0] 1 2
      (by simp) (by simp [cpoint_init]) (by simp) (by decide!)⟩

/-! ## Claims on the failed split, the outer loop and the first frontier -/

theorem point_dist_nonneg (a b : point_t) : 0 ≤ point_dist a b := by
  unfold point_dist
  positivity

theorem point_dist_eq_zero {a b : point_t} (h : point_dist a b = 0) : a = b := by
  unfold point_dist at h
  have h1 : 0 ≤ (a.x - b.x) ^ 2 := sq_nonneg _
  have h2 : 0 ≤ (a.y - b.y) ^ 2 := sq_nonneg _
  have e1 : (a.x - b.x) ^ 2 = 0 := by linarith
  have e2 : (a.y - b.y) ^ 2 = 0 := by linarith
  have e3 : a.x - b.x = 0 := by simpa using e1
  have e4 : a.y - b.y = 0 := by simpa using e2
  exact point_ext (by linarith) (by linarith)

/-- The list returned by the range query is in the order of the distances. -/
theorem kdtree_knn_sorted {α : Type} (libc : Libc) (pt : α → point_t)
    (tree : kdtree_t α) (q : point_t) (thre : ℚ) :
    (kdtree_k_nearest_neighbour libc pt tree q thre).Pairwise
      (fun a b => point_dist (pt a) q ≤ point_dist (pt b) q) := by
  unfold kdtree_k_nearest_neighbour
  simp only
  rw [List.pairwise_map]
  have hs := libc.qsort_sorted cmp_dist (knn pt q thre tree.root tree.rect 0 [])
    (cmp_dist_consistent _)
  have hd : ∀ pd ∈ libc.qsort cmp_dist (knn pt q thre tree.root tree.rect 0 []),
      pd.dist = point_dist (pt pd.point) q := by
    intro pd hpd
    rcases knn_dist pt q thre tree.root tree.rect 0 [] pd
      ((libc.qsort_perm cmp_dist _).mem_iff.1 hpd) with h | h
    · simp at h
    · exact h
  refine List.Pairwise.imp_of_mem ?_ hs
  intro a b ha hb hab
  rw [← hd a ha, ← hd b hb]
  exact (cmp_dist_le a b).1 hab

/-- The tree of the main loop holds every point-set once, and its query from a
point-set returns, each once, the point-sets within the threshold. -/
theorem main_tree_query (env : env_t) (heap0 : List cpoint_t) (tree : kdtree_t Nat)
    (htree : kdtree_create_static (rep_point (convert_points env.libc heap0)) env.point_hash
      env.rnd (List.range (convert_points env.libc heap0).length) = some tree)
    (eps2 : ℚ) (heps : 0 ≤ eps2) (p : Nat) (hp : p < (convert_points env.libc heap0).length) :
    (kdtree_k_nearest_neighbour env.libc (rep_point (convert_points env.libc heap0)) tree
        (rep_point (convert_points env.libc heap0) p) eps2).Nodup ∧
    ∀ x, x ∈ kdtree_k_nearest_neighbour env.libc (rep_point (convert_points env.libc heap0))
        tree (rep_point (convert_points env.libc heap0) p) eps2 ↔
      x < (convert_points env.libc heap0).length ∧
        point_dist (rep_point (convert_points env.libc heap0) x)
          (rep_point (convert_points env.libc heap0) p) ≤ eps2 := by
  have g := convert_points_geom env.libc heap0
  have hd : ((List.range (convert_points env.libc heap0).length).map
      (rep_point (convert_points env.libc heap0))).Nodup := by
    refine List.Nodup.map_on ?_ (List.nodup_range _)
    intro x hx y hy he
    exact g.inj x (List.mem_range.1 hx) y (List.mem_range.1 hy) he
  rcases kdtree_create_spec (rep_point (convert_points env.libc heap0)) env.point_hash env.rnd
    _ hd with ⟨hnil, _⟩ | ⟨_, tree1, htree1, hperm, hrect⟩
  · have := congrArg List.length hnil
    rw [List.length_range] at this
    simp only [List.length_nil] at this
    omega
  · have ht : tree1 = tree := by
      rw [htree1] at htree
      exact Option.some.inj htree
    subst ht
    have hq := kdtree_knn_inside env.libc (rep_point (convert_points env.libc heap0)) tree1
      (rep_point (convert_points env.libc heap0) p) eps2 heps
      (hrect p (List.mem_range.2 hp))
    constructor
    · rw [hq.nodup_iff]
      exact (hperm.nodup_iff.2 (List.nodup_range _)).filter _
    · intro x
      rw [hq.mem_iff, List.mem_filter, hperm.mem_iff, List.mem_range]
      simp

/-- The first item returned by a query from a point-set of the tree is that
point-set. -/
theorem main_tree_query_head (env : env_t) (heap0 : List cpoint_t) (tree : kdtree_t Nat)
    (htree : kdtree_create_static (rep_point (convert_points env.libc heap0)) env.point_hash
      env.rnd (List.range (convert_points env.libc heap0).length) = some tree)
    (eps2 : ℚ) (heps : 0 ≤ eps2) (p : Nat) (hp : p < (convert_points env.libc heap0).length) :
    ∃ rest, kdtree_k_nearest_neighbour env.libc (rep_point (convert_points env.libc heap0))
        tree (rep_point (convert_points env.libc heap0) p) eps2 = p :: rest ∧
      p ∉ rest := by
  have g := convert_points_geom env.libc heap0
  obtain ⟨hnd, hmem⟩ := main_tree_query env heap0 tree htree eps2 heps p hp
  have hs := kdtree_knn_sorted env.libc (rep_point (convert_points env.libc heap0)) tree
    (rep_point (convert_points env.libc heap0) p) eps2
  have hin : p ∈ kdtree_k_nearest_neighbour env.libc
      (rep_point (convert_points env.libc heap0)) tree
      (rep_point (convert_points env.libc heap0) p) eps2 :=
    (hmem p).2 ⟨hp, by rw [point_dist_self]; exact heps⟩
  generalize kdtree_k_nearest_neighbour env.libc (rep_point (convert_points env.libc heap0))
      tree (rep_point (convert_points env.libc heap0) p) eps2 = nn at hnd hmem hs hin
  cases nn with
  | nil => simp at hin
  | cons a rest =>
    have ha : a < (convert_points env.libc heap0).length :=
      ((hmem a).1 (List.mem_cons_self _ _)).1
    have hap : a = p := by
      rw [List.mem_cons] at hin
      rcases hin with h | h
      · exact h.symm
      · have hle := (List.pairwise_cons.1 hs).1 p h
        rw [point_dist_self] at hle
        have hz : point_dist (rep_point (convert_points env.libc heap0) a)
            (rep_point (convert_points env.libc heap0) p) = 0 :=
          le_antisymm hle (point_dist_nonneg _ _)
        exact g.inj a ha p hp (point_dist_eq_zero hz)
    subst hap
    exact ⟨rest, rfl, (List.nodup_cons.1 hnd).1⟩

/-- C23 (initial frontier). In any state of the main loop (point-sets as
`convert_points` made them, up to ids; a well-formed `nnset`), for every point-set `p`
and every `eps`: the result of the range query from `p` starts with `p`, holds no
point-set twice, and the set `nnset` with which the expansion loop starts, made of the
result from index 1 on, holds exactly the point-sets of the result other than `p`. -/
theorem C23_initial_frontier (env : env_t) (heap0 : List cpoint_t) (eps : ℚ)
    (tree : kdtree_t Nat) (st : dbscan_t) (point : Nat)
    (htree : kdtree_create_static (rep_point (convert_points env.libc heap0)) env.point_hash
      env.rnd (List.range (convert_points env.libc heap0).length) = some tree)
    (hshape : shape st.cpointsets = shape (convert_points env.libc heap0))
    (hp : point < (convert_points env.libc heap0).length)
    (hnn : hs_ok st.nnset) :
    (kdtree_k_nearest_neighbour env.libc (rep_point st.cpointsets) tree
      (rep_point st.cpointsets point) (eps * eps)).head? = some point ∧
    (kdtree_k_nearest_neighbour env.libc (rep_point st.cpointsets) tree
      (rep_point st.cpointsets point) (eps * eps)).Nodup ∧
    ∀ x, x ∈ hashset_to_list (hashset_add_all (hashset_remove_all st.nnset)
        ((kdtree_k_nearest_neighbour env.libc (rep_point st.cpointsets) tree
          (rep_point st.cpointsets point) (eps * eps)).drop 1)) ↔
      (x ∈ kdtree_k_nearest_neighbour env.libc (rep_point st.cpointsets) tree
          (rep_point st.cpointsets point) (eps * eps) ∧ x ≠ point) := by
  rw [shape_rep_point hshape]
  obtain ⟨hnd, _⟩ := main_tree_query env heap0 tree htree (eps * eps) (mul_self_nonneg eps)
    point hp
  obtain ⟨rest, he, hrest⟩ := main_tree_query_head env heap0 tree htree (eps * eps)
    (mul_self_nonneg eps) point hp
  rw [he] at hnd ⊢
  obtain ⟨r1, r2, _⟩ := hs_remove_all_spec hnn
  obtain ⟨_, _, b3⟩ := hs_add_all_spec rest r1
  refine ⟨rfl, hnd, ?_⟩
  intro x
  rw [List.drop_one, List.tail_cons, b3 x, r2, List.mem_cons]
  constructor
  · rintro (h | h)
    · exact ⟨Or.inr h, fun e => hrest (e ▸ h)⟩
    · simp at h
  · rintro ⟨h | h, hne⟩
    · exact absurd h hne
    · exact Or.inl h

theorem C23_initial_frontier_witness :
    kdtree_create_static (rep_point (convert_points env_fixed.libc twins_and_far))
      env_fixed.point_hash env_fixed.rnd
      (List.range (convert_points env_fixed.libc twins_and_far).length)
      = some twins_and_far_tree ∧
    shape (dbscan_init env_fixed twins_and_far).cpointsets
      = shape (convert_points env_fixed.libc twins_and_far) ∧
    0 < (convert_points env_fixed.libc twins_and_far).length ∧
    hs_ok (dbscan_init env_fixed twins_and_far).nnset ∧
    (kdtree_k_nearest_neighbour env_fixed.libc
      (rep_point (dbscan_init env_fixed twins_and_far).cpointsets) twins_and_far_tree
      (rep_point (dbscan_init env_fixed twins_and_far).cpointsets 0) (8 * 8)).head? = some 0 ∧
    (kdtree_k_nearest_neighbour env_fixed.libc
      (rep_point (dbscan_init env_fixed twins_and_far).cpointsets) twins_and_far_tree
      (rep_point (dbscan_init env_fixed twins_and_far).cpointsets 0) (8 * 8)).Nodup ∧
    ∀ x, x ∈ hashset_to_list
        (hashset_add_all (hashset_remove_all (dbscan_init env_fixed twins_and_far).nnset)
          ((kdtree_k_nearest_neighbour env_fixed.libc
            (rep_point (dbscan_init env_fixed twins_and_far).cpointsets) twins_and_far_tree
            (rep_point (dbscan_init env_fixed twins_and_far).cpointsets 0) (8 * 8)).drop 1)) ↔
      (x ∈ kdtree_k_nearest_neighbour env_fixed.libc
          (rep_point (dbscan_init env_fixed twins_and_far).cpointsets) twins_and_far_tree
          (rep_point (dbscan_init env_fixed twins_and_far).cpointsets 0) (8 * 8) ∧ x ≠ 0) :=
  ⟨by decide!, rfl, by decide!, ⟨[], hs_wf_create _ _⟩,
    C23_initial_frontier env_fixed twins_and_far 8 twins_and_far_tree
      (dbscan_init env_fixed twins_and_far) 0 (by decide!) rfl (by decide!)
      ⟨[], hs_wf_create _ _⟩⟩

/-! ## dbscan.c: the expansion loop as a transition system -/

theorem swap_cells_get_left {α : Type} (l : List α) (i j : Nat) (hi : i < l.length)
    (hj : j < l.length) : (swap_cells l i j)[i]? = l[j]? := by
  unfold swap_cells
  rw [List.get?_eq_getElem?, List.get?_eq_getElem?, List.getElem?_eq_getElem hi,
    List.getElem?_eq_getElem hj]
  simp only
  by_cases hij : i = j
  · subst hij
    simp [List.getElem?_set, hi]
  · simp [List.getElem?_set, hi, hij, Ne.symm hij]

theorem swap_cells_get_right {α : Type} (l : List α) (i j : Nat) (hi : i < l.length)
    (hj : j < l.length) : (swap_cells l i j)[j]? = l[i]? := by
  unfold swap_cells
  rw [List.get?_eq_getElem?, List.get?_eq_getElem?, List.getElem?_eq_getElem hi,
    List.getElem?_eq_getElem hj]
  simp only
  simp [List.getElem?_set, hj]

theorem mem_slab {α : Type} (l : List α) (p r1 : Nat) (a : α) :
    a ∈ slab l p r1 ↔ ∃ k, p ≤ k ∧ k < r1 ∧ l[k]? = some a := by
  unfold slab
  rw [List.mem_iff_getElem?]
  constructor
  · rintro ⟨n, hn⟩
    rw [List.getElem?_take] at hn
    split at hn
    · rename_i hlt
      rw [List.getElem?_drop] at hn
      exact ⟨p + n, by omega, by omega, hn⟩
    · cases hn
  · rintro ⟨k, h1, h2, h3⟩
    refine ⟨k - p, ?_⟩
    rw [List.getElem?_take, if_pos (by omega), List.getElem?_drop]
    have : p + (k - p) = k := by omega
    rw [this]
    exact h3

theorem slab_length {α : Type} (l : List α) (p r1 : Nat) (h : r1 ≤ l.length) :
    (slab l p r1).length = r1 - p := by
  unfold slab
  rw [List.length_take, List.length_drop]
  omega

theorem partition_fold_ord {α : Type} (pt : α → point_t) (x : α) (xd p r len : Nat)
    (n : Nat) :
    ∀ (s : Nat) (st : Nat × List α), p ≤ s → s + n ≤ r → r < len →
      part_inv pt x xd p r len s st →
      part_inv pt x xd p r len (s + n) ((List.range' s n).foldl
        (fun (st : Nat × List α) j =>
          match st.2.get? j with
          | some pj =>
            if (pt pj).dim xd ≤ (pt x).dim xd then (st.1 + 1, swap_cells st.2 st.1 j) else st
          | none => st) st) := by
  induction n with
  | zero => intro s st _ _ _ h; exact h
  | succ n ih =>
    intro s st hps hsr hr h
    simp only [List.range', List.foldl_cons]
    have e : s + 1 + n = s + (n + 1) := by omega
    rw [← e]
    obtain ⟨h1, h2, h3, h4, h5, h6⟩ := h
    have hs : s < st.2.length := by omega
    have hget : st.2.get? s = some st.2[s] := by
      rw [List.get?_eq_getElem?]; exact List.getElem?_eq_getElem hs
    rw [hget]
    simp only
    by_cases hc : (pt st.2[s]).dim xd ≤ (pt x).dim xd
    · rw [if_pos hc]
      refine ih (s + 1) _ (by omega) (by omega) hr ⟨?_, ?_, ?_, ?_, ?_, ?_⟩
      · show p ≤ st.1 + 1
        omega
      · show st.1 + 1 ≤ s + 1
        omega
      · show (swap_cells st.2 st.1 s).length = len
        rw [swap_cells_length]; exact h3
      · show (swap_cells st.2 st.1 s)[r]? = some x
        rw [swap_cells_getElem? _ _ _ _ (by omega) (by omega)]
        exact h4
      · intro k a hk1 hk2 hka
        have hk2' : k < st.1 + 1 := hk2
        have hka' : (swap_cells st.2 st.1 s)[k]? = some a := hka
        by_cases hki : k = st.1
        · subst hki
          rw [swap_cells_get_left _ _ _ (by omega) hs, List.getElem?_eq_getElem hs] at hka'
          cases hka'
          exact hc
        · rw [swap_cells_getElem? _ _ _ _ hki (by omega)] at hka'
          exact h5 k a hk1 (by omega) hka'
      · intro k a hk1 hk2 hka
        have hk1' : st.1 + 1 ≤ k := hk1
        have hka' : (swap_cells st.2 st.1 s)[k]? = some a := hka
        by_cases hks : k = s
        · subst hks
          rw [swap_cells_get_right _ _ _ (by omega) hs] at hka'
          exact h6 st.1 a (le_refl _) (by omega) hka'
        · rw [swap_cells_getElem? _ _ _ _ (by omega) hks] at hka'
          exact h6 k a (by omega) (by omega) hka'
    · rw [if_neg hc]
      refine ih (s + 1) _ (by omega) (by omega) hr ⟨h1, by omega, h3, h4, h5, ?_⟩
      intro k a hk1 hk2 hka
      by_cases hks : k = s
      · subst hks
        rw [List.getElem?_eq_getElem hs] at hka
        cases hka
        exact lt_of_not_le hc
      · exact h6 k a hk1 (by omega) hka

/-- `partition_points` puts the pivot `points[r]` at the index it returns, the
coordinates up to the pivot's before it and the greater ones after it. -/
theorem partition_points_ord {α : Type} (pt : α → point_t) (points : List α)
    (xd p r : Nat) (hpr : p ≤ r) (x : α) (hx : points[r]? = some x) :
    (partition_points pt points xd p r).2[(partition_points pt points xd p r).1]? = some x ∧
    (∀ a ∈ slab (partition_points pt points xd p r).2 p (partition_points pt points xd p r).1,
      (pt a).dim xd ≤ (pt x).dim xd) ∧
    (∀ a ∈ slab (partition_points pt points xd p r).2
        ((partition_points pt points xd p r).1 + 1) (r + 1),
      (pt x).dim xd < (pt a).dim xd) := by
  have hr : r < points.length := (List.getElem?_eq_some_iff.1 hx).1
  unfold partition_points
  rw [List.get?_eq_getElem?, hx]
  simp only
  have h := partition_fold_ord pt x xd p r points.length (r - p) p (p, points) (le_refl _)
    (by omega) hr ⟨le_refl _, le_refl _, rfl, hx, by intro k a h1 h2; exact absurd h2 (by
      show ¬ k < p
      omega), by intro k a h1 h2; exact absurd h2 (by
      show ¬ k < p
      have : p ≤ k := h1
      omega)⟩
  have hb : p + (r - p) = r := by omega
  rw [hb] at h
  have key : ∀ st : Nat × List α, part_inv pt x xd p r points.length r st →
      (swap_cells st.2 st.1 r)[st.1]? = some x ∧
      (∀ a ∈ slab (swap_cells st.2 st.1 r) p st.1, (pt a).dim xd ≤ (pt x).dim xd) ∧
      (∀ a ∈ slab (swap_cells st.2 st.1 r) (st.1 + 1) (r + 1),
        (pt x).dim xd < (pt a).dim xd) := by
    intro st h
    obtain ⟨i, l⟩ := st
    obtain ⟨h1, h2, h3, h4, h5, h6⟩ := h
    simp only at h1 h2 h3 h4 h5 h6 ⊢
    refine ⟨?_, ?_, ?_⟩
    · rw [swap_cells_get_left _ _ _ (by omega) (by omega)]
      exact h4
    · intro a ha
      rw [mem_slab] at ha
      obtain ⟨k, k1, k2, k3⟩ := ha
      rw [swap_cells_getElem? _ _ _ _ (by omega) (by omega)] at k3
      exact h5 k a k1 k2 k3
    · intro a ha
      rw [mem_slab] at ha
      obtain ⟨k, k1, k2, k3⟩ := ha
      by_cases hkr : k = r
      · subst hkr
        rw [swap_cells_get_right _ _ _ (by omega) (by omega)] at k3
        exact h6 i a (le_refl _) (by omega) k3
      · rw [swap_cells_getElem? _ _ _ _ (by omega) hkr] at k3
        exact h6 k a (by omega) (by omega) k3

  exact key _ h

/-- `select_point` returns the index `p + i - 1`, and the cell there is an `i`-th
smallest of the slab on the axis `xd`: nothing before it in the slab is greater, nothing
after it is smaller. -/
theorem select_point_ord {α : Type} (pt : α → point_t) (xd : Nat) (fuel : Nat) :
    ∀ (points : List α) (p r i : Nat), p ≤ r → r < points.length → r - p + 1 ≤ fuel →
      1 ≤ i → i ≤ r - p + 1 →
      (select_point pt xd fuel points p r i).1 = p + i - 1 ∧
      ∃ pm, (select_point pt xd fuel points p r i).2[(select_point pt xd fuel points p r i).1]?
          = some pm ∧
        (∀ a ∈ slab (select_point pt xd fuel points p r i).2 p
            (select_point pt xd fuel points p r i).1, (pt a).dim xd ≤ (pt pm).dim xd) ∧
        (∀ a ∈ slab (select_point pt xd fuel points p r i).2
            ((select_point pt xd fuel points p r i).1 + 1) (r + 1),
          (pt pm).dim xd ≤ (pt a).dim xd) := by
  induction fuel with
  | zero => intro points p r i _ _ hf _ _; omega
  | succ fuel ih =>
    intro points p r i hpr hr hf hi1 hi2
    unfold select_point
    split
    · rename_i h
      subst h
      refine ⟨by omega, points[p], List.getElem?_eq_getElem hr, ?_, ?_⟩
      · intro a ha
        rw [mem_slab] at ha
        obtain ⟨k, k1, k2, _⟩ := ha
        omega
      · intro a ha
        rw [mem_slab] at ha
        obtain ⟨k, k1, k2, _⟩ := ha
        omega
    · rename_i hne
      obtain ⟨a, b, c⟩ := partition_points_framed pt points xd p r hpr
      obtain ⟨o1, o2, o3⟩ := partition_points_ord pt points xd p r hpr points[r]
        (List.getElem?_eq_getElem hr)
      generalize points[r] = x at o1 o2 o3
      generalize partition_points pt points xd p r = res at a b c o1 o2 o3
      obtain ⟨q, points1⟩ := res
      simp only at a b c o1 o2 o3 ⊢
      have hlen1 : points1.length = points.length := c.1.length_eq
      split
      · rename_i hik
        exact ⟨by omega, x, o1, o2, fun a ha => le_of_lt (o3 a ha)⟩
      · split
        · rename_i h1 h2
          have hq : p < q := by omega
          obtain ⟨e1, pm, e2, e3, e4⟩ := ih points1 p (q - 1) i (by omega) (by omega)
            (by omega) hi1 (by omega)
          obtain ⟨_, _, z⟩ := select_point_framed pt xd fuel points1 p (q - 1) i (by omega)
            (by omega) hi1 (by omega)
          generalize select_point pt xd fuel points1 p (q - 1) i = res2 at e1 e2 e3 e4 z
          obtain ⟨m, points2⟩ := res2
          simp only at e1 e2 e3 e4 z ⊢
          have hq1 : q - 1 + 1 = q := by omega
          rw [hq1] at e4 z
          have hpm : (pt pm).dim xd ≤ (pt x).dim xd := by
            have h3 : pm ∈ slab points2 p q := (mem_slab _ _ _ _).2 ⟨m, by omega, by omega, e2⟩
            exact o2 pm ((framed_slab z (by omega)).mem_iff.1 h3)
          refine ⟨e1, pm, e2, e3, ?_⟩
          intro a ha
          rw [mem_slab] at ha
          obtain ⟨k, k1, k2, k3⟩ := ha
          by_cases hkq : k < q
          · exact e4 a ((mem_slab _ _ _ _).2 ⟨k, k1, hkq, k3⟩)
          · rw [z.2 k (Or.inr (by omega))] at k3
            by_cases hkq2 : k = q
            · subst hkq2
              rw [o1] at k3
              cases k3
              exact hpm
            · exact le_trans hpm (le_of_lt (o3 a ((mem_slab _ _ _ _).2
                ⟨k, by omega, k2, k3⟩)))
        · rename_i h1 h2
          obtain ⟨e1, pm, e2, e3, e4⟩ := ih points1 (q + 1) r (i - (q - p + 1)) (by omega)
            (by omega) (by omega) (by omega) (by omega)
          obtain ⟨_, _, z⟩ := select_point_framed pt xd fuel points1 (q + 1) r
            (i - (q - p + 1)) (by omega) (by omega) (by omega) (by omega)
          generalize select_point pt xd fuel points1 (q + 1) r (i - (q - p + 1)) = res2
            at e1 e2 e3 e4 z
          obtain ⟨m, points2⟩ := res2
          simp only at e1 e2 e3 e4 z ⊢
          have hpm : (pt x).dim xd < (pt pm).dim xd := by
            have h3 : pm ∈ slab points2 (q + 1) (r + 1) :=
              (mem_slab _ _ _ _).2 ⟨m, by omega, by omega, e2⟩
            exact o3 pm ((framed_slab z (by omega)).mem_iff.1 h3)
          refine ⟨by omega, pm, e2, ?_, e4⟩
          intro a ha
          rw [mem_slab] at ha
          obtain ⟨k, k1, k2, k3⟩ := ha
          by_cases hkq : q < k
          · exact e3 a ((mem_slab _ _ _ _).2 ⟨k, by omega, k2, k3⟩)
          · rw [z.2 k (Or.inl (by omega))] at k3
            by_cases hkq2 : k = q
            · subst hkq2
              rw [o1] at k3
              cases k3
              exact le_of_lt hpm
            · exact le_trans (o2 a ((mem_slab _ _ _ _).2 ⟨k, k1, by omega, k3⟩))
                (le_of_lt hpm)

/-- `build_kdtree` on the axis `xd` builds a balanced subtree with medians. -/
theorem build_kdtree_balanced {α : Type} (pt : α → point_t) (fuel : Nat) :
    ∀ (points : List α) (xd p r1 : Nat), r1 ≤ points.length → r1 - p ≤ fuel →
      balanced pt xd (build_kdtree pt fuel points xd p r1).1 := by
  induction fuel with
  | zero =>
    intro points xd p r1 _ hf
    simp [build_kdtree, balanced]
  | succ fuel ih =>
    intro points xd p r1 hlen hf
    have hfr := build_kdtree_framed pt (fuel + 1) points xd p r1 hlen hf
    unfold build_kdtree at hfr ⊢
    split
    · simp [balanced]
    · rename_i hlt
      have hpr : p < r1 := by omega
      rw [if_neg hlt] at hfr
      obtain ⟨a, b, c⟩ := median_point_framed pt points xd p (r1 - 1) (by omega)
      have hdiv : (r1 - 1 - p) / 2 ≤ r1 - 1 - p := Nat.div_le_self _ _
      obtain ⟨o1, pm, o2, o3, o4⟩ := select_point_ord pt xd (r1 - 1 - p + 1) points p (r1 - 1)
        ((r1 - 1 - p) / 2 + 1) (by omega) (by omega) (le_refl _) (by omega) (by omega)
      have hmed : median_point pt points xd p (r1 - 1)
          = select_point pt xd (r1 - 1 - p + 1) points p (r1 - 1) ((r1 - 1 - p) / 2 + 1) := rfl
      rw [← hmed] at o1 o2 o3 o4
      generalize median_point pt points xd p (r1 - 1) = res at a b c o1 o2 o3 o4 hfr ⊢
      obtain ⟨m, points1⟩ := res
      simp only at a b c o1 o2 o3 o4 hfr ⊢
      have hr1 : r1 - 1 + 1 = r1 := by omega
      rw [hr1] at c o4
      have hlen1 : points1.length = points.length := c.1.length_eq
      have hm : m < points1.length := by omega
      have hget : points1.get? m = some pm := by
        rw [List.get?_eq_getElem?]; exact o2
      rw [hget] at hfr ⊢
      simp only at hfr ⊢
      have bl := ih points1 (lnot xd) p m (by omega) (by omega)
      obtain ⟨l1, l2⟩ := build_kdtree_framed pt fuel points1 (lnot xd) p m (by omega) (by omega)
      generalize build_kdtree pt fuel points1 (lnot xd) p m = resl at bl l1 l2 hfr ⊢
      obtain ⟨left, points2⟩ := resl
      simp only at bl l1 l2 hfr ⊢
      have hlen2 : points2.length = points1.length := l1.1.length_eq
      have br := ih points2 (lnot xd) (m + 1) r1 (by omega) (by omega)
      obtain ⟨r1', r2'⟩ := build_kdtree_framed pt fuel points2 (lnot xd) (m + 1) r1 (by omega)
        (by omega)
      generalize build_kdtree pt fuel points2 (lnot xd) (m + 1) r1 = resr at br r1' r2' hfr ⊢
      obtain ⟨right, points3⟩ := resr
      simp only at br r1' r2' hfr ⊢
      have hp2 : (slab points2 (m + 1) r1) = (slab points1 (m + 1) r1) := by
        unfold slab
        apply List.ext_getElem?
        intro k
        simp only [List.getElem?_take, List.getElem?_drop]
        split
        · exact l1.2 _ (Or.inr (by omega))
        · rfl
      have hll : (kd_points left).length = m - p := by
        rw [l2.length_eq, slab_length _ _ _ (by omega)]
      have hrl : (kd_points right).length = r1 - (m + 1) := by
        rw [r2'.length_eq, slab_length _ _ _ (by omega)]
      unfold balanced
      simp only [kd_points, List.length_cons, List.length_append]
      rw [hll, hrl]
      refine ⟨?_, ?_, ?_, ?_, bl, br⟩
      · have e : m - p + (r1 - (m + 1)) + 1 - 1 = r1 - 1 - p := by omega
        rw [e]
        omega
      · have e : m - p + (r1 - (m + 1)) + 1 - 1 = r1 - 1 - p := by omega
        rw [e]
        omega
      · intro x hx
        exact o3 x (l2.mem_iff.1 hx)
      · intro x hx
        have := r2'.mem_iff.1 hx
        rw [hp2] at this
        exact o4 x this

/-- C29 (balance). In every tree built by `kdtree_create_static`, every node whose
subtree holds `m` points has a left subtree of `⌊(m - 1) / 2⌋` points and a right subtree
of `⌈(m - 1) / 2⌉` points, and on the node's split axis, `y` at the root and alternating
with the depth, every coordinate of the left subtree is at most the node's and every
coordinate of the right subtree is at least the node's. -/
theorem C29_tree_is_balanced_at_medians {α : Type} (pt : α → point_t) (hash : point_t → Nat)
    (rnd : Nat → Nat) (points : List α) (tree : kdtree_t α)
    (h : kdtree_create_static pt hash rnd points = some tree) :
    balanced pt 1 tree.root := by
  unfold kdtree_create_static at h
  simp only at h
  split at h
  · cases h
  · rename_i p0 rest hl
    cases h
    exact build_kdtree_balanced pt _ _ 1 0 _ (le_refl _) (by omega)

theorem C29_tree_is_balanced_at_medians_witness :
    kdtree_create_static id (fun _ => 0) (fun k => k * 7 + 3)
        [(⟨3, 1⟩ : point_t), ⟨1, 4⟩, ⟨4, 2⟩, ⟨2, 5⟩, ⟨5, 3⟩, ⟨0, 0⟩]
      = some
        { root := kdnode_t.node ⟨4, 2⟩
            (kdnode_t.node ⟨0, 0⟩ kdnode_t.nil (kdnode_t.node ⟨3, 1⟩ kdnode_t.nil kdnode_t.nil))
            (kdnode_t.node ⟨2, 5⟩ (kdnode_t.node ⟨1, 4⟩ kdnode_t.nil kdnode_t.nil)
              (kdnode_t.node ⟨5, 3⟩ kdnode_t.nil kdnode_t.nil)),
          rect := ⟨⟨0, 5⟩, ⟨0, 5⟩⟩, size := 6 } ∧
    balanced id 1
      (kdnode_t.node (⟨4, 2⟩ : point_t)
        (kdnode_t.node ⟨0, 0⟩ kdnode_t.nil (kdnode_t.node ⟨3, 1⟩ kdnode_t.nil kdnode_t.nil))
        (kdnode_t.node ⟨2, 5⟩ (kdnode_t.node ⟨1, 4⟩ kdnode_t.nil kdnode_t.nil)
          (kdnode_t.node ⟨5, 3⟩ kdnode_t.nil kdnode_t.nil))) :=
  ⟨by decide!,
    C29_tree_is_balanced_at_medians id (fun _ => 0) (fun k => k * 7 + 3)
      [(⟨3, 1⟩ : point_t), ⟨1, 4⟩, ⟨4, 2⟩, ⟨2, 5⟩, ⟨5, 3⟩, ⟨0, 0⟩]
      { root := kdnode_t.node ⟨4, 2⟩
          (kdnode_t.node ⟨0, 0⟩ kdnode_t.nil (kdnode_t.node ⟨3, 1⟩ kdnode_t.nil kdnode_t.nil))
          (kdnode_t.node ⟨2, 5⟩ (kdnode_t.node ⟨1, 4⟩ kdnode_t.nil kdnode_t.nil)
            (kdnode_t.node ⟨5, 3⟩ kdnode_t.nil kdnode_t.nil)),
        rect := ⟨⟨0, 5⟩, ⟨0, 5⟩⟩, size := 6 }
      (by decide!)⟩

/-! ## The order of the pops -/

/-- The `hashset_pop` of the model of `dbscan_cluster` is `hashset_pop_run` with the read
through `NULL` taken for the return of `-1`. -/
theorem hashset_pop_of_run {κ : Type} (set : hashset_t κ) :
    hashset_pop set =
      match hashset_pop_run set with
      | pop_t.popped x s => some (x, s)
      | _ => none := by
  unfold hashset_pop hashset_pop_run
  cases set.non_null with
  | none => rfl
  | some b =>
    simp only
    cases (set.slotlists b).list with
    | nil => rfl
    | cons item rest => rfl

/-- On a well-formed set, which is what `hashset_create`, `hashset_add`, `hashset_pop` and
`hashset_remove_all` give, `hashset_pop` returns `-1` when the set is empty, and else
returns `0`, copies out the first item of the list of the set and leaves the others, one
item fewer. -/
theorem hashset_pop_run_ok {κ : Type} {set : hashset_t κ} (h : hs_ok set) :
    (hashset_to_list set = [] ∧ hashset_pop_run set = pop_t.empty) ∨
    (∃ k rest set', hashset_to_list set = k :: rest ∧
      hashset_pop_run set = pop_t.popped k set' ∧ hs_ok set' ∧
      hashset_to_list set' = rest ∧ hashset_size set' + 1 = hashset_size set) := by
  have hrun := hashset_pop_of_run set
  rcases hs_pop_spec h with ⟨h1, h2⟩ | ⟨k, rest, set', h1, h2, h3, h4, _⟩
  · left
    refine ⟨h1, ?_⟩
    obtain ⟨chain, hw⟩ := h
    have hc : chain = [] := by
      cases chain with
      | nil => rfl
      | cons hd tl =>
        exfalso
        have hl := hs_wf_to_list hw
        rw [h1, List.flatMap_cons] at hl
        have hne := hw.nonempty hd (List.mem_cons_self _ _)
        have := congrArg List.length hl
        simp only [List.length_nil, List.length_append] at this
        exact hne (List.length_eq_zero.1 (by omega))
    have hnn : set.non_null = none := by rw [hw.head, hc]; rfl
    unfold hashset_pop_run
    rw [hnn]
  · right
    refine ⟨k, rest, set', h1, ?_, h3, h4, ?_⟩
    · rw [h2] at hrun
      cases hr : hashset_pop_run set with
      | empty => rw [hr] at hrun; cases hrun
      | fault => rw [hr] at hrun; cases hrun
      | popped x s =>
        rw [hr] at hrun
        simp only [Option.some.injEq, Prod.mk.injEq] at hrun
        rw [hrun.1, hrun.2]
    · have e1 := hs_size_eq h3
      have e2 := hs_size_eq h
      unfold hashset_size at e1 e2 ⊢
      rw [e1, e2, h1, h4]
      rfl

/-- C33 (pop on every reachable state) fails on the code. `hashset_remove` unlinks an
emptied bucket from the chain and leaves the bucket's own `pre` and `next` as they are
(`hashset_pop` and `hashset_remove_all` set them to `NULL`). With the items `0` and `1`
in two buckets: after add 0, add 1, remove 1, remove 0, add 1 the bucket of `1` is the
head of the chain again and its stale `next` is the empty bucket of `0`; the first pop
returns `1` and makes that empty bucket the head, and the next pop, on a set of size 0,
does not return `-1` but reads the first slot of a bucket that has none. After add 0,
add 1, remove 0, add 0 the bucket of `0` is the head with the stale `pre`; the first pop
returns `0` and, led by `pre`, leaves `non_null` at the emptied bucket, and the next pop,
on a set of size 1 that holds `1`, reads through `NULL` too. Every call before returns
`0`. -/
theorem C33_pop_reads_null_after_remove :
    hs_calls (hashset_create 0 (fun x : Nat => x))
        [hs_call.add 0, hs_call.add 1, hs_call.remove 1, hs_call.remove 0, hs_call.add 1,
          hs_call.size, hs_call.pop, hs_call.size, hs_call.pop]
      = [hs_ret.ret 0, hs_ret.ret 0, hs_ret.ret 0, hs_ret.ret 0, hs_ret.ret 0,
          hs_ret.ret 1, hs_ret.item 1, hs_ret.ret 0, hs_ret.fault] ∧
    hs_calls (hashset_create 0 (fun x : Nat => x))
        [hs_call.add 0, hs_call.add 1, hs_call.remove 0, hs_call.add 0,
          hs_call.size, hs_call.pop, hs_call.size, hs_call.contains 1, hs_call.pop]
      = [hs_ret.ret 0, hs_ret.ret 0, hs_ret.ret 0, hs_ret.ret 0,
          hs_ret.ret 2, hs_ret.item 0, hs_ret.ret 1, hs_ret.ret 1, hs_ret.fault] := by
  refine ⟨by decide!, by decide!⟩

/-- C31 (empty input). With zero points, whatever `eps` and `min_pts` are, there is no
point-set, `kdtree_create_static` returns `NULL`, and `dbscan_cluster` returns `-1`, not
the count 0. -/
theorem C31_empty_input_returns_minus_one (env : env_t) (eps : ℚ) (min_pts : Nat) :
    convert_points env.libc [] = [] ∧
    kdtree_create_static (rep_point (convert_points env.libc [])) env.point_hash env.rnd
      (List.range (convert_points env.libc []).length) = none ∧
    dbscan_cluster env [] eps min_pts = some (-1, []) := by
  have hq : env.libc.qsort (cmp_point []) [] = [] :=
    List.Perm.eq_nil (env.libc.qsort_perm (cmp_point []) [])
  have hc : convert_points env.libc [] = [] := by
    unfold convert_points
    simp [hq]
  refine ⟨hc, ?_, dbscan_cluster_nil env eps min_pts⟩
  rw [hc]
  rfl

/-! ## The chain in double arithmetic -/

theorem log2_fuel_le : ∀ (fuel n : Nat), 0 < n → n ≤ fuel → 2 ^ log2_fuel fuel n ≤ n := by
  intro fuel
  induction fuel with
  | zero => intro n h1 h2; omega
  | succ fuel ih =>
    intro n h1 h2
    unfold log2_fuel
    by_cases h : n < 2
    · rw [if_pos h]
      simpa using h1
    · rw [if_neg h]
      have := ih (n / 2) (by omega) (by omega)
      rw [pow_succ]
      omega

theorem ilog2_le (n : Nat) (h : 0 < n) : 2 ^ ilog2 n ≤ n :=
  log2_fuel_le n n h (le_refl n)

theorem round_even_one (a : Nat) : round_even a 1 = a := by
  unfold round_even
  simp [Nat.mod_one]

/-- An integer below `2 ^ 53` in absolute value is a double. -/
theorem fl_int (z : Int) (hz : z.natAbs < 2 ^ 53) : fl (z : ℚ) = (z : ℚ) := by
  unfold fl
  by_cases h0 : (z : ℚ) = 0
  · rw [if_pos h0, h0]
  rw [if_neg h0]
  have hz0 : z ≠ 0 := by
    intro h
    apply h0
    rw [h]
    rfl
  have ha : 0 < z.natAbs := Int.natAbs_pos.2 hz0
  rw [Rat.num_intCast, Rat.den_intCast]
  have hl := ilog2_le z.natAbs ha
  have hl1 : ilog2 1 = 0 := rfl
  have hlt : ilog2 z.natAbs < 53 := by
    by_contra hc
    have : 2 ^ 53 ≤ 2 ^ ilog2 z.natAbs := Nat.pow_le_pow_right (by decide) (not_lt.1 hc)
    omega
  have he : fl_exp z.natAbs 1 = (ilog2 z.natAbs : Int) - 52 := by
    unfold fl_exp
    rw [hl1, if_pos (by simpa using hl)]
    simp
  have hsig : ∀ k : Nat, (((z.natAbs * 2 ^ k : Nat) : ℚ)) * (1 / ((2 ^ k : Nat) : ℚ))
      = (z.natAbs : ℚ) := by
    intro k
    push_cast
    field_simp
  have habs : (if (z : ℚ) < 0 then (-1 : ℚ) else 1) * (z.natAbs : ℚ) = (z : ℚ) := by
    by_cases hneg : z < 0
    · have : (z : ℚ) < 0 := by exact_mod_cast hneg
      rw [if_pos this]
      have e : (z.natAbs : Int) = -z := by omega
      have e2 : (z.natAbs : ℚ) = ((-z : Int) : ℚ) := by
        rw [← e]
        exact (Int.cast_natCast _).symm
      rw [e2]
      push_cast
      ring
    · have : ¬ (z : ℚ) < 0 := by
        intro h
        apply hneg
        exact_mod_cast h
      rw [if_neg this]
      have e : (z.natAbs : Int) = z := by omega
      have e2 : (z.natAbs : ℚ) = ((z : Int) : ℚ) := by
        nth_rewrite 2 [← e]
        exact (Int.cast_natCast _).symm
      rw [e2]
      ring
  unfold fl_sig
  rw [he]
  by_cases hpos : (0 : Int) ≤ (ilog2 z.natAbs : Int) - 52
  · rw [if_pos hpos, if_pos hpos]
    have e52 : ((ilog2 z.natAbs : Int) - 52).toNat = 0 := by omega
    rw [e52]
    simp only [pow_zero, mul_one, round_even_one, Nat.cast_one]
    exact habs
  · rw [if_neg hpos, if_neg hpos, round_even_one, mul_assoc, hsig]
    exact habs

theorem fl_nat (m : Nat) (hm : m < 2 ^ 53) : fl (m : ℚ) = (m : ℚ) := by
  have := fl_int (m : Int) (by simpa using hm)
  simpa using this

/-- On points with coordinates `(m, 0)`, `m` a natural number below `2 ^ 26`, no
operation of `point_dist` rounds. -/
theorem point_dist_fl_nat (a b : Nat) (ha : a < 2 ^ 26) (hb : b < 2 ^ 26) :
    point_dist_fl ⟨(a : ℚ), 0⟩ ⟨(b : ℚ), 0⟩ = point_dist ⟨(a : ℚ), 0⟩ ⟨(b : ℚ), 0⟩ := by
  unfold point_dist_fl point_dist
  simp only
  have h1 : fl ((a : ℚ) - (b : ℚ)) = (a : ℚ) - (b : ℚ) := by
    have := fl_int ((a : Int) - (b : Int)) (by omega)
    push_cast at this
    exact this
  have hsq : ((a : Int) - (b : Int)).natAbs ^ 2 < 2 ^ 52 := by
    have : ((a : Int) - (b : Int)).natAbs < 2 ^ 26 := by omega
    calc ((a : Int) - (b : Int)).natAbs ^ 2 < (2 ^ 26) ^ 2 :=
          Nat.pow_lt_pow_left this (by decide)
      _ = 2 ^ 52 := by norm_num
  have h2 : fl (((a : ℚ) - (b : ℚ)) ^ 2) = ((a : ℚ) - (b : ℚ)) ^ 2 := by
    have := fl_int (((a : Int) - (b : Int)) ^ 2) (by
      rw [Int.natAbs_pow]
      omega)
    push_cast at this
    exact this
  have h0 : fl ((0 : ℚ) - 0) = 0 := by
    unfold fl
    simp
  have h00 : fl ((0 : ℚ) ^ 2) = 0 := by
    unfold fl
    simp
  rw [h1, h2, h0, h00, add_zero, sub_self]
  rw [h2]
  simp

/-- A chain with a natural spacing and a natural `eps`, all below `2 ^ 26`, is a chain
on which no double operation rounds. -/
theorem chain_exact_of_nat (n D E : Nat) (hD : n * D < 2 ^ 26) (hE : E < 2 ^ 26) :
    chain_exact n (D : ℚ) (E : ℚ) := by
  have hx : ∀ c ∈ chain_points n (D : ℚ), ∃ m : Nat, m < 2 ^ 26 ∧ c.point = ⟨(m : ℚ), 0⟩ := by
    intro c hc
    unfold chain_points at hc
    obtain ⟨i, hi, rfl⟩ := List.mem_map.1 hc
    have hi := List.mem_range.1 hi
    refine ⟨i * D, ?_, ?_⟩
    · calc i * D ≤ n * D := Nat.mul_le_mul_right D (le_of_lt hi)
        _ < 2 ^ 26 := hD
    · simp [cpoint_init]
  refine ⟨fl_nat E (by omega), ?_, ?_, ?_⟩
  · have hE2 : E * E < 2 ^ 53 := by
      calc E * E ≤ 2 ^ 26 * 2 ^ 26 := Nat.mul_le_mul (le_of_lt hE) (le_of_lt hE)
        _ < 2 ^ 53 := by norm_num
    have := fl_nat (E * E) hE2
    push_cast at this
    exact this
  · intro c hc
    obtain ⟨m, hm, e⟩ := hx c hc
    rw [e]
    exact fl_nat m (by omega)
  · intro a ha b hb
    obtain ⟨m, hm, e⟩ := hx a ha
    obtain ⟨k, hk, e2⟩ := hx b hb
    rw [e, e2]
    exact point_dist_fl_nat m k hm hk

end DBSCAN
